import Mathlib

/-!
# Software floating point of pcc: the BigInt layer and the format codecs

A shallow embedding of `common/softfloat.c`.  A `MINT` is a pointer to an
array of 16-bit limbs together with a used length and a sign flag.  The
limb array is modelled as a total map from cell index to cell content:
cells at and above `len` hold whatever earlier operations left there, and
the cell at index `-1` is the memory just below the array, which `mshl`
and `topbit` touch when they are handed a `MINT` of length zero.  The
capacity field `allo` and `mexpand` are not modelled: the array is taken
to be large enough, so that growing never moves it.
-/

namespace Softfloat

/-- Multi-precision integer: sign flag, used length, limb cells. -/
structure MINT where
  sign : Nat
  len : Nat
  val : Int → Nat

/-- Modelled from the spec: the `MINTDECL` macro of the missing header
`softfloat.h`, which declares a stack `MINT` with an inline buffer.  The C
buffer starts with indeterminate contents, taken as zero here; the BigInt
routines write a cell of such a local before reading it, except the cell below
the buffer that `mshl` and `topbit` read when the length is zero. -/
def MINTDECL : MINT := ⟨0, 0, fun _ => 0⟩

/-- Store into a `uint16_t` cell. -/
def MINT.put (a : MINT) (i : Int) (x : Nat) : MINT :=
  { a with val := Function.update a.val i (x % 65536) }

/-- Magnitude held in the cells `0 .. n-1`, least significant first. -/
def limbsVal (v : Int → Nat) : Nat → Nat
  | 0 => 0
  | n + 1 => limbsVal v n + v n * 65536 ^ n

/-- Magnitude of a `MINT`, read from its `len` limbs. -/
def value (m : MINT) : Nat := limbsVal m.val m.len

/-- Every cell holds a 16-bit quantity. -/
def Limbs16 (m : MINT) : Prop := ∀ i : Int, m.val i < 65536

/-- Canonical magnitude: no zero top limb. -/
def Canon (m : MINT) : Prop := m.len = 0 ∨ m.val ((m.len : Int) - 1) ≠ 0

/-- The macro `MINTZ`. -/
def MINTZ (x : MINT) : Bool := x.len = 0 || (x.len = 1 && x.val 0 = 0)

/-- The routine `minit`. -/
def minit (m : MINT) (v : Nat) : MINT :=
  { sign := 0, len := 1, val := Function.update m.val 0 (v % 65536) }

/-- Loop of `chomp`: drop zero limbs from the top. -/
def chompLen (v : Int → Nat) : Nat → Nat
  | 0 => 0
  | n + 1 => if v n = 0 then chompLen v n else n + 1

/-- The routine `chomp`. -/
def chomp (a : MINT) : MINT := { a with len := chompLen a.val a.len }

/-- Loop of `neg2com`: `k` iterations left, at index `i`, carry `sum`. -/
def neg2comLoop : Nat → Nat → Nat → (Int → Nat) → (Int → Nat)
  | 0, _, _, v => v
  | k + 1, i, sum, v =>
    let x := 65535 - v i % 65536
    let s := (x + sum) % 4294967296
    neg2comLoop k (i + 1) (s >>> 16) (Function.update v i (s % 65536))

/-- The routine `neg2com`: two-complement negation over `len` limbs. -/
def neg2com (a : MINT) : MINT := { a with val := neg2comLoop a.len 0 1 a.val }

/-- Inner loop of `mshl`, for `i` from `n` down to `1`. -/
def mshlLoop (v : Int → Nat) : Nat → (Int → Nat)
  | 0 => v
  | i + 1 =>
    mshlLoop (Function.update v (i + 1 : Nat)
      (((v (i + 1 : Nat) <<< 1) ||| (v i >>> 15)) % 65536)) i

/-- One round of the outer loop of `mshl`. -/
def mshl1 (a : MINT) : MINT :=
  let a1 : MINT :=
    if a.val ((a.len : Int) - 1) &&& 0x8000 ≠ 0 then
      { a with val := Function.update a.val a.len 0, len := a.len + 1 }
    else a
  let v := mshlLoop a1.val (a1.len - 1)
  let i : Int := if a1.len = 0 then -1 else 0
  { a1 with val := Function.update v i ((v i <<< 1) % 65536) }

/-- The routine `mshl`. -/
def mshl (a : MINT) : Nat → MINT
  | 0 => a
  | n + 1 => mshl (mshl1 a) n

/-- Inner loop of `mshr`: `k` iterations left, at index `i`. -/
def mshrLoop : Nat → Nat → (Int → Nat) → (Int → Nat)
  | 0, _, v => v
  | k + 1, i, v =>
    mshrLoop k (i + 1) (Function.update v i
      (((v i >>> 1) ||| (v (i + 1 : Nat) <<< 15)) % 65536))

/-- One round of the outer loop of `mshr`. -/
def mshr1 (a : MINT) (sticky : Bool) : MINT :=
  let k := a.val 0 &&& 1
  let v := mshrLoop (a.len - 1) 0 a.val
  let i : Int := ((a.len - 1 : Nat) : Int)
  let v1 := Function.update v i (v i >>> 1)
  let v2 := if sticky then Function.update v1 0 (v1 0 ||| k) else v1
  { a with val := v2 }

/-- Outer loop of `mshr`. -/
def mshrRounds (a : MINT) (sticky : Bool) : Nat → MINT
  | 0 => a
  | n + 1 => mshrRounds (mshr1 a sticky) sticky n

/-- The routine `mshr`. -/
def mshr (a : MINT) (nbits : Nat) (sticky : Bool) : MINT :=
  chomp (mshrRounds a sticky nbits)

/-- The routine `mcopy`: copy `b` into `a`. -/
def mcopyLoop (src : Int → Nat) : Nat → (Int → Nat) → (Int → Nat)
  | 0, v => v
  | n + 1, v => Function.update (mcopyLoop src n v) n (src n)

/-- The routine `mcopy(b, a)`: returns the new `a`. -/
def mcopy (b a : MINT) : MINT :=
  { sign := b.sign, len := b.len, val := mcopyLoop b.val b.len a.val }

/-- Zero fill of the cells `from .. from+k-1`. -/
def zeroFill : Nat → Nat → (Int → Nat) → (Int → Nat)
  | 0, _, v => v
  | k + 1, i, v => zeroFill k (i + 1) (Function.update v i 0)

/-- Addition loop of `madd`. -/
def maddLoop (av bv : Int → Nat) : Nat → Nat → Nat → (Int → Nat) → (Int → Nat)
  | 0, _, _, cv => cv
  | k + 1, i, sum, cv =>
    let s := av i + bv i + sum
    maddLoop av bv k (i + 1) (s >>> 16) (Function.update cv i (s % 65536))

/-- The routine `madd`: returns the states of `a`, `b` and `c` after the call. -/
def madd (a b c : MINT) : MINT × MINT × MINT :=
  let a := chomp a
  let b := chomp b
  let mx := (if b.len > a.len then b.len else a.len) + 1
  let a : MINT := { a with val := zeroFill (mx - a.len) a.len a.val, len := mx }
  let b : MINT := { b with val := zeroFill (mx - b.len) b.len b.val, len := mx }
  let c := minit c 0
  let a := if a.sign ≠ 0 then neg2com a else a
  let b := if b.sign ≠ 0 then neg2com b else b
  let c : MINT := { c with val := maddLoop a.val b.val a.len 0 0 c.val, len := a.len }
  let c : MINT :=
    if c.val ((c.len : Int) - 1) &&& 0x8000 ≠ 0 then { neg2com c with sign := 1 }
    else { c with sign := 0 }
  (a, b, chomp c)

/-- The routine `msub`. -/
def msub (a b c : MINT) : MINT × MINT × MINT :=
  madd a { b with sign := if b.sign = 0 then 1 else 0 } c

/-- Inner loop of `mult`: row `i`, `k` columns left, at column `j`. -/
def multInner (av : Int → Nat) (bi : Nat) (i : Nat) :
    Nat → Nat → Nat → (Int → Nat) → (Int → Nat) × Nat
  | 0, _, sum, cv => (cv, sum)
  | k + 1, j, sum, cv =>
    let s := (cv ((j + i : Nat) : Int) + av j * bi + sum) % 4294967296
    multInner av bi i k (j + 1) (s >>> 16) (Function.update cv ((j + i : Nat) : Int) (s % 65536))

/-- Outer loop of `mult`: `k` rows left, at row `i`. -/
def multOuter (av bv : Int → Nat) (alen : Nat) : Nat → Nat → (Int → Nat) → (Int → Nat)
  | 0, _, cv => cv
  | k + 1, i, cv =>
    let r := multInner av (bv i) i alen 0 0 cv
    multOuter av bv alen k (i + 1) (Function.update r.1 ((alen + i : Nat) : Int) (r.2 % 65536))

/-- The routine `mult`: returns the states of `a`, `b` and `c` after the call. -/
def mult (a b c : MINT) : MINT × MINT × MINT :=
  let a := chomp a
  let b := chomp b
  let c := minit c 0
  let n := a.len + b.len
  let c : MINT := { c with len := n, val := zeroFill n 0 c.val }
  let l := if b.len > a.len then b else a
  let s := if b.len > a.len then a else b
  let c : MINT := { c with val := multOuter l.val s.val l.len s.len 0 c.val }
  (a, b, { c with sign := if l.sign = s.sign then 0 else 1 })

/-- Comparison loop of `geq`, for `i` from `n-1` down to `0`. -/
def geqLoop (lv rv : Int → Nat) : Nat → Nat
  | 0 => 1
  | i + 1 =>
    if rv i > lv i then 0
    else if rv i < lv i then 1
    else geqLoop lv rv i

/-- The routine `geq`. -/
def geq (l r : MINT) : Nat :=
  if l.len > r.len then 1
  else if l.len < r.len then 0
  else geqLoop l.val r.val l.len

/-- Bit-counting loop of `topbit`. -/
def topbitLoop : Nat → Nat → Int → Int
  | 0, _, res => res
  | k + 1, v, res => if v = 0 then res else topbitLoop k (v >>> 1) (res + 1)

/-- The routine `topbit`: returns the chomped argument and the bit number. -/
def topbit (a : MINT) : MINT × Int :=
  let a := chomp a
  let res : Int := ((a.len : Int) - 1) * 16
  let v := a.val ((a.len : Int) - 1) % 65536
  (a, topbitLoop 16 (v >>> 1) res)

/-- State of the loop of `mdiv`: quotient, remainder and the two scratch values. -/
structure DivState where
  q : MINT
  r : MINT
  a : MINT
  b : MINT

/-- One round of the loop of `mdiv`, for bit `i` of the numerator. -/
def mdivStep (n d : MINT) (s : DivState) (i : Nat) : DivState :=
  let r := mshl1 s.r
  let r : MINT := if r.len = 0 then { r with val := Function.update r.val 0 0, len := 1 } else r
  let r := r.put 0 (r.val 0 ||| ((n.val ((i / 16 : Nat) : Int) >>> (i % 16)) &&& 1))
  if geq r d = 1 then
    let b := mcopy d s.b
    let res := msub r b s.a
    let r := mcopy res.2.2 res.1
    { q := s.q.put ((i / 16 : Nat) : Int) (s.q.val ((i / 16 : Nat) : Int) ||| (1 <<< (i % 16))),
      r := r, a := res.2.2, b := res.2.1 }
  else { s with r := r }

/-- Loop of `mdiv`, for `i` from `k-1` down to `0`. -/
def mdivLoop (n d : MINT) : Nat → DivState → DivState
  | 0, s => s
  | k + 1, s => mdivLoop n d k (mdivStep n d s k)

/-- The routine `mdiv`: returns the states of `n`, `d`, `q` and `r` after the call. -/
def mdiv (n d q r : MINT) : MINT × MINT × MINT × MINT :=
  let q := minit q 0
  let r := minit r 0
  let n := chomp n
  let d := chomp d
  let q : MINT := { q with val := zeroFill n.len 0 q.val, len := n.len }
  let s := mdivLoop n d (n.len * 16) ⟨q, r, MINTDECL, MINTDECL⟩
  (n, d, chomp s.q, s.r)

/-! ## Format descriptors, rounding and the three codecs -/

/-- Numeric fields of the descriptor `struct FPI`. -/
structure FPI where
  nbits : Int
  storage : Int
  bias : Int
  minexp : Int
  maxexp : Int
  expadj : Int

/-- The wire form `struct softfloat`: three 32-bit words. -/
structure SF where
  fp0 : Nat
  fp1 : Nat
  fp2 : Nat
deriving DecidableEq, Repr

def SOFT_INFINITE : Nat := 1
def SOFT_NAN : Nat := 2
def SOFT_ZERO : Nat := 3
def SOFT_NORMAL : Nat := 4
def SOFT_SUBNORMAL : Nat := 5

/-- Modelled from the spec: the constants `IEEEFP_32_MANT_DIG`, `IEEEFP_32_MIN_EXP`
and `IEEEFP_32_MAX_EXP` of the missing header, fixed by the format table (23
stored mantissa bits and a hidden bit, bias 127, normal exponent fields 1..254). -/
def fpi_binary32 : FPI :=
  { nbits := 24, storage := 32, bias := 127, minexp := -126, maxexp := 127, expadj := 1 }

/-- Modelled from the spec: the constants `IEEEFP_64_MANT_DIG`, `IEEEFP_64_MIN_EXP`
and `IEEEFP_64_MAX_EXP` of the missing header, fixed by the format table (52
stored mantissa bits and a hidden bit, bias 1023, normal exponent fields 1..2046). -/
def fpi_binary64 : FPI :=
  { nbits := 53, storage := 64, bias := 1023, minexp := -1022, maxexp := 1023, expadj := 1 }

/-- Modelled from the spec: the constants `IEEEFP_X80_MANT_DIG`, `IEEEFP_X80_MIN_EXP`
and `IEEEFP_X80_MAX_EXP` of the missing header, fixed by the format table (64
mantissa bits with an explicit integer bit, bias 16383, normal exponent fields
1..32766). -/
def fpi_binaryx80 : FPI :=
  { nbits := 64, storage := 80, bias := 16383, minexp := -16382, maxexp := 16383, expadj := 1 }

def RNDBIT : Nat := 10

/-- Tail of `mknormal`, shared by its three paths: save the bits to be dropped,
shift them out and round to nearest, ties to even. -/
def mknormalRound (m a c : MINT) (issub : Bool) : Nat × MINT :=
  let sav := m.val 0 &&& ((a.val 0 <<< 1) - 1)
  let m := mshr m RNDBIT false
  let m :=
    if sav &&& a.val 0 ≠ 0 then
      if sav &&& (a.val 0 - 1) ≠ 0 ∨ m.val 0 &&& 1 ≠ 0 then
        let a := a.put 0 1
        let r := madd m a c
        mcopy r.2.2 r.1
      else m
    else m
  if MINTZ m then (SOFT_ZERO, m)
  else (if issub then SOFT_SUBNORMAL else SOFT_NORMAL, m)

/-- The routine `mknormal`: returns the class and the state of `m` after the
call (the exponent is read, never written). -/
def mknormal (f : FPI) (e : Int) (m : MINT) : Nat × MINT :=
  let tb := topbit m
  let m := tb.1
  let t := tb.2
  let bno : Int := f.nbits - 1
  let m := if t - bno < RNDBIT then mshl m ((RNDBIT : Int) - (t - bno)).toNat else m
  let m := if t - bno > RNDBIT then mshr m ((t - bno) - (RNDBIT : Int)).toNat true else m
  let a := minit MINTDECL (1 <<< (RNDBIT - 1))
  let c := MINTDECL
  if e < f.minexp then
    mknormalRound (mshr m (-(e - f.minexp)).toNat true) a c true
  else if e ≥ f.maxexp then
    if e > f.maxexp then (SOFT_INFINITE, m)
    else
      let r := madd m a c
      let tc := topbit r.2.2
      let tm := topbit r.1
      if tc.2 = tm.2 + 1 then (SOFT_INFINITE, tm.1)
      else mknormalRound tm.1 r.2.1 tc.1 false
  else mknormalRound m a c false

/-! ### binary32 -/

/-- The routine `ieee32_classify`. -/
def ieee32_classify (sfp : SF) : Nat :=
  let v := sfp.fp0 &&& 0x7fffffff
  if v = 0x7f800000 then SOFT_INFINITE
  else if v = 0x7fc00000 then SOFT_NAN
  else if v = 0 then SOFT_ZERO
  else if v &&& 0x7f800000 ≠ 0 then SOFT_NORMAL
  else SOFT_SUBNORMAL

/-- The routine `ieee32_make`: returns the wire value and the state of `m`. -/
def ieee32_make (sfp : SF) (typ sign : Nat) (exp : Int) (m : MINT) : SF × MINT :=
  let fp0 := (sign <<< 31) % 4294967296
  let r : Nat × MINT := if typ = SOFT_NORMAL then mknormal fpi_binary32 exp m else (typ, m)
  let typ := r.1
  let m := r.2
  let fp0 :=
    if typ = SOFT_ZERO then fp0
    else if typ = SOFT_INFINITE then fp0 ||| 0x7f800000
    else if typ = SOFT_NAN then fp0 ||| 0x7fc00000
    else if typ = SOFT_NORMAL then
      let exp := exp + (fpi_binary32.bias - 1)
      let fp0 := fp0 ||| (((exp % 256).toNat <<< 23) % 4294967296)
      (fp0 + (((m.val 1 <<< 16) % 4294967296) ||| m.val 0)) % 4294967296
    else if typ = SOFT_SUBNORMAL then
      fp0 ||| (((m.val 1 <<< 16) % 4294967296) ||| m.val 0)
    else fp0
  ({ sfp with fp0 := fp0 }, m)

/-- The routine `ieee32_unmake`: returns class, sign, exponent and mantissa. -/
def ieee32_unmake (sfp : SF) (m : MINT) : Nat × Nat × Int × MINT :=
  let v := ieee32_classify sfp
  let sign := (sfp.fp0 >>> 31) &&& 1
  let exp : Int := (((sfp.fp0 >>> 23) &&& 0xff : Nat) : Int) - fpi_binary32.bias
  let m := minit m sfp.fp0
  let m := m.put 1 ((sfp.fp0 >>> 16) &&& 0x7f)
  let m : MINT := { m with len := 2 }
  if v = SOFT_SUBNORMAL then (SOFT_NORMAL, sign, exp, m)
  else if v = SOFT_NORMAL then (v, sign, exp, m.put 1 (m.val 1 ||| (1 <<< 7)))
  else (v, sign, exp, m)

/-! ### binary64 -/

def IEEEFP_64_ISINF (x : SF) : Bool := (x.fp1 &&& 0x7fffffff) = 0x7ff00000 && x.fp0 = 0
def IEEEFP_64_ISZERO (x : SF) : Bool := (x.fp1 &&& 0x7fffffff) = 0 && x.fp0 = 0
def IEEEFP_64_ISNAN (x : SF) : Bool := (x.fp1 &&& 0x7fffffff) = 0x7ff80000 && x.fp0 = 0

/-- The routine `ieee64_classify`. -/
def ieee64_classify (sfp : SF) : Nat :=
  let e := sfp.fp1 &&& 0x7ff00000
  if IEEEFP_64_ISINF sfp then SOFT_INFINITE
  else if IEEEFP_64_ISNAN sfp then SOFT_NAN
  else if IEEEFP_64_ISZERO sfp then SOFT_ZERO
  else if e ≠ 0 then SOFT_NORMAL
  else SOFT_SUBNORMAL

/-- The routine `ieee64_unmake`: returns class, sign, exponent and mantissa. -/
def ieee64_unmake (sfp : SF) (m : MINT) : Nat × Nat × Int × MINT :=
  let v := ieee64_classify sfp
  let sign := (sfp.fp1 >>> 31) &&& 1
  let exp : Int := (((sfp.fp1 >>> 20) &&& 0x7ff : Nat) : Int) - fpi_binary64.bias
  let m := minit m sfp.fp0
  let m := m.put 1 (sfp.fp0 >>> 16)
  let m := m.put 2 sfp.fp1
  let m := m.put 3 (((sfp.fp1 >>> 16) &&& 0x0f) ||| (1 <<< 4))
  let m : MINT := { m with len := 4 }
  if v = SOFT_SUBNORMAL then (SOFT_NORMAL, sign, exp, m) else (v, sign, exp, m)

/-- The routine `ieee64_make`: returns the wire value and the state of `m`. -/
def ieee64_make (sfp : SF) (typ sign : Nat) (exp : Int) (m : MINT) : SF × MINT :=
  let fp0 := 0
  let fp1 := (sign <<< 31) % 4294967296
  let r : Nat × MINT := if typ = SOFT_NORMAL then mknormal fpi_binary64 exp m else (typ, m)
  let typ := r.1
  let m := r.2
  let lo := ((m.val 1 <<< 16) % 4294967296) ||| m.val 0
  let hi := ((m.val 3 <<< 16) % 4294967296) ||| m.val 2
  if typ = SOFT_ZERO then ({ sfp with fp0 := fp0, fp1 := fp1 }, m)
  else if typ = SOFT_INFINITE then ({ sfp with fp0 := fp0, fp1 := fp1 ||| 0x7ff00000 }, m)
  else if typ = SOFT_NAN then ({ sfp with fp0 := fp0, fp1 := fp1 ||| 0x7ff80000 }, m)
  else if typ = SOFT_NORMAL then
    let exp := exp + (fpi_binary64.bias - 1)
    let fp1 := fp1 ||| hi
    ({ sfp with fp0 := lo,
                fp1 := (fp1 + (((exp % 2048).toNat <<< 20) % 4294967296)) % 4294967296 }, m)
  else if typ = SOFT_SUBNORMAL then ({ sfp with fp0 := lo, fp1 := fp1 ||| hi }, m)
  else ({ sfp with fp0 := fp0, fp1 := fp1 }, m)

/-! ### x87 80-bit extended -/

def IEEEFP_X80_ISINF (x : SF) : Bool :=
  (x.fp2 &&& 0x7fff) = 0x7fff && x.fp1 = 0x80000000 && x.fp0 = 0
def IEEEFP_X80_ISZERO (x : SF) : Bool := (x.fp2 &&& 0x7fff) = 0 && (x.fp1 ||| x.fp0) = 0
def IEEEFP_X80_ISNAN (x : SF) : Bool :=
  (x.fp2 &&& 0x7fff) = 0x7fff && (x.fp1 ≠ 0x80000000 || x.fp0 = 0)

/-- The routine `ieeex80_classify`. -/
def ieeex80_classify (sfp : SF) : Nat :=
  let v := sfp.fp2 &&& 0x7fff
  if IEEEFP_X80_ISINF sfp then SOFT_INFINITE
  else if IEEEFP_X80_ISNAN sfp then SOFT_NAN
  else if IEEEFP_X80_ISZERO sfp then SOFT_ZERO
  else if v ≠ 0 then SOFT_NORMAL
  else SOFT_SUBNORMAL

/-- The routine `ieeex80_make`: returns the wire value and the state of `m`. -/
def ieeex80_make (sfp : SF) (typ sign : Nat) (exp : Int) (m : MINT) : SF × MINT :=
  let fp2 := (sign <<< 15) % 4294967296
  let m : MINT := { m with sign := 0 }
  let r : Nat × MINT := if typ = SOFT_NORMAL then mknormal fpi_binaryx80 exp m else (typ, m)
  let typ := r.1
  let m := r.2
  let lo := ((m.val 1 <<< 16) % 4294967296) ||| m.val 0
  let hi := ((m.val 3 <<< 16) % 4294967296) ||| m.val 2
  if typ = SOFT_ZERO then ({ sfp with fp0 := 0, fp1 := 0, fp2 := fp2 }, m)
  else if typ = SOFT_INFINITE then ({ sfp with fp0 := 0, fp1 := 0x80000000, fp2 := fp2 ||| 0x7fff }, m)
  else if typ = SOFT_NAN then ({ sfp with fp0 := 0, fp1 := 0xc0000000, fp2 := fp2 ||| 0x7fff }, m)
  else if typ = SOFT_NORMAL then
    let exp := exp + fpi_binaryx80.bias
    let fp2 := fp2 ||| (exp % 32768).toNat
    let fp2 := if m.len = 5 ∧ m.val 4 ≠ 0 then (fp2 + 1) % 4294967296 else fp2
    ({ sfp with fp0 := lo, fp1 := hi, fp2 := fp2 }, m)
  else if typ = SOFT_SUBNORMAL then ({ sfp with fp0 := lo, fp1 := hi, fp2 := fp2 }, m)
  else ({ sfp with fp0 := 0, fp1 := 0, fp2 := fp2 }, m)

/-- The routine `ieeex80_unmake`: returns class, sign, exponent and mantissa. -/
def ieeex80_unmake (sfp : SF) (m : MINT) : Nat × Nat × Int × MINT :=
  let v := ieeex80_classify sfp
  let sign := (sfp.fp2 >>> 15) &&& 1
  let exp : Int := ((sfp.fp2 &&& 0x7fff : Nat) : Int) - fpi_binaryx80.bias
  let m := minit m sfp.fp0
  let m := m.put 1 (sfp.fp0 >>> 16)
  let m := m.put 2 sfp.fp1
  let m := m.put 3 (sfp.fp1 >>> 16)
  let m : MINT := { m with len := 4 }
  if v = SOFT_SUBNORMAL then (SOFT_NORMAL, sign, exp, m) else (v, sign, exp, m)

/-! ## Operations on the long-double wire form

The table `fpis` has three entries; its last one, `LDBLPTR`, is the x87 80-bit
codec (`ldouble_mant` is compiled under `USE_IEEEFP_X80`), so the `LDOUBLE_*`
macros are the `IEEEFP_X80_*` ones. -/

/-- Modelled from the spec: the type words `FLOAT`, `DOUBLE` and `LDOUBLE` of the
missing compiler headers; `MKSF` maps them to the indices 0, 1, 2 of `fpis`. -/
inductive TWORD where
  | FLOAT
  | DOUBLE
  | LDOUBLE
deriving DecidableEq, Repr

/-- Modelled from the spec: the six operator codes `EQ`, `NE`, `LE`, `LT`, `GE`,
`GT` of the missing compiler headers, the ones `soft_cmp` switches on. -/
inductive CmpOp where
  | EQ
  | NE
  | LE
  | LT
  | GE
  | GT
deriving DecidableEq, Repr

/-- The table `fpis`, field `nbits`/`storage`/... of entry `MKSF(t)`. -/
def fpis (t : TWORD) : FPI :=
  match t with
  | TWORD.FLOAT => fpi_binary32
  | TWORD.DOUBLE => fpi_binary64
  | TWORD.LDOUBLE => fpi_binaryx80

/-- The table `fpis`, field `make` of entry `MKSF(t)`. -/
def fpis_make (t : TWORD) : SF → Nat → Nat → Int → MINT → SF × MINT :=
  match t with
  | TWORD.FLOAT => ieee32_make
  | TWORD.DOUBLE => ieee64_make
  | TWORD.LDOUBLE => ieeex80_make

def LDBLPTR : FPI := fpis TWORD.LDOUBLE

/-- A local `SF rv` before `make` has written it; the x80 `make` writes all three
words. -/
def SFDECL : SF := ⟨0, 0, 0⟩

/-- The routine `ldouble_mant`: the 64 stored mantissa bits shifted left by one
in a `uint64_t`, which drops the integer bit. -/
def ldouble_mant (sfp : SF) : Nat :=
  (((sfp.fp0 <<< (0 * 32)) ||| (sfp.fp1 <<< (1 * 32))) <<< 1) % 18446744073709551616

def ldouble_exp (x : SF) : Nat := x.fp2 &&& 0x7FFF

def ldouble_sign (x : SF) : Nat := (x.fp2 >>> 15) &&& 1

/-- The macro `IEEEFP_X80_NEG`. -/
def IEEEFP_X80_NEG (x : SF) : SF := { x with fp2 := x.fp2 ^^^ 0x8000 }

/-- The routine `grsround`: returns the state of `m` after the call. -/
def grsround (m : MINT) (f : FPI) : MINT :=
  let tb := topbit m
  let m := tb.1
  let t := tb.2
  let bno : Int := f.nbits - 1
  let a := minit MINTDECL (1 <<< (RNDBIT - 1))
  let c := MINTDECL
  let m := if t - bno < RNDBIT then mshl m ((RNDBIT : Int) - (t - bno)).toNat else m
  let m := if t - bno > RNDBIT then mshr m ((t - bno) - (RNDBIT : Int)).toNat true else m
  let sav := m.val 0 &&& ((a.val 0 <<< 1) - 1)
  let m := mshr m RNDBIT false
  if sav &&& a.val 0 ≠ 0 then
    if sav &&& (a.val 0 - 1) ≠ 0 ∨ m.val 0 &&& 1 ≠ 0 then
      let a := a.put 0 1
      let r := madd m a c
      mcopy r.2.2 r.1
    else m
  else m

/-- The routine `soft_plus`: returns the value left in `*x1p`. -/
def soft_plus (x1p x2p : SF) (t : TWORD) : SF :=
  let u1 := ieeex80_unmake x1p MINTDECL
  let u2 := ieeex80_unmake x2p MINTDECL
  let c1 := u1.1
  let s1 := u1.2.1
  let e1 := u1.2.2.1
  let m1 := u1.2.2.2
  let c2 := u2.1
  let s2 := u2.2.1
  let e2 := u2.2.2.1
  let m2 := u2.2.2.2
  let a := MINTDECL
  let ediff := e1 - e2
  if c1 = SOFT_INFINITE ∧ c2 = SOFT_INFINITE then
    let c1 := if s1 ≠ s2 then SOFT_NAN else c1
    (ieeex80_make SFDECL c1 s1 (if ediff > 0 then e1 else e2) a).1
  else if c1 = SOFT_NAN ∨ c1 = SOFT_INFINITE then
    (ieeex80_make SFDECL c1 s1 (if ediff > 0 then e1 else e2) a).1
  else if c2 = SOFT_NAN ∨ c2 = SOFT_INFINITE then
    (ieeex80_make SFDECL c2 s2 (if ediff > 0 then e1 else e2) a).1
  else if ediff > LDBLPTR.nbits + 1 then x1p
  else if ediff < -(LDBLPTR.nbits + 1) then x2p
  else
    let m1 := if e1 > e2 then mshl m1 ediff.toNat else m1
    let m2 := if e1 > e2 then m2 else mshl m2 (-ediff).toNat
    let mtop := if e1 > e2 then LDBLPTR.nbits - 1 + ediff else LDBLPTR.nbits - 1 - ediff
    let m1 : MINT := { m1 with sign := s1 }
    let m2 : MINT := { m2 with sign := s2 }
    let r := madd m1 m2 a
    let tb := topbit r.2.2
    let d := tb.2 - mtop
    let e1 := e1 + d
    let e2 := e2 + d
    let s1 := tb.1.sign
    (ieeex80_make SFDECL c1 s1 (if ediff > 0 then e1 else e2) tb.1).1

/-- The routine `soft_minus`: returns the values left in `*x1` and `*x2`. -/
def soft_minus (x1 x2 : SF) (t : TWORD) : SF × SF :=
  let x2 := IEEEFP_X80_NEG x2
  (soft_plus x1 x2 t, x2)

/-- The routine `soft_mul`: returns the value left in `*x1p`. -/
def soft_mul (x1p x2p : SF) (t : TWORD) : SF :=
  let u1 := ieeex80_unmake x1p MINTDECL
  let u2 := ieeex80_unmake x2p MINTDECL
  let c1 := u1.1
  let s1 := u1.2.1
  let e1 := u1.2.2.1
  let m1 := u1.2.2.2
  let c2 := u2.1
  let s2 := u2.2.1
  let e2 := u2.2.2.1
  let m2 := u2.2.2.2
  let a := MINTDECL
  if c1 = SOFT_NAN ∨ c2 = SOFT_NAN then (ieeex80_make SFDECL SOFT_NAN 0 e1 a).1
  else if c1 = SOFT_INFINITE ∧ c2 = SOFT_INFINITE then
    (ieeex80_make SFDECL SOFT_INFINITE (if s1 = s2 then 1 else 0) e1 a).1
  else if c1 = SOFT_INFINITE ∧ c2 = SOFT_ZERO then (ieeex80_make SFDECL SOFT_NAN 0 e1 a).1
  else if c2 = SOFT_INFINITE ∧ c1 = SOFT_ZERO then (ieeex80_make SFDECL SOFT_NAN 0 e1 a).1
  else if c1 = SOFT_INFINITE ∨ c2 = SOFT_INFINITE then
    (ieeex80_make SFDECL SOFT_INFINITE (if s1 = s2 then 1 else 0) e1 a).1
  else
    let r := mult m1 m2 a
    let tb := topbit r.2.2
    let ee := tb.2 - 2 * (LDBLPTR.nbits - 1)
    let e1 := e1 + (e2 + ee)
    let s1 := if s1 ≠ s2 then 1 else 0
    (ieeex80_make SFDECL c1 s1 e1 tb.1).1

/-- The routine `soft_div`: returns the value left in `*x1p`. -/
def soft_div (x1p x2p : SF) (t : TWORD) : SF :=
  let u1 := ieeex80_unmake x1p MINTDECL
  let u2 := ieeex80_unmake x2p MINTDECL
  let c1 := u1.1
  let s1 := u1.2.1
  let e1 := u1.2.2.1
  let m1 := u1.2.2.2
  let c2 := u2.1
  let s2 := u2.2.1
  let e2 := u2.2.2.1
  let m2 := u2.2.2.2
  let f := MINTDECL
  if c1 = SOFT_NAN ∨ c2 = SOFT_NAN then (ieeex80_make SFDECL SOFT_NAN 1 e1 f).1
  else if c1 = SOFT_INFINITE then
    if c2 = SOFT_INFINITE then (ieeex80_make SFDECL SOFT_NAN 1 e1 f).1
    else (ieeex80_make SFDECL SOFT_INFINITE (if s1 ≠ s2 then 1 else 0) e1 f).1
  else if c1 = SOFT_ZERO then
    if c2 = SOFT_ZERO then (ieeex80_make SFDECL SOFT_NAN (if s1 = s2 then 1 else 0) e1 f).1
    else (ieeex80_make SFDECL SOFT_ZERO (if s1 = s2 then 1 else 0) e1 f).1
  else if c2 = SOFT_ZERO then
    (ieeex80_make SFDECL SOFT_INFINITE (if s1 ≠ s2 then 1 else 0) e1 f).1
  else if c2 = SOFT_INFINITE then
    (ieeex80_make SFDECL SOFT_ZERO (if s1 = s2 then 1 else 0) e1 f).1
  else
    let m1 := mshl m1 LDBLPTR.nbits.toNat
    let d1 := mdiv m1 m2 MINTDECL MINTDECL
    let m2 := d1.2.1
    let tq := topbit d1.2.2.1
    let q := tq.1
    let sh := tq.2 - LDBLPTR.nbits
    let r := mshl d1.2.2.2 LDBLPTR.nbits.toNat
    let d2 := mdiv r m2 MINTDECL f
    let e := d2.2.2.1
    let f := d2.2.2.2
    let q := mshl q LDBLPTR.nbits.toNat
    let s := madd q e f
    let f := grsround s.2.2 LDBLPTR
    let s1 := if s1 ≠ s2 then 1 else 0
    let e1 := e1 - e2 + sh
    (ieeex80_make SFDECL c1 s1 e1 f).1

/-- The routine `soft_isz`. -/
def soft_isz (sfp : SF) : Nat := if ieeex80_classify sfp = SOFT_ZERO then 1 else 0

/-- The routine `soft_cmp_eq`. -/
def soft_cmp_eq (x1 x2 : SF) : Nat :=
  let s1 := ldouble_sign x1
  let s2 := ldouble_sign x2
  let e1 := ldouble_exp x1
  let e2 := ldouble_exp x2
  let m1 := ldouble_mant x1
  let m2 := ldouble_mant x2
  if e1 = 0 ∧ e2 = 0 ∧ m1 = 0 ∧ m2 = 0 then 1
  else if s1 ≠ s2 then 0
  else if e1 = e2 ∧ m1 = m2 then 1
  else 0

/-- The routine `soft_cmp_gl`. -/
def soft_cmp_gl (x1 x2 : SF) (isless : Bool) : Nat :=
  if IEEEFP_X80_ISZERO x1 && IEEEFP_X80_ISZERO x2 then 0
  else
    let s2 := ldouble_sign x2
    let inv : Nat → Nat := fun rv => if s2 ≠ 0 then rv ^^^ 1 else rv
    if ldouble_sign x1 + s2 = 1 then (if isless then (if s2 = 0 then 1 else 0) else s2)
    else if ldouble_exp x1 > ldouble_exp x2 then inv (if isless then 0 else 1)
    else if ldouble_exp x1 < ldouble_exp x2 then inv (if isless then 1 else 0)
    else
      let mant1 := ldouble_mant x1
      let mant2 := ldouble_mant x2
      if mant1 = mant2 then 0
      else if mant1 > mant2 then inv (if isless then 0 else 1)
      else inv (if isless then 1 else 0)

/-- The routine `soft_cmp`. -/
def soft_cmp (v1p v2p : SF) (v : CmpOp) : Nat :=
  if IEEEFP_X80_ISNAN v1p || IEEEFP_X80_ISNAN v2p then 0
  else
    match v with
    | CmpOp.GT => soft_cmp_gl v1p v2p false
    | CmpOp.LT => soft_cmp_gl v1p v2p true
    | CmpOp.GE =>
      if soft_cmp_eq v1p v2p ≠ 0 then soft_cmp_eq v1p v2p else soft_cmp_gl v1p v2p false
    | CmpOp.LE =>
      if soft_cmp_eq v1p v2p ≠ 0 then soft_cmp_eq v1p v2p else soft_cmp_gl v1p v2p true
    | CmpOp.EQ => soft_cmp_eq v1p v2p
    | CmpOp.NE => if soft_cmp_eq v1p v2p = 0 then 1 else 0

/-- The routine `soft_huge_val`. -/
def soft_huge_val (sfp : SF) : SF := (ieeex80_make sfp SOFT_INFINITE 0 0 MINTDECL).1

/-- The routine `soft_nan`; its string argument is never read. -/
def soft_nan (sfp : SF) : SF := (ieeex80_make sfp SOFT_NAN 0 0 MINTDECL).1

/-- The routine `soft_toush`: `sf` is the state of the static buffer before the
call; returns the buffer after the call and the value stored in `*nbits`. -/
def soft_toush (sf : SF) (sfp : SF) (t : TWORD) : SF × Int :=
  let u := ieeex80_unmake sfp MINTDECL
  ((fpis_make t sf u.1 u.2.1 u.2.2.1 u.2.2.2).1, (fpis t).storage)

/-! ## Conversions between integers and formats -/

/-- The table `fpis`, field `unmake` of entry `MKSF(t)`. -/
def fpis_unmake (t : TWORD) : SF → MINT → Nat × Nat × Int × MINT :=
  match t with
  | TWORD.FLOAT => ieee32_unmake
  | TWORD.DOUBLE => ieee64_unmake
  | TWORD.LDOUBLE => ieeex80_unmake

def IEEEFP_32_ISINF (x : SF) : Bool := (x.fp0 &&& 0x7fffffff) = 0x7f800000
def IEEEFP_32_ISZERO (x : SF) : Bool := (x.fp0 &&& 0x7fffffff) = 0
def IEEEFP_32_ISNAN (x : SF) : Bool := (x.fp0 &&& 0x7fffffff) = 0x7fc00000

/-- The macro `IEEEFP_X80_ZERO`. -/
def IEEEFP_X80_ZERO (x : SF) (s : Nat) : SF :=
  { x with fp0 := 0, fp1 := 0, fp2 := (s <<< 15) % 4294967296 }

/-- The macro `IEEEFP_X80_MAKE`: `mant` is a `uint64_t` holding the fraction
bits left-aligned, the integer bit is supplied when `exp` is not zero. -/
def IEEEFP_X80_MAKE (x : SF) (sign : Nat) (exp : Int) (mant : Nat) : SF :=
  { x with
    fp0 := (mant >>> 1) % 4294967296,
    fp1 := ((mant >>> 33) ||| (if exp ≠ 0 then 1 <<< 31 else 0)) % 4294967296,
    fp2 := ((exp % 32768).toNat ||| (sign <<< 15)) % 4294967296 }

/-- The macro `IEEEFP_X80_MAKE2`: `mant0` and `mant1` are the two words of the
array argument. -/
def IEEEFP_X80_MAKE2 (x : SF) (sign : Nat) (exp : Int) (mant0 mant1 : Nat) : SF :=
  { x with
    fp0 := mant0 % 4294967296,
    fp1 := mant1 % 4294967296,
    fp2 := ((exp % 32768).toNat ||| (sign <<< 15)) % 4294967296 }

def IEEEFP_X80_BIAS : Int := 16383

/-- The routine `soft_fp2fp`: returns the value left in `*sfp`.  The local `rv2`
starts as `SFDECL`; the narrow `make` and `unmake` touch the same words of it. -/
def soft_fp2fp (sfp : SF) (t : TWORD) : SF :=
  let u := ieeex80_unmake sfp MINTDECL
  let r2 := fpis_make t SFDECL u.1 u.2.1 u.2.2.1 u.2.2.2
  let u2 := fpis_unmake t r2.1 r2.2
  (ieeex80_make SFDECL u2.1 u2.2.1 u2.2.2.1 u2.2.2.2).1

/-- Loop `while (ll > 0) ll <<= 1, exp--` of `soft_int2fp` on the 64-bit pattern
of the signed `ll`; it leaves after at most 63 rounds, `ll` being nonzero. -/
def int2fpLoop : Nat → Nat → Int → Nat × Int
  | 0, ll, exp => (ll, exp)
  | k + 1, ll, exp =>
    if 0 < ll ∧ ll < 9223372036854775808 then
      int2fpLoop k ((ll <<< 1) % 18446744073709551616) (exp - 1)
    else (ll, exp)

/-- The routine `soft_int2fp`: `l` is the 64-bit pattern of the `CONSZ`
argument, `isunsigned` the value of `ISUNSIGNED(f)`; returns `*rv`. -/
def soft_int2fp (rv : SF) (l : Nat) (isunsigned : Bool) (t : TWORD) : SF :=
  let neg : Bool := !isunsigned && decide (9223372036854775808 ≤ l)
  let ll := if neg then (18446744073709551616 - l) % 18446744073709551616 else l
  let sign := if neg then 1 else 0
  if ll = 0 then IEEEFP_X80_ZERO rv 0
  else if l ^^^ 0x8000000000000000 = 0 then
    IEEEFP_X80_MAKE2 rv 1 (IEEEFP_X80_BIAS + 63) 0 0x80000000
  else
    let r := int2fpLoop 64 ll (IEEEFP_X80_BIAS + 64)
    let ll := (r.1 <<< 1) % 18446744073709551616
    let exp := r.2 - 1
    let rv := IEEEFP_X80_MAKE rv sign exp ll
    if t = TWORD.FLOAT ∨ t = TWORD.DOUBLE then soft_fp2fp rv t else rv

/-- The routine `soft_classify`. -/
def soft_classify (sfp : SF) (t : TWORD) : Nat :=
  match t with
  | TWORD.FLOAT =>
    if IEEEFP_32_ISINF sfp then SOFT_INFINITE
    else if IEEEFP_32_ISNAN sfp then SOFT_NAN
    else if IEEEFP_32_ISZERO sfp then SOFT_ZERO
    else SOFT_NORMAL
  | TWORD.DOUBLE =>
    if IEEEFP_64_ISINF sfp then SOFT_INFINITE
    else if IEEEFP_64_ISNAN sfp then SOFT_NAN
    else if IEEEFP_64_ISZERO sfp then SOFT_ZERO
    else SOFT_NORMAL
  | TWORD.LDOUBLE =>
    if IEEEFP_X80_ISINF sfp then SOFT_INFINITE
    else if IEEEFP_X80_ISNAN sfp then SOFT_NAN
    else if IEEEFP_X80_ISZERO sfp then SOFT_ZERO
    else SOFT_NORMAL

/-- Loop `while (exp > 0) mant <<= 1, exp--` on a `uint64_t`. -/
def fp2intShl : Nat → Nat → Nat
  | 0, mant => mant
  | k + 1, mant => fp2intShl k ((mant <<< 1) % 18446744073709551616)

/-- Loop `while (exp < 0) mant >>= 1, exp++` on a `uint64_t`. -/
def fp2intShr : Nat → Nat → Nat
  | 0, mant => mant
  | k + 1, mant => fp2intShr k (mant >>> 1)

/-- The routine `soft_fp2int`: returns the 64-bit pattern of the `CONSZ` result. -/
def soft_fp2int (sfp : SF) (t : TWORD) : Nat :=
  if soft_classify sfp TWORD.LDOUBLE ≠ SOFT_NORMAL then 0
  else
    let exp : Int := (ldouble_exp sfp : Int) - IEEEFP_X80_BIAS - 64 + 1
    let mant := ldouble_mant sfp
    let mant := (mant >>> 1) ||| (1 <<< 63)
    let mant := fp2intShl exp.toNat mant
    let mant := fp2intShr (-exp).toNat mant
    if ldouble_sign sfp ≠ 0 then (18446744073709551616 - mant) % 18446744073709551616
    else mant

/-! ## Literals

A C string is modelled by the list of its characters before the terminating
NUL. -/

/-- The digits at the head of `s`, accumulated in base ten. -/
def atoiDigits : List Char → Nat → Nat
  | [], acc => acc
  | c :: s, acc =>
    if '0' ≤ c ∧ c ≤ '9' then atoiDigits s (acc * 10 + (c.toNat - '0'.toNat)) else acc

/-- The C library function `atoi` on a text whose number lies in the range of
`int`, [-2147483648, 2147483647]: white space, an optional sign, then the digits
up to the first other character.  Beyond that range the C function is undefined
and this model, which returns the number itself, says nothing of the program. -/
def atoi : List Char → Int
  | [] => 0
  | c :: s =>
    if c = ' ' ∨ c = '\t' ∨ c = '\n' ∨ c = '\x0b' ∨ c = '\x0c' ∨ c = '\r' then atoi s
    else if c = '-' then -(atoiDigits s 0 : Int)
    else if c = '+' then (atoiDigits s 0 : Int)
    else (atoiDigits (c :: s) 0 : Int)

/-- Loop of `mesanity`: the number of digits at the head of `s`. -/
def mesanityCount : List Char → Nat
  | [] => 0
  | c :: s => if '0' ≤ c ∧ c ≤ '9' then mesanityCount s + 1 else 0

/-- The routine `mesanity`. -/
def mesanity (m : MINT) (s : List Char) : Nat :=
  if MINTZ m then SOFT_ZERO
  else
    let neg : Bool := s.head? = some '-'
    let s := if s.head? = some '-' ∨ s.head? = some '+' then s.tail else s
    if mesanityCount s > 4 then (if neg then SOFT_ZERO else SOFT_INFINITE) else 0

/-- The locals of `decbig` that live across its loop.  The `int exp10` is held
as an integer without wrap-around, which is the program as long as it stays in
the range of `int`. -/
structure DecState where
  mmant : MINT
  ten : MINT
  b : MINT
  ind : MINT
  exp10 : Int
  gotdot : Bool

/-- Loop `while ((ch = *str++))` of `decbig`: returns the state at the `break`
and the string at `str - 1`, the character that ended the loop; `none` stands
for the call of `cerror`, which does not return. -/
def decbigLoop : List Char → DecState → Option (DecState × List Char)
  | [], s => some (s, [])
  | ch :: str, s =>
    if ch.toNat = 0 then some (s, [])
    else if '0' ≤ ch ∧ ch ≤ '9' then
      let r := mult s.mmant s.ten s.b
      let ind := minit s.ind (ch.toNat - '0'.toNat)
      let r2 := madd r.2.2 ind r.1
      decbigLoop str
        { mmant := r2.2.2, ten := r.2.1, b := r2.1, ind := r2.2.1,
          exp10 := if s.gotdot then s.exp10 - 1 else s.exp10, gotdot := s.gotdot }
    else if ch = '.' then decbigLoop str { s with gotdot := true }
    else if ch = 'e' ∨ ch = 'E' then some ({ s with exp10 := s.exp10 + atoi str }, ch :: str)
    else if ch = 'i' ∨ ch = 'I' ∨ ch = 'l' ∨ ch = 'L' ∨ ch = 'f' ∨ ch = 'F' then
      some (s, ch :: str)
    else none

/-- Loop `for (i = 0; i < exp10; i++)` of `decbig`: returns `cur`, `ten`, `b`. -/
def decbigScale : Nat → MINT → MINT → MINT → MINT × MINT × MINT
  | 0, cur, ten, b => (cur, ten, b)
  | n + 1, cur, ten, b =>
    let r := mult cur ten b
    decbigScale n (mcopy r.2.2 r.1) r.2.1 r.2.2

/-- The routine `decbig`: returns the result code and the states of `mmant` and
`mexp`; `none` stands for the call of `cerror`. -/
def decbig (str : List Char) (mmant mexp : MINT) : Option (Nat × MINT × MINT) :=
  match decbigLoop str
      { mmant := mmant, ten := minit MINTDECL 10, b := MINTDECL, ind := MINTDECL,
        exp10 := 0, gotdot := false } with
  | none => none
  | some (s, str) =>
    let ch := mesanity s.mmant str
    if ch ≠ 0 then some (ch, s.mmant, mexp)
    else if s.exp10 < 0 then
      some (SOFT_NORMAL, s.mmant, (decbigScale (-s.exp10).toNat mexp s.ten s.b).1)
    else some (SOFT_NORMAL, (decbigScale s.exp10.toNat s.mmant s.ten s.b).1, mexp)

/-- Value of a hexadecimal digit as the `switch` of `hexbig` computes it, and
`none` for any other character. -/
def hexDigit (ch : Char) : Option Nat :=
  if 'a' ≤ ch ∧ ch ≤ 'f' then some (ch.toNat - ('a'.toNat - 'A'.toNat) - ('A'.toNat - '9'.toNat - 1) - '0'.toNat)
  else if 'A' ≤ ch ∧ ch ≤ 'F' then some (ch.toNat - ('A'.toNat - '9'.toNat - 1) - '0'.toNat)
  else if '0' ≤ ch ∧ ch ≤ '9' then some (ch.toNat - '0'.toNat)
  else none

/-- The routine `hexbig` (its loop, which holds every `return`): returns the
result code and the states of `mmant` and `mexp`; `none` stands for the call of
`cerror`.  The `int exp2` is held as an integer without wrap-around, which is
the program as long as it stays in the range of `int`; `mesanity` lets at most
four exponent digits through to `atoi`. -/
def hexbigLoop : List Char → MINT → MINT → Int → Bool → Option (Nat × MINT × MINT)
  | [], _, _, _, _ => none
  | ch :: str, mmant, mexp, exp2, gotdot =>
    match hexDigit ch with
    | some d =>
      let mmant := mshl mmant 4
      let mmant := mmant.put 0 (mmant.val 0 ||| d)
      hexbigLoop str mmant mexp (if gotdot then exp2 - 4 else exp2) gotdot
    | none =>
      if ch = '.' then hexbigLoop str mmant mexp exp2 true
      else if ch = 'p' ∨ ch = 'P' then
        let c := mesanity mmant str
        if c ≠ 0 then some (c, mmant, mexp)
        else
          let exp2 := exp2 + atoi str
          if exp2 < 0 then some (SOFT_NORMAL, mmant, mshl mexp (-exp2).toNat)
          else some (SOFT_NORMAL, mshl mmant exp2.toNat, mexp)
      else none

def hexbig (str : List Char) (mmant mexp : MINT) : Option (Nat × MINT × MINT) :=
  hexbigLoop str mmant mexp 0 false

/-- Loop of `memcmp(r->val, d->val, n * 2)`: whether some of the first `n`
limbs differ. -/
def limbsDiffer (rv dv : Int → Nat) : Nat → Bool
  | 0 => false
  | n + 1 => limbsDiffer rv dv n || decide (rv n % 65536 ≠ dv n % 65536)

/-- The routine `mround`: returns the states of `d`, `q` and `r`. -/
def mround (d q r : MINT) : MINT × MINT × MINT :=
  let r := chomp (mshl r 1)
  let d := chomp d
  if geq r d ≠ 0 then
    if limbsDiffer r.val d.val d.len ∨ q.val 0 &&& 1 ≠ 0 then
      let a := minit MINTDECL 1
      let s := madd a q MINTDECL
      (d, mcopy s.2.2 s.2.1, r)
    else (d, q, r)
  else (d, q, r)

/-- State of the numeric part of `str2num`. -/
structure NumState where
  mm : MINT
  me : MINT
  m : MINT
  d : MINT
  scale : Int

/-- Loop `while (topbit(m) < fpi->nbits-1)` of `str2num`; `none` when the fuel
runs out before the loop is left. -/
def str2numLoop (fpi : FPI) : Nat → NumState → Option NumState
  | fuel, s =>
    let tb := topbit s.m
    if tb.2 < fpi.nbits - 1 then
      match fuel with
      | 0 => none
      | k + 1 =>
        let mm := mshl s.mm 1
        let r := mdiv mm s.me tb.1 s.d
        str2numLoop fpi k { mm := r.1, me := r.2.1, m := r.2.2.1, d := r.2.2.2,
                            scale := s.scale + 1 }
    else some { s with m := tb.1 }

/-- Scale of the first branch of step 3 of `str2num` and the flag `sub`, from
the bit numbers `t` and `u`: the check for the subnormal range lowers the scale
by `recount`. -/
def str2numSub (fpi : FPI) (t u : Int) : Int × Bool :=
  let scale : Int := fpi.nbits - (t - u) - 1
  let issub : Bool := decide (fpi.nbits - scale - 1 ≤ -(fpi.bias - 1))
  (if issub then scale - (-(fpi.nbits - scale - 1) - (fpi.bias - 2)) else scale, issub)

/-- End of the first branch of step 3 of `str2num`, after the loop: round,
clear `sub` when the quotient kept its length, shift a carry out, and choose
the exponent.  Returns the result code, `*exp` and `m`. -/
def str2numRound (fpi : FPI) (issub : Bool) (s : NumState) : Nat × Int × MINT :=
  let rr := mround s.me s.m s.d
  let tm := topbit rr.2.1
  let issub : Bool := if issub ∧ tm.2 = fpi.nbits - 1 then false else issub
  let m := if tm.2 = fpi.nbits then mshr tm.1 1 false else tm.1
  let scale := if tm.2 = fpi.nbits then s.scale - 1 else s.scale
  if issub then (SOFT_NORMAL, -fpi.bias, m)
  else (SOFT_NORMAL, fpi.nbits - scale - fpi.expadj, m)

/-- First branch of step 3 of `str2num`, taken when `t - u < fpi->nbits`: scale
the numerator up, divide, normalise, round. -/
def str2numBelow (fuel : Nat) (m mm me d : MINT) (fpi : FPI) (t u : Int) :
    Option (Nat × Int × MINT) :=
  let sc := str2numSub fpi t u
  let mm := mshl mm sc.1.toNat
  let r := mdiv mm me m d
  match str2numLoop fpi fuel { mm := r.1, me := r.2.1, m := r.2.2.1, d := r.2.2.2,
                               scale := sc.1 } with
  | none => none
  | some s => some (str2numRound fpi sc.2 s)

/-- Second branch of step 3 of `str2num`: scale the denominator up, divide,
divide again by half the denominator when the quotient is a bit short, round. -/
def str2numAbove (m mm me d : MINT) (fpi : FPI) (t u : Int) : Nat × Int × MINT :=
  let scale : Int := (t - u) - fpi.nbits + 1
  let me := mshl me scale.toNat
  let r := mdiv mm me m d
  let tq := topbit r.2.2.1
  let short : Bool := decide (tq.2 < fpi.nbits - 1)
  let me1 := if short then mshr r.2.1 1 false else r.2.1
  let r1 := if short then mdiv r.1 me1 tq.1 r.2.2.2 else (r.1, me1, tq.1, r.2.2.2)
  let scale := if short then scale - 1 else scale
  let rr := mround r1.2.1 r1.2.2.1 r1.2.2.2
  let tm := topbit rr.2.1
  let m := if tm.2 = fpi.nbits then mshr tm.1 1 false else tm.1
  let scale := if tm.2 = fpi.nbits then scale + 1 else scale
  let exp := fpi.nbits + scale - fpi.expadj
  if exp > fpi.maxexp then (SOFT_INFINITE, exp, m) else (SOFT_NORMAL, exp, m)

/-- Step 3 of `str2num`, after the literal has been read into `mm / me`:
returns the result code, `*exp` and `m`. -/
def str2numScale (fuel : Nat) (m mm me d : MINT) (fpi : FPI) :
    Option (Nat × Int × MINT) :=
  let tt := topbit mm
  let tu := topbit me
  if tt.2 - tu.2 < fpi.nbits then str2numBelow fuel m tt.1 tu.1 d fpi tt.2 tu.2
  else some (str2numAbove m tt.1 tu.1 d fpi tt.2 tu.2)

/-- The routine `str2num`: `exp` and `m` are the states of `*exp` and `*m` before
the call; returns the result code and their states after it.  `fuel` bounds the
rounds of the normalising loop; `none` stands for a call of `cerror` or for a
loop that outlasts the fuel. -/
def str2num (fuel : Nat) (str : List Char) (exp : Int) (m : MINT) (fpi : FPI) :
    Option (Nat × Int × MINT) :=
  let d := MINTDECL
  let mm := minit MINTDECL 0
  let me := minit MINTDECL 1
  let hex : Bool := str.head? = some '0' ∧
    (str.tail.head? = some 'x' ∨ str.tail.head? = some 'X')
  match (if hex then hexbig (str.drop 2) mm me else decbig str mm me) with
  | none => none
  | some (rv, mm, me) =>
    if rv ≠ SOFT_NORMAL then some (rv, exp, m)
    else if MINTZ mm then some (SOFT_ZERO, exp, m)
    else str2numScale fuel m mm me d fpi

/-- The routine `strtosf`: returns `*sfp`; the local `e` starts as 0. -/
def strtosf (fuel : Nat) (sfp : SF) (str : List Char) (tw : TWORD) : Option SF :=
  match str2num fuel str 0 MINTDECL (fpis TWORD.LDOUBLE) with
  | none => none
  | some (rv, e, m) => some (ieeex80_make sfp rv 0 e m).1

/-! ## Values of literals, as the specification words them -/

/-- Number denoted by a list of decimal digits. -/
def decValue (ds : List Char) : Nat :=
  ds.foldl (fun acc c => acc * 10 + (c.toNat - '0'.toNat)) 0

/-- No limb at or above the length is set. -/
def Clean (m : MINT) : Prop := ∀ i : Nat, m.len ≤ i → m.val i = 0

/-- Round-half-to-even rounding of the quotient `a / b`. -/
def rneDiv (a b : Nat) : Nat :=
  if 2 * (a % b) > b ∨ (2 * (a % b) = b ∧ a / b % 2 = 1) then a / b + 1 else a / b

/-! ## Predicates used in the statements -/

/-- Canonical magnitude, or the single zero limb that also stands for zero. -/
def CanonZ (m : MINT) : Prop := Canon m ∨ (m.len = 1 ∧ m.val 0 = 0)

/-- Invariant of the loop of `mdiv` when the bits `k` and above of the
numerator have been consumed. -/
def DivInv (n d : MINT) (k : Nat) (s : DivState) : Prop :=
  Limbs16 s.q ∧ Limbs16 s.r ∧ Limbs16 s.a ∧ Limbs16 s.b ∧ s.q.len = n.len ∧
  CanonZ s.r ∧ s.r.sign = 0 ∧
  (0 < value d → value s.r < value d ∧
    ∃ Q : Nat, value s.q = Q * 2 ^ k ∧ value n / 2 ^ k = Q * value d + value s.r)

/-! ## Rounding, as the specification words it -/

/-- Sticky right shift of a number by `k` bits: the quotient, with the flag
"some dropped bit was set" or-ed into bit 0. -/
def stickyVal (x k : Nat) : Nat := (x / 2 ^ k) ||| (if x % 2 ^ k = 0 then 0 else 1)

/-- Round-half-to-even rounding of `x / 2^k`: the quotient, plus one when the
remainder exceeds half of `2^k`, or equals it while the quotient is odd. -/
def rne (x k : Nat) : Nat :=
  if 2 * (x % 2 ^ k) > 2 ^ k ∨ (2 * (x % 2 ^ k) = 2 ^ k ∧ x / 2 ^ k % 2 = 1) then x / 2 ^ k + 1
  else x / 2 ^ k

/-- Round-half-to-even rounding of `x / 2^d` for an integer `d`; for negative `d`
the quotient is the exact product `x * 2^(-d)`. -/
def rneScale (x : Nat) (d : Int) : Nat := if 0 ≤ d then rne x d.toNat else x * 2 ^ (-d).toNat

/-! ## Literals and wire values, as the specification words them -/

/-- A decimal literal as the specification words it,
`digits[.digits][e[+-]digits][suffix]`: the digits before the point, whether a
point is written, the digits after it, the exponent part (its letter, its sign
characters and its digits) if there is one, and the suffix letters. -/
structure DecLit where
  ipart : List Char
  dot : Bool
  fpart : List Char
  expo : Option (Char × List Char × List Char)
  suffix : List Char

/-- Characters of the exponent part. -/
def DecLit.expText (l : DecLit) : List Char :=
  match l.expo with
  | none => []
  | some (e, sgn, ds) => e :: (sgn ++ ds)

/-- Exponent written in the literal, 0 when there is none. -/
def DecLit.expValue (l : DecLit) : Int :=
  match l.expo with
  | none => 0
  | some (_, sgn, ds) => if sgn = ['-'] then -(decValue ds : Int) else (decValue ds : Int)

/-- Characters of the literal. -/
def DecLit.text (l : DecLit) : List Char :=
  l.ipart ++ ((if l.dot then '.' :: l.fpart else []) ++ (l.expText ++ l.suffix))

/-- Well-formedness of the parts of a literal. -/
def DecLit.WellFormed (l : DecLit) : Prop :=
  (∀ c ∈ l.ipart, '0' ≤ c ∧ c ≤ '9') ∧ (∀ c ∈ l.fpart, '0' ≤ c ∧ c ≤ '9') ∧
  (l.dot = false → l.fpart = []) ∧
  (match l.expo with
    | none => True
    | some (e, sgn, ds) =>
      (e = 'e' ∨ e = 'E') ∧ (sgn = [] ∨ sgn = ['+'] ∨ sgn = ['-']) ∧
      ∀ c ∈ ds, '0' ≤ c ∧ c ≤ '9') ∧
  (∀ c ∈ l.suffix, c = 'i' ∨ c = 'I' ∨ c = 'l' ∨ c = 'L' ∨ c = 'f' ∨ c = 'F')

/-- Net decimal exponent of the literal: the written exponent less the number
of digits after the point. -/
def DecLit.exp10 (l : DecLit) : Int := l.expValue - (l.fpart.length : Int)

/-- Exact value of the literal. -/
def DecLit.exactValue (l : DecLit) : ℚ :=
  (decValue (l.ipart ++ l.fpart) : ℚ) * (10 : ℚ) ^ l.exp10

/-- What the loop of `decbig` keeps true of its locals. -/
def DecInv (s : DecState) : Prop :=
  Limbs16 s.mmant ∧ s.mmant.sign = 0 ∧ Limbs16 s.ten ∧ s.ten.sign = 0 ∧ value s.ten = 10 ∧
  Limbs16 s.b ∧ Limbs16 s.ind

/-- Real value of a long-double wire value with a finite exponent field: sign,
the 64-bit significand with its explicit integer bit, and the exponent field
less the bias (an all-zero field counts as 1). -/
def x80Value (v : SF) : ℚ :=
  (-1 : ℚ) ^ (v.fp2 / 32768 % 2) * ((v.fp0 + v.fp1 * 4294967296 : Nat) : ℚ)
    * (2 : ℚ) ^ (((max (v.fp2 % 32768) 1 : Nat) : Int) - 16446)

/-- Real value of the binary64 encoding `hi:lo` with a finite exponent field:
sign, the 52-bit fraction with the hidden bit of a normal number, and the
exponent field less the bias (an all-zero field counts as 1). -/
def binary64Value (hi lo : Nat) : ℚ :=
  (-1 : ℚ) ^ (hi / 2147483648 % 2)
    * (((if hi / 1048576 % 2048 = 0 then 0 else 4503599627370496)
        + hi % 1048576 * 4294967296 + lo : Nat) : ℚ)
    * (2 : ℚ) ^ (((max (hi / 1048576 % 2048) 1 : Nat) : Int) - 1075)

/-- Number denoted by a list of hexadecimal digits. -/
def hexValue (ds : List Char) : Nat :=
  ds.foldl (fun acc c => acc * 16 + (hexDigit c).getD 0) 0

/-! ## Elementary facts on limb sequences -/

theorem limbsVal_congr {v w : Int → Nat} (n : Nat)
    (h : ∀ i : Nat, i < n → v i = w i) : limbsVal v n = limbsVal w n := by
  induction n with
  | zero => rfl
  | succ n ih =>
    simp only [limbsVal]
    rw [ih (fun i hi => h i (by omega)), h n (by omega)]

theorem limbsVal_lt {v : Int → Nat} (n : Nat)
    (h : ∀ i : Nat, i < n → v i < 65536) : limbsVal v n < 65536 ^ n := by
  induction n with
  | zero => simp [limbsVal]
  | succ n ih =>
    simp only [limbsVal]
    have h1 := ih (fun i hi => h i (by omega))
    have h2 := h n (by omega)
    have h3 : v n * 65536 ^ n ≤ 65535 * 65536 ^ n := Nat.mul_le_mul_right _ (by omega)
    rw [pow_succ]
    omega

theorem limbsVal_update_ge (v : Int → Nat) (n : Nat) (j : Int) (x : Nat)
    (h : j < 0 ∨ (n : Int) ≤ j) : limbsVal (Function.update v j x) n = limbsVal v n := by
  apply limbsVal_congr
  intro i hi
  rw [Function.update_noteq]
  omega

theorem limbsVal_zero_of (v : Int → Nat) (n : Nat)
    (h : ∀ i : Nat, i < n → v i = 0) : limbsVal v n = 0 := by
  induction n with
  | zero => rfl
  | succ n ih =>
    simp only [limbsVal]
    rw [ih (fun i hi => h i (by omega)), h n (by omega)]
    simp

/-- Limb `i` is digit `i` of the value in base 65536. -/
theorem limbsVal_digit {v : Int → Nat} (n : Nat)
    (h : ∀ i : Nat, i < n → v i < 65536) (i : Nat) (hi : i < n) :
    v i = limbsVal v n / 65536 ^ i % 65536 := by
  induction n with
  | zero => omega
  | succ n ih =>
    simp only [limbsVal]
    have hlt := limbsVal_lt n (fun k hk => h k (by omega))
    rcases Nat.lt_or_ge i n with hin | hin
    · have e : n = i + 1 + (n - i - 1) := by omega
      have hp : 65536 ^ n = 65536 ^ i * (65536 * 65536 ^ (n - i - 1)) := by
        conv_lhs => rw [e]
        rw [pow_add, pow_succ, Nat.mul_assoc]
      have : v n * 65536 ^ n = 65536 ^ i * (65536 * (v n * 65536 ^ (n - i - 1))) := by
        rw [hp]
        ring
      rw [this, Nat.add_mul_div_left _ _ (by positivity), Nat.add_mul_mod_self_left]
      exact ih (fun k hk => h k (by omega)) hin
    · have e : i = n := by omega
      subst e
      rw [Nat.add_mul_div_right _ _ (by positivity), Nat.div_eq_of_lt hlt, Nat.zero_add,
        Nat.mod_eq_of_lt (h i (by omega))]

theorem limbs_eq_of_limbsVal_eq {v w : Int → Nat} (n : Nat)
    (hv : ∀ i : Nat, i < n → v i < 65536) (hw : ∀ i : Nat, i < n → w i < 65536)
    (h : limbsVal v n = limbsVal w n) (i : Nat) (hi : i < n) : v i = w i := by
  rw [limbsVal_digit n hv i hi, limbsVal_digit n hw i hi, h]

theorem limbsVal_ge_top {v : Int → Nat} (n : Nat) (h : v n ≠ 0) :
    65536 ^ n ≤ limbsVal v (n + 1) := by
  simp only [limbsVal]
  have : 1 * 65536 ^ n ≤ v n * 65536 ^ n := Nat.mul_le_mul_right _ (by omega)
  omega

/-! ## chomp -/

theorem chompLen_le (v : Int → Nat) (n : Nat) : chompLen v n ≤ n := by
  induction n with
  | zero => simp [chompLen]
  | succ n ih =>
    simp only [chompLen]
    split <;> omega

theorem limbsVal_chompLen (v : Int → Nat) (n : Nat) :
    limbsVal v (chompLen v n) = limbsVal v n := by
  induction n with
  | zero => rfl
  | succ n ih =>
    simp only [chompLen]
    split
    · rename_i h
      simp [limbsVal, ih, h]
    · rfl

theorem chompLen_top (v : Int → Nat) (n : Nat) :
    chompLen v n = 0 ∨ v ((chompLen v n : Int) - 1) ≠ 0 := by
  induction n with
  | zero => simp [chompLen]
  | succ n ih =>
    simp only [chompLen]
    split
    · exact ih
    · rename_i h
      right
      have : ((n + 1 : Nat) : Int) - 1 = (n : Int) := by omega
      rwa [this]

theorem chompLen_of_top (v : Int → Nat) (n : Nat)
    (h : n = 0 ∨ v ((n : Int) - 1) ≠ 0) : chompLen v n = n := by
  cases n with
  | zero => rfl
  | succ n =>
    have : ((n + 1 : Nat) : Int) - 1 = (n : Int) := by omega
    rw [this] at h
    simp only [chompLen]
    rw [if_neg]
    rcases h with h | h
    · omega
    · exact h

theorem chompLen_zero_of (v : Int → Nat) (n : Nat)
    (h : ∀ i : Nat, i < n → v i = 0) : chompLen v n = 0 := by
  induction n with
  | zero => rfl
  | succ n ih =>
    simp only [chompLen]
    rw [if_pos (h n (by omega))]
    exact ih (fun i hi => h i (by omega))

theorem value_chomp (a : MINT) : value (chomp a) = value a :=
  limbsVal_chompLen a.val a.len

theorem canon_chomp (a : MINT) : Canon (chomp a) := chompLen_top a.val a.len

theorem chomp_of_canon (a : MINT) (h : Canon a) : chomp a = a := by
  unfold chomp
  rw [chompLen_of_top a.val a.len h]

theorem chomp_val (a : MINT) : (chomp a).val = a.val := rfl

theorem chomp_sign (a : MINT) : (chomp a).sign = a.sign := rfl

theorem chomp_len_le (a : MINT) : (chomp a).len ≤ a.len := chompLen_le a.val a.len

/-- A canonical magnitude of length `n` lies in `[65536^(n-1), 65536^n)`. -/
theorem canon_value_ge (a : MINT) (h : Canon a) (hl : 0 < a.len) :
    65536 ^ (a.len - 1) ≤ value a := by
  unfold Canon at h
  unfold value
  obtain ⟨n, hn⟩ : ∃ n, a.len = n + 1 := ⟨a.len - 1, by omega⟩
  rw [hn] at h ⊢
  have e : ((n + 1 : Nat) : Int) - 1 = (n : Int) := by omega
  rw [e] at h
  rcases h with h | h
  · omega
  · simpa using limbsVal_ge_top n h

theorem value_lt (a : MINT) (h : Limbs16 a) : value a < 65536 ^ a.len :=
  limbsVal_lt a.len (fun i _ => h i)

/-- Canonical magnitudes of equal value have equal length. -/
theorem canon_len_eq (a b : MINT) (ha : Limbs16 a) (hb : Limbs16 b)
    (ca : Canon a) (cb : Canon b) (h : value a = value b) : a.len = b.len := by
  by_contra hne
  rcases Nat.lt_or_gt_of_ne hne with hlt | hlt
  · have h1 := canon_value_ge b cb (by omega)
    have h2 := value_lt a ha
    have h3 : 65536 ^ a.len ≤ 65536 ^ (b.len - 1) :=
      Nat.pow_le_pow_right (by omega) (by omega)
    omega
  · have h1 := canon_value_ge a ca (by omega)
    have h2 := value_lt b hb
    have h3 : 65536 ^ b.len ≤ 65536 ^ (a.len - 1) :=
      Nat.pow_le_pow_right (by omega) (by omega)
    omega

/-! ## geq -/

theorem geqLoop_iff (lv rv : Int → Nat) (n : Nat)
    (hl : ∀ i : Nat, i < n → lv i < 65536) (hr : ∀ i : Nat, i < n → rv i < 65536) :
    (geqLoop lv rv n = 1 ↔ limbsVal rv n ≤ limbsVal lv n) ∧
    (geqLoop lv rv n = 0 ∨ geqLoop lv rv n = 1) := by
  induction n with
  | zero => simp [geqLoop, limbsVal]
  | succ n ih =>
    have ih1 := ih (fun i hi => hl i (by omega)) (fun i hi => hr i (by omega))
    have bl := limbsVal_lt n (fun i hi => hl i (by omega))
    have br := limbsVal_lt n (fun i hi => hr i (by omega))
    simp only [geqLoop, limbsVal]
    by_cases h1 : rv n > lv n
    · rw [if_pos h1]
      have : (lv n + 1) * 65536 ^ n ≤ rv n * 65536 ^ n := Nat.mul_le_mul_right _ h1
      rw [Nat.succ_mul] at this
      constructor
      · constructor
        · intro h; omega
        · intro h; omega
      · left; rfl
    · rw [if_neg h1]
      by_cases h2 : rv n < lv n
      · rw [if_pos h2]
        have : (rv n + 1) * 65536 ^ n ≤ lv n * 65536 ^ n := Nat.mul_le_mul_right _ h2
        rw [Nat.succ_mul] at this
        constructor
        · constructor
          · intro _; omega
          · intro _; rfl
        · right; rfl
      · rw [if_neg h2]
        have e : rv n = lv n := by omega
        rw [e]
        constructor
        · rw [ih1.1]; omega
        · exact ih1.2

theorem geq_iff (l r : MINT) (hl : Limbs16 l) (hr : Limbs16 r)
    (cl : Canon l) (cr : Canon r) : geq l r = 1 ↔ value r ≤ value l := by
  unfold geq
  by_cases h1 : l.len > r.len
  · rw [if_pos h1]
    have a1 := canon_value_ge l cl (by omega)
    have a2 := value_lt r hr
    have a3 : 65536 ^ r.len ≤ 65536 ^ (l.len - 1) :=
      Nat.pow_le_pow_right (by omega) (by omega)
    constructor
    · intro _; omega
    · intro _; rfl
  · rw [if_neg h1]
    by_cases h2 : l.len < r.len
    · rw [if_pos h2]
      have a1 := canon_value_ge r cr (by omega)
      have a2 := value_lt l hl
      have a3 : 65536 ^ l.len ≤ 65536 ^ (r.len - 1) :=
        Nat.pow_le_pow_right (by omega) (by omega)
      constructor
      · intro h; omega
      · intro h; omega
    · rw [if_neg h2]
      have e : r.len = l.len := by omega
      have := (geqLoop_iff l.val r.val l.len (fun i _ => hl i) (fun i _ => hr i)).1
      unfold value
      rw [e]
      exact this

/-- C4: on canonical magnitudes `geq` is the order of the values, hence
reflexive, total, transitive, and antisymmetric up to identical limbs. -/
theorem geq_total_order (l r m : MINT) (hl : Limbs16 l) (hr : Limbs16 r) (hm : Limbs16 m)
    (cl : Canon l) (cr : Canon r) (cm : Canon m) :
    (geq l r = 1 ↔ value r ≤ value l) ∧
    geq l l = 1 ∧
    (geq l r = 1 ∨ geq r l = 1) ∧
    (geq l r = 1 → geq r m = 1 → geq l m = 1) ∧
    (geq l r = 1 → geq r l = 1 →
      l.len = r.len ∧ ∀ i : Nat, i < l.len → l.val i = r.val i) := by
  have lr := geq_iff l r hl hr cl cr
  have rl := geq_iff r l hr hl cr cl
  have rm := geq_iff r m hr hm cr cm
  have lm := geq_iff l m hl hm cl cm
  have ll := geq_iff l l hl hl cl cl
  refine ⟨lr, ll.2 (Nat.le_refl _), ?_, ?_, ?_⟩
  · rcases Nat.le_total (value r) (value l) with h | h
    · exact Or.inl (lr.2 h)
    · exact Or.inr (rl.2 h)
  · intro h1 h2
    exact lm.2 (Nat.le_trans (rm.1 h2) (lr.1 h1))
  · intro h1 h2
    have hv : value l = value r := Nat.le_antisymm (rl.1 h2) (lr.1 h1)
    have hlen := canon_len_eq l r hl hr cl cr hv
    refine ⟨hlen, ?_⟩
    intro i hi
    apply limbs_eq_of_limbsVal_eq l.len (fun k _ => hl k) (fun k _ => hr k) _ i hi
    unfold value at hv
    rw [hv, hlen]

/-- Witness for C4 on the one-limb magnitudes 5, 3 and 2. -/
theorem geq_total_order_witness :
    (geq ⟨0, 1, fun _ => 5⟩ ⟨0, 1, fun _ => 3⟩ = 1 ↔
      value ⟨0, 1, fun _ => 3⟩ ≤ value ⟨0, 1, fun _ => 5⟩) ∧
    geq ⟨0, 1, fun _ => 5⟩ ⟨0, 1, fun _ => 5⟩ = 1 :=
  have h := geq_total_order ⟨0, 1, fun _ => 5⟩ ⟨0, 1, fun _ => 3⟩ ⟨0, 1, fun _ => 2⟩
    (fun _ => show (5 : Nat) < 65536 by decide) (fun _ => show (3 : Nat) < 65536 by decide)
    (fun _ => show (2 : Nat) < 65536 by decide)
    (Or.inr (show (5 : Nat) ≠ 0 by decide)) (Or.inr (show (3 : Nat) ≠ 0 by decide))
    (Or.inr (show (2 : Nat) ≠ 0 by decide))
  ⟨h.1, h.2.1⟩

/-! ## Bit operations on 16-bit quantities -/

theorem and_two_pow_ne_zero (x k : Nat) : x &&& 2 ^ k ≠ 0 ↔ x / 2 ^ k % 2 = 1 := by
  rw [← decide_eq_true_iff (p := x / 2 ^ k % 2 = 1), ← Nat.testBit_to_div_mod]
  constructor
  · intro h
    obtain ⟨i, hi⟩ := Nat.ne_zero_implies_bit_true h
    rw [Nat.testBit_and, Nat.testBit_two_pow] at hi
    simp only [Bool.and_eq_true, decide_eq_true_eq] at hi
    rw [hi.2]
    exact hi.1
  · intro h hz
    have : (x &&& 2 ^ k).testBit k = true := by
      rw [Nat.testBit_and, h, Nat.testBit_two_pow_self]
      rfl
    rw [hz] at this
    simp at this

theorem and_8000 (x : Nat) (hx : x < 65536) : x &&& 0x8000 ≠ 0 ↔ 32768 ≤ x := by
  have := and_two_pow_ne_zero x 15
  norm_num at this ⊢
  rw [this]
  omega

theorem shl1_or (x y : Nat) (hy : y < 65536) :
    ((x <<< 1) ||| (y >>> 15)) = 2 * x + y / 32768 := by
  rw [Nat.shiftLeft_eq, Nat.shiftRight_eq_div_pow]
  have h : y / 2 ^ 15 < 2 ^ 1 := by norm_num; omega
  have := Nat.mul_add_lt_is_or h x
  rw [← Nat.mul_comm] at this
  rw [← this]
  norm_num
  omega

theorem shr1_or (x y : Nat) (hx : x < 65536) :
    ((x >>> 1) ||| (y <<< 15)) = x / 2 + y * 32768 := by
  rw [Nat.shiftLeft_eq, Nat.shiftRight_eq_div_pow, Nat.or_comm]
  have h : x / 2 ^ 1 < 2 ^ 15 := by norm_num; omega
  have := Nat.mul_add_lt_is_or h y
  rw [← Nat.mul_comm] at this
  rw [← this]
  norm_num
  omega

theorem or_bit0 (x k : Nat) (hk : k ≤ 1) : x ||| k = x + (if x % 2 = 0 then k else 0) := by
  have h1 : x = 2 ^ 1 * (x / 2) + x % 2 := by norm_num; omega
  rcases Nat.eq_zero_or_pos k with h | h
  · subst h; simp
  · have hk1 : k = 1 := by omega
    subst hk1
    rcases Nat.mod_two_eq_zero_or_one x with h0 | h0
    · rw [if_pos h0]
      have e : x = 2 ^ 1 * (x / 2) := by omega
      have := Nat.mul_add_lt_is_or (show 1 < 2 ^ 1 by norm_num) (x / 2)
      rw [← e] at this
      exact this.symm
    · rw [if_neg (by omega)]
      apply Nat.eq_of_testBit_eq
      intro i
      rw [Nat.testBit_or]
      cases i with
      | zero => simp [Nat.testBit_zero, h0]
      | succ i => simp [Nat.testBit_succ]

/-! ## mshl -/

theorem mshlLoop_apply (n : Nat) (v : Int → Nat) (j : Int) :
    mshlLoop v n j =
      if 1 ≤ j ∧ j ≤ n then ((v j <<< 1) ||| (v (j - 1) >>> 15)) % 65536 else v j := by
  induction n generalizing v with
  | zero =>
    simp only [mshlLoop]
    rw [if_neg]
    omega
  | succ n ih =>
    simp only [mshlLoop]
    rw [ih]
    by_cases h : 1 ≤ j ∧ j ≤ (n : Int)
    · rw [if_pos h, if_pos (by omega)]
      rw [Function.update_noteq (by omega), Function.update_noteq (by omega)]
    · rw [if_neg h]
      by_cases h2 : j = ((n + 1 : Nat) : Int)
      · rw [if_pos (by omega)]
        subst h2
        rw [Function.update_same]
        have : ((n + 1 : Nat) : Int) - 1 = (n : Int) := by omega
        rw [this]
      · rw [if_neg (by omega), Function.update_noteq h2]

/-- Doubling a limb sequence: the carry out of the top is accounted for. -/
theorem limbsVal_double (v w : Int → Nat) (n : Nat)
    (hv : ∀ i : Nat, i < n → v i < 65536)
    (h0 : w 0 = (2 * v 0) % 65536)
    (hw : ∀ i : Nat, i + 1 < n →
      w ((i + 1 : Nat) : Int) = (2 * v ((i + 1 : Nat) : Int) + v i / 32768) % 65536) :
    limbsVal w n + (if n = 0 then 0 else v ((n : Int) - 1) / 32768) * 65536 ^ n
      = 2 * limbsVal v n := by
  induction n with
  | zero => simp [limbsVal]
  | succ n ih =>
    have ih1 := ih (fun i hi => hv i (by omega)) (fun i hi => hw i (by omega))
    have e : ((n + 1 : Nat) : Int) - 1 = (n : Int) := by omega
    rw [if_neg (by omega), e]
    simp only [limbsVal]
    have hvn := hv n (by omega)
    have key : w n + 65536 * (v n / 32768)
        = 2 * v n + (if n = 0 then 0 else v ((n : Int) - 1) / 32768) := by
      cases n with
      | zero =>
        simp only [if_true]
        have : w ((0 : Nat) : Int) = w 0 := rfl
        rw [this, h0]
        have : v ((0 : Nat) : Int) = v 0 := rfl
        rw [this] at hvn ⊢
        omega
      | succ k =>
        rw [if_neg (by omega)]
        have e2 : ((k + 1 : Nat) : Int) - 1 = (k : Int) := by omega
        rw [e2, hw k (by omega)]
        have := hv k (by omega)
        omega
    have k2 := congrArg (fun t => t * 65536 ^ n) key
    simp only at k2
    rw [pow_succ]
    linarith

theorem mshl1_props (a : MINT) (ha : Limbs16 a) :
    Limbs16 (mshl1 a) ∧ value (mshl1 a) = 2 * value a ∧
    (mshl1 a).sign = a.sign ∧
    a.len ≤ (mshl1 a).len ∧ (mshl1 a).len ≤ a.len + 1 ∧
    (0 < a.len → a.val ((a.len : Int) - 1) ≠ 0 →
      (mshl1 a).val (((mshl1 a).len : Int) - 1) ≠ 0) ∧
    ((mshl1 a).len = 1 → a.len = 0 → (mshl1 a).val 0 = 0) ∧
    (0 < (mshl1 a).len → (mshl1 a).val 0 % 2 = 0) ∧
    (a.val ((a.len : Int) - 1) < 32768 → (mshl1 a).len = a.len) := by
  -- the state after the optional growth by one zero limb
  obtain ⟨a1, ha1⟩ : ∃ a1 : MINT, a1 =
      (if a.val ((a.len : Int) - 1) &&& 0x8000 ≠ 0 then
        { a with val := Function.update a.val a.len 0, len := a.len + 1 } else a) := ⟨_, rfl⟩
  obtain ⟨lp, hlp⟩ : ∃ lp : Int → Nat, lp = mshlLoop a1.val (a1.len - 1) := ⟨_, rfl⟩
  obtain ⟨i0, hi0⟩ : ∃ i0 : Int, i0 = (if a1.len = 0 then -1 else 0) := ⟨_, rfl⟩
  have rval : (mshl1 a).val = Function.update lp i0 ((lp i0 <<< 1) % 65536) := by
    rw [hlp, hi0, ha1]; rfl
  have rlen : (mshl1 a).len = a1.len := by rw [ha1]; rfl
  have rsign : (mshl1 a).sign = a1.sign := by rw [ha1]; rfl
  have grown : a.val ((a.len : Int) - 1) &&& 0x8000 ≠ 0 →
      a1.len = a.len + 1 ∧ a1.val = Function.update a.val a.len 0 ∧ a1.sign = a.sign := by
    intro h; rw [ha1, if_pos h]; exact ⟨rfl, rfl, rfl⟩
  have same : ¬ (a.val ((a.len : Int) - 1) &&& 0x8000 ≠ 0) → a1 = a := by
    intro h; rw [ha1, if_neg h]
  have ha1L : Limbs16 a1 := by
    by_cases hg : a.val ((a.len : Int) - 1) &&& 0x8000 ≠ 0
    · intro i
      rw [(grown hg).2.1]
      by_cases h : i = (a.len : Int)
      · rw [h, Function.update_same]; omega
      · rw [Function.update_noteq h]; exact ha i
    · rw [same hg]; exact ha
  have hval1 : value a1 = value a := by
    by_cases hg : a.val ((a.len : Int) - 1) &&& 0x8000 ≠ 0
    · unfold value
      rw [(grown hg).1, (grown hg).2.1]
      simp only [limbsVal, Function.update_same]
      rw [limbsVal_update_ge _ _ _ _ (Or.inr (by omega))]
      simp
    · rw [same hg]
  have hsign1 : a1.sign = a.sign := by
    by_cases hg : a.val ((a.len : Int) - 1) &&& 0x8000 ≠ 0
    · exact (grown hg).2.2
    · rw [same hg]
  have hlen1 : a.len ≤ a1.len ∧ a1.len ≤ a.len + 1 := by
    by_cases hg : a.val ((a.len : Int) - 1) &&& 0x8000 ≠ 0
    · rw [(grown hg).1]; omega
    · rw [same hg]; omega
  -- the top limb of the grown state never has its top bit set
  have htop1 : 0 < a1.len → a1.val ((a1.len : Int) - 1) < 32768 := by
    intro _
    by_cases hg : a.val ((a.len : Int) - 1) &&& 0x8000 ≠ 0
    · rw [(grown hg).1, (grown hg).2.1]
      have : ((a.len + 1 : Nat) : Int) - 1 = (a.len : Int) := by omega
      rw [this, Function.update_same]; omega
    · rw [same hg]
      have := (and_8000 _ (ha ((a.len : Int) - 1))).not.mp hg
      omega
  have hL : Limbs16 (mshl1 a) := by
    intro i
    rw [rval]
    by_cases h : i = i0
    · rw [h, Function.update_same]; exact Nat.mod_lt _ (by omega)
    · rw [Function.update_noteq h, hlp, mshlLoop_apply]
      split
      · exact Nat.mod_lt _ (by omega)
      · exact ha1L i
  refine ⟨hL, ?_, ?_, ?_, ?_, ?_, ?_, ?_, ?_⟩
  · -- value
    rw [← hval1]
    unfold value
    rw [rval, rlen]
    rcases Nat.eq_zero_or_pos a1.len with h0 | hpos
    · simp [h0, limbsVal]
    · have hi00 : i0 = 0 := by rw [hi0, if_neg (by omega)]
      rw [hi00]
      have hd := limbsVal_double a1.val
        (Function.update lp 0 ((lp 0 <<< 1) % 65536)) a1.len
        (fun i _ => ha1L i)
        (by
          rw [Function.update_same, hlp, mshlLoop_apply, if_neg (by omega), Nat.shiftLeft_eq]
          norm_num [Nat.mul_comm])
        (by
          intro i hi
          rw [Function.update_noteq (by omega), hlp, mshlLoop_apply, if_pos (by omega)]
          have : ((i + 1 : Nat) : Int) - 1 = (i : Int) := by omega
          rw [this, shl1_or _ _ (ha1L i)])
      rw [if_neg (by omega)] at hd
      have hc : a1.val ((a1.len : Int) - 1) / 32768 = 0 := by
        have := htop1 hpos; omega
      rw [hc] at hd
      simpa using hd
  · rw [rsign]; exact hsign1
  · rw [rlen]; exact hlen1.1
  · rw [rlen]; exact hlen1.2
  · intro hl htop
    have h32 := htop1 (by omega)
    have hi00 : i0 = 0 := by rw [hi0, if_neg (by omega)]
    rw [rval, rlen, hi00]
    by_cases hg : a.val ((a.len : Int) - 1) &&& 0x8000 ≠ 0
    · have hge := (and_8000 _ (ha ((a.len : Int) - 1))).mp hg
      rw [(grown hg).1]
      have x1 : ((a.len + 1 : Nat) : Int) - 1 = (a.len : Int) := by omega
      rw [x1, Function.update_noteq (by omega), hlp, mshlLoop_apply, (grown hg).1,
        if_pos (by omega), shl1_or _ _ (ha1L _), (grown hg).2.1, Function.update_same,
        Function.update_noteq (by omega)]
      have := ha ((a.len : Int) - 1)
      omega
    · have e3 := same hg
      rw [e3] at h32 hlp ⊢
      by_cases hone : a.len = 1
      · have e : ((a.len : Nat) : Int) - 1 = 0 := by omega
        rw [e] at htop h32 ⊢
        rw [Function.update_same, hlp, mshlLoop_apply, if_neg (by omega), Nat.shiftLeft_eq]
        omega
      · rw [Function.update_noteq (by omega), hlp, mshlLoop_apply, if_pos (by omega),
          shl1_or _ _ (ha _)]
        have := ha ((a.len : Int) - 1 - 1)
        omega
  · intro h1 h0
    rw [rlen] at h1
    have hi00 : i0 = 0 := by rw [hi0, if_neg (by omega)]
    rw [rval, hi00, Function.update_same, hlp, mshlLoop_apply, if_neg (by omega)]
    have : a1.val 0 = 0 := by
      by_cases hg : a.val ((a.len : Int) - 1) &&& 0x8000 ≠ 0
      · rw [(grown hg).2.1, h0]; exact Function.update_same _ _ _
      · rw [same hg] at h1; omega
    rw [this]; rfl
  · intro hl
    rw [rlen] at hl
    have hi00 : i0 = 0 := by rw [hi0, if_neg (by omega)]
    rw [rval, hi00, Function.update_same, Nat.shiftLeft_eq]
    omega
  · intro ht
    rw [rlen]
    have hg : ¬ (a.val ((a.len : Int) - 1) &&& 0x8000 ≠ 0) := by
      rw [and_8000 _ (ha _)]; omega
    rw [same hg]


theorem mshl_props (n : Nat) (a : MINT) (ha : Limbs16 a) :
    Limbs16 (mshl a n) ∧ value (mshl a n) = value a * 2 ^ n ∧
    (mshl a n).sign = a.sign ∧ a.len ≤ (mshl a n).len ∧
    (0 < a.len → a.val ((a.len : Int) - 1) ≠ 0 →
      (mshl a n).val (((mshl a n).len : Int) - 1) ≠ 0) := by
  induction n generalizing a with
  | zero => exact ⟨ha, by simp [mshl], rfl, Nat.le_refl _, fun _ h => h⟩
  | succ n ih =>
    have h1 := mshl1_props a ha
    have h2 := ih (mshl1 a) h1.1
    simp only [mshl]
    refine ⟨h2.1, ?_, ?_, ?_, ?_⟩
    · rw [h2.2.1, h1.2.1, pow_succ]; ring
    · rw [h2.2.2.1, h1.2.2.1]
    · exact Nat.le_trans h1.2.2.2.1 h2.2.2.2.1
    · intro hl ht
      exact h2.2.2.2.2 (by have := h1.2.2.2.1; omega) (h1.2.2.2.2.2.1 hl ht)

/-! ## mshr -/

theorem mshrLoop_apply (k : Nat) (i : Nat) (v : Int → Nat) (j : Int) :
    mshrLoop k i v j =
      if (i : Int) ≤ j ∧ j < i + k then ((v j >>> 1) ||| (v (j + 1) <<< 15)) % 65536
      else v j := by
  induction k generalizing i v with
  | zero =>
    simp only [mshrLoop]
    rw [if_neg]
    omega
  | succ k ih =>
    simp only [mshrLoop]
    rw [ih]
    by_cases h : ((i + 1 : Nat) : Int) ≤ j ∧ j < ((i + 1 : Nat) : Int) + k
    · rw [if_pos h, if_pos (by omega), Function.update_noteq (by omega),
        Function.update_noteq (by omega)]
    · rw [if_neg h]
      by_cases h2 : j = (i : Int)
      · rw [if_pos (by omega)]
        subst h2
        rw [Function.update_same]
        rfl
      · rw [if_neg (by omega), Function.update_noteq h2]

/-- Halving a limb sequence whose bit shifted out of limb `m` is still owed. -/
theorem limbsVal_half_aux (v w : Int → Nat) (m : Nat)
    (hw : ∀ i : Nat, i < m →
      w i = v i / 2 + (v ((i + 1 : Nat) : Int) % 2) * 32768) :
    2 * limbsVal w m + v 0 % 2 = limbsVal v m + (v m % 2) * 65536 ^ m := by
  induction m with
  | zero => simp [limbsVal]
  | succ m ih =>
    have ih1 := ih (fun i hi => hw i (by omega))
    simp only [limbsVal]
    rw [hw m (by omega), pow_succ]
    have d : v m = 2 * (v m / 2) + v m % 2 := by omega
    have d2 := congrArg (fun t => t * 65536 ^ m) d
    simp only at d2
    linarith

theorem limbsVal_half (v w : Int → Nat) (m : Nat)
    (hw : ∀ i : Nat, i < m →
      w i = v i / 2 + (v ((i + 1 : Nat) : Int) % 2) * 32768)
    (ht : w m = v m / 2) :
    limbsVal w (m + 1) = limbsVal v (m + 1) / 2 ∧ limbsVal v (m + 1) % 2 = v 0 % 2 := by
  have h := limbsVal_half_aux v w m hw
  have e : 2 * limbsVal w (m + 1) + v 0 % 2 = limbsVal v (m + 1) := by
    simp only [limbsVal]
    rw [ht]
    have d : v m = 2 * (v m / 2) + v m % 2 := by omega
    have d2 := congrArg (fun t => t * 65536 ^ m) d
    simp only at d2
    linarith
  omega

theorem limbsVal_update_zero (v : Int → Nat) (x : Nat) (n : Nat) :
    limbsVal (Function.update v 0 x) (n + 1) + v 0 = limbsVal v (n + 1) + x := by
  induction n with
  | zero => simp [limbsVal, Nat.add_comm]
  | succ n ih =>
    show limbsVal (Function.update v 0 x) (n + 1)
        + Function.update v 0 x ((n + 1 : Nat) : Int) * 65536 ^ (n + 1) + v 0
      = limbsVal v (n + 1) + v ((n + 1 : Nat) : Int) * 65536 ^ (n + 1) + x
    rw [Function.update_noteq (by omega)]
    omega

theorem limbsVal_mod_two (v : Int → Nat) (n : Nat) :
    limbsVal v (n + 1) % 2 = v 0 % 2 := by
  induction n with
  | zero => simp [limbsVal]
  | succ n ih =>
    rw [limbsVal]
    have : v ((n + 1 : Nat) : Int) * 65536 ^ (n + 1)
        = 2 * (v ((n + 1 : Nat) : Int) * 65536 ^ n * 32768) := by
      rw [pow_succ]; ring
    rw [this]
    omega

theorem mshr1_props (a : MINT) (ha : Limbs16 a) (sticky : Bool) :
    Limbs16 (mshr1 a sticky) ∧ (mshr1 a sticky).len = a.len ∧
    (mshr1 a sticky).sign = a.sign ∧
    value (mshr1 a sticky) =
      if sticky then (value a / 2) ||| (value a % 2) else value a / 2 := by
  obtain ⟨lp, hlp⟩ : ∃ lp : Int → Nat, lp = mshrLoop (a.len - 1) 0 a.val := ⟨_, rfl⟩
  obtain ⟨v1, hv1⟩ : ∃ v1 : Int → Nat, v1 =
      Function.update lp ((a.len - 1 : Nat) : Int) (lp ((a.len - 1 : Nat) : Int) >>> 1) :=
    ⟨_, rfl⟩
  have rval : (mshr1 a sticky).val =
      if sticky then Function.update v1 0 (v1 0 ||| (a.val 0 &&& 1)) else v1 := by
    rw [hv1, hlp]; rfl
  have rlen : (mshr1 a sticky).len = a.len := rfl
  have hlpL : ∀ j, lp j < 65536 := by
    intro j
    rw [hlp, mshrLoop_apply]
    split
    · exact Nat.mod_lt _ (by omega)
    · exact ha j
  have hv1L : ∀ j, v1 j < 65536 := by
    intro j
    rw [hv1]
    by_cases h : j = ((a.len - 1 : Nat) : Int)
    · rw [h, Function.update_same, Nat.shiftRight_eq_div_pow]
      have := hlpL ((a.len - 1 : Nat) : Int)
      have h2 : lp ((a.len - 1 : Nat) : Int) / 2 ^ 1 ≤ lp ((a.len - 1 : Nat) : Int) :=
        Nat.div_le_self _ _
      omega
    · rw [Function.update_noteq h]; exact hlpL j
  -- value of the shifted cells before the sticky bit is put back
  have hv1val : limbsVal v1 a.len = value a / 2 := by
    unfold value
    rcases Nat.eq_zero_or_pos a.len with h0 | hpos
    · rw [h0]; simp [limbsVal]
    · obtain ⟨m, hm⟩ : ∃ m, a.len = m + 1 := ⟨a.len - 1, by omega⟩
      rw [hm]
      refine (limbsVal_half a.val v1 m ?_ ?_).1
      · intro i hi
        rw [hv1, Function.update_noteq (by omega), hlp, mshrLoop_apply, if_pos (by omega),
          shr1_or _ _ (ha i)]
        have : (v1 i) = v1 i := rfl
        have e : ((i : Nat) : Int) + 1 = ((i + 1 : Nat) : Int) := by omega
        rw [e]
        have h1 := ha ((i + 1 : Nat) : Int)
        have h2 := ha i
        omega
      · have e : ((a.len - 1 : Nat) : Int) = (m : Int) := by omega
        rw [hv1, e, Function.update_same, hlp, mshrLoop_apply, if_neg (by omega),
          Nat.shiftRight_eq_div_pow]
  refine ⟨?_, rlen, rfl, ?_⟩
  · intro j
    rw [rval]
    cases sticky with
    | false => exact hv1L j
    | true =>
      simp only [if_true]
      by_cases h : j = 0
      · rw [h, Function.update_same]
        refine Nat.or_lt_two_pow (n := 16) (hv1L 0) ?_
        rw [Nat.and_one_is_mod]; omega
      · rw [Function.update_noteq h]; exact hv1L j
  · unfold value at hv1val ⊢
    rw [rval, rlen]
    cases sticky with
    | false => simpa using hv1val
    | true =>
      simp only [if_true]
      rcases Nat.eq_zero_or_pos a.len with h0 | hpos
      · rw [h0]; simp [limbsVal]
      · obtain ⟨m, hm⟩ : ∃ m, a.len = m + 1 := ⟨a.len - 1, by omega⟩
        rw [hm] at hv1val ⊢
        have hu := limbsVal_update_zero v1 (v1 0 ||| (a.val 0 &&& 1)) m
        have hm2 := limbsVal_mod_two v1 m
        have hm3 := limbsVal_mod_two a.val m
        have hk : a.val 0 % 2 ≤ 1 := by omega
        rw [Nat.and_one_is_mod] at hu ⊢
        rw [or_bit0 (v1 0) _ hk] at hu ⊢
        rw [hm3, ← hv1val, or_bit0 (limbsVal v1 (m + 1)) _ hk, hm2]
        omega

theorem mshrRounds_succ (n : Nat) (a : MINT) (s : Bool) :
    mshrRounds a s (n + 1) = mshr1 (mshrRounds a s n) s := by
  induction n generalizing a with
  | zero => rfl
  | succ n ih =>
    rw [mshrRounds, ih (mshr1 a s)]
    rfl

/-- One sticky halving step keeps the summary "quotient or-ed with a nonzero flag". -/
theorem sticky_step (m n : Nat) :
    ((m / 2 ^ n ||| (if m % 2 ^ n = 0 then 0 else 1)) / 2) |||
      ((m / 2 ^ n ||| (if m % 2 ^ n = 0 then 0 else 1)) % 2)
    = m / 2 ^ (n + 1) ||| (if m % 2 ^ (n + 1) = 0 then 0 else 1) := by
  have hpos : 0 < 2 ^ n := by positivity
  have hq : m / 2 ^ (n + 1) = m / 2 ^ n / 2 := by
    rw [pow_succ, Nat.div_div_eq_div_mul]
  have hr : m % 2 ^ (n + 1) = m % 2 ^ n + 2 ^ n * (m / 2 ^ n % 2) := Nat.mod_pow_succ
  rw [hq, hr]
  generalize m / 2 ^ n = q
  generalize m % 2 ^ n = r
  have hs : (if r = 0 then 0 else 1) ≤ 1 := by split <;> omega
  have hs2 : (if r + 2 ^ n * (q % 2) = 0 then 0 else 1) ≤ 1 := by split <;> omega
  rw [or_bit0 q _ hs]
  have hx : (q + if q % 2 = 0 then (if r = 0 then 0 else 1) else 0) % 2 ≤ 1 := by omega
  rw [or_bit0 _ _ hx, or_bit0 _ _ hs2]
  clear hq hr
  rcases Nat.mod_two_eq_zero_or_one q with hq0 | hq1
  · rw [hq0]
    simp only [Nat.mul_zero, Nat.add_zero]
    split_ifs <;> omega
  · rw [hq1]
    have hne : r + 2 ^ n ≠ 0 := by omega
    simp only [Nat.mul_one, hne, if_false, show ¬ (1 : Nat) = 0 by omega, Nat.add_zero]
    split_ifs <;> omega

theorem mshrRounds_props (n : Nat) (a : MINT) (ha : Limbs16 a) (sticky : Bool) :
    Limbs16 (mshrRounds a sticky n) ∧ (mshrRounds a sticky n).len = a.len ∧
    (mshrRounds a sticky n).sign = a.sign ∧
    value (mshrRounds a sticky n) =
      if sticky then (value a / 2 ^ n) ||| (if value a % 2 ^ n = 0 then 0 else 1)
      else value a / 2 ^ n := by
  induction n with
  | zero =>
    refine ⟨ha, rfl, rfl, ?_⟩
    cases sticky <;> simp [mshrRounds, Nat.mod_one]
  | succ n ih =>
    rw [mshrRounds_succ]
    have h1 := mshr1_props (mshrRounds a sticky n) ih.1 sticky
    refine ⟨h1.1, by rw [h1.2.1, ih.2.1], by rw [h1.2.2.1, ih.2.2.1], ?_⟩
    rw [h1.2.2.2, ih.2.2.2]
    cases sticky with
    | false =>
      simp only [Bool.false_eq_true, if_false]
      rw [pow_succ, Nat.div_div_eq_div_mul]
    | true =>
      simp only [if_true]
      exact sticky_step (value a) n

theorem mshr_props (n : Nat) (a : MINT) (ha : Limbs16 a) (sticky : Bool) :
    Limbs16 (mshr a n sticky) ∧ Canon (mshr a n sticky) ∧
    (mshr a n sticky).sign = a.sign ∧ (mshr a n sticky).val = (mshrRounds a sticky n).val ∧
    value (mshr a n sticky) =
      if sticky then (value a / 2 ^ n) ||| (if value a % 2 ^ n = 0 then 0 else 1)
      else value a / 2 ^ n := by
  have h := mshrRounds_props n a ha sticky
  unfold mshr
  refine ⟨h.1, canon_chomp _, h.2.2.1, rfl, ?_⟩
  rw [value_chomp]
  exact h.2.2.2

/-- C8: `mshr` without sticky leaves the floor of `m / 2^n`; with sticky it
leaves that quotient with bit 0 or-ed with "some shifted-out bit was set";
`mshl` leaves `m * 2^n`. -/
theorem shift_values (m : MINT) (n : Nat) (hm : Limbs16 m) (hlen : 1 ≤ m.len) :
    value (mshr m n false) = value m / 2 ^ n ∧
    value (mshr m n true) = (value m / 2 ^ n) ||| (if value m % 2 ^ n = 0 then 0 else 1) ∧
    value (mshl m n) = value m * 2 ^ n := by
  have _ := hlen
  exact ⟨by simpa using (mshr_props n m hm false).2.2.2.2,
    by simpa using (mshr_props n m hm true).2.2.2.2, (mshl_props n m hm).2.1⟩

/-- Witness for C8: the one-limb magnitude 6 shifted by two bits. -/
theorem shift_values_witness :
    value (mshr ⟨0, 1, fun _ => 6⟩ 2 false) = value ⟨0, 1, fun _ => 6⟩ / 2 ^ 2 ∧
    value (mshr ⟨0, 1, fun _ => 6⟩ 2 true) =
      (value ⟨0, 1, fun _ => 6⟩ / 2 ^ 2) |||
        (if value ⟨0, 1, fun _ => 6⟩ % 2 ^ 2 = 0 then 0 else 1) ∧
    value (mshl ⟨0, 1, fun _ => 6⟩ 2) = value ⟨0, 1, fun _ => 6⟩ * 2 ^ 2 :=
  shift_values ⟨0, 1, fun _ => 6⟩ 2 (fun _ => show (6 : Nat) < 65536 by decide)
    (show 1 ≤ 1 by decide)

/-! ## neg2com and madd -/

theorem zeroFill_apply (k i : Nat) (v : Int → Nat) (j : Int) :
    zeroFill k i v j = if (i : Int) ≤ j ∧ j < i + k then 0 else v j := by
  induction k generalizing i v with
  | zero =>
    simp only [zeroFill]
    rw [if_neg]
    omega
  | succ k ih =>
    simp only [zeroFill]
    rw [ih]
    by_cases h : ((i + 1 : Nat) : Int) ≤ j ∧ j < ((i + 1 : Nat) : Int) + k
    · rw [if_pos h, if_pos (by omega)]
    · rw [if_neg h]
      by_cases h2 : j = (i : Int)
      · rw [if_pos (by omega), h2, Function.update_same]
      · rw [if_neg (by omega), Function.update_noteq h2]

theorem limbsVal_zeroFill (v : Int → Nat) (n k : Nat) :
    limbsVal (zeroFill k n v) (n + k) = limbsVal v n := by
  induction k with
  | zero => rfl
  | succ k ih =>
    show limbsVal (zeroFill (k + 1) n v) (n + k) +
      zeroFill (k + 1) n v ((n + k : Nat) : Int) * 65536 ^ (n + k) = _
    rw [zeroFill_apply, if_pos (by omega), Nat.zero_mul, Nat.add_zero, ← ih]
    apply limbsVal_congr
    intro i hi
    rw [zeroFill_apply, zeroFill_apply]
    by_cases h : (n : Int) ≤ i ∧ (i : Int) < n + k
    · rw [if_pos h, if_pos (by omega)]
    · rw [if_neg h, if_neg (by omega)]

/-- Cells outside the range of the loop keep their content; cells inside hold
16-bit quantities. -/
theorem neg2comLoop_frame (k i c : Nat) (v : Int → Nat) (j : Int) :
    (j < i ∨ (i : Int) + k ≤ j → neg2comLoop k i c v j = v j) ∧
    ((i : Int) ≤ j ∧ j < i + k → neg2comLoop k i c v j < 65536) := by
  induction k generalizing i c v with
  | zero => exact ⟨fun _ => rfl, fun h => by omega⟩
  | succ k ih =>
    simp only [neg2comLoop]
    constructor
    · intro h
      rw [(ih (i + 1) _ _).1 (by omega), Function.update_noteq (by omega)]
    · intro h
      by_cases h2 : j = (i : Int)
      · rw [(ih (i + 1) _ _).1 (by omega), h2, Function.update_same]
        exact Nat.mod_lt _ (by omega)
      · exact (ih (i + 1) _ _).2 (by omega)

/-- The loop of `neg2com` adds the carry-in to the complement of the limbs,
up to a carry out of the top. -/
theorem neg2comLoop_sum (k i c : Nat) (u v : Int → Nat) (hc : c ≤ 1)
    (hu : ∀ j : Int, (i : Int) ≤ j → v j = u j) (hu16 : ∀ j : Int, u j < 65536) :
    ∃ cout : Nat, cout ≤ 1 ∧
      limbsVal (neg2comLoop k i c v) (i + k) + cout * 65536 ^ (i + k)
        + limbsVal (fun j => 65535 - u j) i
      = limbsVal v i + limbsVal (fun j => 65535 - u j) (i + k) + c * 65536 ^ i := by
  induction k generalizing i c v with
  | zero =>
    exact ⟨c, hc, by simp only [neg2comLoop, Nat.add_zero]; omega⟩
  | succ k ih =>
    simp only [neg2comLoop]
    have hvi : v i = u i := hu i (by omega)
    have hui := hu16 i
    have hs : (65535 - v i % 65536 + c) % 4294967296 = 65535 - u i + c := by
      rw [hvi]; omega
    rw [hs]
    have hsh : (65535 - u i + c) >>> 16 = (65535 - u i + c) / 65536 := by
      rw [Nat.shiftRight_eq_div_pow]
    rw [hsh]
    obtain ⟨cout, hco, h⟩ := ih (i + 1) ((65535 - u i + c) / 65536)
      (Function.update v i ((65535 - u i + c) % 65536))
      (by omega)
      (by intro j hj; rw [Function.update_noteq (by omega)]; exact hu j (by omega))
    refine ⟨cout, hco, ?_⟩
    have e1 : i + 1 + k = i + (k + 1) := by omega
    rw [e1] at h
    have e2 : limbsVal (Function.update v i ((65535 - u i + c) % 65536)) (i + 1)
        = limbsVal v i + ((65535 - u i + c) % 65536) * 65536 ^ i := by
      simp only [limbsVal, Function.update_same]
      rw [limbsVal_update_ge _ _ _ _ (Or.inr (by omega))]
    have e3 : limbsVal (fun j => 65535 - u j) (i + 1)
        = limbsVal (fun j => 65535 - u j) i + (65535 - u i) * 65536 ^ i := rfl
    have hp : 65536 ^ (i + 1) = 65536 ^ i * 65536 := pow_succ _ _
    rw [e2, e3, hp] at h
    have d : (65535 - u i) + c
        = (65535 - u i + c) % 65536 + 65536 * ((65535 - u i + c) / 65536) := by
      omega
    have d2 := congrArg (fun t => t * 65536 ^ i) d
    simp only [Nat.add_mul] at d2
    generalize 65536 ^ i = X at h d2 ⊢
    generalize (65535 - u i + c) % 65536 = r at h d2 ⊢
    generalize (65535 - u i + c) / 65536 = q at h d2 ⊢
    generalize 65535 - u (i : Int) = n at h d2 ⊢
    linarith

theorem limbsVal_compl (u : Int → Nat) (n : Nat) (hu : ∀ j : Int, u j < 65536) :
    limbsVal (fun j => 65535 - u j) n + limbsVal u n + 1 = 65536 ^ n := by
  induction n with
  | zero => simp [limbsVal]
  | succ n ih =>
    simp only [limbsVal]
    have := hu n
    have e : (65535 - u n) + u n = 65535 := by omega
    have e2 := congrArg (fun t => t * 65536 ^ n) e
    simp only at e2
    rw [pow_succ]
    linarith

theorem neg2com_props (a : MINT) (ha : Limbs16 a) :
    Limbs16 (neg2com a) ∧ (neg2com a).len = a.len ∧ (neg2com a).sign = a.sign ∧
    (∀ j : Int, (a.len : Int) ≤ j ∨ j < 0 → (neg2com a).val j = a.val j) ∧
    ∃ e : Int, ((value (neg2com a) : Nat) : Int)
      = (65536 : Int) ^ a.len * e - (value a : Int) := by
  refine ⟨?_, rfl, rfl, ?_, ?_⟩
  · intro j
    show neg2comLoop a.len 0 1 a.val j < 65536
    by_cases h : (0 : Int) ≤ j ∧ j < a.len
    · exact (neg2comLoop_frame a.len 0 1 a.val j).2 (by omega)
    · rw [(neg2comLoop_frame a.len 0 1 a.val j).1 (by omega)]
      exact ha j
  · intro j hj
    exact (neg2comLoop_frame a.len 0 1 a.val j).1 (by omega)
  · obtain ⟨cout, _, h⟩ := neg2comLoop_sum a.len 0 1 a.val a.val (by omega)
      (fun _ _ => rfl) ha
    have hc := limbsVal_compl a.val a.len ha
    simp only [Nat.zero_add, limbsVal, pow_zero, Nat.mul_one, Nat.add_zero] at h
    refine ⟨1 - (cout : Int), ?_⟩
    unfold value
    show ((limbsVal (neg2comLoop a.len 0 1 a.val) a.len : Nat) : Int) = _
    have h' : ((limbsVal (neg2comLoop a.len 0 1 a.val) a.len : Nat) : Int)
        + (cout : Int) * (65536 : Int) ^ a.len
        = ((limbsVal (fun j => 65535 - a.val j) a.len : Nat) : Int) + 1 := by
      exact_mod_cast h
    have hc' : ((limbsVal (fun j => 65535 - a.val j) a.len : Nat) : Int)
        + ((limbsVal a.val a.len : Nat) : Int) + 1 = (65536 : Int) ^ a.len := by
      exact_mod_cast hc
    linarith

theorem maddLoop_frame (av bv : Int → Nat) (k i c : Nat) (cv : Int → Nat) (j : Int) :
    (j < i ∨ (i : Int) + k ≤ j → maddLoop av bv k i c cv j = cv j) ∧
    ((i : Int) ≤ j ∧ j < i + k → maddLoop av bv k i c cv j < 65536) := by
  induction k generalizing i c cv with
  | zero => exact ⟨fun _ => rfl, fun h => by omega⟩
  | succ k ih =>
    simp only [maddLoop]
    constructor
    · intro h
      rw [(ih (i + 1) _ _).1 (by omega), Function.update_noteq (by omega)]
    · intro h
      by_cases h2 : j = (i : Int)
      · rw [(ih (i + 1) _ _).1 (by omega), h2, Function.update_same]
        exact Nat.mod_lt _ (by omega)
      · exact (ih (i + 1) _ _).2 (by omega)

theorem maddLoop_sum (av bv : Int → Nat) (k i c : Nat) (cv : Int → Nat) :
    ∃ cout : Nat,
      limbsVal (maddLoop av bv k i c cv) (i + k) + cout * 65536 ^ (i + k)
        + limbsVal av i + limbsVal bv i
      = limbsVal cv i + limbsVal av (i + k) + limbsVal bv (i + k) + c * 65536 ^ i := by
  induction k generalizing i c cv with
  | zero =>
    exact ⟨c, by simp only [maddLoop, Nat.add_zero]; omega⟩
  | succ k ih =>
    simp only [maddLoop]
    have hsh : (av i + bv i + c) >>> 16 = (av i + bv i + c) / 65536 := by
      rw [Nat.shiftRight_eq_div_pow]
    rw [hsh]
    obtain ⟨cout, h⟩ := ih (i + 1) ((av i + bv i + c) / 65536)
      (Function.update cv i ((av i + bv i + c) % 65536))
    refine ⟨cout, ?_⟩
    have e1 : i + 1 + k = i + (k + 1) := by omega
    rw [e1] at h
    have e2 : limbsVal (Function.update cv i ((av i + bv i + c) % 65536)) (i + 1)
        = limbsVal cv i + ((av i + bv i + c) % 65536) * 65536 ^ i := by
      simp only [limbsVal, Function.update_same]
      rw [limbsVal_update_ge _ _ _ _ (Or.inr (by omega))]
    have e3 : limbsVal av (i + 1) = limbsVal av i + av i * 65536 ^ i := rfl
    have e4 : limbsVal bv (i + 1) = limbsVal bv i + bv i * 65536 ^ i := rfl
    have hp : 65536 ^ (i + 1) = 65536 ^ i * 65536 := pow_succ _ _
    rw [e2, e3, e4, hp] at h
    have d : av i + bv i + c
        = (av i + bv i + c) % 65536 + 65536 * ((av i + bv i + c) / 65536) := by
      omega
    have d2 := congrArg (fun t => t * 65536 ^ i) d
    simp only [Nat.add_mul] at d2
    generalize 65536 ^ i = X at h d2 ⊢
    generalize (av i + bv i + c) % 65536 = r at h d2 ⊢
    generalize (av i + bv i + c) / 65536 = q at h d2 ⊢
    linarith

/-- The top bit of the top limb tells whether the value reaches half the range. -/
theorem top_bit_iff (v : Int → Nat) (n : Nat) (hv : ∀ j : Int, v j < 65536) :
    v n &&& 0x8000 ≠ 0 ↔ 32768 * 65536 ^ n ≤ limbsVal v (n + 1) := by
  rw [and_8000 _ (hv n)]
  simp only [limbsVal]
  have hlt := limbsVal_lt n (fun i _ => hv i)
  constructor
  · intro h
    have : 32768 * 65536 ^ n ≤ v n * 65536 ^ n := Nat.mul_le_mul_right _ h
    omega
  · intro h
    by_contra hc
    have : (v n + 1) * 65536 ^ n ≤ 32768 * 65536 ^ n := Nat.mul_le_mul_right _ (by omega)
    rw [Nat.succ_mul] at this
    omega

/-- Chomping and then padding with zero limbs up to `mx` keeps the value. -/
theorem pad_props (a : MINT) (ha : Limbs16 a) (mx : Nat) (h : (chomp a).len ≤ mx) :
    Limbs16 { chomp a with
      val := zeroFill (mx - (chomp a).len) (chomp a).len (chomp a).val, len := mx } ∧
    limbsVal (zeroFill (mx - (chomp a).len) (chomp a).len (chomp a).val) mx = value a := by
  constructor
  · intro j
    show zeroFill _ _ _ j < 65536
    rw [zeroFill_apply]
    split
    · omega
    · exact ha j
  · obtain ⟨k, hk⟩ : ∃ k, mx = (chomp a).len + k := ⟨mx - (chomp a).len, by omega⟩
    rw [hk, Nat.add_sub_cancel_left, limbsVal_zeroFill]
    exact value_chomp a

/-- The sign stage of `madd`: a flagged operand is replaced by its two-complement. -/
theorem signStage_props (x : MINT) (hx : Limbs16 x) :
    Limbs16 (if x.sign ≠ 0 then neg2com x else x) ∧
    (if x.sign ≠ 0 then neg2com x else x).len = x.len ∧
    (if x.sign ≠ 0 then neg2com x else x).sign = x.sign ∧
    (x.sign = 0 → (if x.sign ≠ 0 then neg2com x else x) = x) ∧
    ∃ e : Int, ((value (if x.sign ≠ 0 then neg2com x else x) : Nat) : Int)
      = (if x.sign = 0 then 1 else -1) * (value x : Int) + (65536 : Int) ^ x.len * e := by
  by_cases h : x.sign = 0
  · rw [if_neg (by omega), if_pos h]
    exact ⟨hx, rfl, rfl, fun _ => rfl, 0, by simp⟩
  · rw [if_pos h, if_neg h]
    have p := neg2com_props x hx
    obtain ⟨e, he⟩ := p.2.2.2.2
    exact ⟨p.1, p.2.1, p.2.2.1, fun h0 => absurd h0 h, e, by rw [he]; ring⟩

/-- An integer congruent to `s` modulo `m` and lying in `[0, m)` is `s` or `s + m`
when `|s| < m / 2`. -/
theorem centered_residue (x s m t : Int) (hx0 : 0 ≤ x) (hxm : x < m) (hs : 2 * |s| < m)
    (h : x = s + m * t) : (0 ≤ s → x = s) ∧ (s < 0 → x = s + m) := by
  have habs := abs_le.mp (le_of_lt (show |s| < m by
    have := abs_nonneg s; omega))
  have hm : 0 < m := by have := abs_nonneg s; omega
  have ht : t = 0 ∨ t = 1 ∨ t ≤ -1 ∨ 2 ≤ t := by omega
  have hle : |s| ≤ s ∨ |s| ≤ -s := by
    rcases abs_choice s with h | h <;> omega
  have hge1 := le_abs_self s
  have hge2 := neg_abs_le s
  rcases ht with h0 | h1 | hneg | hbig
  · subst h0
    constructor
    · intro _; omega
    · intro hs0; omega
  · subst h1
    constructor
    · intro hs0; omega
    · intro _; omega
  · have : m * t ≤ m * (-1) := Int.mul_le_mul_of_nonneg_left hneg (by omega)
    omega
  · have : m * 2 ≤ m * t := Int.mul_le_mul_of_nonneg_left hbig (by omega)
    omega

/-- Full description of what `madd` leaves in `a`, `b` and `c`. -/
theorem madd_spec (a b c : MINT) (ha : Limbs16 a) (hb : Limbs16 b) (hc : Limbs16 c) :
    Limbs16 (madd a b c).1 ∧ Limbs16 (madd a b c).2.1 ∧ Limbs16 (madd a b c).2.2 ∧
    Canon (madd a b c).2.2 ∧ (madd a b c).2.2.sign ≤ 1 ∧
    (madd a b c).1.sign = a.sign ∧ (madd a b c).2.1.sign = b.sign ∧
    (a.sign = 0 → value (madd a b c).1 = value a) ∧
    (b.sign = 0 → value (madd a b c).2.1 = value b) ∧
    (if (madd a b c).2.2.sign = 0 then 1 else -1) * (value (madd a b c).2.2 : Int)
      = (if a.sign = 0 then 1 else -1) * (value a : Int)
        + (if b.sign = 0 then 1 else -1) * (value b : Int) ∧
    (0 ≤ (if a.sign = 0 then 1 else -1) * (value a : Int)
        + (if b.sign = 0 then 1 else -1) * (value b : Int) → (madd a b c).2.2.sign = 0) ∧
    (a.sign ≠ 0 → value a ≠ 0 →
      value (madd a b c).1 + value a = 65536 ^ (madd a b c).1.len) ∧
    (b.sign ≠ 0 → value b ≠ 0 →
      value (madd a b c).2.1 + value b = 65536 ^ (madd a b c).2.1.len) := by
  obtain ⟨mx, hmx⟩ : ∃ mx : Nat,
      mx = (if (chomp b).len > (chomp a).len then (chomp b).len else (chomp a).len) + 1 :=
    ⟨_, rfl⟩
  have hla : (chomp a).len + 1 ≤ mx := by rw [hmx]; split <;> omega
  have hlb : (chomp b).len + 1 ≤ mx := by rw [hmx]; split <;> omega
  obtain ⟨a1, ha1⟩ : ∃ a1 : MINT, a1 = { chomp a with
      val := zeroFill (mx - (chomp a).len) (chomp a).len (chomp a).val, len := mx } := ⟨_, rfl⟩
  obtain ⟨b1, hb1⟩ : ∃ b1 : MINT, b1 = { chomp b with
      val := zeroFill (mx - (chomp b).len) (chomp b).len (chomp b).val, len := mx } := ⟨_, rfl⟩
  obtain ⟨a2, ha2⟩ : ∃ a2 : MINT, a2 = (if a1.sign ≠ 0 then neg2com a1 else a1) := ⟨_, rfl⟩
  obtain ⟨b2, hb2⟩ : ∃ b2 : MINT, b2 = (if b1.sign ≠ 0 then neg2com b1 else b1) := ⟨_, rfl⟩
  obtain ⟨cv, hcv⟩ : ∃ cv : Int → Nat,
      cv = maddLoop a2.val b2.val a2.len 0 0 (minit c 0).val := ⟨_, rfl⟩
  obtain ⟨c1, hc1⟩ : ∃ c1 : MINT, c1 = { sign := 0, len := a2.len, val := cv } := ⟨_, rfl⟩
  obtain ⟨c2, hc2⟩ : ∃ c2 : MINT, c2 =
      (if c1.val ((c1.len : Int) - 1) &&& 0x8000 ≠ 0 then { neg2com c1 with sign := 1 }
       else { c1 with sign := 0 }) := ⟨_, rfl⟩
  have hres : madd a b c = (a2, b2, chomp c2) := by
    rw [hc2, hc1, hcv, ha2, hb2, ha1, hb1, hmx]; rfl
  rw [hres]
  -- the padded operands
  have pa := pad_props a ha mx (by omega)
  have pb := pad_props b hb mx (by omega)
  rw [← ha1] at pa
  rw [← hb1] at pb
  have a1len : a1.len = mx := by rw [ha1]
  have b1len : b1.len = mx := by rw [hb1]
  have a1sign : a1.sign = a.sign := by rw [ha1]; rfl
  have b1sign : b1.sign = b.sign := by rw [hb1]; rfl
  have a1val : value a1 = value a := by
    unfold value; rw [a1len]; rw [ha1]; exact pa.2
  have b1val : value b1 = value b := by
    unfold value; rw [b1len]; rw [hb1]; exact pb.2
  -- the sign stage
  have sa := signStage_props a1 pa.1
  have sb := signStage_props b1 pb.1
  rw [← ha2] at sa
  rw [← hb2] at sb
  rw [a1len, a1sign, a1val] at sa
  rw [b1len, b1sign, b1val] at sb
  obtain ⟨ea, hea⟩ := sa.2.2.2.2
  obtain ⟨eb, heb⟩ := sb.2.2.2.2
  -- bounds on the operands
  have hpm : 65536 ^ mx = 65536 * 65536 ^ (mx - 1) := by
    conv_lhs => rw [show mx = (mx - 1) + 1 by omega, pow_succ]
    ring
  have ba : value a < 65536 ^ (mx - 1) := by
    have h1 := value_lt (chomp a) ha
    rw [value_chomp] at h1
    exact Nat.lt_of_lt_of_le h1 (Nat.pow_le_pow_right (by omega) (by omega))
  have bb : value b < 65536 ^ (mx - 1) := by
    have h1 := value_lt (chomp b) hb
    rw [value_chomp] at h1
    exact Nat.lt_of_lt_of_le h1 (Nat.pow_le_pow_right (by omega) (by omega))
  -- the sum
  have c1len : c1.len = mx := by rw [hc1]; exact sa.2.1
  have c0L : Limbs16 (minit c 0) := by
    intro j
    show Function.update c.val 0 (0 % 65536) j < 65536
    by_cases h : j = 0
    · rw [h, Function.update_same]; omega
    · rw [Function.update_noteq h]; exact hc j
  have c1L : Limbs16 c1 := by
    intro j
    rw [hc1]
    show cv j < 65536
    rw [hcv]
    by_cases h : (0 : Int) ≤ j ∧ j < a2.len
    · exact (maddLoop_frame a2.val b2.val a2.len 0 0 _ j).2 (by omega)
    · rw [(maddLoop_frame a2.val b2.val a2.len 0 0 _ j).1 (by omega)]
      exact c0L j
  obtain ⟨cout, hsum⟩ := maddLoop_sum a2.val b2.val a2.len 0 0 (minit c 0).val
  simp only [Nat.zero_add, limbsVal, Nat.add_zero, Nat.zero_mul] at hsum
  rw [← hcv, sa.2.1] at hsum
  have hb2len : b2.len = mx := sb.2.1
  have ha2len : a2.len = mx := sa.2.1
  have hsumZ : ((limbsVal cv mx : Nat) : Int) + (cout : Int) * (65536 : Int) ^ mx
      = (value a2 : Int) + (value b2 : Int) := by
    unfold value
    rw [ha2len, hb2len]
    exact_mod_cast hsum
  have c1valeq : value c1 = limbsVal cv mx := by
    unfold value; rw [c1len, hc1]
  have hxm : (value c1 : Int) < (65536 : Int) ^ mx := by
    have := value_lt c1 c1L
    rw [c1len] at this
    exact_mod_cast this
  obtain ⟨S, hS⟩ : ∃ S : Int, S = (if a.sign = 0 then 1 else -1) * (value a : Int)
      + (if b.sign = 0 then 1 else -1) * (value b : Int) := ⟨_, rfl⟩
  rw [← hS]
  have hSabs : 2 * |S| < (65536 : Int) ^ mx := by
    have baZ : (value a : Int) < (65536 : Int) ^ (mx - 1) := by exact_mod_cast ba
    have bbZ : (value b : Int) < (65536 : Int) ^ (mx - 1) := by exact_mod_cast bb
    have hpmZ : (65536 : Int) ^ mx = 65536 * (65536 : Int) ^ (mx - 1) := by exact_mod_cast hpm
    have h0a : (0 : Int) ≤ value a := Int.natCast_nonneg _
    have h0b : (0 : Int) ≤ value b := Int.natCast_nonneg _
    rw [hpmZ, hS]
    have : |(if a.sign = 0 then (1 : Int) else -1) * (value a : Int)
        + (if b.sign = 0 then 1 else -1) * (value b : Int)| ≤ (value a : Int) + value b := by
      rw [abs_le]
      split <;> split <;> constructor <;> omega
    omega
  have hcong : (value c1 : Int) = S + (65536 : Int) ^ mx * (ea + eb - cout) := by
    rw [c1valeq, hS]
    linarith
  have cr := centered_residue (value c1 : Int) S ((65536 : Int) ^ mx) (ea + eb - cout)
    (Int.natCast_nonneg _) hxm hSabs hcong
  -- the sign test on the top limb of the sum
  have htest : c1.val ((c1.len : Int) - 1) &&& 0x8000 ≠ 0 ↔
      32768 * 65536 ^ (mx - 1) ≤ value c1 := by
    have := top_bit_iff c1.val (mx - 1) c1L
    have e : ((mx - 1 : Nat) : Int) = (c1.len : Int) - 1 := by omega
    rw [e] at this
    rw [this]
    unfold value
    rw [c1len, show mx - 1 + 1 = mx by omega]
  have htestZ : c1.val ((c1.len : Int) - 1) &&& 0x8000 ≠ 0 ↔ S < 0 := by
    rw [htest]
    have hpmZ : (65536 : Int) ^ mx = 65536 * (65536 : Int) ^ (mx - 1) := by exact_mod_cast hpm
    constructor
    · intro h
      have hZ : (32768 : Int) * (65536 : Int) ^ (mx - 1) ≤ (value c1 : Int) := by
        exact_mod_cast h
      by_contra hn
      have := cr.1 (by omega)
      have := le_abs_self S
      omega
    · intro h
      have e := cr.2 h
      have := neg_abs_le S
      have hZ : (32768 : Int) * (65536 : Int) ^ (mx - 1) ≤ (value c1 : Int) := by omega
      exact_mod_cast hZ
  have hpmZ : (65536 : Int) ^ mx = 65536 * (65536 : Int) ^ (mx - 1) := by exact_mod_cast hpm
  have twos : ∀ (x2 : MINT) (X : Nat) (sx : Nat) (e : Int), Limbs16 x2 → x2.len = mx →
      X < 65536 ^ (mx - 1) →
      ((value x2 : Nat) : Int) = (if sx = 0 then 1 else -1) * (X : Int) + (65536 : Int) ^ mx * e →
      sx ≠ 0 → X ≠ 0 → value x2 + X = 65536 ^ x2.len := by
    intro x2 X sx e hL hlen hX hval hsx hX0
    rw [if_neg hsx] at hval
    have hlt := value_lt x2 hL
    rw [hlen] at hlt ⊢
    have hltZ : ((value x2 : Nat) : Int) < (65536 : Int) ^ mx := by exact_mod_cast hlt
    have hXZ : (X : Int) < (65536 : Int) ^ (mx - 1) := by exact_mod_cast hX
    have hX0Z : (0 : Int) < X := by exact_mod_cast Nat.pos_of_ne_zero hX0
    have cr3 := centered_residue _ (-(X : Int)) ((65536 : Int) ^ mx) e
      (Int.natCast_nonneg _) hltZ (by rw [abs_neg, abs_of_pos hX0Z]; omega)
      (by rw [hval]; ring)
    have := cr3.2 (by omega)
    have hfin : ((value x2 : Nat) : Int) + (X : Int) = (65536 : Int) ^ mx := by omega
    exact_mod_cast hfin
  refine ⟨sa.1, sb.1, ?_, canon_chomp _, ?_, sa.2.2.1, sb.2.2.1, ?_, ?_, ?_, ?_,
    twos a2 (value a) a.sign ea sa.1 sa.2.1 ba hea, twos b2 (value b) b.sign eb sb.1 sb.2.1 bb heb⟩
  · show Limbs16 (chomp c2)
    intro j
    rw [chomp_val, hc2]
    split
    · exact (neg2com_props c1 c1L).1 j
    · exact c1L j
  · rw [chomp_sign, hc2]
    split <;> simp
  · intro h
    rw [sa.2.2.2.1 h, a1val]
  · intro h
    rw [sb.2.2.2.1 h, b1val]
  · show (if (chomp c2).sign = 0 then 1 else -1) * ((value (chomp c2) : Nat) : Int) = S
    rw [chomp_sign, value_chomp]
    by_cases ht : c1.val ((c1.len : Int) - 1) &&& 0x8000 ≠ 0
    · have hneg := htestZ.mp ht
      have hc2' : c2 = { neg2com c1 with sign := 1 } := by rw [hc2, if_pos ht]
      obtain ⟨e, he⟩ := (neg2com_props c1 c1L).2.2.2.2
      rw [c1len] at he
      have hv2 : value c2 = value (neg2com c1) := by rw [hc2']; rfl
      have hs2 : c2.sign = 1 := by rw [hc2']
      rw [hs2, hv2, if_neg (by omega)]
      have hn := value_lt (neg2com c1) (neg2com_props c1 c1L).1
      rw [(neg2com_props c1 c1L).2.1, c1len] at hn
      have hnZ : ((value (neg2com c1) : Nat) : Int) < (65536 : Int) ^ mx := by exact_mod_cast hn
      have e1 := cr.2 hneg
      have hcong2 : ((value (neg2com c1) : Nat) : Int)
          = (-S) + (65536 : Int) ^ mx * (e - 1) := by
        rw [he, e1]; ring
      have cr2 := centered_residue _ (-S) ((65536 : Int) ^ mx) (e - 1)
        (Int.natCast_nonneg _) hnZ (by rw [abs_neg]; exact hSabs) hcong2
      rw [cr2.1 (by omega)]
      ring
    · have hpos : ¬ S < 0 := fun h => ht (htestZ.mpr h)
      have hc2' : c2 = { c1 with sign := 0 } := by rw [hc2, if_neg ht]
      have hv2 : value c2 = value c1 := by rw [hc2']; rfl
      have hs2 : c2.sign = 0 := by rw [hc2']
      rw [hs2, hv2, if_pos rfl, cr.1 (by omega)]
      ring
  · intro h
    show (chomp c2).sign = 0
    rw [chomp_sign, hc2, if_neg]
    intro ht
    have := htestZ.mp ht
    omega

theorem neg_one_pow_flag (s : Nat) (hs : s ≤ 1) :
    ((-1 : Int) ^ s) = if s = 0 then 1 else -1 := by
  interval_cases s <;> simp

/-- C5: `madd` leaves `c` chomped, holding the signed sum of its operands as
sign flag and magnitude, with the flag clear whenever the sum is not negative. -/
theorem madd_signed_sum (a b c : MINT) (ha : Limbs16 a) (hb : Limbs16 b) (hc : Limbs16 c)
    (hsa : a.sign ≤ 1) (hsb : b.sign ≤ 1) :
    Canon (madd a b c).2.2 ∧
    (-1 : Int) ^ (madd a b c).2.2.sign * (value (madd a b c).2.2 : Int)
      = (-1 : Int) ^ a.sign * (value a : Int) + (-1 : Int) ^ b.sign * (value b : Int) ∧
    (0 ≤ (-1 : Int) ^ a.sign * (value a : Int) + (-1 : Int) ^ b.sign * (value b : Int) →
      (madd a b c).2.2.sign = 0) := by
  have h := madd_spec a b c ha hb hc
  rw [neg_one_pow_flag _ hsa, neg_one_pow_flag _ hsb, neg_one_pow_flag _ h.2.2.2.2.1]
  exact ⟨h.2.2.2.1, h.2.2.2.2.2.2.2.2.2.1, h.2.2.2.2.2.2.2.2.2.2.1⟩

/-- Witness for C5: the sum of -7 and 5 in one-limb operands. -/
theorem madd_signed_sum_witness :
    Canon (madd ⟨1, 1, fun _ => 7⟩ ⟨0, 1, fun _ => 5⟩ MINTDECL).2.2 ∧
    (-1 : Int) ^ (madd ⟨1, 1, fun _ => 7⟩ ⟨0, 1, fun _ => 5⟩ MINTDECL).2.2.sign
        * (value (madd ⟨1, 1, fun _ => 7⟩ ⟨0, 1, fun _ => 5⟩ MINTDECL).2.2 : Int)
      = (-1 : Int) ^ (1 : Nat) * (value ⟨1, 1, fun _ => 7⟩ : Int)
        + (-1 : Int) ^ (0 : Nat) * (value ⟨0, 1, fun _ => 5⟩ : Int) :=
  have h := madd_signed_sum ⟨1, 1, fun _ => 7⟩ ⟨0, 1, fun _ => 5⟩ MINTDECL
    (fun _ => show (7 : Nat) < 65536 by decide) (fun _ => show (5 : Nat) < 65536 by decide)
    (fun _ => show (0 : Nat) < 65536 by decide) (show (1 : Nat) ≤ 1 by decide)
    (show (0 : Nat) ≤ 1 by decide)
  ⟨h.1, h.2.1⟩

/-- C6 as stated fails: `madd` leaves an operand whose sign flag is set in its
two-complement encoding (the magnitude 1 reads back as 2^32 - 1), and `msub`
leaves the sign flag of `b` inverted. -/
theorem madd_msub_operands_changed :
    value (madd ⟨1, 1, fun _ => 1⟩ ⟨0, 1, fun _ => 1⟩ MINTDECL).1 = 4294967295 ∧
    value (⟨1, 1, fun _ => 1⟩ : MINT) = 1 ∧
    (msub ⟨0, 1, fun _ => 1⟩ ⟨0, 1, fun _ => 1⟩ MINTDECL).2.1.sign = 1 ∧
    value (msub ⟨0, 1, fun _ => 1⟩ ⟨0, 1, fun _ => 1⟩ MINTDECL).2.1 = 4294967295 := by
  decide!

/-- C6 amended: `madd` keeps both sign flags, keeps the value of an operand
whose flag is clear, and leaves a nonzero operand whose flag is set as its
two-complement over the common length; `msub` does the same after inverting
the flag of `b`. -/
theorem madd_msub_frame (a b c : MINT) (ha : Limbs16 a) (hb : Limbs16 b) (hc : Limbs16 c) :
    ((madd a b c).1.sign = a.sign ∧ (madd a b c).2.1.sign = b.sign ∧
      (a.sign = 0 → value (madd a b c).1 = value a) ∧
      (b.sign = 0 → value (madd a b c).2.1 = value b) ∧
      (a.sign ≠ 0 → value a ≠ 0 →
        value (madd a b c).1 + value a = 65536 ^ (madd a b c).1.len) ∧
      (b.sign ≠ 0 → value b ≠ 0 →
        value (madd a b c).2.1 + value b = 65536 ^ (madd a b c).2.1.len)) ∧
    ((msub a b c).1.sign = a.sign ∧
      (msub a b c).2.1.sign = (if b.sign = 0 then 1 else 0) ∧
      (a.sign = 0 → value (msub a b c).1 = value a) ∧
      (b.sign ≠ 0 → value (msub a b c).2.1 = value b) ∧
      (b.sign = 0 → value b ≠ 0 →
        value (msub a b c).2.1 + value b = 65536 ^ (msub a b c).2.1.len)) := by
  have h := madd_spec a b c ha hb hc
  have h2 := madd_spec a { b with sign := if b.sign = 0 then 1 else 0 } c ha hb hc
  refine ⟨⟨h.2.2.2.2.2.1, h.2.2.2.2.2.2.1, h.2.2.2.2.2.2.2.1, h.2.2.2.2.2.2.2.2.1,
    h.2.2.2.2.2.2.2.2.2.2.2.1, h.2.2.2.2.2.2.2.2.2.2.2.2⟩, ?_⟩
  unfold msub
  refine ⟨h2.2.2.2.2.2.1, h2.2.2.2.2.2.2.1, h2.2.2.2.2.2.2.2.1, ?_, ?_⟩
  · intro hs
    exact h2.2.2.2.2.2.2.2.2.1 (by simp [hs])
  · intro hs hv
    exact h2.2.2.2.2.2.2.2.2.2.2.2.2 (by simp [hs]) hv

/-- Witness for C6 amended on one-limb operands 7 and 5. -/
theorem madd_msub_frame_witness :
    (madd ⟨0, 1, fun _ => 7⟩ ⟨0, 1, fun _ => 5⟩ MINTDECL).1.sign = 0 ∧
    (msub ⟨0, 1, fun _ => 7⟩ ⟨0, 1, fun _ => 5⟩ MINTDECL).2.1.sign = 1 :=
  have h := madd_msub_frame ⟨0, 1, fun _ => 7⟩ ⟨0, 1, fun _ => 5⟩ MINTDECL
    (fun _ => show (7 : Nat) < 65536 by decide) (fun _ => show (5 : Nat) < 65536 by decide)
    (fun _ => show (0 : Nat) < 65536 by decide)
  ⟨h.1.1, h.2.2.1⟩

/-! ## mult -/

theorem limbsVal_update_lt (v : Int → Nat) (p : Nat) (x : Nat) (n : Nat) (h : p < n) :
    limbsVal (Function.update v p x) n + v p * 65536 ^ p = limbsVal v n + x * 65536 ^ p := by
  induction n with
  | zero => omega
  | succ n ih =>
    simp only [limbsVal]
    rcases Nat.lt_or_ge p n with hlt | hge
    · rw [Function.update_noteq (by omega)]
      have := ih hlt
      omega
    · have e : p = n := by omega
      subst e
      rw [Function.update_same, limbsVal_update_ge _ _ _ _ (Or.inr (by omega))]
      omega

theorem limbs16_update (v : Int → Nat) (hv : ∀ j : Int, v j < 65536) (p : Int) (x : Nat)
    (hx : x < 65536) : ∀ j : Int, Function.update v p x j < 65536 := by
  intro j
  by_cases h : j = p
  · rw [h, Function.update_same]; exact hx
  · rw [Function.update_noteq h]; exact hv j

/-- One row of the schoolbook product: the cells from `i + j` on receive
`a[j..j+k) * b[i]` plus the carry, up to a carry out. -/
theorem multInner_sum (av : Int → Nat) (bi i : Nat) (hav : ∀ j : Int, av j < 65536)
    (hbi : bi < 65536) (k j sum : Nat) (cv : Int → Nat) (hcv : ∀ j : Int, cv j < 65536)
    (hsum : sum < 65536) (n : Nat) (hn : i + j + k ≤ n) :
    (∀ p : Int, (multInner av bi i k j sum cv).1 p < 65536) ∧
    (multInner av bi i k j sum cv).2 < 65536 ∧
    (∀ p : Int, p < ((i + j : Nat) : Int) ∨ ((i + j + k : Nat) : Int) ≤ p →
      (multInner av bi i k j sum cv).1 p = cv p) ∧
    limbsVal (multInner av bi i k j sum cv).1 n
        + (multInner av bi i k j sum cv).2 * 65536 ^ (i + j + k)
        + limbsVal av j * bi * 65536 ^ i
      = limbsVal cv n + limbsVal av (j + k) * bi * 65536 ^ i + sum * 65536 ^ (i + j) := by
  induction k generalizing j sum cv with
  | zero =>
    refine ⟨hcv, hsum, fun _ _ => rfl, ?_⟩
    show limbsVal cv n + sum * 65536 ^ (i + j + 0) + limbsVal av j * bi * 65536 ^ i
      = limbsVal cv n + limbsVal av (j + 0) * bi * 65536 ^ i + sum * 65536 ^ (i + j)
    simp only [Nat.add_zero]
    omega
  | succ k ih =>
    simp only [multInner]
    have e0 : ((j + i : Nat) : Int) = ((i + j : Nat) : Int) := by omega
    rw [e0]
    have hc := hcv ((i + j : Nat) : Int)
    have ha := hav j
    have hprod : av j * bi ≤ 65535 * 65535 := Nat.mul_le_mul (by omega) (by omega)
    have hs : (cv ((i + j : Nat) : Int) + av j * bi + sum) % 4294967296
        = cv ((i + j : Nat) : Int) + av j * bi + sum := Nat.mod_eq_of_lt (by omega)
    rw [hs]
    obtain ⟨s, hsdef⟩ : ∃ s, s = cv ((i + j : Nat) : Int) + av j * bi + sum := ⟨_, rfl⟩
    rw [← hsdef]
    have hsb : s ≤ 4294967295 := by rw [hsdef]; omega
    have hsh : s >>> 16 = s / 65536 := by rw [Nat.shiftRight_eq_div_pow]
    rw [hsh]
    have hq : s / 65536 < 65536 := by omega
    have hr : s % 65536 < 65536 := Nat.mod_lt _ (by omega)
    have ih1 := ih (j + 1) (s / 65536) (Function.update cv ((i + j : Nat) : Int) (s % 65536))
      (limbs16_update cv hcv _ _ hr) hq (by omega)
    have e1 : i + (j + 1) + k = i + j + (k + 1) := by omega
    have e2 : j + 1 + k = j + (k + 1) := by omega
    rw [e1, e2] at ih1
    refine ⟨ih1.1, ih1.2.1, ?_, ?_⟩
    · intro p hp
      rw [ih1.2.2.1 p (by omega), Function.update_noteq (by omega)]
    · have h := ih1.2.2.2
      have hu := limbsVal_update_lt cv (i + j) (s % 65536) n (by omega)
      have e3 : limbsVal av (j + 1) = limbsVal av j + av j * 65536 ^ j := rfl
      have hp1 : 65536 ^ (i + (j + 1)) = 65536 ^ (i + j) * 65536 := by
        rw [← Nat.add_assoc, pow_succ]
      have hp2 : 65536 ^ (i + j) = 65536 ^ i * 65536 ^ j := pow_add _ _ _
      rw [e3, hp1] at h
      have d : s = s % 65536 + 65536 * (s / 65536) := by omega
      have d2 := congrArg (fun t => t * 65536 ^ (i + j)) d
      simp only [Nat.add_mul] at d2
      have d3 := congrArg (fun t => t * 65536 ^ (i + j)) hsdef
      simp only [Nat.add_mul] at d3
      rw [hp2] at h hu d2 d3 ⊢
      generalize 65536 ^ i = X at h hu d2 d3 ⊢
      generalize 65536 ^ j = Y at h hu d2 d3 ⊢
      generalize s % 65536 = r at h hu d2 d3 ⊢
      generalize s / 65536 = q at h hu d2 d3 ⊢
      generalize limbsVal av j = A at h ⊢
      generalize av (j : Int) = aj at h d3 ⊢
      generalize cv ((i + j : Nat) : Int) = cp at hu d3 ⊢
      linarith

/-- The rows of the schoolbook product accumulate `a * b[0..i)`. -/
theorem multOuter_sum (av bv : Int → Nat) (alen : Nat) (hav : ∀ j : Int, av j < 65536)
    (hbv : ∀ j : Int, bv j < 65536) (k i : Nat) (cv : Int → Nat)
    (hcv : ∀ j : Int, cv j < 65536)
    (hz : ∀ p : Nat, alen + i ≤ p → p < alen + i + k → cv p = 0)
    (hval : limbsVal cv (alen + i) = limbsVal av alen * limbsVal bv i) :
    (∀ p : Int, multOuter av bv alen k i cv p < 65536) ∧
    limbsVal (multOuter av bv alen k i cv) (alen + i + k)
      = limbsVal av alen * limbsVal bv (i + k) := by
  induction k generalizing i cv with
  | zero => exact ⟨hcv, hval⟩
  | succ k ih =>
    simp only [multOuter]
    have hin := multInner_sum av (bv i) i hav (hbv i) alen 0 0 cv hcv (by omega)
      (alen + i) (by omega)
    obtain ⟨w, hw⟩ : ∃ w, w = multInner av (bv i) i alen 0 0 cv := ⟨_, rfl⟩
    rw [← hw] at hin ⊢
    have hrow : limbsVal (Function.update w.1 ((alen + i : Nat) : Int) (w.2 % 65536))
        (alen + (i + 1)) = limbsVal av alen * limbsVal bv (i + 1) := by
      have h := hin.2.2.2
      simp only [limbsVal, Nat.zero_add, Nat.zero_mul, Nat.add_zero] at h
      show limbsVal _ (alen + i) + Function.update w.1 ((alen + i : Nat) : Int) (w.2 % 65536)
        ((alen + i : Nat) : Int) * 65536 ^ (alen + i) = _
      rw [Function.update_same, limbsVal_update_ge _ _ _ _ (Or.inr (by omega)),
        Nat.mod_eq_of_lt hin.2.1]
      show _ = limbsVal av alen * (limbsVal bv i + bv i * 65536 ^ i)
      rw [Nat.add_comm i alen] at h
      rw [Nat.mul_add, ← hval]
      linarith
    have ih1 := ih (i + 1) (Function.update w.1 ((alen + i : Nat) : Int) (w.2 % 65536))
      (limbs16_update _ hin.1 _ _ (Nat.mod_lt _ (by omega)))
      (by
        intro p hp1 hp2
        rw [Function.update_noteq (by omega), hin.2.2.1 p (by omega)]
        exact hz p (by omega) (by omega))
      hrow
    have e1 : alen + (i + 1) + k = alen + i + (k + 1) := by omega
    have e2 : i + 1 + k = i + (k + 1) := by omega
    rw [e1, e2] at ih1
    exact ih1

theorem limbs16_zeroFill (v : Int → Nat) (hv : ∀ j : Int, v j < 65536) (k i : Nat) :
    ∀ j : Int, zeroFill k i v j < 65536 := by
  intro j
  rw [zeroFill_apply]
  split
  · omega
  · exact hv j

/-- Full description of what `mult` leaves in `c`. -/
theorem mult_spec (a b c : MINT) (ha : Limbs16 a) (hb : Limbs16 b) (hc : Limbs16 c) :
    Limbs16 (mult a b c).2.2 ∧
    value (mult a b c).2.2 = value a * value b ∧
    (mult a b c).2.2.len = (chomp a).len + (chomp b).len ∧
    (mult a b c).2.2.sign = (if a.sign = b.sign then 0 else 1) ∧
    (mult a b c).1 = chomp a ∧ (mult a b c).2.1 = chomp b := by
  have hc0 : ∀ j : Int, zeroFill ((chomp a).len + (chomp b).len) 0 (minit c 0).val j < 65536 :=
    limbs16_zeroFill _ (limbs16_update c.val hc 0 _ (by omega)) _ _
  have hzero : ∀ (n : Nat) (p : Nat), p < n →
      zeroFill n 0 (minit c 0).val p = 0 := by
    intro n p hp
    rw [zeroFill_apply, if_pos (by omega)]
  by_cases hsw : (chomp b).len > (chomp a).len
  · have hm := multOuter_sum (chomp b).val (chomp a).val (chomp b).len hb ha (chomp a).len 0
      (zeroFill ((chomp a).len + (chomp b).len) 0 (minit c 0).val) hc0
      (by intro p _ hp; exact hzero _ p (by omega))
      (by
        simp only [limbsVal, Nat.add_zero, Nat.mul_zero]
        exact limbsVal_zero_of _ _ (fun p hp => hzero _ p (by omega)))
    have hres : mult a b c = (chomp a, chomp b,
        { sign := if (chomp b).sign = (chomp a).sign then 0 else 1,
          len := (chomp a).len + (chomp b).len,
          val := multOuter (chomp b).val (chomp a).val (chomp b).len (chomp a).len 0
            (zeroFill ((chomp a).len + (chomp b).len) 0 (minit c 0).val) }) := by
      unfold mult
      simp only [if_pos hsw]
    rw [hres]
    refine ⟨hm.1, ?_, rfl, ?_, rfl, rfl⟩
    · have hv := hm.2
      simp only [Nat.add_zero, Nat.zero_add] at hv
      show limbsVal (multOuter (chomp b).val (chomp a).val (chomp b).len (chomp a).len 0
            (zeroFill ((chomp a).len + (chomp b).len) 0 (minit c 0).val))
          ((chomp a).len + (chomp b).len) = _
      generalize multOuter (chomp b).val (chomp a).val (chomp b).len (chomp a).len 0
            (zeroFill ((chomp a).len + (chomp b).len) 0 (minit c 0).val) = X at hv ⊢
      rw [Nat.add_comm, hv]
      show value (chomp b) * value (chomp a) = _
      rw [value_chomp, value_chomp, Nat.mul_comm]
    · show (if b.sign = a.sign then 0 else 1) = _
      by_cases h : a.sign = b.sign
      · rw [if_pos h, if_pos h.symm]
      · rw [if_neg h, if_neg (fun h2 => h h2.symm)]
  · have hm := multOuter_sum (chomp a).val (chomp b).val (chomp a).len ha hb (chomp b).len 0
      (zeroFill ((chomp a).len + (chomp b).len) 0 (minit c 0).val) hc0
      (by intro p _ hp; exact hzero _ p (by omega))
      (by
        simp only [limbsVal, Nat.add_zero, Nat.mul_zero]
        exact limbsVal_zero_of _ _ (fun p hp => hzero _ p (by omega)))
    have hres : mult a b c = (chomp a, chomp b,
        { sign := if (chomp a).sign = (chomp b).sign then 0 else 1,
          len := (chomp a).len + (chomp b).len,
          val := multOuter (chomp a).val (chomp b).val (chomp a).len (chomp b).len 0
            (zeroFill ((chomp a).len + (chomp b).len) 0 (minit c 0).val) }) := by
      unfold mult
      simp only [if_neg hsw]
    rw [hres]
    refine ⟨hm.1, ?_, rfl, rfl, rfl, rfl⟩
    have hv := hm.2
    simp only [Nat.add_zero, Nat.zero_add] at hv
    show limbsVal _ ((chomp a).len + (chomp b).len) = _
    rw [hv]
    show value (chomp a) * value (chomp b) = _
    rw [value_chomp, value_chomp]

theorem xor_flag (s t : Nat) (hs : s ≤ 1) (ht : t ≤ 1) :
    s ^^^ t = if s = t then 0 else 1 := by
  interval_cases s <;> interval_cases t <;> rfl

/-- C2: `mult` leaves in `c` the product of the magnitudes, of length the sum
of the chomped lengths, with sign flag the exclusive or of the sign flags. -/
theorem mult_product (a b c : MINT) (ha : Limbs16 a) (hb : Limbs16 b) (hc : Limbs16 c)
    (hsa : a.sign ≤ 1) (hsb : b.sign ≤ 1) :
    value (mult a b c).2.2 = value a * value b ∧
    (mult a b c).2.2.len = (chomp a).len + (chomp b).len ∧
    (mult a b c).2.2.sign = a.sign ^^^ b.sign := by
  have h := mult_spec a b c ha hb hc
  rw [xor_flag _ _ hsa hsb]
  exact ⟨h.2.1, h.2.2.1, h.2.2.2.1⟩

/-- Witness for C2: the product of 3 and -5 in one-limb operands. -/
theorem mult_product_witness :
    value (mult ⟨0, 1, fun _ => 3⟩ ⟨1, 1, fun _ => 5⟩ MINTDECL).2.2
      = value ⟨0, 1, fun _ => 3⟩ * value ⟨1, 1, fun _ => 5⟩ ∧
    (mult ⟨0, 1, fun _ => 3⟩ ⟨1, 1, fun _ => 5⟩ MINTDECL).2.2.len
      = (chomp ⟨0, 1, fun _ => 3⟩).len + (chomp ⟨1, 1, fun _ => 5⟩).len ∧
    (mult ⟨0, 1, fun _ => 3⟩ ⟨1, 1, fun _ => 5⟩ MINTDECL).2.2.sign = 0 ^^^ 1 :=
  mult_product ⟨0, 1, fun _ => 3⟩ ⟨1, 1, fun _ => 5⟩ MINTDECL
    (fun _ => show (3 : Nat) < 65536 by decide) (fun _ => show (5 : Nat) < 65536 by decide)
    (fun _ => show (0 : Nat) < 65536 by decide) (show (0 : Nat) ≤ 1 by decide)
    (show (1 : Nat) ≤ 1 by decide)

/-- C3: `mult` is commutative in the length, the limbs and the sign flag of
its result. -/
theorem mult_comm_limbs (a b c d : MINT) (ha : Limbs16 a) (hb : Limbs16 b)
    (hc : Limbs16 c) (hd : Limbs16 d) :
    (mult a b c).2.2.len = (mult b a d).2.2.len ∧
    (∀ i : Nat, i < (mult a b c).2.2.len → (mult a b c).2.2.val i = (mult b a d).2.2.val i) ∧
    (mult a b c).2.2.sign = (mult b a d).2.2.sign := by
  have h1 := mult_spec a b c ha hb hc
  have h2 := mult_spec b a d hb ha hd
  have hlen : (mult a b c).2.2.len = (mult b a d).2.2.len := by
    rw [h1.2.2.1, h2.2.2.1, Nat.add_comm]
  refine ⟨hlen, ?_, ?_⟩
  · intro i hi
    apply limbs_eq_of_limbsVal_eq (mult a b c).2.2.len (fun k _ => h1.1 k)
      (fun k _ => h2.1 k) _ i hi
    have e1 : limbsVal (mult a b c).2.2.val (mult a b c).2.2.len = value (mult a b c).2.2 := rfl
    have e2 : limbsVal (mult b a d).2.2.val (mult b a d).2.2.len = value (mult b a d).2.2 := rfl
    rw [e1, hlen, e2, h1.2.1, h2.2.1, Nat.mul_comm]
  · rw [h1.2.2.2.1, h2.2.2.2.1]
    by_cases h : a.sign = b.sign
    · rw [if_pos h, if_pos h.symm]
    · rw [if_neg h, if_neg (fun h3 => h h3.symm)]

/-- Witness for C3 on the one-limb operands 3 and 5. -/
theorem mult_comm_limbs_witness :
    (mult ⟨0, 1, fun _ => 3⟩ ⟨1, 1, fun _ => 5⟩ MINTDECL).2.2.len
      = (mult ⟨1, 1, fun _ => 5⟩ ⟨0, 1, fun _ => 3⟩ MINTDECL).2.2.len ∧
    (mult ⟨0, 1, fun _ => 3⟩ ⟨1, 1, fun _ => 5⟩ MINTDECL).2.2.sign
      = (mult ⟨1, 1, fun _ => 5⟩ ⟨0, 1, fun _ => 3⟩ MINTDECL).2.2.sign :=
  have h := mult_comm_limbs ⟨0, 1, fun _ => 3⟩ ⟨1, 1, fun _ => 5⟩ MINTDECL MINTDECL
    (fun _ => show (3 : Nat) < 65536 by decide) (fun _ => show (5 : Nat) < 65536 by decide)
    (fun _ => show (0 : Nat) < 65536 by decide) (fun _ => show (0 : Nat) < 65536 by decide)
  ⟨h.1, h.2.2⟩

/-! ## mdiv -/

theorem mcopyLoop_apply (src : Int → Nat) (n : Nat) (v : Int → Nat) (j : Int) :
    mcopyLoop src n v j = if 0 ≤ j ∧ j < n then src j else v j := by
  induction n with
  | zero =>
    simp only [mcopyLoop]
    rw [if_neg]
    omega
  | succ n ih =>
    simp only [mcopyLoop]
    by_cases h : j = (n : Int)
    · rw [h, Function.update_same, if_pos (by omega)]
    · rw [Function.update_noteq h, ih]
      by_cases h2 : 0 ≤ j ∧ j < (n : Int)
      · rw [if_pos h2, if_pos (by omega)]
      · rw [if_neg h2, if_neg (by omega)]

theorem mcopy_props (b a : MINT) (hb : Limbs16 b) (ha : Limbs16 a) :
    Limbs16 (mcopy b a) ∧ (mcopy b a).len = b.len ∧ (mcopy b a).sign = b.sign ∧
    value (mcopy b a) = value b ∧
    (∀ i : Nat, i < b.len → (mcopy b a).val i = b.val i) := by
  have hcell : ∀ i : Nat, i < b.len → (mcopy b a).val i = b.val i := by
    intro i hi
    show mcopyLoop b.val b.len a.val i = _
    rw [mcopyLoop_apply, if_pos (by omega)]
  refine ⟨?_, rfl, rfl, ?_, hcell⟩
  · intro j
    show mcopyLoop b.val b.len a.val j < 65536
    rw [mcopyLoop_apply]
    split
    · exact hb j
    · exact ha j
  · exact limbsVal_congr b.len hcell

/-- Bit `k` of the value, read from limb `k / 16`. -/
theorem limb_bit (v : Int → Nat) (n : Nat) (hv : ∀ i : Nat, i < n → v i < 65536)
    (k : Nat) (hk : k < n * 16) :
    v ((k / 16 : Nat) : Int) / 2 ^ (k % 16) % 2 = limbsVal v n / 2 ^ k % 2 := by
  rw [limbsVal_digit n hv (k / 16) (by omega)]
  have e : (2 : Nat) ^ k = 65536 ^ (k / 16) * 2 ^ (k % 16) := by
    have : (65536 : Nat) = 2 ^ 16 := by norm_num
    rw [this, ← pow_mul, ← pow_add]
    congr 1
    omega
  rw [e, ← Nat.div_div_eq_div_mul]
  generalize limbsVal v n / 65536 ^ (k / 16) = Y
  have hj : k % 16 < 16 := Nat.mod_lt _ (by omega)
  generalize k % 16 = j at hj
  have h1 : (Y % 65536).testBit j = Y.testBit j := by
    have : (65536 : Nat) = 2 ^ 16 := by norm_num
    rw [this, Nat.testBit_mod_two_pow]
    simp [hj]
  rw [Nat.testBit_to_div_mod, Nat.testBit_to_div_mod] at h1
  have h2 := Nat.mod_two_eq_zero_or_one (Y % 65536 / 2 ^ j)
  have h3 := Nat.mod_two_eq_zero_or_one (Y / 2 ^ j)
  rcases h2 with h2 | h2 <;> rcases h3 with h3 | h3 <;> simp_all

/-- Setting a clear bit adds its weight. -/
theorem or_two_pow_of_clear (x j : Nat) (h : x / 2 ^ j % 2 = 0) :
    x ||| (1 <<< j) = x + 2 ^ j := by
  rw [Nat.shiftLeft_eq, Nat.one_mul]
  have hpos : 0 < 2 ^ j := by positivity
  have hlo : x % 2 ^ j < 2 ^ j := Nat.mod_lt _ hpos
  have hx : x = 2 ^ (j + 1) * (x / 2 ^ (j + 1)) + x % 2 ^ j := by
    have h1 : x % 2 ^ (j + 1) = x % 2 ^ j + 2 ^ j * (x / 2 ^ j % 2) := Nat.mod_pow_succ
    rw [h, Nat.mul_zero] at h1
    have h2 := Nat.div_add_mod x (2 ^ (j + 1))
    omega
  have hp : 2 ^ (j + 1) = 2 * 2 ^ j := by rw [pow_succ]; ring
  have hlt1 : x % 2 ^ j < 2 ^ (j + 1) := by omega
  have hlt2 : 2 ^ j + x % 2 ^ j < 2 ^ (j + 1) := by omega
  have e1 := Nat.mul_add_lt_is_or hlt1 (x / 2 ^ (j + 1))
  have e2 := Nat.mul_add_lt_is_or hlt2 (x / 2 ^ (j + 1))
  have e3 := Nat.mul_add_lt_is_or hlo 1
  rw [Nat.mul_one] at e3
  have lhs : x ||| 2 ^ j = 2 ^ (j + 1) * (x / 2 ^ (j + 1)) ||| (2 ^ j ||| x % 2 ^ j) := by
    conv_lhs => rw [hx, e1]
    rw [Nat.lor_assoc, Nat.or_comm (x % 2 ^ j) (2 ^ j)]
  rw [lhs, ← e3, ← e2]
  omega

/-- `geq` decides the order also when the left operand is the single zero limb. -/
theorem geq_iff_z (l r : MINT) (hl : Limbs16 l) (hr : Limbs16 r)
    (cl : Canon l ∨ (l.len = 1 ∧ l.val 0 = 0)) (cr : Canon r) (hpos : 0 < value r) :
    geq l r = 1 ↔ value r ≤ value l := by
  rcases cl with cl | ⟨h1, h0⟩
  · exact geq_iff l r hl hr cl cr
  · have hrl : 0 < r.len := by
      rcases Nat.eq_zero_or_pos r.len with h | h
      · unfold value at hpos; rw [h] at hpos; simp [limbsVal] at hpos
      · exact h
    have hv0 : value l = 0 := by
      unfold value; rw [h1]; simp [limbsVal, h0]
    unfold geq
    rw [if_neg (by omega)]
    by_cases h2 : l.len < r.len
    · rw [if_pos h2, hv0]
      constructor
      · intro h; omega
      · intro h; omega
    · rw [if_neg h2]
      have e : r.len = l.len := by omega
      have := (geqLoop_iff l.val r.val l.len (fun i _ => hl i) (fun i _ => hr i)).1
      unfold value
      rw [e]
      exact this

/-- The remainder after the shift, the length fix and the new low bit. -/
theorem mdiv_shift_in (r : MINT) (hr : Limbs16 r) (cz : CanonZ r) (bit : Nat) (hbit : bit ≤ 1) :
    ∃ r3 : MINT,
      r3 = ((if (mshl1 r).len = 0 then
            { mshl1 r with val := Function.update (mshl1 r).val 0 0, len := 1 }
          else mshl1 r).put 0
        ((if (mshl1 r).len = 0 then
            { mshl1 r with val := Function.update (mshl1 r).val 0 0, len := 1 }
          else mshl1 r).val 0 ||| bit)) ∧
      Limbs16 r3 ∧ CanonZ r3 ∧ r3.sign = r.sign ∧ value r3 = 2 * value r + bit := by
  refine ⟨_, rfl, ?_⟩
  have p := mshl1_props r hr
  obtain ⟨r2, hr2⟩ : ∃ r2 : MINT, r2 = (if (mshl1 r).len = 0 then
      { mshl1 r with val := Function.update (mshl1 r).val 0 0, len := 1 } else mshl1 r) :=
    ⟨_, rfl⟩
  rw [← hr2]
  -- facts on the state after the length fix
  have r2L : Limbs16 r2 := by
    rw [hr2]; split
    · exact limbs16_update _ p.1 0 0 (by omega)
    · exact p.1
  have r2len : 0 < r2.len := by
    rw [hr2]; split
    · exact Nat.one_pos
    · omega
  have r2sign : r2.sign = r.sign := by
    rw [hr2]; split
    · exact p.2.2.1
    · exact p.2.2.1
  have r2val : value r2 = 2 * value r := by
    rw [hr2]; split
    · rename_i h0
      have hv : value (mshl1 r) = 0 := by unfold value; rw [h0]; rfl
      rw [← p.2.1, hv]
      show limbsVal (Function.update (mshl1 r).val 0 0) 1 = 0
      simp [limbsVal]
    · exact p.2.1
  have r2even : r2.val 0 % 2 = 0 := by
    rw [hr2]; split
    · show Function.update (mshl1 r).val 0 0 0 % 2 = 0
      rw [Function.update_same]
    · exact p.2.2.2.2.2.2.2.1 (by omega)
  have r2top : r2.val ((r2.len : Int) - 1) ≠ 0 ∨ (r2.len = 1 ∧ r2.val 0 = 0) := by
    rcases Nat.eq_zero_or_pos r.len with hz | hpos
    · -- an empty remainder stays zero
      right
      rw [hr2]; split
      · exact ⟨rfl, Function.update_same (β := fun _ => Nat) 0 0 (mshl1 r).val⟩
      · have h1 : (mshl1 r).len = 1 := by have := p.2.2.2.2.1; omega
        exact ⟨h1, p.2.2.2.2.2.2.1 h1 hz⟩
    · have hne : (mshl1 r).len ≠ 0 := by have := p.2.2.2.1; omega
      have e : r2 = mshl1 r := by rw [hr2, if_neg hne]
      rw [e]
      rcases cz with c | ⟨h1, h0⟩
      · rcases c with c | c
        · omega
        · exact Or.inl (p.2.2.2.2.2.1 hpos c)
      · right
        have ht : r.val ((r.len : Int) - 1) < 32768 := by
          have : ((r.len : Nat) : Int) - 1 = 0 := by omega
          rw [this, h0]; omega
        have hl : (mshl1 r).len = 1 := by rw [p.2.2.2.2.2.2.2.2 ht, h1]
        refine ⟨hl, ?_⟩
        have hv : value (mshl1 r) = 0 := by
          rw [p.2.1]; unfold value; rw [h1]; simp [limbsVal, h0]
        unfold value at hv
        rw [hl] at hv
        simpa [limbsVal] using hv
  -- the new low limb
  have hor : r2.val 0 ||| bit = r2.val 0 + bit := by
    rw [or_bit0 _ _ hbit, if_pos r2even]
  have hlt : r2.val 0 + bit < 65536 := by have := r2L 0; omega
  have hput : (r2.put 0 (r2.val 0 ||| bit)).val = Function.update r2.val 0 (r2.val 0 + bit) := by
    show Function.update r2.val 0 ((r2.val 0 ||| bit) % 65536) = _
    rw [hor, Nat.mod_eq_of_lt hlt]
  have hplen : (r2.put 0 (r2.val 0 ||| bit)).len = r2.len := rfl
  refine ⟨?_, ?_, r2sign, ?_⟩
  · intro j
    rw [hput]
    exact limbs16_update _ r2L 0 _ hlt j
  · unfold CanonZ Canon
    rw [hput, hplen]
    by_cases h1 : r2.len = 1
    · have e : ((r2.len : Nat) : Int) - 1 = 0 := by omega
      rw [e, Function.update_same]
      rw [e] at r2top
      by_cases hb : r2.val 0 + bit = 0
      · exact Or.inr ⟨h1, hb⟩
      · exact Or.inl (Or.inr hb)
    · left; right
      rw [Function.update_noteq (by omega)]
      rcases r2top with h | h
      · exact h
      · omega
  · unfold value
    rw [hput, hplen]
    obtain ⟨m, hm⟩ : ∃ m, r2.len = m + 1 := ⟨r2.len - 1, by omega⟩
    have hu := limbsVal_update_zero r2.val (r2.val 0 + bit) m
    unfold value at r2val
    rw [hm] at r2val ⊢
    omega

/-- One round of the loop of `mdiv` re-establishes the invariant one bit lower. -/
theorem mdivStep_inv (n d : MINT) (hn : Limbs16 n) (hd : Limbs16 d) (cd : Canon d)
    (hds : d.sign = 0) (k : Nat) (hk : k < n.len * 16) (s : DivState)
    (h : DivInv n d (k + 1) s) : DivInv n d k (mdivStep n d s k) := by
  obtain ⟨hq, hr, ha, hb, hql, cz, hrs, har⟩ := h
  obtain ⟨bit, hbitdef⟩ : ∃ bit : Nat,
      bit = (n.val ((k / 16 : Nat) : Int) >>> (k % 16)) &&& 1 := ⟨_, rfl⟩
  have hbitv : bit = value n / 2 ^ k % 2 := by
    rw [hbitdef, Nat.and_one_is_mod, Nat.shiftRight_eq_div_pow]
    exact limb_bit n.val n.len (fun i _ => hn i) k hk
  have hbit : bit ≤ 1 := by rw [hbitv]; omega
  obtain ⟨r3, hr3, r3L, r3cz, r3s, r3v⟩ := mdiv_shift_in s.r hr cz bit hbit
  rw [hrs] at r3s
  have hdiv : value n / 2 ^ k = 2 * (value n / 2 ^ (k + 1)) + bit := by
    have : value n / 2 ^ (k + 1) = value n / 2 ^ k / 2 := by
      rw [pow_succ, Nat.div_div_eq_div_mul]
    rw [this, hbitv]; omega
  by_cases hg : geq r3 d = 1
  · -- the divisor fits: subtract it and set the quotient bit
    have hge : value d ≤ value r3 := by
      rcases Nat.eq_zero_or_pos (value d) with h0 | hpos
      · omega
      · exact (geq_iff_z r3 d r3L hd r3cz cd hpos).mp hg
    have pb := mcopy_props d s.b hd hb
    obtain ⟨b, hbdef⟩ : ∃ b : MINT, b = mcopy d s.b := ⟨_, rfl⟩
    rw [← hbdef] at pb
    obtain ⟨bn, hbn⟩ : ∃ bn : MINT, bn = { b with sign := if b.sign = 0 then 1 else 0 } :=
      ⟨_, rfl⟩
    have bnL : Limbs16 bn := by rw [hbn]; exact pb.1
    have bnsign : bn.sign = 1 := by
      rw [hbn]
      show (if b.sign = 0 then 1 else 0) = 1
      rw [pb.2.2.1, hds]; rfl
    have bnval : value bn = value d := by rw [hbn]; exact pb.2.2.2.1
    have pm := madd_spec r3 bn s.a r3L bnL ha
    obtain ⟨res, hres⟩ : ∃ res, res = madd r3 bn s.a := ⟨_, rfl⟩
    rw [← hres] at pm
    rw [r3s, bnsign, bnval] at pm
    simp only [if_true, show ¬ (1 : Nat) = 0 by omega, if_false] at pm
    have hcs : res.2.2.sign = 0 := pm.2.2.2.2.2.2.2.2.2.2.1 (by omega)
    have hcv : value res.2.2 = value r3 - value d := by
      have e := pm.2.2.2.2.2.2.2.2.2.1
      rw [hcs] at e
      simp only [if_true] at e
      omega
    have pr := mcopy_props res.2.2 res.1 pm.2.2.1 pm.1
    obtain ⟨x, hxdef⟩ : ∃ x : Nat, x = s.q.val ((k / 16 : Nat) : Int) := ⟨_, rfl⟩
    have hxlt : x ||| (1 <<< (k % 16)) < 65536 := by
      have h1 : x < 2 ^ 16 := by rw [hxdef]; exact hq _
      have h2 : 1 <<< (k % 16) < 2 ^ 16 := by
        rw [Nat.shiftLeft_eq, Nat.one_mul]
        exact Nat.pow_lt_pow_right (by omega) (Nat.mod_lt _ (by omega))
      exact Nat.or_lt_two_pow h1 h2
    have hstep : mdivStep n d s k =
        { q := s.q.put ((k / 16 : Nat) : Int) (x ||| (1 <<< (k % 16))),
          r := mcopy res.2.2 res.1, a := res.2.2, b := res.2.1 } := by
      unfold mdivStep
      simp only
      rw [← hbitdef, ← hr3, if_pos hg]
      unfold msub
      rw [← hbdef, ← hbn, ← hres, hxdef]
    rw [hstep]
    have hqL : Limbs16 (s.q.put ((k / 16 : Nat) : Int) (x ||| (1 <<< (k % 16)))) :=
      limbs16_update _ hq _ _ (Nat.mod_lt _ (by omega))
    refine ⟨hqL, pr.1, pm.2.2.1, pm.2.1, hql, ?_, ?_, ?_⟩
    · -- the copy of a chomped sum is chomped
      left
      unfold Canon
      rw [pr.2.1]
      rcases Nat.eq_zero_or_pos res.2.2.len with h0 | hl
      · exact Or.inl h0
      · right
        have c : res.2.2.val ((res.2.2.len : Int) - 1) ≠ 0 := by
          rcases pm.2.2.2.1 with c | c
          · omega
          · exact c
        have e : ((res.2.2.len : Nat) : Int) - 1 = ((res.2.2.len - 1 : Nat) : Int) := by omega
        rw [e, pr.2.2.2.2 _ (by omega), ← e]
        exact c
    · rw [pr.2.2.1]; exact hcs
    · intro hpos
      obtain ⟨hlt, Q, hQ, hN⟩ := har hpos
      have hclear : x / 2 ^ (k % 16) % 2 = 0 := by
        rw [hxdef, limb_bit s.q.val s.q.len (fun i _ => hq i) k (by rw [hql]; exact hk)]
        have : limbsVal s.q.val s.q.len = value s.q := rfl
        have h2 : Q * 2 ^ (k + 1) = (2 * Q) * 2 ^ k := by rw [pow_succ]; ring
        rw [this, hQ, h2, Nat.mul_div_cancel _ (by positivity)]
        omega
      have hor := or_two_pow_of_clear x (k % 16) hclear
      have hqv : value (s.q.put ((k / 16 : Nat) : Int) (x ||| (1 <<< (k % 16))))
          = value s.q + 2 ^ k := by
        unfold value
        show limbsVal (Function.update s.q.val _ ((x ||| (1 <<< (k % 16))) % 65536)) s.q.len = _
        rw [Nat.mod_eq_of_lt hxlt, hor]
        have hu := limbsVal_update_lt s.q.val (k / 16) (x + 2 ^ (k % 16)) s.q.len
          (by rw [hql]; omega)
        rw [← hxdef, Nat.add_mul] at hu
        have e : (2 : Nat) ^ k = 2 ^ (k % 16) * 65536 ^ (k / 16) := by
          have : (65536 : Nat) = 2 ^ 16 := by norm_num
          rw [this, ← pow_mul, ← pow_add]
          congr 1
          omega
        rw [e]
        omega
      refine ⟨?_, 2 * Q + 1, ?_, ?_⟩
      · rw [pr.2.2.2.1, hcv]; omega
      · rw [hqv, hQ, pow_succ]; ring
      · rw [pr.2.2.2.1, hcv, hdiv, hN]
        have : (2 * Q + 1) * value d = 2 * (Q * value d) + value d := by ring
        rw [this]; omega
  · -- the divisor does not fit
    have hstep : mdivStep n d s k = { s with r := r3 } := by
      unfold mdivStep
      simp only
      rw [← hbitdef, ← hr3, if_neg hg]
    rw [hstep]
    refine ⟨hq, r3L, ha, hb, hql, r3cz, r3s, ?_⟩
    intro hpos
    obtain ⟨hlt, Q, hQ, hN⟩ := har hpos
    have hnot : ¬ value d ≤ value r3 := fun hle =>
      hg ((geq_iff_z r3 d r3L hd r3cz cd hpos).mpr hle)
    refine ⟨show value r3 < value d by omega, 2 * Q, ?_, ?_⟩
    · show value s.q = _
      rw [hQ, pow_succ]; ring
    · show value n / 2 ^ k = 2 * Q * value d + value r3
      rw [hdiv, hN, r3v]
      have : 2 * Q * value d = 2 * (Q * value d) := by ring
      rw [this]; omega

theorem mdivLoop_inv (n d : MINT) (hn : Limbs16 n) (hd : Limbs16 d) (cd : Canon d)
    (hds : d.sign = 0) (k : Nat) (hk : k ≤ n.len * 16) (s : DivState)
    (h : DivInv n d k s) : DivInv n d 0 (mdivLoop n d k s) := by
  induction k generalizing s with
  | zero => exact h
  | succ k ih =>
    simp only [mdivLoop]
    exact ih (by omega) _ (mdivStep_inv n d hn hd cd hds k (by omega) s h)

theorem limbs16_MINTDECL : Limbs16 MINTDECL := fun _ => by
  show (0 : Nat) < 65536
  omega

theorem limbs16_minit (m : MINT) (hm : Limbs16 m) (v : Nat) : Limbs16 (minit m v) :=
  limbs16_update m.val hm 0 _ (Nat.mod_lt _ (by omega))

/-- Full description of what `mdiv` leaves in `q` and `r`. -/
theorem mdiv_spec (n d q r : MINT) (hn : Limbs16 n) (hd : Limbs16 d) (hq : Limbs16 q)
    (hr : Limbs16 r) (hds : d.sign = 0) :
    Limbs16 (mdiv n d q r).2.2.1 ∧ Limbs16 (mdiv n d q r).2.2.2 ∧
    Canon (mdiv n d q r).2.2.1 ∧ CanonZ (mdiv n d q r).2.2.2 ∧
    (0 < value d →
      value n = value (mdiv n d q r).2.2.1 * value d + value (mdiv n d q r).2.2.2 ∧
      value (mdiv n d q r).2.2.2 < value d) := by
  obtain ⟨s0, hs0⟩ : ∃ s0 : DivState, s0 =
      ⟨{ minit q 0 with val := zeroFill (chomp n).len 0 (minit q 0).val, len := (chomp n).len },
        minit r 0, MINTDECL, MINTDECL⟩ := ⟨_, rfl⟩
  have hres : mdiv n d q r = (chomp n, chomp d,
      chomp (mdivLoop (chomp n) (chomp d) ((chomp n).len * 16) s0).q,
      (mdivLoop (chomp n) (chomp d) ((chomp n).len * 16) s0).r) := by
    rw [hs0]; rfl
  have hinit : DivInv (chomp n) (chomp d) ((chomp n).len * 16) s0 := by
    rw [hs0]
    refine ⟨limbs16_zeroFill _ (limbs16_minit q hq 0) _ _, limbs16_minit r hr 0,
      limbs16_MINTDECL, limbs16_MINTDECL, rfl, Or.inr ⟨rfl, ?_⟩, rfl, ?_⟩
    · show Function.update r.val 0 (0 % 65536) 0 = 0
      rw [Function.update_same]
    · intro hpos
      have hr0 : value (minit r 0) = 0 := by
        show limbsVal (Function.update r.val 0 (0 % 65536)) 1 = 0
        simp [limbsVal]
      refine ⟨by show value (minit r 0) < _; rw [hr0]; exact hpos, 0, ?_, ?_⟩
      · show limbsVal (zeroFill (chomp n).len 0 (minit q 0).val) (chomp n).len = 0 * _
        rw [Nat.zero_mul]
        apply limbsVal_zero_of
        intro i hi
        rw [zeroFill_apply, if_pos (by omega)]
      · show value (chomp n) / 2 ^ ((chomp n).len * 16) = 0 * value (chomp d) + value (minit r 0)
        rw [hr0, Nat.zero_mul, Nat.add_zero]
        apply Nat.div_eq_of_lt
        have h1 := value_lt (chomp n) hn
        have e : (65536 : Nat) ^ (chomp n).len = 2 ^ ((chomp n).len * 16) := by
          have : (65536 : Nat) = 2 ^ 16 := by norm_num
          rw [this, ← pow_mul, Nat.mul_comm]
        rw [← e]
        exact h1
  have hfin := mdivLoop_inv (chomp n) (chomp d) hn hd (canon_chomp d) hds
    ((chomp n).len * 16) (Nat.le_refl _) s0 hinit
  obtain ⟨fq, fr, _, _, _, fcz, _, far⟩ := hfin
  rw [hres]
  refine ⟨fq, fr, canon_chomp _, fcz, ?_⟩
  intro hpos
  rw [value_chomp] at far
  obtain ⟨hlt, Q, hQ, hN⟩ := far hpos
  rw [value_chomp] at hN
  simp only [pow_zero, Nat.mul_one, Nat.div_one] at hQ hN
  show value n = value (chomp _) * value d + _ ∧ _
  rw [value_chomp, hQ]
  exact ⟨hN, hlt⟩

/-- C1: for a nonzero divisor with clear sign flag `mdiv` leaves a quotient
and a remainder with `n = q * d + r` and `r < d`. -/
theorem mdiv_division (n d q r : MINT) (hn : Limbs16 n) (hd : Limbs16 d) (hq : Limbs16 q)
    (hr : Limbs16 r) (hds : d.sign = 0) (hd0 : value d ≠ 0) :
    value n = value (mdiv n d q r).2.2.1 * value d + value (mdiv n d q r).2.2.2 ∧
    0 ≤ value (mdiv n d q r).2.2.2 ∧ value (mdiv n d q r).2.2.2 < value d := by
  have h := (mdiv_spec n d q r hn hd hq hr hds).2.2.2.2 (Nat.pos_of_ne_zero hd0)
  exact ⟨h.1, Nat.zero_le _, h.2⟩

/-- Witness for C1: 4 divided by 2, where the partial remainder becomes empty. -/
theorem mdiv_division_witness :
    value (⟨0, 1, fun _ => 4⟩ : MINT)
      = value (mdiv ⟨0, 1, fun _ => 4⟩ ⟨0, 1, fun _ => 2⟩ MINTDECL MINTDECL).2.2.1
          * value (⟨0, 1, fun _ => 2⟩ : MINT)
        + value (mdiv ⟨0, 1, fun _ => 4⟩ ⟨0, 1, fun _ => 2⟩ MINTDECL MINTDECL).2.2.2 ∧
    value (mdiv ⟨0, 1, fun _ => 4⟩ ⟨0, 1, fun _ => 2⟩ MINTDECL MINTDECL).2.2.2
      < value (⟨0, 1, fun _ => 2⟩ : MINT) :=
  have h := mdiv_division ⟨0, 1, fun _ => 4⟩ ⟨0, 1, fun _ => 2⟩ MINTDECL MINTDECL
    (fun _ => show (4 : Nat) < 65536 by decide) (fun _ => show (2 : Nat) < 65536 by decide)
    limbs16_MINTDECL limbs16_MINTDECL rfl (show (2 : Nat) * 65536 ^ 0 + 0 ≠ 0 by decide)
  ⟨h.1, h.2.2⟩

/-! ## Canonical form of the outputs -/

theorem mshl1_canonZ (a : MINT) (ha : Limbs16 a) (cz : CanonZ a) : CanonZ (mshl1 a) := by
  have p := mshl1_props a ha
  rcases Nat.eq_zero_or_pos a.len with hz | hpos
  · rcases Nat.eq_zero_or_pos (mshl1 a).len with h0 | h1
    · exact Or.inl (Or.inl h0)
    · have h1 : (mshl1 a).len = 1 := by have := p.2.2.2.2.1; omega
      exact Or.inr ⟨h1, p.2.2.2.2.2.2.1 h1 hz⟩
  · rcases cz with c | ⟨h1, h0⟩
    · rcases c with c | c
      · omega
      · exact Or.inl (Or.inr (p.2.2.2.2.2.1 hpos c))
    · right
      have ht : a.val ((a.len : Int) - 1) < 32768 := by
        have : ((a.len : Nat) : Int) - 1 = 0 := by omega
        rw [this, h0]; omega
      have hl : (mshl1 a).len = 1 := by rw [p.2.2.2.2.2.2.2.2 ht, h1]
      refine ⟨hl, ?_⟩
      have hv : value (mshl1 a) = 0 := by
        rw [p.2.1]; unfold value; rw [h1]; simp [limbsVal, h0]
      unfold value at hv
      rw [hl] at hv
      simpa [limbsVal] using hv

theorem mshl_canonZ (n : Nat) (a : MINT) (ha : Limbs16 a) (cz : CanonZ a) :
    CanonZ (mshl a n) := by
  induction n generalizing a with
  | zero => exact cz
  | succ n ih =>
    simp only [mshl]
    exact ih (mshl1 a) (mshl1_props a ha).1 (mshl1_canonZ a ha cz)

theorem minit_canonZ (m : MINT) (v : Nat) : CanonZ (minit m v) := by
  by_cases h : (minit m v).val 0 = 0
  · exact Or.inr ⟨rfl, h⟩
  · exact Or.inl (Or.inr h)

/-- C7 as stated fails for `mult`: the product of the one-limb magnitudes 1 and 1
is left with length 2 and a zero top limb. -/
theorem mult_output_not_canonical :
    (mult ⟨0, 1, fun _ => 1⟩ ⟨0, 1, fun _ => 1⟩ MINTDECL).2.2.len = 2 ∧
    (mult ⟨0, 1, fun _ => 1⟩ ⟨0, 1, fun _ => 1⟩ MINTDECL).2.2.val 1 = 0 ∧
    (mult ⟨0, 1, fun _ => 1⟩ ⟨0, 1, fun _ => 1⟩ MINTDECL).2.2.val 0 = 1 := by
  decide!

/-- C7 amended: `minit`, `mshl`, `madd`, `msub` and `mdiv` leave their outputs
canonical or as the single zero limb; `mult` leaves `c` with the sum of the
chomped lengths, not chomped. -/
theorem canonical_outputs (a b c n d q r : MINT) (v k : Nat)
    (ha : Limbs16 a) (hb : Limbs16 b) (hc : Limbs16 c) (hn : Limbs16 n) (hd : Limbs16 d)
    (hq : Limbs16 q) (hr : Limbs16 r) (cza : CanonZ a) (hds : d.sign = 0) :
    CanonZ (minit a v) ∧ CanonZ (mshl a k) ∧
    Canon (madd a b c).2.2 ∧ Canon (msub a b c).2.2 ∧
    Canon (mdiv n d q r).2.2.1 ∧ CanonZ (mdiv n d q r).2.2.2 ∧
    (mult a b c).2.2.len = (chomp a).len + (chomp b).len := by
  have hdv := mdiv_spec n d q r hn hd hq hr hds
  refine ⟨minit_canonZ a v, mshl_canonZ k a ha cza, (madd_spec a b c ha hb hc).2.2.2.1, ?_,
    hdv.2.2.1, hdv.2.2.2.1, (mult_spec a b c ha hb hc).2.2.1⟩
  exact (madd_spec a { b with sign := if b.sign = 0 then 1 else 0 } c ha hb hc).2.2.2.1

/-- Witness for C7 amended on one-limb magnitudes. -/
theorem canonical_outputs_witness :
    CanonZ (minit ⟨0, 1, fun _ => 7⟩ 3) ∧ CanonZ (mshl ⟨0, 1, fun _ => 7⟩ 20) ∧
    Canon (madd ⟨0, 1, fun _ => 7⟩ ⟨0, 1, fun _ => 5⟩ MINTDECL).2.2 :=
  have h := canonical_outputs ⟨0, 1, fun _ => 7⟩ ⟨0, 1, fun _ => 5⟩ MINTDECL
    ⟨0, 1, fun _ => 4⟩ ⟨0, 1, fun _ => 2⟩ MINTDECL MINTDECL 3 20
    (fun _ => show (7 : Nat) < 65536 by decide) (fun _ => show (5 : Nat) < 65536 by decide)
    limbs16_MINTDECL (fun _ => show (4 : Nat) < 65536 by decide)
    (fun _ => show (2 : Nat) < 65536 by decide) limbs16_MINTDECL limbs16_MINTDECL
    (Or.inl (Or.inr (show (7 : Nat) ≠ 0 by decide))) rfl
  ⟨h.1, h.2.1, h.2.2.1⟩

/-! ## topbit -/

theorem topbitLoop_spec (fuel v : Nat) (res : Int) (hv : v < 2 ^ fuel) :
    ∃ c : Nat, topbitLoop fuel v res = res + c ∧ v < 2 ^ c ∧ (c = 0 ∨ 2 ^ (c - 1) ≤ v) := by
  induction fuel generalizing v res with
  | zero =>
    refine ⟨0, by simp [topbitLoop], hv, Or.inl rfl⟩
  | succ k ih =>
    simp only [topbitLoop]
    by_cases h0 : v = 0
    · rw [if_pos h0]
      exact ⟨0, by simp, by rw [h0]; exact Nat.one_pos, Or.inl rfl⟩
    · rw [if_neg h0, Nat.shiftRight_eq_div_pow]
      have hv2 : v / 2 ^ 1 < 2 ^ k := by
        rw [pow_succ] at hv
        rw [pow_one]
        omega
      obtain ⟨c, hc, hlt, hge⟩ := ih (v / 2 ^ 1) (res + 1) hv2
      rw [pow_one] at hlt hge
      refine ⟨c + 1, by rw [hc]; push_cast; ring, ?_, Or.inr ?_⟩
      · rw [pow_succ]; omega
      · rw [Nat.add_sub_cancel]
        cases c with
        | zero => rw [pow_zero]; omega
        | succ c =>
          rw [Nat.add_sub_cancel] at hge
          rw [pow_succ]
          omega

/-- On a nonzero magnitude `topbit` chomps its argument and returns the
position of the highest set bit. -/
theorem topbit_spec (a : MINT) (ha : Limbs16 a) (hpos : 0 < value a) :
    (topbit a).1 = chomp a ∧
    ∃ t : Nat, (topbit a).2 = (t : Int) ∧ 2 ^ t ≤ value a ∧ value a < 2 ^ (t + 1) := by
  refine ⟨rfl, ?_⟩
  have hc := canon_chomp a
  have hv := value_chomp a
  have hL : 0 < (chomp a).len := by
    rcases Nat.eq_zero_or_pos (chomp a).len with h | h
    · have : value (chomp a) = 0 := by unfold value; rw [h]; rfl
      omega
    · exact h
  obtain ⟨m, hm⟩ : ∃ m, (chomp a).len = m + 1 := ⟨(chomp a).len - 1, by omega⟩
  have etop : ((chomp a).len : Int) - 1 = (m : Int) := by omega
  have htop : (chomp a).val m ≠ 0 := by
    rcases hc with h | h
    · omega
    · rwa [etop] at h
  obtain ⟨x, hx⟩ : ∃ x, x = (chomp a).val m := ⟨_, rfl⟩
  have hx16 : x < 65536 := by rw [hx]; exact ha m
  have hx0 : x ≠ 0 := by rw [hx]; exact htop
  have hres : (topbit a).2 = topbitLoop 16 ((x % 65536) >>> 1) ((m : Int) * 16) := by
    show topbitLoop 16 (((chomp a).val (((chomp a).len : Int) - 1) % 65536) >>> 1)
      ((((chomp a).len : Int) - 1) * 16) = _
    rw [etop, ← hx]
  rw [hres, Nat.mod_eq_of_lt hx16, Nat.shiftRight_eq_div_pow, pow_one]
  obtain ⟨c, hcq, hlt, hge⟩ := topbitLoop_spec 16 (x / 2) ((m : Int) * 16) (by norm_num; omega)
  refine ⟨m * 16 + c, by rw [hcq]; push_cast; ring, ?_, ?_⟩
  all_goals
    rw [← hv]
    unfold value
    rw [hm]
    simp only [limbsVal]
    rw [← hx]
    have hlo := limbsVal_lt (v := (chomp a).val) m (fun i _ => ha i)
    have e16 : (65536 : Nat) ^ m = 2 ^ (m * 16) := by
      have : (65536 : Nat) = 2 ^ 16 := by norm_num
      rw [this, ← pow_mul, Nat.mul_comm]
    rw [e16] at hlo ⊢
  · have hxc : 2 ^ c ≤ x := by
      cases c with
      | zero => rw [pow_zero]; omega
      | succ c =>
        rw [Nat.add_sub_cancel] at hge
        rw [pow_succ]
        omega
    have : 2 ^ c * 2 ^ (m * 16) ≤ x * 2 ^ (m * 16) := Nat.mul_le_mul_right _ hxc
    rw [pow_add, Nat.mul_comm (2 ^ (m * 16))]
    omega
  · have hxc : x + 1 ≤ 2 ^ (c + 1) := by rw [pow_succ]; omega
    have : (x + 1) * 2 ^ (m * 16) ≤ 2 ^ (c + 1) * 2 ^ (m * 16) := Nat.mul_le_mul_right _ hxc
    rw [Nat.succ_mul] at this
    rw [show m * 16 + c + 1 = m * 16 + (c + 1) by omega, pow_add,
      Nat.mul_comm (2 ^ (m * 16))]
    omega

theorem pow_bracket_unique (V s t : Nat) (h1 : 2 ^ s ≤ V) (h2 : V < 2 ^ (s + 1))
    (h3 : 2 ^ t ≤ V) (h4 : V < 2 ^ (t + 1)) : s = t := by
  by_contra hne
  rcases Nat.lt_or_gt_of_ne hne with h | h
  · have : 2 ^ (s + 1) ≤ 2 ^ t := Nat.pow_le_pow_right (by omega) (by omega)
    omega
  · have : 2 ^ (t + 1) ≤ 2 ^ s := Nat.pow_le_pow_right (by omega) (by omega)
    omega

theorem topbit_eq (a : MINT) (ha : Limbs16 a) (t : Nat) (h1 : 2 ^ t ≤ value a)
    (h2 : value a < 2 ^ (t + 1)) : (topbit a).2 = (t : Int) := by
  have hpos : 0 < value a := Nat.lt_of_lt_of_le (by positivity) h1
  obtain ⟨s, hs, h3, h4⟩ := (topbit_spec a ha hpos).2
  rw [hs, pow_bracket_unique (value a) s t h3 h4 h1 h2]

/-! ## mknormal on a mantissa that needs no rounding -/

theorem len_pos_of_value_pos (m : MINT) (h : 0 < value m) : 0 < m.len := by
  rcases Nat.eq_zero_or_pos m.len with h0 | h0
  · have : value m = 0 := by unfold value; rw [h0]; rfl
    omega
  · exact h0

theorem val0_of_value (m : MINT) (hm : Limbs16 m) (h : 0 < m.len) :
    m.val 0 = value m % 65536 := by
  have := limbsVal_digit m.len (fun i _ => hm i) 0 h
  simpa using this

/-- A canonical magnitude is determined by its value: length and limbs. -/
theorem canon_limbs (m : MINT) (hm : Limbs16 m) (cm : Canon m) (L : Nat)
    (h1 : 65536 ^ L ≤ value m) (h2 : value m < 65536 ^ (L + 1)) :
    m.len = L + 1 ∧ ∀ i : Nat, i ≤ L → m.val i = value m / 65536 ^ i % 65536 := by
  have hpos : 0 < value m := Nat.lt_of_lt_of_le (by positivity) h1
  have hl := len_pos_of_value_pos m hpos
  have hlen : m.len = L + 1 := by
    have a1 := canon_value_ge m cm hl
    have a2 := value_lt m hm
    by_contra hne
    rcases Nat.lt_or_gt_of_ne hne with h | h
    · have : 65536 ^ m.len ≤ 65536 ^ L := Nat.pow_le_pow_right (by omega) (by omega)
      omega
    · have : 65536 ^ (L + 1) ≤ 65536 ^ (m.len - 1) :=
        Nat.pow_le_pow_right (by omega) (by omega)
      omega
  refine ⟨hlen, ?_⟩
  intro i hi
  exact limbsVal_digit m.len (fun k _ => hm k) i (by omega)

/-- The rounding tail of `mknormal` on a mantissa whose ten guard bits are zero. -/
theorem mknormalRound_exact (m a c : MINT) (hm : Limbs16 m) (V : Nat)
    (hV : value m = V * 1024) (hVpos : 0 < V) (ha0 : a.val 0 = 512) :
    mknormalRound m a c false = (SOFT_NORMAL, mshr m 10 false) := by
  have hl := len_pos_of_value_pos m (by rw [hV]; omega)
  have h0 := val0_of_value m hm hl
  have hsav : m.val 0 &&& ((a.val 0 <<< 1) - 1) = 0 := by
    rw [ha0]
    have : m.val 0 &&& (512 <<< 1 - 1) = m.val 0 % 1024 :=
      Nat.and_pow_two_sub_one_eq_mod (m.val 0) 10
    rw [this, h0, hV]
    omega
  have p := mshr_props 10 m hm false
  have hv : value (mshr m 10 false) = V := by
    have := p.2.2.2.2
    simp only [Bool.false_eq_true, if_false] at this
    rw [this, hV]
    norm_num
  have hz : MINTZ (mshr m 10 false) = false := by
    have hl2 := len_pos_of_value_pos (mshr m 10 false) (by rw [hv]; exact hVpos)
    unfold MINTZ
    have hne : (mshr m 10 false).len ≠ 0 := by omega
    by_cases h1 : (mshr m 10 false).len = 1
    · have hv0 : (mshr m 10 false).val 0 ≠ 0 := by
        intro hz0
        have : value (mshr m 10 false) = 0 := by
          unfold value; rw [h1]; simp [limbsVal, hz0]
        omega
      simp [hne, hv0]
    · simp [hne, h1]
  unfold mknormalRound
  simp only [hsav, RNDBIT, Nat.zero_and, ne_eq, not_true_eq_false, if_false, hz,
    Bool.false_eq_true]

/-- On a mantissa with its top bit at position `nbits - 1` and an exponent in
the normal range `mknormal` returns NORMAL and gives the mantissa back. -/
theorem mknormal_exact (f : FPI) (e : Int) (m : MINT) (nb : Nat) (hnb : f.nbits = (nb : Int))
    (hnb1 : 1 ≤ nb) (hm : Limbs16 m) (hs : m.sign = 0)
    (h1 : 2 ^ (nb - 1) ≤ value m) (h2 : value m < 2 ^ nb)
    (he1 : f.minexp ≤ e) (he2 : e ≤ f.maxexp) :
    (mknormal f e m).1 = SOFT_NORMAL ∧ Limbs16 (mknormal f e m).2 ∧
    Canon (mknormal f e m).2 ∧ value (mknormal f e m).2 = value m := by
  have hVpos : 0 < value m := Nat.lt_of_lt_of_le (by positivity) h1
  have h2' : value m < 2 ^ (nb - 1 + 1) := by rw [Nat.sub_add_cancel hnb1]; exact h2
  have htb : topbit m = (chomp m, ((nb - 1 : Nat) : Int)) :=
    Prod.ext (topbit_spec m hm hVpos).1 (topbit_eq m hm (nb - 1) h1 h2')
  have hdiff : ((nb - 1 : Nat) : Int) - (f.nbits - 1) = 0 := by rw [hnb]; omega
  obtain ⟨m1, hm1⟩ : ∃ m1 : MINT, m1 = mshl (chomp m) 10 := ⟨_, rfl⟩
  have p1 := mshl_props 10 (chomp m) hm
  rw [← hm1, value_chomp] at p1
  have m1L := p1.1
  have m1v : value m1 = value m * 1024 := by rw [p1.2.1]; norm_num
  have m1s : m1.sign = 0 := by rw [p1.2.2.1]; exact hs
  obtain ⟨a, ha⟩ : ∃ a : MINT, a = minit MINTDECL (1 <<< (RNDBIT - 1)) := ⟨_, rfl⟩
  have aL : Limbs16 a := by rw [ha]; exact limbs16_minit _ limbs16_MINTDECL _
  have a0 : a.val 0 = 512 := by rw [ha]; decide!
  have av : value a = 512 := by rw [ha]; decide!
  have as : a.sign = 0 := by rw [ha]; rfl
  have hfinish : ∀ (mm aa cc : MINT), Limbs16 mm → value mm = value m * 1024 →
      aa.val 0 = 512 →
      (mknormalRound mm aa cc false).1 = SOFT_NORMAL ∧
      Limbs16 (mknormalRound mm aa cc false).2 ∧ Canon (mknormalRound mm aa cc false).2 ∧
      value (mknormalRound mm aa cc false).2 = value m := by
    intro mm aa cc hmm hvv haa
    rw [mknormalRound_exact mm aa cc hmm (value m) hvv hVpos haa]
    have p := mshr_props 10 mm hmm false
    refine ⟨rfl, p.1, p.2.1, ?_⟩
    have := p.2.2.2.2
    simp only [Bool.false_eq_true, if_false] at this
    show value (mshr mm 10 false) = _
    rw [this, hvv]
    norm_num
  have hunf : mknormal f e m =
      if e < f.minexp then mknormalRound (mshr m1 (-(e - f.minexp)).toNat true) a MINTDECL true
      else if e ≥ f.maxexp then
        if e > f.maxexp then (SOFT_INFINITE, m1)
        else
          if (topbit (madd m1 a MINTDECL).2.2).2 = (topbit (madd m1 a MINTDECL).1).2 + 1 then
            (SOFT_INFINITE, (topbit (madd m1 a MINTDECL).1).1)
          else mknormalRound (topbit (madd m1 a MINTDECL).1).1 (madd m1 a MINTDECL).2.1
            (topbit (madd m1 a MINTDECL).2.2).1 false
      else mknormalRound m1 a MINTDECL false := by
    have c1 : (0 : Int) < (RNDBIT : Int) := by decide
    have c2 : ¬ ((0 : Int) > (RNDBIT : Int)) := by decide
    have c3 : ((RNDBIT : Int) - 0).toNat = 10 := by decide
    unfold mknormal
    simp only [htb, hdiff, c1, c2, c3, if_true, if_false]
    rw [hm1, ha]
  rw [hunf, if_neg (by omega)]
  by_cases hmax : e ≥ f.maxexp
  · rw [if_pos hmax, if_neg (by omega)]
    have pm := madd_spec m1 a MINTDECL m1L aL limbs16_MINTDECL
    rw [m1s, as, m1v, av] at pm
    simp only [if_true] at pm
    have hcs : (madd m1 a MINTDECL).2.2.sign = 0 :=
      pm.2.2.2.2.2.2.2.2.2.2.1 (by positivity)
    have hcv : value (madd m1 a MINTDECL).2.2 = value m * 1024 + 512 := by
      have e1 := pm.2.2.2.2.2.2.2.2.2.1
      rw [hcs] at e1
      simp only [if_true] at e1
      omega
    have hmv : value (madd m1 a MINTDECL).1 = value m * 1024 :=
      pm.2.2.2.2.2.2.2.1 trivial
    have hav2 : value (madd m1 a MINTDECL).2.1 = 512 :=
      pm.2.2.2.2.2.2.2.2.1 trivial
    -- both have their top bit at position nb - 1 + 10
    have b1 : 2 ^ (nb - 1 + 10) ≤ value m * 1024 := by
      rw [pow_add]; norm_num; omega
    have b2 : value m * 1024 + 512 < 2 ^ (nb - 1 + 10 + 1) := by
      have : 2 ^ (nb - 1 + 10 + 1) = 2 ^ (nb - 1 + 1) * 1024 := by
        rw [show nb - 1 + 10 + 1 = nb - 1 + 1 + 10 by omega, pow_add]; norm_num
      rw [this]; omega
    have t1 := topbit_eq (madd m1 a MINTDECL).1 pm.1 (nb - 1 + 10) (by rw [hmv]; exact b1)
      (by rw [hmv]; omega)
    have t2 := topbit_eq (madd m1 a MINTDECL).2.2 pm.2.2.1 (nb - 1 + 10)
      (by rw [hcv]; omega) (by rw [hcv]; exact b2)
    rw [if_neg (by rw [t1, t2]; omega)]
    have hl := len_pos_of_value_pos (madd m1 a MINTDECL).2.1 (by rw [hav2]; omega)
    have ha0' : (madd m1 a MINTDECL).2.1.val 0 = 512 := by
      rw [val0_of_value _ pm.2.1 hl, hav2]
    exact hfinish _ _ _ pm.1 (by
      show value (chomp (madd m1 a MINTDECL).1) = _
      rw [value_chomp, hmv]) ha0'
  · rw [if_neg hmax]
    exact hfinish m1 a MINTDECL m1L m1v a0

/-- A value classified NAN by the x80 codec passes the macro test `ISNAN`. -/
theorem x80_nan_isnan (v : SF) (h : ieeex80_classify v = SOFT_NAN) :
    IEEEFP_X80_ISNAN v = true := by
  unfold ieeex80_classify at h
  cases c : IEEEFP_X80_ISNAN v
  · simp only [c, Bool.false_eq_true, if_false] at h
    split_ifs at h <;> exact absurd h (by decide)
  · rfl

/-- C11: every comparison involving a value that the long-double codec classifies
as NAN yields 0, whatever the other operand and whichever of the six operators,
in either operand order. -/
theorem nan_unordered (n y : SF) (op : CmpOp) (h : ieeex80_classify n = SOFT_NAN) :
    soft_cmp n y op = 0 ∧ soft_cmp y n op = 0 := by
  have hn := x80_nan_isnan n h
  unfold soft_cmp
  simp only [hn, Bool.true_or, Bool.or_true, if_true, and_self]

theorem nan_unordered_witness :
    ieeex80_classify ⟨0, 0xc0000000, 0x7fff⟩ = SOFT_NAN ∧
    soft_cmp ⟨0, 0xc0000000, 0x7fff⟩ ⟨0, 0xc0000000, 0x7fff⟩ CmpOp.EQ = 0 ∧
    soft_cmp ⟨0, 0xc0000000, 0x7fff⟩ ⟨0, 0xc0000000, 0x7fff⟩ CmpOp.EQ = 0 :=
  ⟨by decide!, nan_unordered ⟨0, 0xc0000000, 0x7fff⟩ ⟨0, 0xc0000000, 0x7fff⟩ CmpOp.EQ
    (by decide!)⟩

theorem or_eq_zero (a b : Nat) : a ||| b = 0 ↔ a = 0 ∧ b = 0 := by
  constructor
  · intro h
    have key : ∀ i, a.testBit i = false ∧ b.testBit i = false := by
      intro i
      have := congrArg (fun x => x.testBit i) h
      simp only [Nat.testBit_or, Nat.zero_testBit, Bool.or_eq_false_iff] at this
      exact this
    exact ⟨Nat.eq_of_testBit_eq (fun i => by simp [(key i).1]),
      Nat.eq_of_testBit_eq (fun i => by simp [(key i).2])⟩
  · rintro ⟨rfl, rfl⟩; rfl

/-- The test of `soft_isz` in terms of the three words. -/
theorem soft_isz_iff (v : SF) :
    soft_isz v = 1 ↔ v.fp0 = 0 ∧ v.fp1 = 0 ∧ v.fp2 % 32768 = 0 := by
  have hm : v.fp2 &&& 0x7fff = v.fp2 % 32768 := Nat.and_pow_two_sub_one_eq_mod v.fp2 15
  unfold soft_isz ieeex80_classify IEEEFP_X80_ISINF IEEEFP_X80_ISNAN IEEEFP_X80_ISZERO
  simp only [hm, or_eq_zero]
  by_cases h2 : v.fp2 % 32768 = 0
  · by_cases h1 : v.fp1 = 0
    · by_cases h0 : v.fp0 = 0
      · simp [h0, h1, h2, SOFT_ZERO]
      · simp [h0, h1, h2, SOFT_ZERO, SOFT_NORMAL, SOFT_SUBNORMAL]
    · simp [h1, h2, SOFT_ZERO, SOFT_NORMAL, SOFT_SUBNORMAL]
  · simp only [h2, false_and, and_false]
    split_ifs <;> simp_all [SOFT_ZERO, SOFT_NORMAL, SOFT_SUBNORMAL, SOFT_INFINITE, SOFT_NAN]

/-- C12: the two zeros compare equal in both orders and neither is less or
greater than the other; `soft_isz` is 1 on both, and on no other value with a
16-bit sign/exponent word. -/
theorem zero_sign (v : SF) (hv : v.fp2 < 65536) :
    soft_cmp ⟨0, 0, 0⟩ ⟨0, 0, 0x8000⟩ CmpOp.EQ = 1 ∧
    soft_cmp ⟨0, 0, 0x8000⟩ ⟨0, 0, 0⟩ CmpOp.EQ = 1 ∧
    soft_cmp ⟨0, 0, 0⟩ ⟨0, 0, 0x8000⟩ CmpOp.LT = 0 ∧
    soft_cmp ⟨0, 0, 0⟩ ⟨0, 0, 0x8000⟩ CmpOp.GT = 0 ∧
    soft_isz ⟨0, 0, 0⟩ = 1 ∧ soft_isz ⟨0, 0, 0x8000⟩ = 1 ∧
    (soft_isz v = 1 ↔ v = ⟨0, 0, 0⟩ ∨ v = ⟨0, 0, 0x8000⟩) := by
  refine ⟨by decide!, by decide!, by decide!, by decide!, by decide!, by decide!, ?_⟩
  rw [soft_isz_iff]
  obtain ⟨a, b, c⟩ := v
  simp only [SF.mk.injEq]
  simp only at hv
  constructor
  · rintro ⟨h0, h1, h2⟩
    have : c = 0 ∨ c = 0x8000 := by omega
    rcases this with h | h
    · exact Or.inl ⟨h0, h1, h⟩
    · exact Or.inr ⟨h0, h1, h⟩
  · rintro (⟨h0, h1, h2⟩ | ⟨h0, h1, h2⟩)
    · exact ⟨h0, h1, by omega⟩
    · exact ⟨h0, h1, by omega⟩

theorem zero_sign_witness :
    (1 : Nat) < 65536 ∧ (soft_isz ⟨0, 0, 1⟩ = 1 ↔
      (⟨0, 0, 1⟩ : SF) = ⟨0, 0, 0⟩ ∨ (⟨0, 0, 1⟩ : SF) = ⟨0, 0, 0x8000⟩) :=
  ⟨by decide, (zero_sign ⟨0, 0, 1⟩ (by decide)).2.2.2.2.2.2⟩

/-- C13: the encoding of plus infinity is classified INFINITE, yet it compares
unequal to itself: `soft_cmp` tests the macro `ISNAN`, which accepts the
infinity pattern, and returns 0 for EQ, LT and GT alike. -/
theorem cmp_infinity_self :
    ieeex80_classify ⟨0, 0x80000000, 0x7fff⟩ = SOFT_INFINITE ∧
    soft_cmp ⟨0, 0x80000000, 0x7fff⟩ ⟨0, 0x80000000, 0x7fff⟩ CmpOp.EQ = 0 ∧
    soft_cmp ⟨0, 0x80000000, 0x7fff⟩ ⟨0, 0x80000000, 0x3fff⟩ CmpOp.LT = 0 ∧
    soft_cmp ⟨0, 0x80000000, 0x7fff⟩ ⟨0, 0x80000000, 0x3fff⟩ CmpOp.EQ = 0 ∧
    soft_cmp ⟨0, 0x80000000, 0x7fff⟩ ⟨0, 0x80000000, 0x3fff⟩ CmpOp.GT = 0 := by
  decide!

/-- C14: adding plus infinity and the quiet NaN leaves infinity in `x1` in one
operand order and the NaN in the other, so the two results differ. -/
theorem soft_plus_order_matters :
    soft_plus ⟨0, 0x80000000, 0x7fff⟩ ⟨0, 0xc0000000, 0x7fff⟩ TWORD.LDOUBLE
      = ⟨0, 0x80000000, 0x7fff⟩ ∧
    soft_plus ⟨0, 0xc0000000, 0x7fff⟩ ⟨0, 0x80000000, 0x7fff⟩ TWORD.LDOUBLE
      = ⟨0, 0xc0000000, 0x7fff⟩ ∧
    soft_plus ⟨0, 0x80000000, 0x7fff⟩ ⟨0, 0xc0000000, 0x7fff⟩ TWORD.LDOUBLE ≠
      soft_plus ⟨0, 0xc0000000, 0x7fff⟩ ⟨0, 0x80000000, 0x7fff⟩ TWORD.LDOUBLE := by
  decide!

/-- C15: with an infinite first operand and a NaN second operand `soft_plus`
leaves a value of class INFINITE, not NAN; and adding the smallest normal number
to a zero first operand leaves zero, while the other order leaves the number. -/
theorem soft_plus_table_breaks :
    ieeex80_classify ⟨0, 0x80000000, 0x7fff⟩ = SOFT_INFINITE ∧
    ieeex80_classify ⟨0, 0xc0000000, 0x7fff⟩ = SOFT_NAN ∧
    ieeex80_classify
      (soft_plus ⟨0, 0x80000000, 0x7fff⟩ ⟨0, 0xc0000000, 0x7fff⟩ TWORD.LDOUBLE)
      = SOFT_INFINITE ∧
    ieeex80_classify ⟨0, 0, 0⟩ = SOFT_ZERO ∧
    ieeex80_classify ⟨0, 0x80000000, 1⟩ = SOFT_NORMAL ∧
    soft_plus ⟨0, 0, 0⟩ ⟨0, 0x80000000, 1⟩ TWORD.LDOUBLE = ⟨0, 0, 0⟩ ∧
    soft_plus ⟨0, 0x80000000, 1⟩ ⟨0, 0, 0⟩ TWORD.LDOUBLE = ⟨0, 0x80000000, 1⟩ := by
  decide!

/-- C16: plus infinity times plus infinity, and plus infinity times 1.0, leave
minus infinity (sign bit 1 where the operands' signs are both 0); plus infinity
times -1.0 leaves plus infinity. -/
theorem soft_mul_infinity_sign :
    soft_mul ⟨0, 0x80000000, 0x7fff⟩ ⟨0, 0x80000000, 0x7fff⟩ TWORD.LDOUBLE
      = ⟨0, 0x80000000, 0xffff⟩ ∧
    soft_mul ⟨0, 0x80000000, 0x7fff⟩ ⟨0, 0x80000000, 0x3fff⟩ TWORD.LDOUBLE
      = ⟨0, 0x80000000, 0xffff⟩ ∧
    soft_mul ⟨0, 0x80000000, 0x7fff⟩ ⟨0, 0x80000000, 0xbfff⟩ TWORD.LDOUBLE
      = ⟨0, 0x80000000, 0x7fff⟩ := by
  decide!

/-- C17: plus zero divided by 1.0, and 1.0 divided by plus infinity, leave minus
zero (sign bit 1 where the operands' signs are both 0); plus zero divided by
-1.0 leaves plus zero. -/
theorem soft_div_zero_sign :
    soft_div ⟨0, 0, 0⟩ ⟨0, 0x80000000, 0x3fff⟩ TWORD.LDOUBLE = ⟨0, 0, 0x8000⟩ ∧
    soft_div ⟨0, 0x80000000, 0x3fff⟩ ⟨0, 0x80000000, 0x7fff⟩ TWORD.LDOUBLE
      = ⟨0, 0, 0x8000⟩ ∧
    soft_div ⟨0, 0, 0⟩ ⟨0, 0x80000000, 0xbfff⟩ TWORD.LDOUBLE = ⟨0, 0, 0⟩ := by
  decide!

/-- C18: 1.0 / 3.0 serialises to 3FD55555:55555555, but for the normal operands
with mantissas D155D07720F14BE0 and F8E510617311D8A3 (both with exponent 0) the
quotient left by `soft_div` has mantissa D74FA59DFA22327A, whereas the exact
quotient lies strictly between that mantissa plus half a unit and the next
mantissa, so its rounding to nearest is D74FA59DFA22327B. -/
theorem soft_div_rounding :
    (soft_toush ⟨0, 0, 0⟩
      (soft_div ⟨0, 0x80000000, 0x3fff⟩ ⟨0, 0xc0000000, 0x4000⟩ TWORD.LDOUBLE)
      TWORD.DOUBLE).1 = ⟨0x55555555, 0x3FD55555, 0⟩ ∧
    soft_div ⟨0x20f14be0, 0xd155d077, 0x3fff⟩ ⟨0x7311d8a3, 0xf8e51061, 0x3fff⟩
      TWORD.LDOUBLE = ⟨0xfa22327a, 0xd74fa59d, 0x3ffe⟩ ∧
    (2 * 0xd74fa59dfa22327a + 1) * 0xf8e510617311d8a3 < 0xd155d07720f14be0 * 2 ^ 65 ∧
    0xd155d07720f14be0 * 2 ^ 65 < (2 * 0xd74fa59dfa22327a + 2) * 0xf8e510617311d8a3 := by
  refine ⟨by decide!, by decide!, by norm_num, by norm_num⟩

/-! ### NaN results -/

theorem x80_unmake_class (x : SF) (m : MINT) :
    (ieeex80_unmake x m).1 =
      if ieeex80_classify x = SOFT_SUBNORMAL then SOFT_NORMAL else ieeex80_classify x := by
  unfold ieeex80_unmake
  simp only
  split_ifs <;> rfl

theorem x80_unmake_sign (x : SF) (m : MINT) :
    (ieeex80_unmake x m).2.1 = (x.fp2 >>> 15) &&& 1 := by
  unfold ieeex80_unmake
  simp only
  split_ifs <;> rfl

theorem x80_unmake_nan (x : SF) (m : MINT) :
    (ieeex80_unmake x m).1 = SOFT_NAN ↔ ieeex80_classify x = SOFT_NAN := by
  rw [x80_unmake_class]
  split_ifs with h
  · rw [h]; decide
  · exact Iff.rfl

theorem ieee32_make_nan (sfp : SF) (sign : Nat) (exp : Int) (m : MINT) :
    (ieee32_make sfp SOFT_NAN sign exp m).1
      = { sfp with fp0 := (sign <<< 31) % 4294967296 ||| 0x7fc00000 } := rfl

theorem ieee64_make_nan (sfp : SF) (sign : Nat) (exp : Int) (m : MINT) :
    (ieee64_make sfp SOFT_NAN sign exp m).1
      = { sfp with fp0 := 0, fp1 := (sign <<< 31) % 4294967296 ||| 0x7ff80000 } := rfl

theorem ieeex80_make_nan (sfp : SF) (sign : Nat) (exp : Int) (m : MINT) :
    (ieeex80_make sfp SOFT_NAN sign exp m).1
      = ⟨0, 0xc0000000, (sign <<< 15) % 4294967296 ||| 0x7fff⟩ := rfl

/-- C19: the x80 `make` called for class NAN with sign argument 1 writes the
sign/exponent word FFFF, and dividing the quiet NaN by 1.0 leaves that NaN with
the sign bit set. -/
theorem make_nan_sign_set :
    (ieeex80_make SFDECL SOFT_NAN 1 0 MINTDECL).1 = ⟨0, 0xc0000000, 0xffff⟩ ∧
    (ieee32_make SFDECL SOFT_NAN 1 0 MINTDECL).1 = ⟨0xffc00000, 0, 0⟩ ∧
    (ieee64_make SFDECL SOFT_NAN 1 0 MINTDECL).1 = ⟨0, 0xfff80000, 0⟩ ∧
    soft_div ⟨0, 0xc0000000, 0x7fff⟩ ⟨0, 0x80000000, 0x3fff⟩ TWORD.LDOUBLE
      = ⟨0, 0xc0000000, 0xffff⟩ := by
  decide!

/-- C19, amended: a NaN written by `make` is the quiet NaN pattern of its format
with the sign argument in the sign bit.  `soft_nan` and, for a NaN operand,
`soft_mul` pass sign 0; `soft_div` passes sign 1 for a NaN operand; `soft_plus`
passes the sign of its first operand when that one is the NaN. -/
theorem make_nan_pattern (sfp : SF) (s : Nat) (exp : Int) (m : MINT) (x y : SF) (t : TWORD)
    (hs : s ≤ 1) (hx : ieeex80_classify x = SOFT_NAN) :
    (ieee32_make sfp SOFT_NAN s exp m).1.fp0 = 0x7fc00000 + s * 0x80000000 ∧
    (ieee64_make sfp SOFT_NAN s exp m).1.fp1 = 0x7ff80000 + s * 0x80000000 ∧
    (ieee64_make sfp SOFT_NAN s exp m).1.fp0 = 0 ∧
    (ieeex80_make sfp SOFT_NAN s exp m).1 = ⟨0, 0xc0000000, 0x7fff + s * 0x8000⟩ ∧
    soft_nan sfp = ⟨0, 0xc0000000, 0x7fff⟩ ∧
    soft_mul x y t = ⟨0, 0xc0000000, 0x7fff⟩ ∧
    soft_mul y x t = ⟨0, 0xc0000000, 0x7fff⟩ ∧
    soft_div x y t = ⟨0, 0xc0000000, 0xffff⟩ ∧
    soft_div y x t = ⟨0, 0xc0000000, 0xffff⟩ ∧
    soft_plus x y t = ⟨0, 0xc0000000, 0x7fff + ((x.fp2 >>> 15) &&& 1) * 0x8000⟩ := by
  have hu : ∀ m, (ieeex80_unmake x m).1 = SOFT_NAN := fun m => (x80_unmake_nan x m).2 hx
  have h01 : ∀ k : Nat, k ≤ 1 →
      (k <<< 15) % 4294967296 ||| 0x7fff = 0x7fff + k * 0x8000 := by
    intro k hk
    interval_cases k <;> rfl
  refine ⟨?_, ?_, ?_, ?_, ?_, ?_, ?_, ?_, ?_, ?_⟩
  · rw [ieee32_make_nan]
    interval_cases s <;> rfl
  · rw [ieee64_make_nan]
    interval_cases s <;> rfl
  · rw [ieee64_make_nan]
  · rw [ieeex80_make_nan, h01 s hs]
  · rfl
  · unfold soft_mul
    simp only [hu, true_or, if_true]
    rfl
  · unfold soft_mul
    simp only [hu, or_true, if_true]
    rfl
  · unfold soft_div
    simp only [hu, true_or, if_true]
    rfl
  · unfold soft_div
    simp only [hu, or_true, if_true]
    rfl
  · unfold soft_plus
    have hne : SOFT_NAN ≠ SOFT_INFINITE := by decide
    simp only [hu, hne, false_and, if_false, true_or, if_true, ieeex80_make_nan,
      x80_unmake_sign]
    rw [h01 _ (by rw [Nat.and_one_is_mod]; omega)]

theorem make_nan_pattern_witness :
    (1 : Nat) ≤ 1 ∧ ieeex80_classify ⟨1, 0xc0000000, 0xffff⟩ = SOFT_NAN ∧
    soft_plus ⟨1, 0xc0000000, 0xffff⟩ ⟨0, 0x80000000, 0x3fff⟩ TWORD.LDOUBLE
      = ⟨0, 0xc0000000, 0x7fff + ((0xffff >>> 15) &&& 1) * 0x8000⟩ :=
  ⟨by decide, by decide!,
    (make_nan_pattern SFDECL 1 0 MINTDECL ⟨1, 0xc0000000, 0xffff⟩ ⟨0, 0x80000000, 0x3fff⟩
      TWORD.LDOUBLE (by decide) (by decide!)).2.2.2.2.2.2.2.2.2⟩

/-! ## Round to nearest even: arithmetic of the guard, round and sticky bits -/

theorem stickyVal_eq (X k : Nat) :
    ∃ c, stickyVal X k = X / 2 ^ k + c ∧ c ≤ 1 ∧
      (c = 1 → X / 2 ^ k % 2 = 0 ∧ X % 2 ^ k ≠ 0) ∧
      (c = 0 → X % 2 ^ k = 0 ∨ X / 2 ^ k % 2 = 1) := by
  unfold stickyVal
  by_cases hr : X % 2 ^ k = 0
  · refine ⟨0, ?_, by omega, by omega, fun _ => Or.inl hr⟩
    rw [if_pos hr]
    simp
  · rw [if_neg hr, or_bit0 _ 1 (by omega)]
    by_cases hq : X / 2 ^ k % 2 = 0
    · exact ⟨1, by rw [if_pos hq], by omega, fun _ => ⟨hq, hr⟩, by omega⟩
    · exact ⟨0, by rw [if_neg hq], by omega, by omega, fun _ => Or.inr (by omega)⟩

theorem stickyVal_zero (X : Nat) : stickyVal X 0 = X := by
  unfold stickyVal
  simp [Nat.mod_one]

theorem stickyVal_succ (X n : Nat) :
    stickyVal X (n + 1) = (stickyVal X n / 2) ||| (stickyVal X n % 2) :=
  (sticky_step X n).symm

theorem stickyVal_comp (X k s : Nat) : stickyVal (stickyVal X k) s = stickyVal X (k + s) := by
  induction s with
  | zero => rw [stickyVal_zero, Nat.add_zero]
  | succ s ih => rw [stickyVal_succ, ih, ← Nat.add_assoc, stickyVal_succ]

theorem stickyVal_pos (X k : Nat) (h : 0 < X) : 0 < stickyVal X k := by
  obtain ⟨c, hY, hc1, hc2, hc3⟩ := stickyVal_eq X k
  rw [hY]
  rcases Nat.eq_zero_or_pos (X / 2 ^ k) with hq | hq
  · have hpos : 0 < 2 ^ k := by positivity
    have hlt : X < 2 ^ k := (Nat.div_eq_zero_iff hpos).1 hq
    have hm : X % 2 ^ k = X := Nat.mod_eq_of_lt hlt
    rcases Nat.eq_zero_or_pos c with h0 | h0
    · rcases hc3 h0 with h1 | h1 <;> omega
    · omega
  · omega

theorem stickyVal_bracket (X k t : Nat) (hk : k ≤ t) (h1 : 2 ^ t ≤ X) (h2 : X < 2 ^ (t + 1)) :
    2 ^ (t - k) ≤ stickyVal X k ∧ stickyVal X k < 2 ^ (t - k + 1) := by
  obtain ⟨c, hY, hc1, hc2, hc3⟩ := stickyVal_eq X k
  have hpos : 0 < 2 ^ k := by positivity
  have e1 : 2 ^ t = 2 ^ (t - k) * 2 ^ k := by rw [← pow_add]; congr 1; omega
  have e2 : 2 ^ (t + 1) = 2 ^ (t - k + 1) * 2 ^ k := by rw [← pow_add]; congr 1; omega
  have q1 : 2 ^ (t - k) ≤ X / 2 ^ k := by
    rw [Nat.le_div_iff_mul_le hpos, ← e1]; exact h1
  have q2 : X / 2 ^ k < 2 ^ (t - k + 1) := by
    rw [Nat.div_lt_iff_lt_mul hpos, ← e2]; exact h2
  have e3 : 2 ^ (t - k + 1) = 2 * 2 ^ (t - k) := by rw [pow_succ]; ring
  rw [hY]
  constructor
  · omega
  · rcases Nat.eq_zero_or_pos c with h0 | h0
    · omega
    · have := (hc2 (by omega)).1
      omega

/-- Comparing `P * s + R` with `P * 512` when `R < P`. -/
theorem half_cmp (P s R : Nat) (hR : R < P) :
    (2 * (R + P * s) > P * 1024 ↔ s > 512 ∨ (s = 512 ∧ R ≠ 0)) ∧
    (2 * (R + P * s) = P * 1024 ↔ s = 512 ∧ R = 0) := by
  rcases lt_trichotomy s 512 with h | h | h
  · have := Nat.mul_le_mul_left P (show s ≤ 511 by omega)
    constructor <;> constructor <;> intro h' <;> omega
  · subst h
    constructor <;> constructor <;> intro h' <;> omega
  · have := Nat.mul_le_mul_left P (show 513 ≤ s by omega)
    constructor <;> constructor <;> intro h' <;> omega

/-- Rounding the sticky-shifted number at ten guard bits rounds the number itself. -/
theorem rne_sticky (X k : Nat) : rne (stickyVal X k) 10 = rne X (k + 10) := by
  obtain ⟨c, hY, hc1, hc2, hc3⟩ := stickyVal_eq X k
  have hpos : 0 < 2 ^ k := by positivity
  have hR : X % 2 ^ k < 2 ^ k := Nat.mod_lt _ hpos
  have e1 : 2 ^ (k + 10) = 2 ^ k * 1024 := by rw [pow_add]; norm_num
  have hdiv : X / (2 ^ k * 1024) = X / 2 ^ k / 1024 := (Nat.div_div_eq_div_mul X _ 1024).symm
  have hmod : X % (2 ^ k * 1024) = X % 2 ^ k + 2 ^ k * (X / 2 ^ k % 1024) := Nat.mod_mul
  have e2 : (2 : Nat) ^ 10 = 1024 := by norm_num
  unfold rne
  rw [hY, e1, hdiv, hmod, e2]
  generalize 2 ^ k = P at *
  generalize X / P = Q at *
  generalize X % P = R at *
  obtain ⟨hA, hB⟩ := half_cmp P (Q % 1024) R hR
  have hc : c = 0 ∨ c = 1 := by omega
  have hq : (Q + c) / 1024 = Q / 1024 := by
    rcases hc with h0 | h1
    · subst h0; rfl
    · have := (hc2 h1).1
      omega
  rw [hq]
  have L : (2 * ((Q + c) % 1024) > 1024 ∨
        (2 * ((Q + c) % 1024) = 1024 ∧ Q / 1024 % 2 = 1)) ↔
      (2 * (R + P * (Q % 1024)) > P * 1024 ∨
        (2 * (R + P * (Q % 1024)) = P * 1024 ∧ Q / 1024 % 2 = 1)) := by
    rw [hA, hB]
    rcases hc with h0 | h1
    · have := hc3 h0
      subst h0
      constructor <;> intro h <;> omega
    · obtain ⟨x, y⟩ := hc2 h1
      subst h1
      constructor <;> intro h <;> omega
  rw [if_congr L rfl rfl]

/-- Rounding of a number shifted left first. -/
theorem rne_mul_pow (V j n : Nat) : rne (V * 2 ^ j) n = rneScale V ((n : Int) - (j : Int)) := by
  unfold rneScale
  by_cases hjn : j ≤ n
  · rw [if_pos (by omega)]
    obtain ⟨r, hr⟩ : ∃ r, n = j + r := ⟨n - j, by omega⟩
    have er : ((n : Int) - (j : Int)).toNat = r := by omega
    rw [er]
    subst hr
    have hJ : 0 < 2 ^ j := by positivity
    have e1 : 2 ^ (j + r) = 2 ^ j * 2 ^ r := pow_add 2 j r
    have hdiv : V * 2 ^ j / (2 ^ j * 2 ^ r) = V / 2 ^ r := by
      rw [Nat.mul_comm V, Nat.mul_div_mul_left _ _ hJ]
    have hmod : V * 2 ^ j % (2 ^ j * 2 ^ r) = 2 ^ j * (V % 2 ^ r) := by
      rw [Nat.mul_comm V, Nat.mul_mod_mul_left]
    unfold rne
    rw [e1, hdiv, hmod]
    generalize 2 ^ j = J at *
    generalize 2 ^ r = M at *
    generalize V % M = v at *
    have e2 : 2 * (J * v) = J * (2 * v) := by ring
    rw [e2]
    have c1 : J * (2 * v) > J * M ↔ 2 * v > M := Nat.mul_lt_mul_left hJ
    have c2 : J * (2 * v) = J * M ↔ 2 * v = M := by
      constructor
      · intro h; exact Nat.eq_of_mul_eq_mul_left hJ h
      · intro h; rw [h]
    simp only [c1, c2]
  · rw [if_neg (by omega)]
    have er : (-((n : Int) - (j : Int))).toNat = j - n := by omega
    rw [er]
    have hN : 0 < 2 ^ n := by positivity
    have e1 : V * 2 ^ j = V * 2 ^ (j - n) * 2 ^ n := by
      rw [Nat.mul_assoc, ← pow_add]; congr 2; omega
    unfold rne
    rw [e1, Nat.mul_mod_left, Nat.mul_div_cancel _ hN]
    rw [if_neg (by omega)]

theorem rne_bracket (Y n : Nat) (h1 : 2 ^ (n + 10) ≤ Y) (h2 : Y < 2 ^ (n + 11)) :
    2 ^ n ≤ rne Y 10 ∧ rne Y 10 ≤ 2 ^ (n + 1) := by
  have e1 : 2 ^ (n + 10) = 2 ^ n * 1024 := by rw [pow_add]; norm_num
  have e2 : 2 ^ (n + 11) = 2 ^ (n + 1) * 1024 := by
    rw [show n + 11 = n + 1 + 10 by omega, pow_add]; norm_num
  have e3 : (2 : Nat) ^ 10 = 1024 := by norm_num
  have q1 : 2 ^ n ≤ Y / 1024 := by
    rw [Nat.le_div_iff_mul_le (by omega), ← e1]; exact h1
  have q2 : Y / 1024 < 2 ^ (n + 1) := by
    rw [Nat.div_lt_iff_lt_mul (by omega), ← e2]; exact h2
  unfold rne
  rw [e3]
  split_ifs <;> omega

/-! ## mknormal rounds to nearest even -/

theorem mintz_of_pos (m : MINT) (h : 0 < value m) : MINTZ m = false := by
  have hl := len_pos_of_value_pos m h
  unfold MINTZ
  have hne : m.len ≠ 0 := by omega
  by_cases h1 : m.len = 1
  · have hv0 : m.val 0 ≠ 0 := by
      intro hz0
      have : value m = 0 := by
        unfold value; rw [h1]; simp [limbsVal, hz0]
      omega
    simp [hne, hv0]
  · simp [hne, h1]

theorem mintz_of_zero (m : MINT) (cm : Canon m) (h : value m = 0) : MINTZ m = true := by
  have hl : m.len = 0 := by
    by_contra hne
    have := canon_value_ge m cm (by omega)
    have : 0 < 65536 ^ (m.len - 1) := by positivity
    omega
  unfold MINTZ
  simp [hl]

/-- The rounding tail of `mknormal` computes the round-half-to-even rounding at
ten guard bits. -/
theorem mknormalRound_rne (m a c : MINT) (hm : Limbs16 m) (hs : m.sign = 0) (hl : 0 < m.len)
    (ha : Limbs16 a) (hc : Limbs16 c) (ha0 : a.val 0 = 512) (hal : a.len = 1)
    (has : a.sign = 0) (issub : Bool) :
    Limbs16 (mknormalRound m a c issub).2 ∧
    value (mknormalRound m a c issub).2 = rne (value m) 10 ∧
    (mknormalRound m a c issub).1 =
      (if rne (value m) 10 = 0 then SOFT_ZERO
       else if issub then SOFT_SUBNORMAL else SOFT_NORMAL) := by
  have h0 := val0_of_value m hm hl
  have hsav : m.val 0 &&& ((a.val 0 <<< 1) - 1) = value m % 1024 := by
    rw [ha0]
    have : m.val 0 &&& (512 <<< 1 - 1) = m.val 0 % 1024 :=
      Nat.and_pow_two_sub_one_eq_mod (m.val 0) 10
    rw [this, h0]
    omega
  have hG : ∀ s : Nat, s &&& 512 ≠ 0 ↔ s / 512 % 2 = 1 := fun s => and_two_pow_ne_zero s 9
  have hRS : ∀ s : Nat, s &&& (512 - 1) = s % 512 := fun s =>
    Nat.and_pow_two_sub_one_eq_mod s 9
  obtain ⟨m2, hm2⟩ : ∃ m2 : MINT, m2 = mshr m RNDBIT false := ⟨_, rfl⟩
  have p := mshr_props 10 m hm false
  have pr := mshrRounds_props 10 m hm false
  have e10 : (2 : Nat) ^ 10 = 1024 := by norm_num
  simp only [Bool.false_eq_true, if_false, e10] at p pr
  have m2L : Limbs16 m2 := by rw [hm2]; exact p.1
  have m2C : Canon m2 := by rw [hm2]; exact p.2.1
  have m2s : m2.sign = 0 := by rw [hm2]; exact p.2.2.1.trans hs
  have m2v : value m2 = value m / 1024 := by rw [hm2]; exact p.2.2.2.2
  have m2v0 : m2.val 0 = value m / 1024 % 65536 := by
    rw [hm2]
    show (mshr m 10 false).val 0 = _
    rw [p.2.2.2.1, val0_of_value _ pr.1 (by rw [pr.2.1]; exact hl), pr.2.2.2]
  have hodd : m2.val 0 &&& 1 ≠ 0 ↔ value m / 1024 % 2 = 1 := by
    rw [Nat.and_one_is_mod, m2v0]
    omega
  have hunf : mknormalRound m a c issub =
      if MINTZ (if (value m % 1024) &&& 512 ≠ 0 then
          if (value m % 1024) &&& (512 - 1) ≠ 0 ∨ m2.val 0 &&& 1 ≠ 0 then
            mcopy (madd m2 (a.put 0 1) c).2.2 (madd m2 (a.put 0 1) c).1
          else m2
        else m2) then
        (SOFT_ZERO, (if (value m % 1024) &&& 512 ≠ 0 then
          if (value m % 1024) &&& (512 - 1) ≠ 0 ∨ m2.val 0 &&& 1 ≠ 0 then
            mcopy (madd m2 (a.put 0 1) c).2.2 (madd m2 (a.put 0 1) c).1
          else m2
        else m2))
      else (if issub then SOFT_SUBNORMAL else SOFT_NORMAL,
        (if (value m % 1024) &&& 512 ≠ 0 then
          if (value m % 1024) &&& (512 - 1) ≠ 0 ∨ m2.val 0 &&& 1 ≠ 0 then
            mcopy (madd m2 (a.put 0 1) c).2.2 (madd m2 (a.put 0 1) c).1
          else m2
        else m2)) := by
    have hsav2 : m.val 0 &&& (512 <<< 1 - 1) = value m % 1024 := by
      rw [← ha0]; exact hsav
    unfold mknormalRound
    simp only [ha0, hsav2, ← hm2]
  have hcond : ((value m % 1024) &&& 512 ≠ 0 ∧
      ((value m % 1024) &&& (512 - 1) ≠ 0 ∨ m2.val 0 &&& 1 ≠ 0)) ↔
      (2 * (value m % 1024) > 1024 ∨
        (2 * (value m % 1024) = 1024 ∧ value m / 1024 % 2 = 1)) := by
    rw [hG, hRS, hodd]
    constructor <;> intro h <;> omega
  have hrne : rne (value m) 10 =
      if (2 * (value m % 1024) > 1024 ∨
        (2 * (value m % 1024) = 1024 ∧ value m / 1024 % 2 = 1)) then value m / 1024 + 1
      else value m / 1024 := by
    unfold rne
    rw [e10]
  rw [hunf]
  by_cases hinc : (2 * (value m % 1024) > 1024 ∨
        (2 * (value m % 1024) = 1024 ∧ value m / 1024 % 2 = 1))
  · obtain ⟨g1, g2⟩ := hcond.2 hinc
    have hr : rne (value m) 10 = value m / 1024 + 1 := by rw [hrne, if_pos hinc]
    rw [hr, if_pos g1, if_pos g2]
    -- the increment
    have a1L : Limbs16 (a.put 0 1) := limbs16_update _ ha 0 _ (by omega)
    have a1v : value (a.put 0 1) = 1 := by
      unfold value
      have : (a.put 0 1).len = 1 := hal
      rw [this]
      simp [limbsVal, MINT.put]
    have a1s : (a.put 0 1).sign = 0 := has
    have pm := madd_spec m2 (a.put 0 1) c m2L a1L hc
    rw [m2s, a1s, m2v, a1v] at pm
    simp only [if_true] at pm
    have hcs : (madd m2 (a.put 0 1) c).2.2.sign = 0 :=
      pm.2.2.2.2.2.2.2.2.2.2.1 (by positivity)
    have hcv : value (madd m2 (a.put 0 1) c).2.2 = value m / 1024 + 1 := by
      have e1 := pm.2.2.2.2.2.2.2.2.2.1
      rw [hcs] at e1
      simp only [if_true] at e1
      omega
    have pc := mcopy_props (madd m2 (a.put 0 1) c).2.2 (madd m2 (a.put 0 1) c).1
      pm.2.2.1 pm.1
    have hv : value (mcopy (madd m2 (a.put 0 1) c).2.2 (madd m2 (a.put 0 1) c).1)
        = value m / 1024 + 1 := by rw [pc.2.2.2.1, hcv]
    have hz := mintz_of_pos _ (by rw [hv]; omega)
    rw [hz]
    simp only [Bool.false_eq_true, if_false]
    exact ⟨pc.1, hv, by rw [if_neg (show ¬ (value m / 1024 + 1 = 0) by omega)]⟩
  · have hno : ¬ ((value m % 1024) &&& 512 ≠ 0 ∧
      ((value m % 1024) &&& (512 - 1) ≠ 0 ∨ m2.val 0 &&& 1 ≠ 0)) := fun h => hinc (hcond.1 h)
    have hres : (if (value m % 1024) &&& 512 ≠ 0 then
          if (value m % 1024) &&& (512 - 1) ≠ 0 ∨ m2.val 0 &&& 1 ≠ 0 then
            mcopy (madd m2 (a.put 0 1) c).2.2 (madd m2 (a.put 0 1) c).1
          else m2
        else m2) = m2 := by
      by_cases g1 : (value m % 1024) &&& 512 ≠ 0
      · rw [if_pos g1, if_neg (fun g2 => hno ⟨g1, g2⟩)]
      · rw [if_neg g1]
    have hr : rne (value m) 10 = value m / 1024 := by rw [hrne, if_neg hinc]
    rw [hres, hr]
    by_cases hz : value m / 1024 = 0
    · rw [mintz_of_zero m2 m2C (by rw [m2v, hz])]
      simp only [if_true]
      exact ⟨m2L, by rw [m2v], by rw [if_pos hz]⟩
    · rw [mintz_of_pos m2 (by rw [m2v]; omega)]
      simp only [Bool.false_eq_true, if_false]
      exact ⟨m2L, by rw [m2v], by rw [if_neg hz]⟩

/-- The normalisation step of `mknormal`: the mantissa is brought to have its
top bit at position `nbits - 1 + 10`, exactly when it is shifted left and with
a sticky bit when it is shifted right. -/
theorem mknormal_stage1 (f : FPI) (m : MINT) (hm : Limbs16 m) (hs : m.sign = 0)
    (t nb : Nat) (ht : (topbit m).2 = (t : Int)) (h1 : 2 ^ t ≤ value m)
    (h2 : value m < 2 ^ (t + 1)) (hnb : f.nbits = (nb : Int) + 1) (M1 : MINT)
    (hM1 : M1 =
      (if (topbit m).2 - (f.nbits - 1) > (RNDBIT : Int) then
        mshr (if (topbit m).2 - (f.nbits - 1) < (RNDBIT : Int) then
            mshl (topbit m).1 ((RNDBIT : Int) - ((topbit m).2 - (f.nbits - 1))).toNat
          else (topbit m).1)
          (((topbit m).2 - (f.nbits - 1)) - (RNDBIT : Int)).toNat true
      else (if (topbit m).2 - (f.nbits - 1) < (RNDBIT : Int) then
            mshl (topbit m).1 ((RNDBIT : Int) - ((topbit m).2 - (f.nbits - 1))).toNat
          else (topbit m).1))) :
    Limbs16 M1 ∧ M1.sign = 0 ∧
    value M1 = stickyVal (value m * 2 ^ (10 - ((t : Int) - nb)).toNat) (((t : Int) - nb) - 10).toNat ∧
    2 ^ (nb + 10) ≤ value M1 ∧ value M1 < 2 ^ (nb + 11) := by
  have hpos : 0 < value m := Nat.lt_of_lt_of_le (by positivity) h1
  have htb1 : (topbit m).1 = chomp m := (topbit_spec m hm hpos).1
  have hR : (RNDBIT : Int) = 10 := rfl
  have hd : (topbit m).2 - (f.nbits - 1) = (t : Int) - nb := by rw [ht, hnb]; omega
  rw [hd, htb1, hR] at hM1
  have cL : Limbs16 (chomp m) := hm
  rcases lt_trichotomy ((t : Int) - nb) 10 with h | h | h
  · rw [if_neg (by omega), if_pos h] at hM1
    obtain ⟨j, hj⟩ : ∃ j : Nat, (10 - ((t : Int) - nb)).toNat = j := ⟨_, rfl⟩
    have hk : (((t : Int) - nb) - 10).toNat = 0 := by omega
    rw [hj] at hM1 ⊢
    rw [hk, stickyVal_zero]
    have p := mshl_props j (chomp m) cL
    rw [← hM1, value_chomp] at p
    have e1 : t + j = nb + 10 := by omega
    refine ⟨p.1, by rw [p.2.2.1]; exact hs, p.2.1, ?_, ?_⟩
    · rw [p.2.1, ← e1, pow_add]
      exact Nat.mul_le_mul_right _ h1
    · rw [p.2.1, show nb + 11 = t + 1 + j by omega, pow_add]
      exact Nat.mul_lt_mul_of_pos_right h2 (by positivity)
  · rw [if_neg (by omega), if_neg (by omega)] at hM1
    have hj : (10 - ((t : Int) - nb)).toNat = 0 := by omega
    have hk : (((t : Int) - nb) - 10).toNat = 0 := by omega
    rw [hj, hk, stickyVal_zero, pow_zero, Nat.mul_one, hM1, value_chomp]
    have e1 : t = nb + 10 := by omega
    refine ⟨cL, hs, rfl, ?_, ?_⟩
    · rw [← e1]; exact h1
    · rw [show nb + 11 = t + 1 by omega]; exact h2
  · rw [if_pos h, if_neg (by omega)] at hM1
    obtain ⟨k, hk⟩ : ∃ k : Nat, (((t : Int) - nb) - 10).toNat = k := ⟨_, rfl⟩
    have hj : (10 - ((t : Int) - nb)).toNat = 0 := by omega
    rw [hk] at hM1 ⊢
    rw [hj, pow_zero, Nat.mul_one]
    have p := mshr_props k (chomp m) cL true
    rw [← hM1, value_chomp] at p
    simp only [if_true] at p
    have hv : value M1 = stickyVal (value m) k := p.2.2.2.2
    have hb := stickyVal_bracket (value m) k t (by omega) h1 h2
    have e1 : t - k = nb + 10 := by omega
    rw [e1] at hb
    exact ⟨p.1, by rw [p.2.2.1]; exact hs, hv, by rw [hv]; exact hb.1, by rw [hv]; exact hb.2⟩

/-- C20: on a nonzero magnitude with 16-bit limbs `mknormal` rounds once, to
nearest even.  With `t = topbit(m)`: for `minexp ≤ e < maxexp` it returns NORMAL
and leaves the round-half-to-even rounding of `m / 2^(t - (nbits-1))`, a value in
`[2^(nbits-1), 2^nbits]`; for `e < minexp` it leaves the round-half-to-even
rounding of `m / 2^(t - (nbits-1) + (minexp - e))` and returns ZERO when that is
0 and SUBNORMAL otherwise. -/
theorem mknormal_rounds (f : FPI) (e : Int) (m : MINT) (hm : Limbs16 m) (hs : m.sign = 0)
    (hpos : 0 < value m) (hnb : 1 ≤ f.nbits) :
    (f.minexp ≤ e → e < f.maxexp →
      (mknormal f e m).1 = SOFT_NORMAL ∧
      value (mknormal f e m).2 = rneScale (value m) ((topbit m).2 - (f.nbits - 1)) ∧
      2 ^ (f.nbits - 1).toNat ≤ value (mknormal f e m).2 ∧
      value (mknormal f e m).2 ≤ 2 ^ f.nbits.toNat) ∧
    (e < f.minexp →
      value (mknormal f e m).2 =
        rneScale (value m) ((topbit m).2 - (f.nbits - 1) + (f.minexp - e)) ∧
      (mknormal f e m).1 =
        if value (mknormal f e m).2 = 0 then SOFT_ZERO else SOFT_SUBNORMAL) := by
  obtain ⟨-, t, ht, h1, h2⟩ := topbit_spec m hm hpos
  obtain ⟨nb, hnbe⟩ : ∃ nb : Nat, f.nbits = (nb : Int) + 1 := ⟨(f.nbits - 1).toNat, by omega⟩
  obtain ⟨M1, hM1⟩ : ∃ M1 : MINT, M1 =
      (if (topbit m).2 - (f.nbits - 1) > (RNDBIT : Int) then
        mshr (if (topbit m).2 - (f.nbits - 1) < (RNDBIT : Int) then
            mshl (topbit m).1 ((RNDBIT : Int) - ((topbit m).2 - (f.nbits - 1))).toNat
          else (topbit m).1)
          (((topbit m).2 - (f.nbits - 1)) - (RNDBIT : Int)).toNat true
      else (if (topbit m).2 - (f.nbits - 1) < (RNDBIT : Int) then
            mshl (topbit m).1 ((RNDBIT : Int) - ((topbit m).2 - (f.nbits - 1))).toNat
          else (topbit m).1)) := ⟨_, rfl⟩
  obtain ⟨M1L, M1s, M1v, M1lo, M1hi⟩ := mknormal_stage1 f m hm hs t nb ht h1 h2 hnbe M1 hM1
  obtain ⟨a, ha⟩ : ∃ a : MINT, a = minit MINTDECL (1 <<< (RNDBIT - 1)) := ⟨_, rfl⟩
  have aL : Limbs16 a := by rw [ha]; exact limbs16_minit _ limbs16_MINTDECL _
  have a0 : a.val 0 = 512 := by rw [ha]; decide!
  have al : a.len = 1 := by rw [ha]; rfl
  have as : a.sign = 0 := by rw [ha]; rfl
  have hunf : (e < f.minexp →
        mknormal f e m = mknormalRound (mshr M1 (-(e - f.minexp)).toNat true) a MINTDECL true) ∧
      (¬ e < f.minexp → ¬ e ≥ f.maxexp → mknormal f e m = mknormalRound M1 a MINTDECL false) := by
    rw [hM1, ha]
    unfold mknormal
    simp only []
    constructor
    · intro h
      rw [if_pos h]
    · intro h h'
      rw [if_neg h, if_neg h']
  obtain ⟨j, hj⟩ : ∃ j : Nat, (10 - ((t : Int) - nb)).toNat = j := ⟨_, rfl⟩
  obtain ⟨k, hk⟩ : ∃ k : Nat, (((t : Int) - nb) - 10).toNat = k := ⟨_, rfl⟩
  rw [hj, hk] at M1v
  have M1pos : 0 < value M1 := Nat.lt_of_lt_of_le (by positivity) M1lo
  constructor
  · intro he1 he2
    rw [hunf.2 (by omega) (by omega)]
    obtain ⟨rL, rv, rc⟩ := mknormalRound_rne M1 a MINTDECL M1L M1s
      (len_pos_of_value_pos M1 M1pos) aL limbs16_MINTDECL a0 al as false
    have hb := rne_bracket (value M1) nb M1lo M1hi
    have hne : rne (value M1) 10 ≠ 0 := by
      have : 0 < 2 ^ nb := by positivity
      omega
    rw [if_neg hne] at rc
    have e1 : (f.nbits - 1).toNat = nb := by omega
    have e2 : f.nbits.toNat = nb + 1 := by omega
    rw [rv, e1, e2]
    refine ⟨rc, ?_, hb.1, hb.2⟩
    rw [M1v, rne_sticky, rne_mul_pow]
    congr 1
    rw [ht, hnbe]
    push_cast
    omega
  · intro he
    rw [(hunf.1 he)]
    obtain ⟨s, hs1⟩ : ∃ s : Nat, (-(e - f.minexp)).toNat = s := ⟨_, rfl⟩
    rw [hs1]
    have p := mshr_props s M1 M1L true
    simp only [if_true] at p
    have hv : value (mshr M1 s true) = stickyVal (value m * 2 ^ j) (k + s) := by
      rw [← stickyVal_comp, ← M1v]
      exact p.2.2.2.2
    have hpos2 : 0 < value (mshr M1 s true) := by
      rw [hv]
      exact stickyVal_pos _ _ (Nat.mul_pos hpos (by positivity))
    obtain ⟨rL, rv, rc⟩ := mknormalRound_rne (mshr M1 s true) a MINTDECL p.1
      (by rw [p.2.2.1]; exact M1s) (len_pos_of_value_pos _ hpos2) aL limbs16_MINTDECL a0 al as
      true
    rw [rv, rc]
    refine ⟨?_, by simp only [if_true]⟩
    rw [hv, rne_sticky, rne_mul_pow]
    congr 1
    rw [ht, hnbe]
    push_cast
    omega

theorem mknormal_rounds_witness :
    value (mknormal fpi_binary32 (-130) (minit MINTDECL 3)).2 =
      rneScale (value (minit MINTDECL 3))
        ((topbit (minit MINTDECL 3)).2 - (fpi_binary32.nbits - 1)
          + (fpi_binary32.minexp - (-130))) ∧
    (mknormal fpi_binary32 (-130) (minit MINTDECL 3)).1 =
      if value (mknormal fpi_binary32 (-130) (minit MINTDECL 3)).2 = 0 then SOFT_ZERO
      else SOFT_SUBNORMAL :=
  (mknormal_rounds fpi_binary32 (-130) (minit MINTDECL 3)
    (limbs16_minit _ limbs16_MINTDECL _) rfl (by decide!) (by decide)).2 (by decide)

theorem or_disjoint (a b k : Nat) (hb : b < 2 ^ k) : (a * 2 ^ k) ||| b = a * 2 ^ k + b := by
  rw [Nat.mul_comm]
  exact (Nat.mul_add_lt_is_or hb a).symm

theorem or_disjoint_left (a b k : Nat) (hb : b < 2 ^ k) : b ||| (a * 2 ^ k) = a * 2 ^ k + b := by
  rw [Nat.or_comm]
  exact or_disjoint a b k hb

/-- Masking with a run of `w` ones starting at bit `k`. -/
theorem and_shifted_mask (x w k : Nat) :
    x &&& ((2 ^ w - 1) * 2 ^ k) = (x / 2 ^ k % 2 ^ w) * 2 ^ k := by
  apply Nat.eq_of_testBit_eq
  intro i
  rw [Nat.testBit_and, ← Nat.shiftLeft_eq, ← Nat.shiftLeft_eq, Nat.testBit_shiftLeft,
    Nat.testBit_shiftLeft, Nat.testBit_two_pow_sub_one, Nat.testBit_mod_two_pow,
    ← Nat.shiftRight_eq_div_pow, Nat.testBit_shiftRight]
  by_cases h : i ≥ k
  · simp only [h, decide_True, Bool.true_and]
    rw [show k + (i - k) = i by omega]
    cases x.testBit i <;> simp
  · simp [h]


theorem soft_consts : SOFT_INFINITE = 1 ∧ SOFT_NAN = 2 ∧ SOFT_ZERO = 3 ∧ SOFT_NORMAL = 4 ∧
    SOFT_SUBNORMAL = 5 := ⟨rfl, rfl, rfl, rfl, rfl⟩

/-! ## binary32 -/

/-- The tests of `ieee32_classify` in terms of the fields of the word. -/
theorem ieee32_classify_eq (x : Nat) (sfp1 sfp2 : Nat) :
    ieee32_classify ⟨x, sfp1, sfp2⟩ =
      if x % 2147483648 = 0x7f800000 then SOFT_INFINITE
      else if x % 2147483648 = 0x7fc00000 then SOFT_NAN
      else if x % 2147483648 = 0 then SOFT_ZERO
      else if x / 8388608 % 256 ≠ 0 then SOFT_NORMAL
      else SOFT_SUBNORMAL := by
  have h1 : x &&& 0x7fffffff = x % 2147483648 := Nat.and_pow_two_sub_one_eq_mod x 31
  have h2 : (x % 2147483648) &&& 0x7f800000 = ((x % 2147483648) / 2 ^ 23 % 2 ^ 8) * 2 ^ 23 :=
    and_shifted_mask (x % 2147483648) 8 23
  have h3 : (x % 2147483648) &&& 0x7f800000 ≠ 0 ↔ x / 8388608 % 256 ≠ 0 := by
    rw [h2]; norm_num; omega
  unfold ieee32_classify
  simp only [h1, h3]

/-- Mantissa and fields returned by `ieee32_unmake`. -/
theorem ieee32_unmake_fields (v : SF) (m : MINT) (hv : v.fp0 < 4294967296) (hm : Limbs16 m) :
    (ieee32_unmake v m).2.1 = v.fp0 / 2147483648 ∧
    (ieee32_unmake v m).2.2.1 = ((v.fp0 / 8388608 % 256 : Nat) : Int) - 127 ∧
    Limbs16 (ieee32_unmake v m).2.2.2 ∧ (ieee32_unmake v m).2.2.2.sign = 0 ∧
    (ieee32_unmake v m).2.2.2.len = 2 ∧
    (ieee32_unmake v m).1 =
      (if ieee32_classify v = SOFT_SUBNORMAL then SOFT_NORMAL else ieee32_classify v) ∧
    value (ieee32_unmake v m).2.2.2 =
      v.fp0 % 8388608 + (if ieee32_classify v = SOFT_NORMAL then 8388608 else 0) := by
  have hs : (v.fp0 >>> 31) &&& 1 = v.fp0 / 2147483648 := by
    rw [Nat.and_one_is_mod, Nat.shiftRight_eq_div_pow]; norm_num; omega
  have he : (v.fp0 >>> 23) &&& 0xff = v.fp0 / 8388608 % 256 := by
    have := Nat.and_pow_two_sub_one_eq_mod (v.fp0 >>> 23) 8
    rw [Nat.shiftRight_eq_div_pow] at this ⊢
    exact this
  have hf : (v.fp0 >>> 16) &&& 0x7f = v.fp0 / 65536 % 128 := by
    have := Nat.and_pow_two_sub_one_eq_mod (v.fp0 >>> 16) 7
    rw [Nat.shiftRight_eq_div_pow] at this ⊢
    exact this
  obtain ⟨m1, hm1⟩ : ∃ m1 : MINT, m1 =
      { (minit m v.fp0).put 1 ((v.fp0 >>> 16) &&& 0x7f) with len := 2 } := ⟨_, rfl⟩
  have m1L : Limbs16 m1 := by
    rw [hm1]
    exact limbs16_update _ (limbs16_minit m hm _) 1 _ (Nat.mod_lt _ (by omega))
  have m1v0 : m1.val 0 = v.fp0 % 65536 := by
    rw [hm1]
    simp only [MINT.put, minit]
    rw [Function.update_noteq (by omega), Function.update_same]
  have m1v1 : m1.val 1 = v.fp0 / 65536 % 128 := by
    rw [hm1]
    simp only [MINT.put, minit]
    rw [Function.update_same, hf]
    omega
  have hor : m1.val 1 ||| (1 <<< 7) = 128 + v.fp0 / 65536 % 128 := by
    rw [m1v1]
    have := or_disjoint_left 1 (v.fp0 / 65536 % 128) 7 (by norm_num; omega)
    show v.fp0 / 65536 % 128 ||| 1 * 2 ^ 7 = _
    rw [this]
    norm_num
  have hunf : ieee32_unmake v m =
      if ieee32_classify v = SOFT_SUBNORMAL then
        (SOFT_NORMAL, v.fp0 / 2147483648, ((v.fp0 / 8388608 % 256 : Nat) : Int) - 127, m1)
      else if ieee32_classify v = SOFT_NORMAL then
        (ieee32_classify v, v.fp0 / 2147483648, ((v.fp0 / 8388608 % 256 : Nat) : Int) - 127,
          m1.put 1 (m1.val 1 ||| (1 <<< 7)))
      else (ieee32_classify v, v.fp0 / 2147483648,
        ((v.fp0 / 8388608 % 256 : Nat) : Int) - 127, m1) := by
    unfold ieee32_unmake
    simp only [hs, he]
    rw [hm1]
    rfl
  have valm1 : value m1 = v.fp0 % 8388608 := by
    unfold value
    have : m1.len = 2 := by rw [hm1]
    rw [this]
    simp only [limbsVal]
    have e1 : m1.val ((1 : Nat) : Int) = m1.val 1 := rfl
    have e0 : m1.val ((0 : Nat) : Int) = m1.val 0 := rfl
    rw [e1, e0, m1v0, m1v1]
    omega
  rw [hunf]
  by_cases c1 : ieee32_classify v = SOFT_SUBNORMAL
  · rw [if_pos c1, if_pos c1, if_neg (by rw [c1]; decide)]
    exact ⟨rfl, rfl, m1L, by rw [hm1]; rfl, by rw [hm1], rfl, by rw [valm1]; rfl⟩
  · rw [if_neg c1, if_neg c1]
    by_cases c2 : ieee32_classify v = SOFT_NORMAL
    · rw [if_pos c2, if_pos c2]
      refine ⟨rfl, rfl, limbs16_update _ m1L 1 _ (Nat.mod_lt _ (by omega)),
        by rw [hm1]; rfl, by rw [hm1]; rfl, rfl, ?_⟩
      show limbsVal (Function.update m1.val 1 ((m1.val 1 ||| (1 <<< 7)) % 65536)) m1.len = _
      have : m1.len = 2 := by rw [hm1]
      rw [this, hor]
      simp only [limbsVal]
      have e1 : ((1 : Nat) : Int) = 1 := rfl
      have e0 : ((0 : Nat) : Int) = 0 := rfl
      rw [e1, e0, Function.update_same, Function.update_noteq (by omega), m1v0]
      omega
    · rw [if_neg c2, if_neg c2]
      exact ⟨rfl, rfl, m1L, by rw [hm1]; rfl, by rw [hm1], rfl, by rw [valm1]; rfl⟩


theorem shl_sign31 (s : Nat) (hs : s ≤ 1) : (s <<< 31) % 4294967296 = s * 2147483648 := by
  rw [Nat.shiftLeft_eq]; norm_num; omega

/-- Packing of a NORMAL binary32 value from the limbs of a 24-bit mantissa. -/
theorem pack32 (s E v0 v1 : Nat) (hs : s ≤ 1) (hE : E < 256) (h0 : v0 < 65536)
    (h1 : v1 < 256) :
    ((((s <<< 31) % 4294967296) ||| ((E <<< 23) % 4294967296))
      + (((v1 <<< 16) % 4294967296) ||| v0)) % 4294967296
    = (s * 2147483648 + E * 8388608 + (v1 * 65536 + v0)) % 4294967296 := by
  rw [shl_sign31 s hs]
  have e1 : (E <<< 23) % 4294967296 = E * 8388608 := by
    rw [Nat.shiftLeft_eq]; norm_num; omega
  have e2 : (v1 <<< 16) % 4294967296 = v1 * 2 ^ 16 := by
    rw [Nat.shiftLeft_eq]; norm_num; omega
  have e3 := or_disjoint v1 v0 16 (by norm_num; omega)
  have e4 := or_disjoint s (E * 8388608) 31 (by norm_num; omega)
  norm_num at e3 e4
  rw [e1, e2]
  norm_num
  rw [e3, e4]

theorem ieee32_make_zero (sfp : SF) (sign : Nat) (exp : Int) (m : MINT) :
    (ieee32_make sfp SOFT_ZERO sign exp m).1.fp0 = (sign <<< 31) % 4294967296 := rfl

theorem ieee32_make_inf (sfp : SF) (sign : Nat) (exp : Int) (m : MINT) :
    (ieee32_make sfp SOFT_INFINITE sign exp m).1.fp0
      = (sign <<< 31) % 4294967296 ||| 0x7f800000 := rfl

theorem ieee32_make_normal (sfp : SF) (sign : Nat) (exp : Int) (m : MINT)
    (h : (mknormal fpi_binary32 exp m).1 = SOFT_NORMAL) :
    (ieee32_make sfp SOFT_NORMAL sign exp m).1.fp0
      = ((((sign <<< 31) % 4294967296) |||
            ((((exp + (fpi_binary32.bias - 1)) % 256).toNat <<< 23) % 4294967296))
          + ((((mknormal fpi_binary32 exp m).2.val 1 <<< 16) % 4294967296) |||
              (mknormal fpi_binary32 exp m).2.val 0)) % 4294967296 := by
  unfold ieee32_make
  simp only [if_true, h]
  rfl

theorem bits32_zero (x : Nat) (h : x % 2147483648 = 0) :
    x / 2147483648 * 2147483648 = x := by omega

theorem bits32_inf (x : Nat) (h : x % 2147483648 = 0x7f800000) :
    x / 2147483648 * 2147483648 + 2139095040 = x := by omega

theorem bits32_normal (x : Nat) (hx : x < 4294967296) (h0 : x / 8388608 % 256 ≠ 0) :
    (x / 2147483648 * 2147483648 + (x / 8388608 % 256 - 1) * 8388608
      + ((x % 8388608 + 8388608) / 65536 % 65536 * 65536
        + (x % 8388608 + 8388608) % 65536)) % 4294967296 = x := by omega

theorem bits32_exp (E : Nat) (h0 : E ≠ 0) (h1 : E < 256) :
    ((((E : Int) - 127 + (127 - 1)) % 256).toNat) = E - 1 := by omega

theorem classify32_cases (x : Nat) (c : Nat)
    (hcl : c = if x % 2147483648 = 0x7f800000 then SOFT_INFINITE
      else if x % 2147483648 = 0x7fc00000 then SOFT_NAN
      else if x % 2147483648 = 0 then SOFT_ZERO
      else if x / 8388608 % 256 ≠ 0 then SOFT_NORMAL
      else SOFT_SUBNORMAL) :
    (c = SOFT_ZERO → x % 2147483648 = 0) ∧
    (c = SOFT_INFINITE → x % 2147483648 = 0x7f800000) ∧
    (c = SOFT_NORMAL → x / 8388608 % 256 ≠ 0) := by
  subst hcl
  refine ⟨?_, ?_, ?_⟩ <;> intro h <;> split_ifs at h with a1 a2 a3 a4 <;>
    first | assumption | exact absurd h (by decide)

theorem ieee32_normal_pack (x : Nat) (hx : x < 4294967296) (sfp : SF) (m : MINT)
    (hL : Limbs16 m) (hs : m.sign = 0) (hval : value m = x % 8388608 + 8388608)
    (hE0 : x / 8388608 % 256 ≠ 0) (hE255 : x / 8388608 % 256 ≠ 255) :
    (ieee32_make sfp SOFT_NORMAL (x / 2147483648)
      (((x / 8388608 % 256 : Nat) : Int) - 127) m).1.fp0 = x := by
  have hk := mknormal_exact fpi_binary32 (((x / 8388608 % 256 : Nat) : Int) - 127) m 24 rfl
    (by omega) hL hs (by rw [hval]; norm_num) (by rw [hval]; norm_num; omega)
    (by show (-126 : Int) ≤ _; omega) (by show _ ≤ (127 : Int); omega)
  obtain ⟨k1, kL, kC, kv⟩ := hk
  rw [hval] at kv
  have b1 : 65536 ^ 1 ≤ value (mknormal fpi_binary32
      (((x / 8388608 % 256 : Nat) : Int) - 127) m).2 := by
    rw [kv, pow_one]; omega
  have b2 : value (mknormal fpi_binary32 (((x / 8388608 % 256 : Nat) : Int) - 127) m).2
      < 65536 ^ (1 + 1) := by
    rw [kv]
    have : (65536 : Nat) ^ (1 + 1) = 4294967296 := by norm_num
    rw [this]; omega
  have hlimbs := canon_limbs _ kL kC 1 b1 b2
  have l0 := hlimbs.2 0 (by omega)
  have l1 := hlimbs.2 1 (by omega)
  rw [kv] at l0 l1
  simp only [pow_zero, Nat.div_one, pow_one] at l0 l1
  have e0 : ((0 : Nat) : Int) = 0 := rfl
  have e1 : ((1 : Nat) : Int) = 1 := rfl
  rw [e0] at l0
  rw [e1] at l1
  have hexp : (((((x / 8388608 % 256 : Nat) : Int) - 127) + (fpi_binary32.bias - 1)) % 256).toNat
      = x / 8388608 % 256 - 1 := bits32_exp _ hE0 (Nat.mod_lt _ (by omega))
  rw [ieee32_make_normal _ _ _ _ k1, hexp, l0, l1,
    pack32 _ _ _ _ (by omega) (by omega) (Nat.mod_lt _ (by omega)) (by omega)]
  exact bits32_normal _ hx hE0

theorem ieee32_class_cases (v : SF) :
    (ieee32_classify v = SOFT_ZERO → v.fp0 % 2147483648 = 0) ∧
    (ieee32_classify v = SOFT_INFINITE → v.fp0 % 2147483648 = 0x7f800000) ∧
    (ieee32_classify v = SOFT_NORMAL → v.fp0 / 8388608 % 256 ≠ 0) := by
  obtain ⟨x, y, z⟩ := v
  exact classify32_cases x _ (ieee32_classify_eq x y z)

theorem sign32_le (x : Nat) (hx : x < 4294967296) : x / 2147483648 ≤ 1 := by omega

theorem ieee32_roundtrip (v sfp : SF) (m : MINT) (hm : Limbs16 m) (h0 : v.fp0 < 4294967296)
    (hc : ieee32_classify v = SOFT_ZERO ∨ ieee32_classify v = SOFT_INFINITE ∨
      (ieee32_classify v = SOFT_NORMAL ∧ v.fp0 / 8388608 % 256 ≠ 255)) :
    (ieee32_make sfp (ieee32_unmake v m).1 (ieee32_unmake v m).2.1 (ieee32_unmake v m).2.2.1
      (ieee32_unmake v m).2.2.2).1.fp0 = v.fp0 := by
  obtain ⟨f1, f2, f3, f4, f5, f6, f7⟩ := ieee32_unmake_fields v m h0 hm
  obtain ⟨k1, k2, k3⟩ := ieee32_class_cases v
  have hs := sign32_le v.fp0 h0
  rw [f1, f2, f6]
  rcases hc with h | h | ⟨h, hE⟩
  · rw [h, if_neg (by decide), ieee32_make_zero, shl_sign31 _ hs]
    exact bits32_zero _ (k1 h)
  · rw [h, if_neg (by decide), ieee32_make_inf, shl_sign31 _ hs]
    have e := or_disjoint (v.fp0 / 2147483648) 0x7f800000 31 (by norm_num)
    norm_num at e
    rw [e]
    exact bits32_inf _ (k2 h)
  · rw [h, if_neg (by decide)]
    rw [h, if_pos rfl] at f7
    exact ieee32_normal_pack v.fp0 h0 sfp _ f3 f4 f7 (k3 h) hE

/-! ## binary64 and x80: mantissas of four limbs -/

theorem value4 (m : MINT) (hl : m.len = 4) :
    value m = m.val 0 + m.val 1 * 65536 + m.val 2 * 4294967296 + m.val 3 * 281474976710656 := by
  unfold value
  rw [hl]
  simp only [limbsVal]
  have e0 : ((0 : Nat) : Int) = 0 := rfl
  have e1 : ((1 : Nat) : Int) = 1 := rfl
  have e2 : ((2 : Nat) : Int) = 2 := rfl
  have e3 : ((3 : Nat) : Int) = 3 := rfl
  rw [e0, e1, e2, e3]
  norm_num

/-- Limbs of a canonical magnitude with its top bit in the fourth limb. -/
theorem limbs4 (m : MINT) (hm : Limbs16 m) (cm : Canon m) (V : Nat) (hv : value m = V)
    (h1 : 281474976710656 ≤ V) (h2 : V < 18446744073709551616) :
    m.len = 4 ∧ m.val 0 = V % 65536 ∧ m.val 1 = V / 65536 % 65536 ∧
    m.val 2 = V / 4294967296 % 65536 ∧ m.val 3 = V / 281474976710656 % 65536 := by
  have b1 : 65536 ^ 3 ≤ value m := by
    rw [hv]
    have : (65536 : Nat) ^ 3 = 281474976710656 := by norm_num
    omega
  have b2 : value m < 65536 ^ (3 + 1) := by
    rw [hv]
    have : (65536 : Nat) ^ (3 + 1) = 18446744073709551616 := by norm_num
    omega
  have hlimbs := canon_limbs m hm cm 3 b1 b2
  have l0 := hlimbs.2 0 (by omega)
  have l1 := hlimbs.2 1 (by omega)
  have l2 := hlimbs.2 2 (by omega)
  have l3 := hlimbs.2 3 (by omega)
  rw [hv] at l0 l1 l2 l3
  have p2 : (65536 : Nat) ^ 2 = 4294967296 := by norm_num
  have p3 : (65536 : Nat) ^ 3 = 281474976710656 := by norm_num
  simp only [pow_zero, Nat.div_one, pow_one, p2, p3] at l0 l1 l2 l3
  exact ⟨hlimbs.1, l0, l1, l2, l3⟩

theorem pack_lo (v0 v1 : Nat) (h0 : v0 < 65536) (h1 : v1 < 65536) :
    ((v1 <<< 16) % 4294967296) ||| v0 = v1 * 65536 + v0 := by
  have e2 : (v1 <<< 16) % 4294967296 = v1 * 2 ^ 16 := by
    rw [Nat.shiftLeft_eq]; norm_num; omega
  have e3 := or_disjoint v1 v0 16 (by norm_num; omega)
  rw [e2, e3]
  norm_num

/-- The four limbs written by `ieee64_unmake` and `ieeex80_unmake`. -/
theorem put4 (m : MINT) (hm : Limbs16 m) (a b c d : Nat) (M : MINT)
    (hM : M = { (((minit m a).put 1 b).put 2 c).put 3 d with len := 4 }) :
    Limbs16 M ∧ M.sign = 0 ∧ M.len = 4 ∧
    value M = a % 65536 + b % 65536 * 65536 + c % 65536 * 4294967296
      + d % 65536 * 281474976710656 := by
  have L : Limbs16 M := by
    rw [hM]
    exact limbs16_update _ (limbs16_update _ (limbs16_update _ (limbs16_minit m hm _) 1 _
      (Nat.mod_lt _ (by omega))) 2 _ (Nat.mod_lt _ (by omega))) 3 _ (Nat.mod_lt _ (by omega))
  have hl : M.len = 4 := by rw [hM]
  have v0 : M.val 0 = a % 65536 := by
    rw [hM]
    simp only [MINT.put, minit]
    rw [Function.update_noteq (by omega), Function.update_noteq (by omega),
      Function.update_noteq (by omega), Function.update_same]
  have v1 : M.val 1 = b % 65536 := by
    rw [hM]
    simp only [MINT.put, minit]
    rw [Function.update_noteq (by omega), Function.update_noteq (by omega),
      Function.update_same]
  have v2 : M.val 2 = c % 65536 := by
    rw [hM]
    simp only [MINT.put, minit]
    rw [Function.update_noteq (by omega), Function.update_same]
  have v3 : M.val 3 = d % 65536 := by
    rw [hM]
    simp only [MINT.put, minit]
    rw [Function.update_same]
  refine ⟨L, by rw [hM]; rfl, hl, ?_⟩
  rw [value4 M hl, v0, v1, v2, v3]

/-! ### binary64 -/

theorem ieee64_class_cases (v : SF) :
    (ieee64_classify v = SOFT_ZERO → v.fp1 % 2147483648 = 0 ∧ v.fp0 = 0) ∧
    (ieee64_classify v = SOFT_INFINITE → v.fp1 % 2147483648 = 0x7ff00000 ∧ v.fp0 = 0) ∧
    (ieee64_classify v = SOFT_NORMAL → v.fp1 / 1048576 % 2048 ≠ 0) := by
  have h1 : v.fp1 &&& 0x7fffffff = v.fp1 % 2147483648 :=
    Nat.and_pow_two_sub_one_eq_mod v.fp1 31
  have h2 : v.fp1 &&& 0x7ff00000 = (v.fp1 / 2 ^ 20 % 2 ^ 11) * 2 ^ 20 :=
    and_shifted_mask v.fp1 11 20
  have h3 : v.fp1 &&& 0x7ff00000 ≠ 0 ↔ v.fp1 / 1048576 % 2048 ≠ 0 := by
    rw [h2]; norm_num
  unfold ieee64_classify IEEEFP_64_ISINF IEEEFP_64_ISNAN IEEEFP_64_ISZERO
  simp only [h1, h3, Bool.and_eq_true, decide_eq_true_eq]
  refine ⟨?_, ?_, ?_⟩ <;> intro h <;> split_ifs at h with a1 a2 a3 a4 <;>
    first | assumption | exact absurd h (by decide)

theorem ieee64_unmake_fields (v : SF) (m : MINT) (h0 : v.fp0 < 4294967296)
    (h1 : v.fp1 < 4294967296) (hm : Limbs16 m) :
    (ieee64_unmake v m).1 =
      (if ieee64_classify v = SOFT_SUBNORMAL then SOFT_NORMAL else ieee64_classify v) ∧
    (ieee64_unmake v m).2.1 = v.fp1 / 2147483648 ∧
    (ieee64_unmake v m).2.2.1 = ((v.fp1 / 1048576 % 2048 : Nat) : Int) - 1023 ∧
    Limbs16 (ieee64_unmake v m).2.2.2 ∧ (ieee64_unmake v m).2.2.2.sign = 0 ∧
    value (ieee64_unmake v m).2.2.2 =
      v.fp0 + v.fp1 % 1048576 * 4294967296 + 4503599627370496 := by
  have hs : (v.fp1 >>> 31) &&& 1 = v.fp1 / 2147483648 := by
    rw [Nat.and_one_is_mod, Nat.shiftRight_eq_div_pow]; norm_num; omega
  have he : (v.fp1 >>> 20) &&& 0x7ff = v.fp1 / 1048576 % 2048 := by
    have := Nat.and_pow_two_sub_one_eq_mod (v.fp1 >>> 20) 11
    rw [Nat.shiftRight_eq_div_pow] at this ⊢
    exact this
  have hf : (v.fp1 >>> 16) &&& 0x0f = v.fp1 / 65536 % 16 := by
    have := Nat.and_pow_two_sub_one_eq_mod (v.fp1 >>> 16) 4
    rw [Nat.shiftRight_eq_div_pow] at this ⊢
    exact this
  have hor : ((v.fp1 >>> 16) &&& 0x0f) ||| (1 <<< 4) = 16 + v.fp1 / 65536 % 16 := by
    rw [hf]
    have := or_disjoint_left 1 (v.fp1 / 65536 % 16) 4 (by norm_num; omega)
    show v.fp1 / 65536 % 16 ||| 1 * 2 ^ 4 = _
    rw [this]
    norm_num
  have h16 : v.fp0 >>> 16 = v.fp0 / 65536 := by rw [Nat.shiftRight_eq_div_pow]
  obtain ⟨M, hM⟩ : ∃ M : MINT, M =
      { (((minit m v.fp0).put 1 (v.fp0 >>> 16)).put 2 v.fp1).put 3
          (((v.fp1 >>> 16) &&& 0x0f) ||| (1 <<< 4)) with len := 4 } := ⟨_, rfl⟩
  obtain ⟨ML, Ms, Ml, Mv⟩ := put4 m hm _ _ _ _ M hM
  rw [hor, h16] at Mv
  have hunf : ieee64_unmake v m =
      (if ieee64_classify v = SOFT_SUBNORMAL then SOFT_NORMAL else ieee64_classify v,
        v.fp1 / 2147483648, ((v.fp1 / 1048576 % 2048 : Nat) : Int) - 1023, M) := by
    unfold ieee64_unmake
    simp only [hs, he]
    rw [hM]
    split_ifs <;> rfl
  rw [hunf]
  refine ⟨rfl, rfl, rfl, ML, Ms, ?_⟩
  show value M = _
  rw [Mv]
  omega

theorem ieee64_make_zero (sfp : SF) (sign : Nat) (exp : Int) (m : MINT) :
    (ieee64_make sfp SOFT_ZERO sign exp m).1
      = { sfp with fp0 := 0, fp1 := (sign <<< 31) % 4294967296 } := rfl

theorem ieee64_make_inf (sfp : SF) (sign : Nat) (exp : Int) (m : MINT) :
    (ieee64_make sfp SOFT_INFINITE sign exp m).1
      = { sfp with fp0 := 0, fp1 := (sign <<< 31) % 4294967296 ||| 0x7ff00000 } := rfl

theorem ieee64_make_normal (sfp : SF) (sign : Nat) (exp : Int) (m : MINT)
    (h : (mknormal fpi_binary64 exp m).1 = SOFT_NORMAL) :
    (ieee64_make sfp SOFT_NORMAL sign exp m).1
      = { sfp with
          fp0 := (((mknormal fpi_binary64 exp m).2.val 1 <<< 16) % 4294967296) |||
            (mknormal fpi_binary64 exp m).2.val 0,
          fp1 := ((((sign <<< 31) % 4294967296) |||
              ((((mknormal fpi_binary64 exp m).2.val 3 <<< 16) % 4294967296) |||
                (mknormal fpi_binary64 exp m).2.val 2))
            + ((((exp + (fpi_binary64.bias - 1)) % 2048).toNat <<< 20) % 4294967296))
              % 4294967296 } := by
  unfold ieee64_make
  simp only [if_true, h]
  rfl

theorem bits64_limbs (x0 x1 V : Nat) (h0 : x0 < 4294967296)
    (hV : V = x0 + x1 % 1048576 * 4294967296 + 4503599627370496) :
    V / 65536 % 65536 * 65536 + V % 65536 = x0 ∧
    V / 281474976710656 % 65536 * 65536 + V / 4294967296 % 65536
      = x1 % 1048576 + 1048576 := by
  subst hV
  constructor <;> omega

theorem bits64_hi (x : Nat) (hx : x < 4294967296) (hE0 : x / 1048576 % 2048 ≠ 0) :
    (x / 2147483648 * 2147483648 + (x % 1048576 + 1048576)
      + (x / 1048576 % 2048 - 1) * 1048576) % 4294967296 = x := by omega

theorem bits64_exp (E : Nat) (h0 : E ≠ 0) (h1 : E < 2048) :
    ((((E : Int) - 1023 + (1023 - 1)) % 2048).toNat) = E - 1 := by omega

theorem pack64_hi (s E hi : Nat) (hs : s ≤ 1) (hE : E < 2047) (hhi : hi < 2097152) :
    ((((s <<< 31) % 4294967296) ||| hi) + ((E <<< 20) % 4294967296)) % 4294967296
      = (s * 2147483648 + hi + E * 1048576) % 4294967296 := by
  rw [shl_sign31 s hs]
  have e1 : (E <<< 20) % 4294967296 = E * 1048576 := by
    rw [Nat.shiftLeft_eq]; norm_num; omega
  have e4 := or_disjoint s hi 31 (by norm_num; omega)
  norm_num at e4
  rw [e1, e4]

theorem ieee64_normal_pack (x0 x1 : Nat) (h0 : x0 < 4294967296) (h1 : x1 < 4294967296)
    (sfp : SF) (m : MINT) (hL : Limbs16 m) (hs : m.sign = 0)
    (hval : value m = x0 + x1 % 1048576 * 4294967296 + 4503599627370496)
    (hE0 : x1 / 1048576 % 2048 ≠ 0) (hE1 : x1 / 1048576 % 2048 ≠ 2047) :
    (ieee64_make sfp SOFT_NORMAL (x1 / 2147483648)
      (((x1 / 1048576 % 2048 : Nat) : Int) - 1023) m).1 = { sfp with fp0 := x0, fp1 := x1 } := by
  have p52 : (2 : Nat) ^ (53 - 1) = 4503599627370496 := by norm_num
  have p53 : (2 : Nat) ^ 53 = 9007199254740992 := by norm_num
  have c1 : 2 ^ (53 - 1) ≤ value m := by rw [hval, p52]; omega
  have c2 : value m < 2 ^ 53 := by rw [hval, p53]; omega
  have hk := mknormal_exact fpi_binary64 (((x1 / 1048576 % 2048 : Nat) : Int) - 1023) m 53 rfl
    (by omega) hL hs c1 c2
    (by show (-1022 : Int) ≤ _; omega) (by show _ ≤ (1023 : Int); omega)
  obtain ⟨k1, kL, kC, kv⟩ := hk
  have q1 : 281474976710656 ≤ value m := by rw [hval]; omega
  have q2 : value m < 18446744073709551616 := by rw [hval]; omega
  obtain ⟨-, l0, l1, l2, l3⟩ := limbs4 _ kL kC (value m) kv q1 q2
  obtain ⟨r1, r2⟩ := bits64_limbs x0 x1 (value m) h0 hval
  have hexp : (((((x1 / 1048576 % 2048 : Nat) : Int) - 1023) + (fpi_binary64.bias - 1))
      % 2048).toNat = x1 / 1048576 % 2048 - 1 := bits64_exp _ hE0 (Nat.mod_lt _ (by omega))
  rw [ieee64_make_normal _ _ _ _ k1, hexp, l0, l1, l2, l3,
    pack_lo _ _ (Nat.mod_lt _ (by omega)) (Nat.mod_lt _ (by omega)),
    pack_lo _ _ (Nat.mod_lt _ (by omega)) (Nat.mod_lt _ (by omega)), r1, r2,
    pack64_hi _ _ _ (by omega) (by omega) (by omega), bits64_hi x1 h1 hE0]

theorem bits64_zero (x : Nat) (h : x % 2147483648 = 0) :
    x / 2147483648 * 2147483648 = x := by omega

theorem bits64_inf (x : Nat) (h : x % 2147483648 = 0x7ff00000) :
    x / 2147483648 * 2147483648 + 2146435072 = x := by omega

theorem ieee64_roundtrip (v sfp : SF) (m : MINT) (hm : Limbs16 m) (h0 : v.fp0 < 4294967296)
    (h1 : v.fp1 < 4294967296)
    (hc : ieee64_classify v = SOFT_ZERO ∨ ieee64_classify v = SOFT_INFINITE ∨
      (ieee64_classify v = SOFT_NORMAL ∧ v.fp1 / 1048576 % 2048 ≠ 2047)) :
    (ieee64_make sfp (ieee64_unmake v m).1 (ieee64_unmake v m).2.1 (ieee64_unmake v m).2.2.1
      (ieee64_unmake v m).2.2.2).1 = { sfp with fp0 := v.fp0, fp1 := v.fp1 } := by
  obtain ⟨f1, f2, f3, f4, f5, f6⟩ := ieee64_unmake_fields v m h0 h1 hm
  obtain ⟨k1, k2, k3⟩ := ieee64_class_cases v
  have hs : v.fp1 / 2147483648 ≤ 1 := by omega
  rw [f1, f2, f3]
  rcases hc with h | h | ⟨h, hE⟩
  · rw [h, if_neg (by decide), ieee64_make_zero, shl_sign31 _ hs, bits64_zero _ (k1 h).1,
      (k1 h).2]
  · rw [h, if_neg (by decide), ieee64_make_inf, shl_sign31 _ hs]
    have e := or_disjoint (v.fp1 / 2147483648) 0x7ff00000 31 (by norm_num)
    norm_num at e
    rw [e, bits64_inf _ (k2 h).1, (k2 h).2]
  · rw [h, if_neg (by decide)]
    exact ieee64_normal_pack v.fp0 v.fp1 h0 h1 sfp _ f4 f5 f6 (k3 h) hE

/-! ### x87 80-bit extended -/

theorem ieeex80_class_cases (v : SF) :
    (ieeex80_classify v = SOFT_ZERO → v.fp2 % 32768 = 0 ∧ v.fp1 = 0 ∧ v.fp0 = 0) ∧
    (ieeex80_classify v = SOFT_INFINITE →
      v.fp2 % 32768 = 32767 ∧ v.fp1 = 0x80000000 ∧ v.fp0 = 0) ∧
    (ieeex80_classify v = SOFT_NORMAL → v.fp2 % 32768 ≠ 0) := by
  have h1 : v.fp2 &&& 0x7fff = v.fp2 % 32768 := Nat.and_pow_two_sub_one_eq_mod v.fp2 15
  unfold ieeex80_classify IEEEFP_X80_ISINF IEEEFP_X80_ISNAN IEEEFP_X80_ISZERO
  simp only [h1, or_eq_zero, Bool.and_eq_true, Bool.or_eq_true, decide_eq_true_eq]
  refine ⟨?_, ?_, ?_⟩ <;> intro h <;> split_ifs at h with a1 a2 a3 a4 <;>
    first
    | assumption
    | exact absurd h (by decide)
    | exact ⟨a3.1, a3.2.1, a3.2.2⟩
    | exact ⟨a1.1.1, a1.1.2, a1.2⟩

theorem ieeex80_unmake_fields (v : SF) (m : MINT) (h0 : v.fp0 < 4294967296)
    (h1 : v.fp1 < 4294967296) (h2 : v.fp2 < 65536) (hm : Limbs16 m) :
    (ieeex80_unmake v m).1 =
      (if ieeex80_classify v = SOFT_SUBNORMAL then SOFT_NORMAL else ieeex80_classify v) ∧
    (ieeex80_unmake v m).2.1 = v.fp2 / 32768 ∧
    (ieeex80_unmake v m).2.2.1 = ((v.fp2 % 32768 : Nat) : Int) - 16383 ∧
    Limbs16 (ieeex80_unmake v m).2.2.2 ∧
    value (ieeex80_unmake v m).2.2.2 = v.fp0 + v.fp1 * 4294967296 := by
  have hs : (v.fp2 >>> 15) &&& 1 = v.fp2 / 32768 := by
    rw [Nat.and_one_is_mod, Nat.shiftRight_eq_div_pow]; norm_num; omega
  have he : v.fp2 &&& 0x7fff = v.fp2 % 32768 := Nat.and_pow_two_sub_one_eq_mod v.fp2 15
  have h16 : v.fp0 >>> 16 = v.fp0 / 65536 := by rw [Nat.shiftRight_eq_div_pow]
  have h16b : v.fp1 >>> 16 = v.fp1 / 65536 := by rw [Nat.shiftRight_eq_div_pow]
  obtain ⟨M, hM⟩ : ∃ M : MINT, M =
      { (((minit m v.fp0).put 1 (v.fp0 >>> 16)).put 2 v.fp1).put 3 (v.fp1 >>> 16)
          with len := 4 } := ⟨_, rfl⟩
  obtain ⟨ML, Ms, Ml, Mv⟩ := put4 m hm _ _ _ _ M hM
  rw [h16, h16b] at Mv
  have hunf : ieeex80_unmake v m =
      (if ieeex80_classify v = SOFT_SUBNORMAL then SOFT_NORMAL else ieeex80_classify v,
        v.fp2 / 32768, ((v.fp2 % 32768 : Nat) : Int) - 16383, M) := by
    unfold ieeex80_unmake
    simp only [hs, he]
    rw [hM]
    split_ifs <;> rfl
  rw [hunf]
  refine ⟨rfl, rfl, rfl, ML, ?_⟩
  show value M = _
  rw [Mv]
  omega

theorem ieeex80_make_zero (sfp : SF) (sign : Nat) (exp : Int) (m : MINT) :
    (ieeex80_make sfp SOFT_ZERO sign exp m).1 = ⟨0, 0, (sign <<< 15) % 4294967296⟩ := rfl

theorem ieeex80_make_inf (sfp : SF) (sign : Nat) (exp : Int) (m : MINT) :
    (ieeex80_make sfp SOFT_INFINITE sign exp m).1
      = ⟨0, 0x80000000, (sign <<< 15) % 4294967296 ||| 0x7fff⟩ := rfl

theorem ieeex80_make_normal (sfp : SF) (sign : Nat) (exp : Int) (m : MINT)
    (h : (mknormal fpi_binaryx80 exp { m with sign := 0 }).1 = SOFT_NORMAL)
    (hl : (mknormal fpi_binaryx80 exp { m with sign := 0 }).2.len = 4) :
    (ieeex80_make sfp SOFT_NORMAL sign exp m).1
      = ⟨(((mknormal fpi_binaryx80 exp { m with sign := 0 }).2.val 1 <<< 16) % 4294967296) |||
            (mknormal fpi_binaryx80 exp { m with sign := 0 }).2.val 0,
          (((mknormal fpi_binaryx80 exp { m with sign := 0 }).2.val 3 <<< 16) % 4294967296) |||
            (mknormal fpi_binaryx80 exp { m with sign := 0 }).2.val 2,
          ((sign <<< 15) % 4294967296) |||
            ((exp + fpi_binaryx80.bias) % 32768).toNat⟩ := by
  have hne : ¬ ((mknormal fpi_binaryx80 exp { m with sign := 0 }).2.len = 5 ∧
      (mknormal fpi_binaryx80 exp { m with sign := 0 }).2.val 4 ≠ 0) := by
    rw [hl]; omega
  unfold ieeex80_make
  simp only [if_true, h, hne, if_false]
  rfl

theorem bitsx80_limbs (x0 x1 V : Nat) (h0 : x0 < 4294967296) (h1 : x1 < 4294967296)
    (hV : V = x0 + x1 * 4294967296) :
    V / 65536 % 65536 * 65536 + V % 65536 = x0 ∧
    V / 281474976710656 % 65536 * 65536 + V / 4294967296 % 65536 = x1 := by
  subst hV
  constructor <;> omega

theorem bitsx80_exp (E : Nat) (h1 : E < 32768) :
    ((((E : Int) - 16383 + 16383) % 32768).toNat) = E := by omega

theorem packx80_fp2 (x : Nat) (hx : x < 65536) :
    ((x / 32768) <<< 15) % 4294967296 ||| (x % 32768) = x := by
  have e1 : ((x / 32768) <<< 15) % 4294967296 = x / 32768 * 2 ^ 15 := by
    rw [Nat.shiftLeft_eq]; norm_num; omega
  rw [e1, or_disjoint _ _ 15 (by norm_num; omega)]
  norm_num
  omega

theorem ieeex80_normal_pack (x0 x1 x2 : Nat) (h0 : x0 < 4294967296) (h1 : x1 < 4294967296)
    (h2 : x2 < 65536) (sfp : SF) (m : MINT) (hL : Limbs16 m)
    (hval : value m = x0 + x1 * 4294967296) (hI : 2147483648 ≤ x1)
    (hE0 : x2 % 32768 ≠ 0) (hE1 : x2 % 32768 ≠ 32767) :
    (ieeex80_make sfp SOFT_NORMAL (x2 / 32768)
      (((x2 % 32768 : Nat) : Int) - 16383) m).1 = ⟨x0, x1, x2⟩ := by
  have p63 : (2 : Nat) ^ (64 - 1) = 9223372036854775808 := by norm_num
  have p64 : (2 : Nat) ^ 64 = 18446744073709551616 := by norm_num
  have hval2 : value { m with sign := 0 } = x0 + x1 * 4294967296 := hval
  have hL2 : Limbs16 { m with sign := 0 } := hL
  have c1 : 2 ^ (64 - 1) ≤ value { m with sign := 0 } := by rw [hval2, p63]; omega
  have c2 : value { m with sign := 0 } < 2 ^ 64 := by rw [hval2, p64]; omega
  have hk := mknormal_exact fpi_binaryx80 (((x2 % 32768 : Nat) : Int) - 16383)
    { m with sign := 0 } 64 rfl (by omega) hL2 rfl c1 c2
    (by show (-16382 : Int) ≤ _; omega) (by show _ ≤ (16383 : Int); omega)
  obtain ⟨k1, kL, kC, kv⟩ := hk
  have q1 : 281474976710656 ≤ value { m with sign := 0 } := by rw [hval2]; omega
  have q2 : value { m with sign := 0 } < 18446744073709551616 := by rw [hval2]; omega
  obtain ⟨l4, l0, l1, l2, l3⟩ := limbs4 _ kL kC (value { m with sign := 0 }) kv q1 q2
  obtain ⟨r1, r2⟩ := bitsx80_limbs x0 x1 (value { m with sign := 0 }) h0 h1 hval2
  have hexp : (((((x2 % 32768 : Nat) : Int) - 16383) + fpi_binaryx80.bias) % 32768).toNat
      = x2 % 32768 := bitsx80_exp _ (Nat.mod_lt _ (by omega))
  rw [ieeex80_make_normal _ _ _ _ k1 l4, hexp, l0, l1, l2, l3,
    pack_lo _ _ (Nat.mod_lt _ (by omega)) (Nat.mod_lt _ (by omega)),
    pack_lo _ _ (Nat.mod_lt _ (by omega)) (Nat.mod_lt _ (by omega)), r1, r2,
    packx80_fp2 x2 h2]

theorem ieeex80_roundtrip (v sfp : SF) (m : MINT) (hm : Limbs16 m) (h0 : v.fp0 < 4294967296)
    (h1 : v.fp1 < 4294967296) (h2 : v.fp2 < 65536)
    (hc : ieeex80_classify v = SOFT_ZERO ∨ ieeex80_classify v = SOFT_INFINITE ∨
      (ieeex80_classify v = SOFT_NORMAL ∧ v.fp2 % 32768 ≠ 32767 ∧ 2147483648 ≤ v.fp1)) :
    (ieeex80_make sfp (ieeex80_unmake v m).1 (ieeex80_unmake v m).2.1
      (ieeex80_unmake v m).2.2.1 (ieeex80_unmake v m).2.2.2).1 = v := by
  obtain ⟨f1, f2, f3, f4, f5⟩ := ieeex80_unmake_fields v m h0 h1 h2 hm
  obtain ⟨k1, k2, k3⟩ := ieeex80_class_cases v
  rw [f1, f2, f3]
  obtain ⟨x0, x1, x2⟩ := v
  simp only at h0 h1 h2 k1 k2 k3 f4 f5 hc ⊢
  rcases hc with h | h | ⟨h, hE, hI⟩
  · rw [h, if_neg (by decide), ieeex80_make_zero]
    obtain ⟨a, b, c⟩ := k1 h
    subst b c
    have := packx80_fp2 x2 h2
    rw [a, Nat.or_zero] at this
    rw [this]
  · rw [h, if_neg (by decide), ieeex80_make_inf]
    obtain ⟨a, b, c⟩ := k2 h
    subst b c
    have := packx80_fp2 x2 h2
    rw [a] at this
    rw [this]
  · rw [h, if_neg (by decide)]
    exact ieeex80_normal_pack x0 x1 x2 h0 h1 h2 sfp _ f4 f5 hI (k3 h) hE

/-! ### Round trips through `unmake` and `make` -/

/-- C9: the binary32 word 7F800001 is classified NORMAL, but `make` applied to
what `unmake` returns gives 7F800000; the x80 value with exponent field 3FFF and
mantissa 40000000:00000000 (integer bit clear) is classified NORMAL and comes
back with mantissa 80000000:00000000. -/
theorem roundtrip_normal_fails :
    ieee32_classify ⟨0x7f800001, 0, 0⟩ = SOFT_NORMAL ∧
    (ieee32_make SFDECL (ieee32_unmake ⟨0x7f800001, 0, 0⟩ MINTDECL).1
      (ieee32_unmake ⟨0x7f800001, 0, 0⟩ MINTDECL).2.1
      (ieee32_unmake ⟨0x7f800001, 0, 0⟩ MINTDECL).2.2.1
      (ieee32_unmake ⟨0x7f800001, 0, 0⟩ MINTDECL).2.2.2).1 = ⟨0x7f800000, 0, 0⟩ ∧
    ieeex80_classify ⟨0, 0x40000000, 0x3fff⟩ = SOFT_NORMAL ∧
    (ieeex80_make SFDECL (ieeex80_unmake ⟨0, 0x40000000, 0x3fff⟩ MINTDECL).1
      (ieeex80_unmake ⟨0, 0x40000000, 0x3fff⟩ MINTDECL).2.1
      (ieeex80_unmake ⟨0, 0x40000000, 0x3fff⟩ MINTDECL).2.2.1
      (ieeex80_unmake ⟨0, 0x40000000, 0x3fff⟩ MINTDECL).2.2.2).1
      = ⟨0, 0x80000000, 0x3fff⟩ := by
  decide!

/-- C9, amended: for each codec, a wire value (32-bit words, 16-bit sign and
exponent word for x80) that the codec classifies ZERO or INFINITE, or NORMAL
with an exponent field that is not all ones (and, for x80, the integer bit set),
is reproduced bit for bit by `make` applied to what `unmake` returns. -/
theorem codec_roundtrip (v sfp : SF) (m : MINT) (hm : Limbs16 m) (h0 : v.fp0 < 4294967296)
    (h1 : v.fp1 < 4294967296) (h2 : v.fp2 < 65536) :
    (ieee32_classify v = SOFT_ZERO ∨ ieee32_classify v = SOFT_INFINITE ∨
        (ieee32_classify v = SOFT_NORMAL ∧ v.fp0 / 8388608 % 256 ≠ 255) →
      (ieee32_make sfp (ieee32_unmake v m).1 (ieee32_unmake v m).2.1
        (ieee32_unmake v m).2.2.1 (ieee32_unmake v m).2.2.2).1.fp0 = v.fp0) ∧
    (ieee64_classify v = SOFT_ZERO ∨ ieee64_classify v = SOFT_INFINITE ∨
        (ieee64_classify v = SOFT_NORMAL ∧ v.fp1 / 1048576 % 2048 ≠ 2047) →
      (ieee64_make sfp (ieee64_unmake v m).1 (ieee64_unmake v m).2.1
        (ieee64_unmake v m).2.2.1 (ieee64_unmake v m).2.2.2).1
        = { sfp with fp0 := v.fp0, fp1 := v.fp1 }) ∧
    (ieeex80_classify v = SOFT_ZERO ∨ ieeex80_classify v = SOFT_INFINITE ∨
        (ieeex80_classify v = SOFT_NORMAL ∧ v.fp2 % 32768 ≠ 32767 ∧ 2147483648 ≤ v.fp1) →
      (ieeex80_make sfp (ieeex80_unmake v m).1 (ieeex80_unmake v m).2.1
        (ieeex80_unmake v m).2.2.1 (ieeex80_unmake v m).2.2.2).1 = v) :=
  ⟨ieee32_roundtrip v sfp m hm h0, ieee64_roundtrip v sfp m hm h0 h1,
    ieeex80_roundtrip v sfp m hm h0 h1 h2⟩

theorem codec_roundtrip_witness :
    (ieeex80_make SFDECL (ieeex80_unmake ⟨0, 0x80000000, 0x3fff⟩ MINTDECL).1
      (ieeex80_unmake ⟨0, 0x80000000, 0x3fff⟩ MINTDECL).2.1
      (ieeex80_unmake ⟨0, 0x80000000, 0x3fff⟩ MINTDECL).2.2.1
      (ieeex80_unmake ⟨0, 0x80000000, 0x3fff⟩ MINTDECL).2.2.2).1
      = ⟨0, 0x80000000, 0x3fff⟩ :=
  (codec_roundtrip ⟨0, 0x80000000, 0x3fff⟩ SFDECL MINTDECL limbs16_MINTDECL
    (by decide) (by decide) (by decide)).2.2
    (Or.inr (Or.inr ⟨by decide!, by decide, by decide⟩))

/-- C10: the binary64 word pair 00000000:00000001 is classified SUBNORMAL;
`unmake` returns class NORMAL with exponent -1023 (one below `minexp`) and a
mantissa whose hidden bit (bit 4 of limb 3) is set, and `make` applied to that
gives 00080000:00000000.  The binary32 word 00000001 comes back as 00400000 and
the x80 value with exponent field 0 and mantissa 1 as mantissa 40000000:00000000. -/
theorem subnormal_roundtrip_fails :
    ieee64_classify ⟨1, 0, 0⟩ = SOFT_SUBNORMAL ∧
    (ieee64_unmake ⟨1, 0, 0⟩ MINTDECL).1 = SOFT_NORMAL ∧
    (ieee64_unmake ⟨1, 0, 0⟩ MINTDECL).2.2.1 = -1023 ∧
    fpi_binary64.minexp = -1022 ∧
    (ieee64_unmake ⟨1, 0, 0⟩ MINTDECL).2.2.2.val 3 = 16 ∧
    (ieee64_make SFDECL (ieee64_unmake ⟨1, 0, 0⟩ MINTDECL).1
      (ieee64_unmake ⟨1, 0, 0⟩ MINTDECL).2.1 (ieee64_unmake ⟨1, 0, 0⟩ MINTDECL).2.2.1
      (ieee64_unmake ⟨1, 0, 0⟩ MINTDECL).2.2.2).1 = ⟨0, 0x00080000, 0⟩ ∧
    ieee32_classify ⟨1, 0, 0⟩ = SOFT_SUBNORMAL ∧
    (ieee32_make SFDECL (ieee32_unmake ⟨1, 0, 0⟩ MINTDECL).1
      (ieee32_unmake ⟨1, 0, 0⟩ MINTDECL).2.1 (ieee32_unmake ⟨1, 0, 0⟩ MINTDECL).2.2.1
      (ieee32_unmake ⟨1, 0, 0⟩ MINTDECL).2.2.2).1 = ⟨0x00400000, 0, 0⟩ ∧
    ieeex80_classify ⟨1, 0, 0⟩ = SOFT_SUBNORMAL ∧
    (ieeex80_make SFDECL (ieeex80_unmake ⟨1, 0, 0⟩ MINTDECL).1
      (ieeex80_unmake ⟨1, 0, 0⟩ MINTDECL).2.1 (ieeex80_unmake ⟨1, 0, 0⟩ MINTDECL).2.2.1
      (ieeex80_unmake ⟨1, 0, 0⟩ MINTDECL).2.2.2).1 = ⟨0, 0x40000000, 0⟩ := by
  decide!

/-! ## Conversions and literals on concrete inputs -/

/-- C21: the sum of 0x1.fffffffffffffffep0 and 0x1p-64 rounds up to 2^64 in
`mknormal`; `soft_plus` leaves exponent field 4000 and mantissa field
00000000:00000000, the integer bit clear, where the encoding of 2.0 has mantissa
field 80000000:00000000. -/
theorem soft_plus_carry_mantissa :
    soft_plus ⟨0xffffffff, 0xffffffff, 0x3fff⟩ ⟨0, 0x80000000, 0x3fbf⟩ TWORD.LDOUBLE
      = ⟨0, 0, 0x4000⟩ ∧
    (ieeex80_make SFDECL SOFT_NORMAL 0 1
      { (((minit MINTDECL 0).put 1 0).put 2 0).put 3 0x8000 with len := 4 }).1
      = ⟨0, 0x80000000, 0x4000⟩ := by
  decide!

/-- C23: the decimal literals `1e-00001` and `1e+00001` have five digits in the
exponent field, yet `str2num` returns SOFT_NORMAL for both, with the mantissa
scaled (the second one is 10 = A000000000000000 * 2^(3-63)); `decbig` hands
`mesanity` the string at the letter `e`.  The hexadecimal literals
`0x1p-00001` and `0x1p+00001` stop at the gate with ZERO and INFINITE. -/
theorem decimal_exponent_gate :
    (str2num 10 "1e-00001".toList 0 MINTDECL fpi_binaryx80).map (fun r => r.1)
      = some SOFT_NORMAL ∧
    (str2num 10 "1e+00001".toList 0 MINTDECL fpi_binaryx80).map
      (fun r => (r.1, r.2.1, value r.2.2)) = some (SOFT_NORMAL, 3, 0xa000000000000000) ∧
    (decbigLoop "1e+00001".toList
      { mmant := minit MINTDECL 0, ten := minit MINTDECL 10, b := MINTDECL, ind := MINTDECL,
        exp10 := 0, gotdot := false }).map (fun r => r.2) = some "e+00001".toList ∧
    (str2num 10 "0x1p-00001".toList 0 MINTDECL fpi_binaryx80).map (fun r => r.1)
      = some SOFT_ZERO ∧
    (str2num 10 "0x1p+00001".toList 0 MINTDECL fpi_binaryx80).map (fun r => r.1)
      = some SOFT_INFINITE := by
  decide!

/-- C26: 3 * 2^-149 is less than 2^-127, both NORMAL binary64 numbers, but
narrowed to FLOAT the first becomes 1.5 * 2^-127 and the second stays 2^-127,
and LE on the narrowed values is 0.  And 1.0 is less than 2^200, which narrows
to infinity, and LE on the narrowed values is 0. -/
theorem narrow_not_monotone :
    soft_cmp ⟨0, 0xc0000000, 0x3f6b⟩ ⟨0, 0x80000000, 0x3f80⟩ CmpOp.LT = 1 ∧
    soft_fp2fp ⟨0, 0xc0000000, 0x3f6b⟩ TWORD.FLOAT = ⟨0, 0xc0000000, 0x3f80⟩ ∧
    soft_fp2fp ⟨0, 0x80000000, 0x3f80⟩ TWORD.FLOAT = ⟨0, 0x80000000, 0x3f80⟩ ∧
    soft_cmp (soft_fp2fp ⟨0, 0xc0000000, 0x3f6b⟩ TWORD.FLOAT)
      (soft_fp2fp ⟨0, 0x80000000, 0x3f80⟩ TWORD.FLOAT) CmpOp.LE = 0 ∧
    soft_cmp ⟨0, 0x80000000, 0x3fff⟩ ⟨0, 0x80000000, 0x40c7⟩ CmpOp.LT = 1 ∧
    soft_fp2fp ⟨0, 0x80000000, 0x40c7⟩ TWORD.FLOAT = ⟨0, 0x80000000, 0x7fff⟩ ∧
    soft_cmp (soft_fp2fp ⟨0, 0x80000000, 0x3fff⟩ TWORD.FLOAT)
      (soft_fp2fp ⟨0, 0x80000000, 0x40c7⟩ TWORD.FLOAT) CmpOp.LE = 0 := by
  decide!

/-- C28: the product of 0x1p-537 with itself, serialised as binary64, has a
nonzero low word. -/
theorem underflow_product_nonzero :
    (soft_toush ⟨0, 0, 0⟩
      (soft_mul ⟨0, 0x80000000, 0x3de6⟩ ⟨0, 0x80000000, 0x3de6⟩ TWORD.LDOUBLE)
      TWORD.DOUBLE).1.fp0 ≠ 0 := by
  decide!

/-- C28, amended: the product of 0x1p-537 with itself is 0x1p-1074, and
serialised as binary64 it is the smallest subnormal, 00000000:00000001, on 64
bits. -/
theorem underflow_product :
    soft_mul ⟨0, 0x80000000, 0x3de6⟩ ⟨0, 0x80000000, 0x3de6⟩ TWORD.LDOUBLE
      = ⟨0, 0x80000000, 0x3bcd⟩ ∧
    soft_toush ⟨0, 0, 0⟩
      (soft_mul ⟨0, 0x80000000, 0x3de6⟩ ⟨0, 0x80000000, 0x3de6⟩ TWORD.LDOUBLE)
      TWORD.DOUBLE = (⟨1, 0, 0⟩, 64) := by
  decide!

/-- C29: after `soft_minus` on 1.0 and 1.0 the second operand holds -1.0. -/
theorem soft_minus_changes_x2 :
    (soft_minus ⟨0, 0x80000000, 0x3fff⟩ ⟨0, 0x80000000, 0x3fff⟩ TWORD.LDOUBLE).2
      ≠ ⟨0, 0x80000000, 0x3fff⟩ := by
  decide!

/-- C29, amended: `soft_minus` leaves the two mantissa words of `x2` as they
were and inverts bit 15 of its sign/exponent word; `x1` receives the sum of `x1`
and the negated `x2`. -/
theorem soft_minus_frame (x1 x2 : SF) (t : TWORD) :
    (soft_minus x1 x2 t).2.fp0 = x2.fp0 ∧ (soft_minus x1 x2 t).2.fp1 = x2.fp1 ∧
    (soft_minus x1 x2 t).2.fp2 = x2.fp2 ^^^ 0x8000 ∧
    (soft_minus x1 x2 t).1 = soft_plus x1 (IEEEFP_X80_NEG x2) t :=
  ⟨rfl, rfl, rfl, rfl⟩

/-- C30: for the pattern 2^63 with an unsigned source type `soft_int2fp` leaves
sign bit 1 (the encoding of -2^63); the neighbouring patterns 2^63 + 1 and
2^64 - 1 come out positive. -/
theorem unsigned_top_bit_negative :
    soft_int2fp SFDECL 0x8000000000000000 true TWORD.LDOUBLE = ⟨0, 0x80000000, 0xc03e⟩ ∧
    soft_int2fp SFDECL 0x8000000000000001 true TWORD.LDOUBLE = ⟨1, 0x80000000, 0x403e⟩ ∧
    soft_int2fp SFDECL 0xffffffffffffffff true TWORD.LDOUBLE
      = ⟨0xffffffff, 0xffffffff, 0x403e⟩ := by
  decide!

/-! ## mknormal: limbs and class of the result, up to the largest exponent -/

theorem madd_chomp_right (a b c : MINT) : madd a b c = madd a (chomp b) c := by
  unfold madd
  simp only [chomp_of_canon (chomp b) (canon_chomp b)]

theorem chompLen_one (v : Int → Nat) (n : Nat) (h0 : v 0 ≠ 0)
    (hz : ∀ i : Nat, 1 ≤ i → i < n + 1 → v i = 0) : chompLen v (n + 1) = 1 := by
  induction n with
  | zero =>
    simp only [chompLen]
    have h0' : v ((0 : Nat) : Int) ≠ 0 := h0
    rw [if_neg h0']
  | succ n ih =>
    rw [chompLen, if_pos (hz (n + 1) (by omega) (by omega))]
    exact ih (fun i h1 h2 => hz i h1 (by omega))

/-- Limbs of a magnitude of value 512: the low limb is 512, the others are 0. -/
theorem limbs_of_512 (a : MINT) (ha : Limbs16 a) (hav : value a = 512) :
    0 < a.len ∧ a.val 0 = 512 ∧ ∀ i : Nat, 1 ≤ i → i < a.len → a.val i = 0 := by
  have hl := len_pos_of_value_pos a (by omega)
  refine ⟨hl, ?_, ?_⟩
  · rw [val0_of_value a ha hl, hav]
  · intro i h1 h2
    have := limbsVal_digit a.len (fun k _ => ha k) i h2
    rw [this]
    show value a / 65536 ^ i % 65536 = 0
    rw [hav]
    have : 65536 ^ 1 ≤ 65536 ^ i := Nat.pow_le_pow_right (by omega) h1
    rw [Nat.div_eq_of_lt (by omega)]

/-- The rounding tail of `mknormal` reads only the low limb of `a`. -/
theorem mknormalRound_pad (m a c : MINT) (ha : Limbs16 a) (hav : value a = 512)
    (issub : Bool) :
    mknormalRound m a c issub = mknormalRound m { a with len := 1 } c issub := by
  obtain ⟨hl, h0, hz⟩ := limbs_of_512 a ha hav
  obtain ⟨n, hn⟩ : ∃ n, a.len = n + 1 := ⟨a.len - 1, by omega⟩
  have hc1 : chomp (a.put 0 1) = chomp (({ a with len := 1 } : MINT).put 0 1) := by
    unfold chomp MINT.put
    have hv0 : Function.update a.val 0 (1 % 65536) 0 ≠ 0 := by
      rw [Function.update_same]; decide
    have e1 : chompLen (Function.update a.val 0 (1 % 65536)) a.len = 1 := by
      rw [hn]
      apply chompLen_one _ _ hv0
      intro i h1 h2
      rw [Function.update_noteq (by omega)]
      exact hz i h1 (by omega)
    have e2 : chompLen (Function.update a.val 0 (1 % 65536)) 1 = 1 :=
      chompLen_one _ 0 hv0 (fun i h1 h2 => by omega)
    simp only [e1, e2]
  have key : ∀ X : MINT, madd X (a.put 0 1) c = madd X (({ a with len := 1 } : MINT).put 0 1) c := by
    intro X
    rw [madd_chomp_right X (a.put 0 1), hc1, ← madd_chomp_right]
  unfold mknormalRound
  simp only [key]

theorem canon_mcopy (b a : MINT) (hb : Limbs16 b) (ha : Limbs16 a) (cb : Canon b) :
    Canon (mcopy b a) := by
  have p := mcopy_props b a hb ha
  unfold Canon at cb ⊢
  rcases cb with h | h
  · left; rw [p.2.1]; exact h
  · rcases Nat.eq_zero_or_pos b.len with h0 | h0
    · left; rw [p.2.1]; exact h0
    · right
      rw [p.2.1]
      have e : ((b.len : Int) - 1) = ((b.len - 1 : Nat) : Int) := by omega
      rw [e] at h ⊢
      rw [p.2.2.2.2 (b.len - 1) (by omega)]
      exact h

theorem mknormalRound_canon (m a c : MINT) (hm : Limbs16 m) (ha : Limbs16 a) (hc : Limbs16 c)
    (issub : Bool) : Canon (mknormalRound m a c issub).2 := by
  have p := mshr_props RNDBIT m hm false
  have pm := madd_spec (mshr m RNDBIT false) (a.put 0 1) c p.1
    (limbs16_update _ ha 0 _ (Nat.mod_lt _ (by omega))) hc
  have cc := canon_mcopy _ _ pm.2.2.1 pm.1 pm.2.2.2.1
  unfold mknormalRound
  simp only []
  split_ifs <;> first | exact cc | exact p.2.1

/-- The rounding tail of `mknormal`, for a scratch value `a` that holds 512 on
any number of limbs. -/
theorem mknormalRound_gen (m a c : MINT) (hm : Limbs16 m) (hs : m.sign = 0) (hl : 0 < m.len)
    (ha : Limbs16 a) (hc : Limbs16 c) (hav : value a = 512) (has : a.sign = 0)
    (issub : Bool) :
    Limbs16 (mknormalRound m a c issub).2 ∧ Canon (mknormalRound m a c issub).2 ∧
    value (mknormalRound m a c issub).2 = rne (value m) 10 ∧
    (mknormalRound m a c issub).1 =
      (if rne (value m) 10 = 0 then SOFT_ZERO
       else if issub then SOFT_SUBNORMAL else SOFT_NORMAL) := by
  have hcn := mknormalRound_canon m a c hm ha hc issub
  obtain ⟨-, h0, -⟩ := limbs_of_512 a ha hav
  rw [mknormalRound_pad m a c ha hav issub] at hcn ⊢
  obtain ⟨r1, r2, r3⟩ := mknormalRound_rne m { a with len := 1 } c hm hs hl ha hc h0 rfl has
    issub
  exact ⟨r1, hcn, r2, r3⟩

/-- Adding half a unit to a normalised value carries exactly when rounding it
does. -/
theorem rne_carry (Y n : Nat) (h2 : Y < 2 ^ (n + 11)) (hc : 2 ^ (n + 11) ≤ Y + 512) :
    rne Y 10 = 2 ^ (n + 1) := by
  have e2 : 2 ^ (n + 11) = 2 ^ (n + 1) * 1024 := by
    rw [show n + 11 = n + 1 + 10 by omega, pow_add]; norm_num
  have e3 : (2 : Nat) ^ 10 = 1024 := by norm_num
  have e4 : 2 ^ (n + 1) = 2 * 2 ^ n := by rw [pow_succ]; ring
  unfold rne
  rw [e3]
  rw [e2] at h2 hc
  generalize 2 ^ (n + 1) = P at *
  have hq : Y / 1024 = P - 1 := by omega
  have hr : 512 ≤ Y % 1024 := by omega
  rw [if_pos (by omega)]
  omega

/-- What `mknormal` leaves for an exponent up to `maxexp`: class, limbs and
value.  At `maxexp` the statement needs the rounding not to carry. -/
theorem mknormal_gen (f : FPI) (e : Int) (m : MINT) (hm : Limbs16 m) (hs : m.sign = 0)
    (hpos : 0 < value m) (hnb : 1 ≤ f.nbits) :
    (f.minexp ≤ e → e ≤ f.maxexp →
      (e = f.maxexp →
        rneScale (value m) ((topbit m).2 - (f.nbits - 1)) < 2 ^ f.nbits.toNat) →
      (mknormal f e m).1 = SOFT_NORMAL ∧ Limbs16 (mknormal f e m).2 ∧
      Canon (mknormal f e m).2 ∧
      value (mknormal f e m).2 = rneScale (value m) ((topbit m).2 - (f.nbits - 1)) ∧
      2 ^ (f.nbits - 1).toNat ≤ value (mknormal f e m).2) ∧
    (e < f.minexp →
      Limbs16 (mknormal f e m).2 ∧ Canon (mknormal f e m).2 ∧
      value (mknormal f e m).2 =
        rneScale (value m) ((topbit m).2 - (f.nbits - 1) + (f.minexp - e)) ∧
      (mknormal f e m).1 =
        if value (mknormal f e m).2 = 0 then SOFT_ZERO else SOFT_SUBNORMAL) := by
  obtain ⟨-, t, ht, h1, h2⟩ := topbit_spec m hm hpos
  obtain ⟨nb, hnbe⟩ : ∃ nb : Nat, f.nbits = (nb : Int) + 1 := ⟨(f.nbits - 1).toNat, by omega⟩
  obtain ⟨M1, hM1⟩ : ∃ M1 : MINT, M1 =
      (if (topbit m).2 - (f.nbits - 1) > (RNDBIT : Int) then
        mshr (if (topbit m).2 - (f.nbits - 1) < (RNDBIT : Int) then
            mshl (topbit m).1 ((RNDBIT : Int) - ((topbit m).2 - (f.nbits - 1))).toNat
          else (topbit m).1)
          (((topbit m).2 - (f.nbits - 1)) - (RNDBIT : Int)).toNat true
      else (if (topbit m).2 - (f.nbits - 1) < (RNDBIT : Int) then
            mshl (topbit m).1 ((RNDBIT : Int) - ((topbit m).2 - (f.nbits - 1))).toNat
          else (topbit m).1)) := ⟨_, rfl⟩
  obtain ⟨M1L, M1s, M1v, M1lo, M1hi⟩ := mknormal_stage1 f m hm hs t nb ht h1 h2 hnbe M1 hM1
  obtain ⟨a, ha⟩ : ∃ a : MINT, a = minit MINTDECL (1 <<< (RNDBIT - 1)) := ⟨_, rfl⟩
  have aL : Limbs16 a := by rw [ha]; exact limbs16_minit _ limbs16_MINTDECL _
  have av : value a = 512 := by rw [ha]; decide!
  have as : a.sign = 0 := by rw [ha]; rfl
  have hunf : (e < f.minexp →
        mknormal f e m = mknormalRound (mshr M1 (-(e - f.minexp)).toNat true) a MINTDECL true) ∧
      (¬ e < f.minexp → ¬ e ≥ f.maxexp → mknormal f e m = mknormalRound M1 a MINTDECL false) ∧
      (¬ e < f.minexp → e = f.maxexp → mknormal f e m =
        if (topbit (madd M1 a MINTDECL).2.2).2 = (topbit (madd M1 a MINTDECL).1).2 + 1 then
          (SOFT_INFINITE, (topbit (madd M1 a MINTDECL).1).1)
        else mknormalRound (topbit (madd M1 a MINTDECL).1).1 (madd M1 a MINTDECL).2.1
          (topbit (madd M1 a MINTDECL).2.2).1 false) := by
    rw [hM1, ha]
    unfold mknormal
    simp only []
    refine ⟨?_, ?_, ?_⟩
    · intro h
      rw [if_pos h]
    · intro h h'
      rw [if_neg h, if_neg h']
    · intro h h'
      rw [if_neg h, if_pos (by omega), if_neg (by omega)]
  obtain ⟨j, hj⟩ : ∃ j : Nat, (10 - ((t : Int) - nb)).toNat = j := ⟨_, rfl⟩
  obtain ⟨k, hk⟩ : ∃ k : Nat, (((t : Int) - nb) - 10).toNat = k := ⟨_, rfl⟩
  rw [hj, hk] at M1v
  have M1pos : 0 < value M1 := Nat.lt_of_lt_of_le (by positivity) M1lo
  have e1 : (f.nbits - 1).toNat = nb := by omega
  have e2 : f.nbits.toNat = nb + 1 := by omega
  have hscale : rne (value M1) 10 = rneScale (value m) ((topbit m).2 - (f.nbits - 1)) := by
    rw [M1v, rne_sticky, rne_mul_pow]
    congr 1
    rw [ht, hnbe]
    push_cast
    omega
  have hb := rne_bracket (value M1) nb M1lo M1hi
  have hne : rne (value M1) 10 ≠ 0 := by
    have : 0 < 2 ^ nb := by positivity
    omega
  constructor
  · intro he1 he2 hcarry
    rw [e1, ← hscale]
    rcases lt_or_le e f.maxexp with hlt | hge
    · rw [hunf.2.1 (by omega) (by omega)]
      obtain ⟨rL, rC, rv, rc⟩ := mknormalRound_gen M1 a MINTDECL M1L M1s
        (len_pos_of_value_pos M1 M1pos) aL limbs16_MINTDECL av as false
      rw [if_neg hne] at rc
      exact ⟨rc, rL, rC, rv, by rw [rv]; exact hb.1⟩
    · have hmax : e = f.maxexp := by omega
      have hnc := hcarry hmax
      rw [← hscale, e2] at hnc
      rw [hunf.2.2 (by omega) hmax]
      have pm := madd_spec M1 a MINTDECL M1L aL limbs16_MINTDECL
      rw [M1s, as, av] at pm
      simp only [if_true] at pm
      have hcs : (madd M1 a MINTDECL).2.2.sign = 0 :=
        pm.2.2.2.2.2.2.2.2.2.2.1 (by positivity)
      have hcv : value (madd M1 a MINTDECL).2.2 = value M1 + 512 := by
        have q1 := pm.2.2.2.2.2.2.2.2.2.1
        rw [hcs] at q1
        simp only [if_true] at q1
        omega
      have hmv : value (madd M1 a MINTDECL).1 = value M1 := pm.2.2.2.2.2.2.2.1 trivial
      have hav2 : value (madd M1 a MINTDECL).2.1 = 512 := pm.2.2.2.2.2.2.2.2.1 trivial
      have hnc2 : value M1 + 512 < 2 ^ (nb + 11) := by
        by_contra hcon
        have := rne_carry (value M1) nb M1hi (by omega)
        omega
      have t1 := topbit_eq (madd M1 a MINTDECL).1 pm.1 (nb + 10) (by rw [hmv]; exact M1lo)
        (by rw [hmv]; exact M1hi)
      have t2 := topbit_eq (madd M1 a MINTDECL).2.2 pm.2.2.1 (nb + 10)
        (by rw [hcv]; omega) (by rw [hcv]; exact hnc2)
      rw [if_neg (by rw [t1, t2]; omega)]
      have tsp := topbit_spec (madd M1 a MINTDECL).1 pm.1 (by rw [hmv]; exact M1pos)
      rw [tsp.1]
      have cv : value (chomp (madd M1 a MINTDECL).1) = value M1 := by rw [value_chomp, hmv]
      have cpos : 0 < value (chomp (madd M1 a MINTDECL).1) := by rw [cv]; exact M1pos
      have tsp2 := topbit_spec (madd M1 a MINTDECL).2.2 pm.2.2.1 (by rw [hcv]; omega)
      rw [tsp2.1]
      obtain ⟨rL, rC, rv, rc⟩ := mknormalRound_gen (chomp (madd M1 a MINTDECL).1)
        (madd M1 a MINTDECL).2.1 (chomp (madd M1 a MINTDECL).2.2) pm.1
        (by rw [chomp_sign, pm.2.2.2.2.2.1])
        (len_pos_of_value_pos _ cpos) pm.2.1 pm.2.2.1 hav2
        (by rw [pm.2.2.2.2.2.2.1]) false
      rw [cv] at rv rc
      rw [if_neg hne] at rc
      exact ⟨rc, rL, rC, rv, by rw [rv]; exact hb.1⟩
  · intro he
    rw [(hunf.1 he)]
    obtain ⟨s, hs1⟩ : ∃ s : Nat, (-(e - f.minexp)).toNat = s := ⟨_, rfl⟩
    rw [hs1]
    have p := mshr_props s M1 M1L true
    simp only [if_true] at p
    have hv : value (mshr M1 s true) = stickyVal (value m * 2 ^ j) (k + s) := by
      rw [← stickyVal_comp, ← M1v]
      exact p.2.2.2.2
    have hpos2 : 0 < value (mshr M1 s true) := by
      rw [hv]
      exact stickyVal_pos _ _ (Nat.mul_pos hpos (by positivity))
    obtain ⟨rL, rC, rv, rc⟩ := mknormalRound_gen (mshr M1 s true) a MINTDECL p.1
      (by rw [p.2.2.1]; exact M1s) (len_pos_of_value_pos _ hpos2) aL limbs16_MINTDECL av as
      true
    rw [rv, rc]
    refine ⟨rL, rC, ?_, by simp only [if_true]⟩
    rw [hv, rne_sticky, rne_mul_pow]
    congr 1
    rw [ht, hnbe]
    push_cast
    omega

/-! ## Packing the result of mknormal -/

theorem rne_exact (x k : Nat) (h : x % 2 ^ k = 0) : rne x k = x / 2 ^ k := by
  have hpos : 0 < 2 ^ k := by positivity
  unfold rne
  rw [h, if_neg (by omega)]

theorem rneScale_down (x : Nat) (d : Int) (k : Nat) (hd : d = (k : Int)) (h : x % 2 ^ k = 0) :
    rneScale x d = x / 2 ^ k := by
  unfold rneScale
  rw [if_pos (by omega)]
  have : d.toNat = k := by omega
  rw [this, rne_exact x k h]

theorem rneScale_up (x : Nat) (d : Int) (k : Nat) (hd : d = -(k : Int)) (hk : 0 < k) :
    rneScale x d = x * 2 ^ k := by
  unfold rneScale
  rw [if_neg (by omega)]
  have : (-d).toNat = k := by omega
  rw [this]

theorem limbs2 (m : MINT) (hm : Limbs16 m) (cm : Canon m) (V : Nat) (hv : value m = V)
    (h1 : 65536 ≤ V) (h2 : V < 4294967296) :
    m.val 0 = V % 65536 ∧ m.val 1 = V / 65536 := by
  have b1 : 65536 ^ 1 ≤ value m := by rw [hv, pow_one]; exact h1
  have b2 : value m < 65536 ^ (1 + 1) := by
    rw [hv]
    have : (65536 : Nat) ^ (1 + 1) = 4294967296 := by norm_num
    rw [this]; exact h2
  have hlimbs := canon_limbs m hm cm 1 b1 b2
  have l0 := hlimbs.2 0 (by omega)
  have l1 := hlimbs.2 1 (by omega)
  rw [hv] at l0 l1
  simp only [pow_zero, Nat.div_one, pow_one] at l0 l1
  have e0 : ((0 : Nat) : Int) = 0 := rfl
  have e1 : ((1 : Nat) : Int) = 1 := rfl
  rw [e0] at l0
  rw [e1] at l1
  exact ⟨l0, by rw [l1]; omega⟩

theorem ieee32_make_normal_sf (sfp : SF) (sign : Nat) (exp : Int) (m : MINT)
    (h : (mknormal fpi_binary32 exp m).1 = SOFT_NORMAL) :
    (ieee32_make sfp SOFT_NORMAL sign exp m).1
      = { sfp with fp0 := ((((sign <<< 31) % 4294967296) |||
            ((((exp + (fpi_binary32.bias - 1)) % 256).toNat <<< 23) % 4294967296))
          + ((((mknormal fpi_binary32 exp m).2.val 1 <<< 16) % 4294967296) |||
              (mknormal fpi_binary32 exp m).2.val 0)) % 4294967296 } := by
  unfold ieee32_make
  simp only [if_true, h]
  rfl

theorem bits32_pack (s E W : Nat) (hs : s ≤ 1) (hE : E < 254) (h1 : 8388608 ≤ W)
    (h2 : W < 16777216) :
    (s * 2147483648 + E * 8388608 + (W / 65536 * 65536 + W % 65536)) % 4294967296
      = s * 2147483648 + E * 8388608 + W := by omega

/-- binary32 `make` on a mantissa that `mknormal` turns into the 24-bit `W`. -/
theorem ieee32_pack_gen (sfp : SF) (s : Nat) (e : Int) (m : MINT) (W : Nat) (hs : s ≤ 1)
    (he1 : -126 ≤ e) (he2 : e ≤ 127)
    (hc : (mknormal fpi_binary32 e m).1 = SOFT_NORMAL)
    (hL : Limbs16 (mknormal fpi_binary32 e m).2) (hC : Canon (mknormal fpi_binary32 e m).2)
    (hv : value (mknormal fpi_binary32 e m).2 = W) (h1 : 8388608 ≤ W) (h2 : W < 16777216) :
    (ieee32_make sfp SOFT_NORMAL s e m).1
      = { sfp with fp0 := s * 2147483648 + (e + 126).toNat * 8388608 + W } := by
  obtain ⟨l0, l1⟩ := limbs2 _ hL hC W hv (by omega) (by omega)
  have hexp : ((e + (fpi_binary32.bias - 1)) % 256).toNat = (e + 126).toNat := by
    show ((e + (127 - 1)) % 256).toNat = _
    omega
  rw [ieee32_make_normal_sf _ _ _ _ hc, hexp, l0, l1,
    pack32 _ _ _ _ hs (by omega) (Nat.mod_lt _ (by omega)) (by omega),
    bits32_pack s _ W hs (by omega) h1 h2]

theorem bits64_pack (s E W : Nat) (hs : s ≤ 1) (hE : E < 2046) (h1 : 4503599627370496 ≤ W)
    (h2 : W < 9007199254740992) :
    W / 65536 % 65536 * 65536 + W % 65536 = W % 4294967296 ∧
    (s * 2147483648 + (W / 281474976710656 % 65536 * 65536 + W / 4294967296 % 65536)
      + E * 1048576) % 4294967296 = s * 2147483648 + E * 1048576 + W / 4294967296 := by
  constructor <;> omega

/-- binary64 `make` on a mantissa that `mknormal` turns into the 53-bit `W`. -/
theorem ieee64_pack_gen (sfp : SF) (s : Nat) (e : Int) (m : MINT) (W : Nat) (hs : s ≤ 1)
    (he1 : -1022 ≤ e) (he2 : e ≤ 1023)
    (hc : (mknormal fpi_binary64 e m).1 = SOFT_NORMAL)
    (hL : Limbs16 (mknormal fpi_binary64 e m).2) (hC : Canon (mknormal fpi_binary64 e m).2)
    (hv : value (mknormal fpi_binary64 e m).2 = W) (h1 : 4503599627370496 ≤ W)
    (h2 : W < 9007199254740992) :
    (ieee64_make sfp SOFT_NORMAL s e m).1
      = { sfp with fp0 := W % 4294967296,
                   fp1 := s * 2147483648 + (e + 1022).toNat * 1048576 + W / 4294967296 } := by
  obtain ⟨-, l0, l1, l2, l3⟩ := limbs4 _ hL hC W hv (by omega) (by omega)
  have hexp : ((e + (fpi_binary64.bias - 1)) % 2048).toNat = (e + 1022).toNat := by
    show ((e + (1023 - 1)) % 2048).toNat = _
    omega
  obtain ⟨r1, r2⟩ := bits64_pack s (e + 1022).toNat W hs (by omega) h1 h2
  rw [ieee64_make_normal _ _ _ _ hc, hexp, l0, l1, l2, l3,
    pack_lo _ _ (Nat.mod_lt _ (by omega)) (Nat.mod_lt _ (by omega)),
    pack_lo _ _ (Nat.mod_lt _ (by omega)) (Nat.mod_lt _ (by omega)), r1,
    pack64_hi _ _ _ hs (by omega) (by omega), r2]

theorem bitsx80_pack (W : Nat) (h1 : 9223372036854775808 ≤ W)
    (h2 : W < 18446744073709551616) :
    W / 65536 % 65536 * 65536 + W % 65536 = W % 4294967296 ∧
    W / 281474976710656 % 65536 * 65536 + W / 4294967296 % 65536 = W / 4294967296 := by
  constructor <;> omega

theorem packx80_fp2_gen (s E : Nat) (hs : s ≤ 1) (hE : E < 32768) :
    (s <<< 15) % 4294967296 ||| E = s * 32768 + E := by
  have e1 : (s <<< 15) % 4294967296 = s * 2 ^ 15 := by
    rw [Nat.shiftLeft_eq]; norm_num; omega
  rw [e1, or_disjoint _ _ 15 (by norm_num; omega)]
  norm_num

/-- x80 `make` on a mantissa that `mknormal` turns into the 64-bit `W`. -/
theorem ieeex80_pack_gen (sfp : SF) (s : Nat) (e : Int) (m : MINT) (W : Nat) (hs : s ≤ 1)
    (he1 : -16382 ≤ e) (he2 : e ≤ 16383)
    (hc : (mknormal fpi_binaryx80 e { m with sign := 0 }).1 = SOFT_NORMAL)
    (hL : Limbs16 (mknormal fpi_binaryx80 e { m with sign := 0 }).2)
    (hC : Canon (mknormal fpi_binaryx80 e { m with sign := 0 }).2)
    (hv : value (mknormal fpi_binaryx80 e { m with sign := 0 }).2 = W)
    (h1 : 9223372036854775808 ≤ W) (h2 : W < 18446744073709551616) :
    (ieeex80_make sfp SOFT_NORMAL s e m).1
      = ⟨W % 4294967296, W / 4294967296, s * 32768 + (e + 16383).toNat⟩ := by
  obtain ⟨l4, l0, l1, l2, l3⟩ := limbs4 _ hL hC W hv (by omega) h2
  have hexp : ((e + fpi_binaryx80.bias) % 32768).toNat = (e + 16383).toNat := by
    show ((e + 16383) % 32768).toNat = _
    omega
  obtain ⟨r1, r2⟩ := bitsx80_pack W h1 h2
  rw [ieeex80_make_normal _ _ _ _ hc l4, hexp, l0, l1, l2, l3,
    pack_lo _ _ (Nat.mod_lt _ (by omega)) (Nat.mod_lt _ (by omega)),
    pack_lo _ _ (Nat.mod_lt _ (by omega)) (Nat.mod_lt _ (by omega)), r1, r2,
    packx80_fp2_gen s _ hs (by omega)]

/-! ## Exact conversions between the formats -/

theorem ieeex80_classify_normal (v : SF) (hE0 : v.fp2 % 32768 ≠ 0)
    (hE1 : v.fp2 % 32768 ≠ 32767) : ieeex80_classify v = SOFT_NORMAL := by
  have h1 : v.fp2 &&& 0x7fff = v.fp2 % 32768 := Nat.and_pow_two_sub_one_eq_mod v.fp2 15
  unfold ieeex80_classify IEEEFP_X80_ISINF IEEEFP_X80_ISNAN IEEEFP_X80_ISZERO
  simp only [h1]
  simp [hE0, hE1]

theorem ieee64_classify_normal (v : SF) (hE0 : v.fp1 / 1048576 % 2048 ≠ 0)
    (hE1 : v.fp1 / 1048576 % 2048 ≠ 2047) : ieee64_classify v = SOFT_NORMAL := by
  have h1 : v.fp1 &&& 0x7fffffff = v.fp1 % 2147483648 :=
    Nat.and_pow_two_sub_one_eq_mod v.fp1 31
  have h2 : v.fp1 &&& 0x7ff00000 = (v.fp1 / 2 ^ 20 % 2 ^ 11) * 2 ^ 20 :=
    and_shifted_mask v.fp1 11 20
  have h3 : v.fp1 &&& 0x7ff00000 ≠ 0 := by
    rw [h2]; norm_num; omega
  have a1 : v.fp1 % 2147483648 ≠ 0x7ff00000 := by omega
  have a2 : v.fp1 % 2147483648 ≠ 0x7ff80000 := by omega
  have a3 : v.fp1 % 2147483648 ≠ 0 := by omega
  unfold ieee64_classify IEEEFP_64_ISINF IEEEFP_64_ISNAN IEEEFP_64_ISZERO
  simp only [h1]
  simp [a1, a2, a3, h3]

theorem ieee32_classify_normal (v : SF) (hE0 : v.fp0 / 8388608 % 256 ≠ 0)
    (hE1 : v.fp0 / 8388608 % 256 ≠ 255) : ieee32_classify v = SOFT_NORMAL := by
  obtain ⟨x, y, z⟩ := v
  rw [ieee32_classify_eq]
  simp only at hE0 hE1
  rw [if_neg (by omega), if_neg (by omega), if_neg (by omega), if_pos hE0]

theorem ieee32_make_snd (sfp : SF) (s : Nat) (e : Int) (m : MINT) :
    (ieee32_make sfp SOFT_NORMAL s e m).2 = (mknormal fpi_binary32 e m).2 := by
  unfold ieee32_make
  simp only [if_true]

theorem ieee64_make_snd (sfp : SF) (s : Nat) (e : Int) (m : MINT) :
    (ieee64_make sfp SOFT_NORMAL s e m).2 = (mknormal fpi_binary64 e m).2 := by
  unfold ieee64_make
  simp only [if_true]
  split_ifs <;> rfl

theorem ieeex80_unmake_sign0 (v : SF) (m : MINT) : (ieeex80_unmake v m).2.2.2.sign = 0 := by
  unfold ieeex80_unmake
  simp only
  split_ifs <;> rfl

/-- `mknormal` on a mantissa of `t + 1` bits whose low bits, those below the
target width, are zero: the mantissa is shifted to the target width. -/
theorem mknormal_shift (f : FPI) (e : Int) (m : MINT) (hm : Limbs16 m) (hs : m.sign = 0)
    (nb t : Nat) (hnb : f.nbits = (nb : Int) + 1) (h1 : 2 ^ t ≤ value m)
    (h2 : value m < 2 ^ (t + 1)) (hlow : nb ≤ t → value m % 2 ^ (t - nb) = 0)
    (he1 : f.minexp ≤ e) (he2 : e ≤ f.maxexp) (W : Nat)
    (hW : W = if nb ≤ t then value m / 2 ^ (t - nb) else value m * 2 ^ (nb - t)) :
    (mknormal f e m).1 = SOFT_NORMAL ∧ Limbs16 (mknormal f e m).2 ∧
    Canon (mknormal f e m).2 ∧ value (mknormal f e m).2 = W ∧
    2 ^ nb ≤ W ∧ W < 2 ^ (nb + 1) := by
  have hpos : 0 < value m := Nat.lt_of_lt_of_le (by positivity) h1
  have ht := topbit_eq m hm t h1 h2
  have hsc : rneScale (value m) ((topbit m).2 - (f.nbits - 1)) = W := by
    rw [ht, hnb, hW]
    by_cases c : nb ≤ t
    · rw [if_pos c]
      exact rneScale_down _ _ (t - nb) (by omega) (hlow c)
    · rw [if_neg c]
      exact rneScale_up _ _ (nb - t) (by omega) (by omega)
  have hWhi : W < 2 ^ (nb + 1) := by
    rw [hW]
    by_cases c : nb ≤ t
    · rw [if_pos c]
      have e1 : 2 ^ (t + 1) = 2 ^ (nb + 1) * 2 ^ (t - nb) := by
        rw [← pow_add]; congr 1; omega
      rw [Nat.div_lt_iff_lt_mul (by positivity), ← e1]
      exact h2
    · rw [if_neg c]
      have e1 : 2 ^ (nb + 1) = 2 ^ (t + 1) * 2 ^ (nb - t) := by
        rw [← pow_add]; congr 1; omega
      rw [e1]
      exact Nat.mul_lt_mul_of_pos_right h2 (by positivity)
  have e2 : f.nbits.toNat = nb + 1 := by omega
  have e3 : (f.nbits - 1).toNat = nb := by omega
  obtain ⟨r1, r2, r3, r4, r5⟩ := (mknormal_gen f e m hm hs hpos (by omega)).1 he1 he2
    (fun _ => by rw [hsc, e2]; exact hWhi)
  rw [hsc] at r4
  rw [e3, r4] at r5
  exact ⟨r1, r2, r3, r4, r5, hWhi⟩

/-- binary64 `make` on a 64-bit mantissa whose low 11 bits are zero. -/
theorem make64_of_mant64 (sfp : SF) (s : Nat) (e : Int) (m : MINT) (M : Nat) (hs : s ≤ 1)
    (he1 : -1022 ≤ e) (he2 : e ≤ 1023) (hm : Limbs16 m) (hsg : m.sign = 0)
    (hv : value m = M) (h1 : 9223372036854775808 ≤ M) (h2 : M < 18446744073709551616)
    (hlow : M % 2048 = 0) :
    (ieee64_make sfp SOFT_NORMAL s e m).1
      = { sfp with fp0 := M / 2048 % 4294967296,
                   fp1 := s * 2147483648 + (e + 1022).toNat * 1048576
                     + M / 2048 / 4294967296 } ∧
    Limbs16 (ieee64_make sfp SOFT_NORMAL s e m).2 := by
  have p63 : (2 : Nat) ^ 63 = 9223372036854775808 := by norm_num
  have p64 : (2 : Nat) ^ (63 + 1) = 18446744073709551616 := by norm_num
  have p11 : (2 : Nat) ^ (63 - 52) = 2048 := by norm_num
  have p52 : (2 : Nat) ^ 52 = 4503599627370496 := by norm_num
  have p53 : (2 : Nat) ^ (52 + 1) = 9007199254740992 := by norm_num
  obtain ⟨r1, r2, r3, r4, r5, r6⟩ := mknormal_shift fpi_binary64 e m hm hsg 52 63 rfl
    (by rw [hv, p63]; exact h1) (by rw [hv, p64]; exact h2)
    (fun _ => by rw [hv, p11]; exact hlow) he1 he2 (M / 2048)
    (by rw [if_pos (by omega), hv, p11])
  rw [p52] at r5
  rw [p53] at r6
  rw [ieee64_make_snd]
  exact ⟨ieee64_pack_gen sfp s e m (M / 2048) hs he1 he2 r1 r2 r3 r4 r5 r6, r2⟩

theorem bits64_unpack (s E W : Nat) (hs : s ≤ 1) (hE : E ≤ 2045)
    (h1 : 4503599627370496 ≤ W) (h2 : W < 9007199254740992) (x : Nat)
    (hx : x = s * 2147483648 + E * 1048576 + W / 4294967296) :
    x < 4294967296 ∧ x / 2147483648 = s ∧ x / 1048576 % 2048 = E + 1 ∧
    W % 4294967296 + x % 1048576 * 4294967296 + 4503599627370496 = W := by
  subst hx
  refine ⟨?_, ?_, ?_, ?_⟩ <;> omega

/-- binary64 `unmake` on the packed form of a normal number. -/
theorem unmake64_of_packed (sfp : SF) (s E W : Nat) (m : MINT) (hm : Limbs16 m) (hs : s ≤ 1)
    (hE : E ≤ 2045) (h1 : 4503599627370496 ≤ W) (h2 : W < 9007199254740992) (r : SF)
    (hr : r = { sfp with fp0 := W % 4294967296,
                         fp1 := s * 2147483648 + E * 1048576 + W / 4294967296 }) :
    (ieee64_unmake r m).1 = SOFT_NORMAL ∧ (ieee64_unmake r m).2.1 = s ∧
    (ieee64_unmake r m).2.2.1 = (E : Int) + 1 - 1023 ∧
    Limbs16 (ieee64_unmake r m).2.2.2 ∧ (ieee64_unmake r m).2.2.2.sign = 0 ∧
    value (ieee64_unmake r m).2.2.2 = W := by
  have hr0 : r.fp0 = W % 4294967296 := by rw [hr]
  have hr1 : r.fp1 = s * 2147483648 + E * 1048576 + W / 4294967296 := by rw [hr]
  obtain ⟨b1, b2, b3, b4⟩ := bits64_unpack s E W hs hE h1 h2 r.fp1 hr1
  obtain ⟨f1, f2, f3, f4, f5, f6⟩ := ieee64_unmake_fields r m
    (by rw [hr0]; exact Nat.mod_lt _ (by omega)) b1 hm
  have hcl := ieee64_classify_normal r (by rw [b3]; omega) (by rw [b3]; omega)
  rw [hcl, if_neg (by decide)] at f1
  rw [b2] at f2
  rw [b3] at f3
  rw [hr0, b4] at f6
  exact ⟨f1, f2, by rw [f3]; push_cast; ring, f4, f5, f6⟩

/-- x80 `make` on a mantissa of 53 bits. -/
theorem make80_of_mant53 (sfp : SF) (s : Nat) (e : Int) (m : MINT) (W : Nat) (hs : s ≤ 1)
    (he1 : -16382 ≤ e) (he2 : e ≤ 16383) (hm : Limbs16 m)
    (hv : value m = W) (h1 : 4503599627370496 ≤ W) (h2 : W < 9007199254740992) :
    (ieeex80_make sfp SOFT_NORMAL s e m).1
      = ⟨W * 2048 % 4294967296, W * 2048 / 4294967296, s * 32768 + (e + 16383).toNat⟩ := by
  have p52 : (2 : Nat) ^ 52 = 4503599627370496 := by norm_num
  have p53 : (2 : Nat) ^ (52 + 1) = 9007199254740992 := by norm_num
  have p11 : (2 : Nat) ^ (63 - 52) = 2048 := by norm_num
  have p63 : (2 : Nat) ^ 63 = 9223372036854775808 := by norm_num
  have p64 : (2 : Nat) ^ (63 + 1) = 18446744073709551616 := by norm_num
  have hv2 : value { m with sign := 0 } = W := hv
  have hm2 : Limbs16 { m with sign := 0 } := hm
  obtain ⟨r1, r2, r3, r4, r5, r6⟩ := mknormal_shift fpi_binaryx80 e { m with sign := 0 } hm2
    rfl 63 52 rfl (by rw [hv2, p52]; exact h1) (by rw [hv2, p53]; exact h2)
    (fun h => by omega) he1 he2 (W * 2048)
    (by rw [if_neg (by omega), hv2, p11])
  rw [p63] at r5
  rw [p64] at r6
  exact ieeex80_pack_gen sfp s e m (W * 2048) hs he1 he2 r1 r2 r3 r4 r5 r6

theorem bitsx80_fields (x0 x1 x2 : Nat) (h0 : x0 < 4294967296) (h1 : x1 < 4294967296)
    (h2 : x2 < 65536) (hlow : x0 % 2048 = 0) :
    (x0 + x1 * 4294967296) % 2048 = 0 ∧
    (x0 + x1 * 4294967296) / 2048 * 2048 % 4294967296 = x0 ∧
    (x0 + x1 * 4294967296) / 2048 * 2048 / 4294967296 = x1 ∧
    x2 / 32768 * 32768 + x2 % 32768 = x2 ∧ x2 / 32768 ≤ 1 := by
  refine ⟨?_, ?_, ?_, ?_, ?_⟩ <;> omega

/-- Narrowing to DOUBLE leaves a canonical normal value unchanged when it is a
normal binary64 number: exponent in range and low 11 mantissa bits zero. -/
theorem fp2fp_double_exact (v : SF) (h0 : v.fp0 < 4294967296) (h1 : v.fp1 < 4294967296)
    (h2 : v.fp2 < 65536) (hI : 2147483648 ≤ v.fp1) (he1 : 15361 ≤ v.fp2 % 32768)
    (he2 : v.fp2 % 32768 ≤ 17406) (hlow : v.fp0 % 2048 = 0) :
    soft_fp2fp v TWORD.DOUBLE = v := by
  obtain ⟨f1, f2, f3, f4, f5⟩ := ieeex80_unmake_fields v MINTDECL h0 h1 h2 limbs16_MINTDECL
  have f6 := ieeex80_unmake_sign0 v MINTDECL
  have hcl := ieeex80_classify_normal v (by omega) (by omega)
  rw [hcl, if_neg (by decide)] at f1
  obtain ⟨x0, x1, x2⟩ := v
  simp only at h0 h1 h2 hI he1 he2 hlow f2 f3 f5
  obtain ⟨b1, b2, b3, b4, b5⟩ := bitsx80_fields x0 x1 x2 h0 h1 h2 hlow
  obtain ⟨g1, g2⟩ := make64_of_mant64 SFDECL (x2 / 32768) (((x2 % 32768 : Nat) : Int) - 16383)
    (ieeex80_unmake ⟨x0, x1, x2⟩ MINTDECL).2.2.2 (x0 + x1 * 4294967296) b5 (by omega)
    (by omega) f4 f6 f5 (by omega) (by omega) b1
  have hW1 : 4503599627370496 ≤ (x0 + x1 * 4294967296) / 2048 := by omega
  have hW2 : (x0 + x1 * 4294967296) / 2048 < 9007199254740992 := by omega
  obtain ⟨k1, k2, k3, k4, k5, k6⟩ := unmake64_of_packed SFDECL (x2 / 32768)
    ((((x2 % 32768 : Nat) : Int) - 16383 + 1022).toNat) ((x0 + x1 * 4294967296) / 2048)
    _ g2 b5 (by omega) hW1 hW2 _ g1
  have hexp : ((((((x2 % 32768 : Nat) : Int) - 16383 + 1022).toNat : Nat) : Int) + 1 - 1023)
      = ((x2 % 32768 : Nat) : Int) - 16383 := by omega
  rw [hexp] at k3
  have hfin := make80_of_mant53 SFDECL (x2 / 32768) (((x2 % 32768 : Nat) : Int) - 16383) _
    ((x0 + x1 * 4294967296) / 2048) b5 (by omega) (by omega) k4 k6 hW1 hW2
  have hexp2 : ((((x2 % 32768 : Nat) : Int) - 16383 + 16383).toNat) = x2 % 32768 := by omega
  rw [b2, b3, hexp2, b4] at hfin
  unfold soft_fp2fp fpis_make fpis_unmake
  simp only []
  rw [f1, f2, f3, k1, k2, k3]
  exact hfin

/-- binary32 `make` on a 64-bit mantissa whose low 40 bits are zero. -/
theorem make32_of_mant64 (sfp : SF) (s : Nat) (e : Int) (m : MINT) (M : Nat) (hs : s ≤ 1)
    (he1 : -126 ≤ e) (he2 : e ≤ 127) (hm : Limbs16 m) (hsg : m.sign = 0)
    (hv : value m = M) (h1 : 9223372036854775808 ≤ M) (h2 : M < 18446744073709551616)
    (hlow : M % 1099511627776 = 0) :
    (ieee32_make sfp SOFT_NORMAL s e m).1
      = { sfp with fp0 := s * 2147483648 + (e + 126).toNat * 8388608
                     + M / 1099511627776 } ∧
    Limbs16 (ieee32_make sfp SOFT_NORMAL s e m).2 := by
  have p63 : (2 : Nat) ^ 63 = 9223372036854775808 := by norm_num
  have p64 : (2 : Nat) ^ (63 + 1) = 18446744073709551616 := by norm_num
  have p40 : (2 : Nat) ^ (63 - 23) = 1099511627776 := by norm_num
  have p23 : (2 : Nat) ^ 23 = 8388608 := by norm_num
  have p24 : (2 : Nat) ^ (23 + 1) = 16777216 := by norm_num
  obtain ⟨r1, r2, r3, r4, r5, r6⟩ := mknormal_shift fpi_binary32 e m hm hsg 23 63 rfl
    (by rw [hv, p63]; exact h1) (by rw [hv, p64]; exact h2)
    (fun _ => by rw [hv, p40]; exact hlow) he1 he2 (M / 1099511627776)
    (by rw [if_pos (by omega), hv, p40])
  rw [p23] at r5
  rw [p24] at r6
  rw [ieee32_make_snd]
  exact ⟨ieee32_pack_gen sfp s e m (M / 1099511627776) hs he1 he2 r1 r2 r3 r4 r5 r6, r2⟩

theorem bits32_unpack (s E W : Nat) (hs : s ≤ 1) (hE : E ≤ 253)
    (h1 : 8388608 ≤ W) (h2 : W < 16777216) (x : Nat)
    (hx : x = s * 2147483648 + E * 8388608 + W) :
    x < 4294967296 ∧ x / 2147483648 = s ∧ x / 8388608 % 256 = E + 1 ∧
    x % 8388608 + 8388608 = W := by
  subst hx
  refine ⟨?_, ?_, ?_, ?_⟩ <;> omega

/-- binary32 `unmake` on the packed form of a normal number. -/
theorem unmake32_of_packed (sfp : SF) (s E W : Nat) (m : MINT) (hm : Limbs16 m) (hs : s ≤ 1)
    (hE : E ≤ 253) (h1 : 8388608 ≤ W) (h2 : W < 16777216) (r : SF)
    (hr : r = { sfp with fp0 := s * 2147483648 + E * 8388608 + W }) :
    (ieee32_unmake r m).1 = SOFT_NORMAL ∧ (ieee32_unmake r m).2.1 = s ∧
    (ieee32_unmake r m).2.2.1 = (E : Int) + 1 - 127 ∧
    Limbs16 (ieee32_unmake r m).2.2.2 ∧ (ieee32_unmake r m).2.2.2.sign = 0 ∧
    value (ieee32_unmake r m).2.2.2 = W := by
  have hr0 : r.fp0 = s * 2147483648 + E * 8388608 + W := by rw [hr]
  obtain ⟨b1, b2, b3, b4⟩ := bits32_unpack s E W hs hE h1 h2 r.fp0 hr0
  obtain ⟨f1, f2, f3, f4, f5, f6, f7⟩ := ieee32_unmake_fields r m b1 hm
  have hcl := ieee32_classify_normal r (by rw [b3]; omega) (by rw [b3]; omega)
  rw [hcl, if_neg (by decide)] at f6
  rw [hcl, if_pos rfl, b4] at f7
  rw [b2] at f1
  rw [b3] at f2
  exact ⟨f6, f1, by rw [f2]; push_cast; ring, f3, f4, f7⟩

/-- x80 `make` on a mantissa of 24 bits. -/
theorem make80_of_mant24 (sfp : SF) (s : Nat) (e : Int) (m : MINT) (W : Nat) (hs : s ≤ 1)
    (he1 : -16382 ≤ e) (he2 : e ≤ 16383) (hm : Limbs16 m)
    (hv : value m = W) (h1 : 8388608 ≤ W) (h2 : W < 16777216) :
    (ieeex80_make sfp SOFT_NORMAL s e m).1
      = ⟨W * 1099511627776 % 4294967296, W * 1099511627776 / 4294967296,
          s * 32768 + (e + 16383).toNat⟩ := by
  have p23 : (2 : Nat) ^ 23 = 8388608 := by norm_num
  have p24 : (2 : Nat) ^ (23 + 1) = 16777216 := by norm_num
  have p40 : (2 : Nat) ^ (63 - 23) = 1099511627776 := by norm_num
  have p63 : (2 : Nat) ^ 63 = 9223372036854775808 := by norm_num
  have p64 : (2 : Nat) ^ (63 + 1) = 18446744073709551616 := by norm_num
  have hv2 : value { m with sign := 0 } = W := hv
  have hm2 : Limbs16 { m with sign := 0 } := hm
  obtain ⟨r1, r2, r3, r4, r5, r6⟩ := mknormal_shift fpi_binaryx80 e { m with sign := 0 } hm2
    rfl 63 23 rfl (by rw [hv2, p23]; exact h1) (by rw [hv2, p24]; exact h2)
    (fun h => by omega) he1 he2 (W * 1099511627776)
    (by rw [if_neg (by omega), hv2, p40])
  rw [p63] at r5
  rw [p64] at r6
  exact ieeex80_pack_gen sfp s e m (W * 1099511627776) hs he1 he2 r1 r2 r3 r4 r5 r6

theorem bitsx80_fields24 (x0 x1 x2 : Nat) (h0 : x0 = 0) (h1 : x1 < 4294967296)
    (h2 : x2 < 65536) (hlow : x1 % 256 = 0) :
    (x0 + x1 * 4294967296) % 1099511627776 = 0 ∧
    (x0 + x1 * 4294967296) / 1099511627776 * 1099511627776 % 4294967296 = x0 ∧
    (x0 + x1 * 4294967296) / 1099511627776 * 1099511627776 / 4294967296 = x1 ∧
    x2 / 32768 * 32768 + x2 % 32768 = x2 ∧ x2 / 32768 ≤ 1 := by
  subst h0
  refine ⟨?_, ?_, ?_, ?_, ?_⟩ <;> omega

/-- Narrowing to FLOAT leaves a canonical normal value unchanged when it is a
normal binary32 number: exponent in range and low 40 mantissa bits zero. -/
theorem fp2fp_float_exact (v : SF) (h0 : v.fp0 = 0) (h1 : v.fp1 < 4294967296)
    (h2 : v.fp2 < 65536) (hI : 2147483648 ≤ v.fp1) (he1 : 16257 ≤ v.fp2 % 32768)
    (he2 : v.fp2 % 32768 ≤ 16510) (hlow : v.fp1 % 256 = 0) :
    soft_fp2fp v TWORD.FLOAT = v := by
  obtain ⟨f1, f2, f3, f4, f5⟩ := ieeex80_unmake_fields v MINTDECL (by omega) h1 h2
    limbs16_MINTDECL
  have f6 := ieeex80_unmake_sign0 v MINTDECL
  have hcl := ieeex80_classify_normal v (by omega) (by omega)
  rw [hcl, if_neg (by decide)] at f1
  obtain ⟨x0, x1, x2⟩ := v
  simp only at h0 h1 h2 hI he1 he2 hlow f2 f3 f5
  obtain ⟨b1, b2, b3, b4, b5⟩ := bitsx80_fields24 x0 x1 x2 h0 h1 h2 hlow
  obtain ⟨g1, g2⟩ := make32_of_mant64 SFDECL (x2 / 32768) (((x2 % 32768 : Nat) : Int) - 16383)
    (ieeex80_unmake ⟨x0, x1, x2⟩ MINTDECL).2.2.2 (x0 + x1 * 4294967296) b5 (by omega)
    (by omega) f4 f6 f5 (by omega) (by omega) b1
  have hW1 : 8388608 ≤ (x0 + x1 * 4294967296) / 1099511627776 := by omega
  have hW2 : (x0 + x1 * 4294967296) / 1099511627776 < 16777216 := by omega
  obtain ⟨k1, k2, k3, k4, k5, k6⟩ := unmake32_of_packed SFDECL (x2 / 32768)
    ((((x2 % 32768 : Nat) : Int) - 16383 + 126).toNat) ((x0 + x1 * 4294967296) / 1099511627776)
    _ g2 b5 (by omega) hW1 hW2 _ g1
  have hexp : ((((((x2 % 32768 : Nat) : Int) - 16383 + 126).toNat : Nat) : Int) + 1 - 127)
      = ((x2 % 32768 : Nat) : Int) - 16383 := by omega
  rw [hexp] at k3
  have hfin := make80_of_mant24 SFDECL (x2 / 32768) (((x2 % 32768 : Nat) : Int) - 16383) _
    ((x0 + x1 * 4294967296) / 1099511627776) b5 (by omega) (by omega) k4 k6 hW1 hW2
  have hexp2 : ((((x2 % 32768 : Nat) : Int) - 16383 + 16383).toNat) = x2 % 32768 := by omega
  rw [b2, b3, hexp2, b4] at hfin
  unfold soft_fp2fp fpis_make fpis_unmake
  simp only []
  rw [f1, f2, f3, k1, k2, k3]
  exact hfin

/-! ## Integers to long double and back -/

theorem int2fpLoop_spec (fuel : Nat) : ∀ (a : Nat) (E : Int), 0 < a →
    a < 18446744073709551616 → 18446744073709551616 ≤ a * 2 ^ fuel →
    ∃ k : Nat, k ≤ fuel ∧ 9223372036854775808 ≤ a * 2 ^ k ∧
      a * 2 ^ k < 18446744073709551616 ∧ int2fpLoop fuel a E = (a * 2 ^ k, E - k) := by
  induction fuel with
  | zero =>
    intro a E h0 h1 h2
    simp only [pow_zero, Nat.mul_one] at h2
    omega
  | succ n ih =>
    intro a E h0 h1 h2
    by_cases c : a < 9223372036854775808
    · have hsh : (a <<< 1) % 18446744073709551616 = a * 2 := by
        rw [Nat.shiftLeft_eq]; omega
      have h2' : 18446744073709551616 ≤ a * 2 * 2 ^ n := by
        rw [pow_succ] at h2
        calc 18446744073709551616 ≤ a * (2 ^ n * 2) := h2
          _ = a * 2 * 2 ^ n := by ring
      obtain ⟨k, hk1, hk2, hk3, hk4⟩ := ih (a * 2) (E - 1) (by omega) (by omega) h2'
      refine ⟨k + 1, by omega, ?_, ?_, ?_⟩
      · rw [pow_succ]
        calc 9223372036854775808 ≤ a * 2 * 2 ^ k := hk2
          _ = a * (2 ^ k * 2) := by ring
      · rw [pow_succ]
        calc a * (2 ^ k * 2) = a * 2 * 2 ^ k := by ring
          _ < 18446744073709551616 := hk3
      · rw [int2fpLoop, if_pos ⟨h0, c⟩, hsh, hk4]
        have : a * 2 * 2 ^ k = a * 2 ^ (k + 1) := by rw [pow_succ]; ring
        rw [this]
        congr 1
        push_cast
        ring
    · refine ⟨0, by omega, by simpa using (by omega : 9223372036854775808 ≤ a),
        by simpa using h1, ?_⟩
      rw [int2fpLoop, if_neg (by omega)]
      simp

theorem fp2intShl_zero (m : Nat) : fp2intShl 0 m = m := rfl

theorem fp2intShr_eq (k : Nat) : ∀ m : Nat, fp2intShr k m = m / 2 ^ k := by
  induction k with
  | zero => intro m; simp [fp2intShr]
  | succ k ih =>
    intro m
    rw [fp2intShr, ih, Nat.shiftRight_eq_div_pow, pow_succ, Nat.div_div_eq_div_mul]
    congr 1
    ring

/-- The words written by `IEEEFP_X80_MAKE` for a normalised 64-bit mantissa `A`
handed over without its top bit. -/
theorem x80_make_int (rv : SF) (s p A : Nat) (hs : s ≤ 1) (hp : p ≤ 63)
    (h1 : 9223372036854775808 ≤ A) (h2 : A < 18446744073709551616) :
    IEEEFP_X80_MAKE rv s (16383 + (p : Int)) ((A <<< 1) % 18446744073709551616)
      = ⟨A % 4294967296, A / 4294967296, s * 32768 + (16383 + p)⟩ := by
  have e1 : (A <<< 1) % 18446744073709551616 = (A - 9223372036854775808) * 2 := by
    rw [Nat.shiftLeft_eq]; omega
  have e2 : ((A - 9223372036854775808) * 2) >>> 1 = A - 9223372036854775808 := by
    rw [Nat.shiftRight_eq_div_pow]; omega
  have e3 : ((A - 9223372036854775808) * 2) >>> 33 = (A - 9223372036854775808) / 4294967296 := by
    rw [Nat.shiftRight_eq_div_pow]; norm_num; omega
  have e4 : (1 : Nat) <<< 31 = 1 * 2 ^ 31 := by rw [Nat.shiftLeft_eq]
  have e5 := or_disjoint_left 1 ((A - 9223372036854775808) / 4294967296) 31
    (by norm_num; omega)
  have e6 : ((16383 + (p : Int)) % 32768).toNat = 16383 + p := by omega
  have e7 : s <<< 15 = s * 2 ^ 15 := by rw [Nat.shiftLeft_eq]
  have e8 := or_disjoint_left s (16383 + p) 15 (by norm_num; omega)
  have hne : (16383 + (p : Int)) ≠ 0 := by omega
  have p31 : (1 : Nat) * 2 ^ 31 = 2147483648 := by norm_num
  have p15 : (2 : Nat) ^ 15 = 32768 := by norm_num
  rw [p31] at e5
  rw [p15] at e8
  unfold IEEEFP_X80_MAKE
  rw [e1, e2, e3, if_pos hne, e4, p31, e5, e6, e7, p15, e8]
  have g0 : (A - 9223372036854775808) % 4294967296 = A % 4294967296 := by omega
  have g1 : (2147483648 + (A - 9223372036854775808) / 4294967296) % 4294967296
      = A / 4294967296 := by omega
  have g2 : (s * 32768 + (16383 + p)) % 4294967296 = s * 32768 + (16383 + p) := by omega
  rw [g0, g1, g2]

/-- `soft_fp2int` on a canonical normal value with exponent `p` at most 63. -/
theorem fp2int_of_normal (t : TWORD) (s p A : Nat) (hs : s ≤ 1) (hp : p ≤ 63)
    (h1 : 9223372036854775808 ≤ A) (h2 : A < 18446744073709551616) :
    soft_fp2int ⟨A % 4294967296, A / 4294967296, s * 32768 + (16383 + p)⟩ t
      = if s ≠ 0 then (18446744073709551616 - A / 2 ^ (63 - p)) % 18446744073709551616
        else A / 2 ^ (63 - p) := by
  have hE : (s * 32768 + (16383 + p)) &&& 0x7fff = 16383 + p := by
    have := Nat.and_pow_two_sub_one_eq_mod (s * 32768 + (16383 + p)) 15
    norm_num at this ⊢
    rw [this]
    omega
  have hcl : soft_classify ⟨A % 4294967296, A / 4294967296, s * 32768 + (16383 + p)⟩
      TWORD.LDOUBLE = SOFT_NORMAL := by
    unfold soft_classify IEEEFP_X80_ISINF IEEEFP_X80_ISNAN IEEEFP_X80_ISZERO
    simp only [hE]
    have a1 : 16383 + p ≠ 32767 := by omega
    have a2 : 16383 + p ≠ 0 := by omega
    simp [a1, a2]
  have hexp : ldouble_exp ⟨A % 4294967296, A / 4294967296, s * 32768 + (16383 + p)⟩
      = 16383 + p := hE
  have hsign : ldouble_sign ⟨A % 4294967296, A / 4294967296, s * 32768 + (16383 + p)⟩
      = s := by
    unfold ldouble_sign
    show ((s * 32768 + (16383 + p)) >>> 15) &&& 1 = s
    rw [Nat.and_one_is_mod, Nat.shiftRight_eq_div_pow]
    norm_num
    omega
  have hmant : ldouble_mant ⟨A % 4294967296, A / 4294967296, s * 32768 + (16383 + p)⟩
      = (A - 9223372036854775808) * 2 := by
    unfold ldouble_mant
    show ((((A % 4294967296) <<< (0 * 32)) ||| ((A / 4294967296) <<< (1 * 32))) <<< 1)
      % 18446744073709551616 = _
    have e0 : (A % 4294967296) <<< (0 * 32) = A % 4294967296 := by
      rw [Nat.shiftLeft_eq]; norm_num
    have e1 : (A / 4294967296) <<< (1 * 32) = A / 4294967296 * 2 ^ 32 := by
      rw [Nat.shiftLeft_eq]
    have e2 := or_disjoint_left (A / 4294967296) (A % 4294967296) 32
      (by norm_num; omega)
    rw [e0, e1, e2, Nat.shiftLeft_eq]
    norm_num
    omega
  have hm2 : (((A - 9223372036854775808) * 2) >>> 1) ||| (1 <<< 63) = A := by
    have e1 : ((A - 9223372036854775808) * 2) >>> 1 = A - 9223372036854775808 := by
      rw [Nat.shiftRight_eq_div_pow]; omega
    have e2 : (1 : Nat) <<< 63 = 1 * 2 ^ 63 := by rw [Nat.shiftLeft_eq]
    have e3 := or_disjoint_left 1 (A - 9223372036854775808) 63 (by norm_num; omega)
    rw [e1, e2, e3]
    norm_num
    omega
  have hx1 : (((16383 + p : Nat) : Int) - IEEEFP_X80_BIAS - 64 + 1).toNat = 0 := by
    show (((16383 + p : Nat) : Int) - 16383 - 64 + 1).toNat = 0
    omega
  have hx2 : (-(((16383 + p : Nat) : Int) - IEEEFP_X80_BIAS - 64 + 1)).toNat = 63 - p := by
    show (-(((16383 + p : Nat) : Int) - 16383 - 64 + 1)).toNat = 63 - p
    omega
  unfold soft_fp2int
  rw [hcl, if_neg (by simp)]
  simp only [hexp, hmant, hm2, hx1, hx2, hsign, fp2intShl_zero, fp2intShr_eq]

theorem xor_eq_zero_imp (a b : Nat) (h : a ^^^ b = 0) : a = b := by
  have := Nat.xor_cancel_right b a
  rw [h, Nat.zero_xor] at this
  exact this.symm

/-- What `soft_int2fp` builds from a signed pattern other than 0 and 2^63: the
magnitude shifted up to 64 bits, the exponent of its top bit, the sign. -/
theorem soft_int2fp_signed (rv : SF) (l : Nat) (t : TWORD) (hl : l < 18446744073709551616)
    (h0 : l ≠ 0) (hm : l ≠ 9223372036854775808) :
    ∃ k A : Nat, k ≤ 63 ∧ 9223372036854775808 ≤ A ∧ A < 18446744073709551616 ∧
      A = (if 9223372036854775808 ≤ l then 18446744073709551616 - l else l) * 2 ^ k ∧
      soft_int2fp rv l false t =
        (if t = TWORD.FLOAT ∨ t = TWORD.DOUBLE then
          soft_fp2fp ⟨A % 4294967296, A / 4294967296,
            (if 9223372036854775808 ≤ l then 1 else 0) * 32768 + (16383 + (63 - k))⟩ t
        else ⟨A % 4294967296, A / 4294967296,
            (if 9223372036854775808 ≤ l then 1 else 0) * 32768 + (16383 + (63 - k))⟩) := by
  obtain ⟨a, ha⟩ : ∃ a, a = (if 9223372036854775808 ≤ l then 18446744073709551616 - l else l) :=
    ⟨_, rfl⟩
  obtain ⟨s, hs⟩ : ∃ s : Nat, s = (if 9223372036854775808 ≤ l then 1 else 0) := ⟨_, rfl⟩
  have ha1 : 0 < a := by rw [ha]; split_ifs <;> omega
  have ha2 : a < 9223372036854775808 := by rw [ha]; split_ifs <;> omega
  have hs1 : s ≤ 1 := by rw [hs]; split_ifs <;> omega
  obtain ⟨k, hk1, hk2, hk3, hk4⟩ := int2fpLoop_spec 64 a (IEEEFP_X80_BIAS + 64) ha1 (by omega)
    (by
      have : a * 1 ≤ a * 2 ^ 64 := Nat.mul_le_mul_left a (by norm_num)
      have e : (2 : Nat) ^ 64 = 18446744073709551616 := by norm_num
      rw [e] at this ⊢
      omega)
  have hk63 : k ≤ 63 := by
    by_contra hc
    have h64 : k = 64 := by omega
    rw [h64] at hk3
    have e : (2 : Nat) ^ 64 = 18446744073709551616 := by norm_num
    rw [e] at hk3
    omega
  refine ⟨k, a * 2 ^ k, hk63, hk2, hk3, by rw [ha], ?_⟩
  rw [← hs]
  have hll : (if (!false && decide (9223372036854775808 ≤ l)) = true then
      (18446744073709551616 - l) % 18446744073709551616 else l) = a := by
    rw [ha]
    by_cases c : 9223372036854775808 ≤ l
    · simp only [c, Bool.not_false, Bool.true_and, decide_True, if_true]
      omega
    · simp only [c, Bool.not_false, Bool.true_and, decide_False, if_false]
      simp
  have hsg : (if (!false && decide (9223372036854775808 ≤ l)) = true then 1 else 0) = s := by
    rw [hs]
    by_cases c : 9223372036854775808 ≤ l
    · simp [c]
    · simp [c]
  have hx : l ^^^ 0x8000000000000000 ≠ 0 := fun h => hm (xor_eq_zero_imp _ _ h)
  have hexp : (IEEEFP_X80_BIAS + 64 - (k : Int)) - 1 = 16383 + ((63 - k : Nat) : Int) := by
    show ((16383 : Int) + 64 - (k : Int)) - 1 = _
    omega
  have hmake := x80_make_int rv s (63 - k) (a * 2 ^ k) hs1 (by omega) hk2 hk3
  unfold soft_int2fp
  simp only [hll, hsg]
  rw [if_neg (by omega), if_neg hx, hk4]
  simp only [hexp, hmake]

theorem shifted_low_zero (a k j : Nat) (h : j ≤ k) : a * 2 ^ k % 2 ^ j = 0 := by
  have e : a * 2 ^ k = a * 2 ^ (k - j) * 2 ^ j := by
    rw [Nat.mul_assoc, ← pow_add]; congr 2; omega
  rw [e, Nat.mul_mod_left]

theorem shift_count_ge (a k b : Nat) (h1 : 9223372036854775808 ≤ a * 2 ^ k)
    (h2 : a < 2 ^ b) (hb : b ≤ 63) : 63 - b < k := by
  by_contra hc
  have hk : k ≤ 63 - b := by omega
  have e1 : 2 ^ k ≤ 2 ^ (63 - b) := Nat.pow_le_pow_right (by omega) hk
  have e2 : a * 2 ^ k ≤ a * 2 ^ (63 - b) := Nat.mul_le_mul_left a e1
  have e3 : a * 2 ^ (63 - b) < 2 ^ b * 2 ^ (63 - b) :=
    Nat.mul_lt_mul_of_pos_right h2 (by positivity)
  have e4 : 2 ^ b * 2 ^ (63 - b) = 9223372036854775808 := by
    rw [← pow_add, show b + (63 - b) = 63 by omega]; norm_num
  omega

/-- Round trip of a signed 64-bit pattern through `soft_int2fp` and `soft_fp2int`,
for a destination that holds its magnitude. -/
theorem int_roundtrip_pattern (rv : SF) (l : Nat) (t dest : TWORD)
    (hl : l < 18446744073709551616)
    (hd : dest = TWORD.LDOUBLE ∨
      (dest = TWORD.DOUBLE ∧
        (if 9223372036854775808 ≤ l then 18446744073709551616 - l else l) < 2 ^ 53) ∨
      (dest = TWORD.FLOAT ∧
        (if 9223372036854775808 ≤ l then 18446744073709551616 - l else l) < 2 ^ 24)) :
    soft_fp2int (soft_int2fp rv l false dest) t = l := by
  by_cases h0 : l = 0
  · subst h0
    have e1 : soft_int2fp rv 0 false dest = ⟨0, 0, 0⟩ := by
      unfold soft_int2fp
      simp
      rfl
    rw [e1]
    unfold soft_fp2int
    rw [if_pos (by decide)]
  by_cases hm : l = 9223372036854775808
  · subst hm
    have e1 : soft_int2fp rv 9223372036854775808 false dest = ⟨0, 0x80000000, 0xc03e⟩ := by
      unfold soft_int2fp
      simp
      rfl
    rw [e1]
    have := fp2int_of_normal t 1 63 9223372036854775808 (by omega) (by omega) (by omega)
      (by omega)
    norm_num at this
    exact this
  obtain ⟨k, A, hk, hA1, hA2, hA, hres⟩ := soft_int2fp_signed rv l dest hl h0 hm
  obtain ⟨a, ha⟩ : ∃ a, a = (if 9223372036854775808 ≤ l then 18446744073709551616 - l else l) :=
    ⟨_, rfl⟩
  obtain ⟨s, hs⟩ : ∃ s : Nat, s = (if 9223372036854775808 ≤ l then 1 else 0) := ⟨_, rfl⟩
  rw [← ha] at hA hd
  rw [← hs] at hres
  have hs1 : s ≤ 1 := by rw [hs]; split_ifs <;> omega
  have hdiv : A / 2 ^ (63 - (63 - k)) = a := by
    rw [show 63 - (63 - k) = k by omega, hA]
    exact Nat.mul_div_cancel _ (by positivity)
  have hv : soft_int2fp rv l false dest
      = ⟨A % 4294967296, A / 4294967296, s * 32768 + (16383 + (63 - k))⟩ := by
    rw [hres]
    rcases hd with h | ⟨h, hb⟩ | ⟨h, hb⟩
    · subst h
      rw [if_neg (by decide)]
    · subst h
      rw [if_pos (by decide)]
      have hk11 := shift_count_ge a k 53 (by rw [← hA]; exact hA1) hb (by omega)
      have hz : A % 2 ^ 11 = 0 := by rw [hA]; exact shifted_low_zero a k 11 (by omega)
      norm_num at hz
      exact fp2fp_double_exact _ (Nat.mod_lt _ (by omega))
        (by show A / 4294967296 < 4294967296; omega)
        (by show s * 32768 + (16383 + (63 - k)) < 65536; omega)
        (by show 2147483648 ≤ A / 4294967296; omega)
        (by show 15361 ≤ (s * 32768 + (16383 + (63 - k))) % 32768; omega)
        (by show (s * 32768 + (16383 + (63 - k))) % 32768 ≤ 17406; omega)
        (by show A % 4294967296 % 2048 = 0; omega)
    · subst h
      rw [if_pos (by decide)]
      have hk40 := shift_count_ge a k 24 (by rw [← hA]; exact hA1) hb (by omega)
      have hz : A % 2 ^ 40 = 0 := by rw [hA]; exact shifted_low_zero a k 40 (by omega)
      norm_num at hz
      exact fp2fp_float_exact _ (by show A % 4294967296 = 0; omega)
        (by show A / 4294967296 < 4294967296; omega)
        (by show s * 32768 + (16383 + (63 - k)) < 65536; omega)
        (by show 2147483648 ≤ A / 4294967296; omega)
        (by show 16257 ≤ (s * 32768 + (16383 + (63 - k))) % 32768; omega)
        (by show (s * 32768 + (16383 + (63 - k))) % 32768 ≤ 16510; omega)
        (by show A / 4294967296 % 256 = 0; omega)
  rw [hv, fp2int_of_normal t s (63 - k) A hs1 (by omega) hA1 hA2, hdiv]
  rw [ha, hs]
  by_cases c : 9223372036854775808 ≤ l
  · rw [if_pos c, if_pos c, if_pos (by omega)]
    omega
  · rw [if_neg c, if_neg c, if_neg (by omega)]

/-- C25: for every signed 64-bit integer `n`, INT64_MIN included, converting its
pattern with a signed source type to LDOUBLE and back with `soft_fp2int` gives
the pattern of `n` again; the same holds for destination DOUBLE when
`|n| < 2^53` and for destination FLOAT when `|n| < 2^24`.  The conversion of
INT64_MIN serialises as binary64 to C3E00000:00000000. -/
theorem int_fp_roundtrip (n : Int) (rv : SF) (t : TWORD)
    (h1 : -9223372036854775808 ≤ n) (h2 : n < 9223372036854775808) :
    soft_fp2int (soft_int2fp rv (n % 18446744073709551616).toNat false TWORD.LDOUBLE) t
      = (n % 18446744073709551616).toNat ∧
    (-9007199254740992 < n → n < 9007199254740992 →
      soft_fp2int (soft_int2fp rv (n % 18446744073709551616).toNat false TWORD.DOUBLE) t
        = (n % 18446744073709551616).toNat) ∧
    (-16777216 < n → n < 16777216 →
      soft_fp2int (soft_int2fp rv (n % 18446744073709551616).toNat false TWORD.FLOAT) t
        = (n % 18446744073709551616).toNat) ∧
    soft_toush ⟨0, 0, 0⟩ (soft_int2fp SFDECL 0x8000000000000000 false TWORD.LDOUBLE)
      TWORD.DOUBLE = (⟨0, 0xC3E00000, 0⟩, 64) := by
  have hl : (n % 18446744073709551616).toNat < 18446744073709551616 := by omega
  have p53 : (2 : Nat) ^ 53 = 9007199254740992 := by norm_num
  have p24 : (2 : Nat) ^ 24 = 16777216 := by norm_num
  refine ⟨int_roundtrip_pattern rv _ t _ hl (Or.inl rfl), ?_, ?_, by decide!⟩
  · intro a b
    refine int_roundtrip_pattern rv _ t _ hl (Or.inr (Or.inl ⟨rfl, ?_⟩))
    rw [p53]
    split_ifs <;> omega
  · intro a b
    refine int_roundtrip_pattern rv _ t _ hl (Or.inr (Or.inr ⟨rfl, ?_⟩))
    rw [p24]
    split_ifs <;> omega

theorem int_fp_roundtrip_witness :
    soft_fp2int (soft_int2fp SFDECL ((-5 : Int) % 18446744073709551616).toNat false
      TWORD.DOUBLE) TWORD.LDOUBLE = ((-5 : Int) % 18446744073709551616).toNat :=
  (int_fp_roundtrip (-5) SFDECL TWORD.LDOUBLE (by decide) (by decide)).2.1 (by decide)
    (by decide)

/-! ## The decimal reader -/

theorem digit_toNat (c : Char) (h : '0' ≤ c ∧ c ≤ '9') :
    48 ≤ c.toNat ∧ c.toNat ≤ 57 := by
  obtain ⟨h1, h2⟩ := h
  have a : ('0' : Char).toNat ≤ c.toNat := h1
  have b : c.toNat ≤ ('9' : Char).toNat := h2
  have e1 : ('0' : Char).toNat = 48 := rfl
  have e2 : ('9' : Char).toNat = 57 := rfl
  omega

theorem ne_of_toNat (c d : Char) (h : c.toNat ≠ d.toNat) : c ≠ d := by
  intro e; rw [e] at h; exact h rfl

theorem decFold (ds : List Char) : ∀ acc : Nat,
    ds.foldl (fun acc c => acc * 10 + (c.toNat - '0'.toNat)) acc
      = acc * 10 ^ ds.length + decValue ds := by
  induction ds with
  | nil => intro acc; simp [decValue]
  | cons c ds ih =>
    intro acc
    unfold decValue
    rw [List.foldl_cons, List.foldl_cons, ih, ih (0 * 10 + _), List.length_cons]
    ring

theorem decValue_cons (c : Char) (ds : List Char) :
    decValue (c :: ds) = (c.toNat - '0'.toNat) * 10 ^ ds.length + decValue ds := by
  unfold decValue
  rw [List.foldl_cons, decFold]
  simp [decValue]

theorem decValue_append (xs ys : List Char) :
    decValue (xs ++ ys) = decValue xs * 10 ^ ys.length + decValue ys := by
  unfold decValue
  rw [List.foldl_append, decFold]
  rfl

theorem value_minit (m : MINT) (v : Nat) : value (minit m v) = v % 65536 := by
  unfold value minit
  simp [limbsVal]

/-- One digit of the loop of `decbig`. -/
theorem decbig_digit (s : DecState) (hI : DecInv s) (c : Char) (hc : '0' ≤ c ∧ c ≤ '9')
    (str : List Char) :
    ∃ s2, decbigLoop (c :: str) s = decbigLoop str s2 ∧ DecInv s2 ∧
      value s2.mmant = value s.mmant * 10 + (c.toNat - '0'.toNat) ∧
      s2.exp10 = (if s.gotdot then s.exp10 - 1 else s.exp10) ∧ s2.gotdot = s.gotdot := by
  obtain ⟨i1, i2, i3, i4, i5, i6, i7⟩ := hI
  have hn := digit_toNat c hc
  have h0 : ¬ c.toNat = 0 := by omega
  have hm := mult_spec s.mmant s.ten s.b i1 i3 i6
  have e0 : ('0' : Char).toNat = 48 := rfl
  have hind : Limbs16 (minit s.ind (c.toNat - '0'.toNat)) := limbs16_minit _ i7 _
  have hcm : Limbs16 (mult s.mmant s.ten s.b).1 := by
    rw [hm.2.2.2.2.1]; intro j; exact i1 j
  have hct : Limbs16 (mult s.mmant s.ten s.b).2.1 := by
    rw [hm.2.2.2.2.2]; intro j; exact i3 j
  have hps : (mult s.mmant s.ten s.b).2.2.sign = 0 := by
    rw [hm.2.2.2.1, i2, i4]; rfl
  have ha := madd_spec (mult s.mmant s.ten s.b).2.2 (minit s.ind (c.toNat - '0'.toNat))
    (mult s.mmant s.ten s.b).1 hm.1 hind hcm
  have his : (minit s.ind (c.toNat - '0'.toNat)).sign = 0 := rfl
  have hsum := ha.2.2.2.2.2.2.2.2.2.1
  have hsg := ha.2.2.2.2.2.2.2.2.2.2.1
  rw [hps, his] at hsum hsg
  simp only [if_true, one_mul] at hsum hsg
  have hs0 := hsg (by omega)
  rw [hs0] at hsum
  simp only [if_true, one_mul] at hsum
  refine ⟨DecState.mk
      (madd (mult s.mmant s.ten s.b).2.2 (minit s.ind (c.toNat - '0'.toNat))
        (mult s.mmant s.ten s.b).1).2.2
      (mult s.mmant s.ten s.b).2.1
      (madd (mult s.mmant s.ten s.b).2.2 (minit s.ind (c.toNat - '0'.toNat))
        (mult s.mmant s.ten s.b).1).1
      (madd (mult s.mmant s.ten s.b).2.2 (minit s.ind (c.toNat - '0'.toNat))
        (mult s.mmant s.ten s.b).1).2.1
      (if s.gotdot then s.exp10 - 1 else s.exp10) s.gotdot,
    ?_, ⟨ha.2.2.1, hs0, hct, ?_, ?_, ha.1, ha.2.1⟩, ?_, rfl, rfl⟩
  · rw [decbigLoop, if_neg h0, if_pos hc]
  · show (mult s.mmant s.ten s.b).2.1.sign = 0
    rw [hm.2.2.2.2.2, chomp_sign, i4]
  · show value (mult s.mmant s.ten s.b).2.1 = 10
    rw [hm.2.2.2.2.2, value_chomp, i5]
  · show value (madd _ _ _).2.2 = _
    have hv := hm.2.1
    rw [i5] at hv
    have hi : value (minit s.ind (c.toNat - '0'.toNat)) = c.toNat - '0'.toNat := by
      rw [value_minit, e0]; omega
    rw [hv, hi] at hsum
    exact_mod_cast hsum

/-- A run of digits in the loop of `decbig`. -/
theorem decbig_digits (ds : List Char) : ∀ (s : DecState), DecInv s →
    (∀ c ∈ ds, '0' ≤ c ∧ c ≤ '9') → ∀ str : List Char,
    ∃ s2, decbigLoop (ds ++ str) s = decbigLoop str s2 ∧ DecInv s2 ∧
      value s2.mmant = value s.mmant * 10 ^ ds.length + decValue ds ∧
      s2.exp10 = (if s.gotdot then s.exp10 - ds.length else s.exp10) ∧
      s2.gotdot = s.gotdot := by
  induction ds with
  | nil =>
    intro s hI _ str
    refine ⟨s, rfl, hI, ?_, ?_, rfl⟩
    · simp [decValue]
    · simp
  | cons c ds ih =>
    intro s hI hd str
    obtain ⟨s1, e1, I1, v1, x1, g1⟩ := decbig_digit s hI c (hd c (List.mem_cons_self _ _))
      (ds ++ str)
    obtain ⟨s2, e2, I2, v2, x2, g2⟩ := ih s1 I1
      (fun d hdm => hd d (List.mem_cons_of_mem _ hdm)) str
    refine ⟨s2, ?_, I2, ?_, ?_, ?_⟩
    · rw [List.cons_append, e1, e2]
    · rw [v2, v1, decValue_cons, List.length_cons]; ring
    · rw [x2, g1, x1, List.length_cons]
      split_ifs <;> push_cast <;> ring
    · rw [g2, g1]

/-- The scaling loop of `decbig` multiplies `cur` by ten `n` times. -/
theorem decbigScale_value (n : Nat) : ∀ (cur ten b : MINT), Limbs16 cur → Limbs16 ten →
    Limbs16 b → value ten = 10 →
    value (decbigScale n cur ten b).1 = value cur * 10 ^ n := by
  induction n with
  | zero => intro cur ten b _ _ _ _; simp [decbigScale]
  | succ n ih =>
    intro cur ten b hc ht hb hv
    have hm := mult_spec cur ten b hc ht hb
    have hcc : Limbs16 (mult cur ten b).1 := by rw [hm.2.2.2.2.1]; intro j; exact hc j
    have hct : Limbs16 (mult cur ten b).2.1 := by rw [hm.2.2.2.2.2]; intro j; exact ht j
    have hcp := mcopy_props (mult cur ten b).2.2 (mult cur ten b).1 hm.1 hcc
    show value (decbigScale n (mcopy (mult cur ten b).2.2 (mult cur ten b).1)
      (mult cur ten b).2.1 (mult cur ten b).2.2).1 = _
    rw [ih _ _ _ hcp.1 hct hm.1 (by rw [hm.2.2.2.2.2, value_chomp, hv]), hcp.2.2.2.1,
      hm.2.1, hv]
    ring

/-- Digits read by `atoi`, up to the first character that is not one. -/
theorem atoiDigits_spec (ds : List Char) : ∀ (acc : Nat) (rest : List Char),
    (∀ c ∈ ds, '0' ≤ c ∧ c ≤ '9') → (∀ c ∈ rest.head?, ¬ ('0' ≤ c ∧ c ≤ '9')) →
    atoiDigits (ds ++ rest) acc = acc * 10 ^ ds.length + decValue ds := by
  induction ds with
  | nil =>
    intro acc rest _ hr
    cases rest with
    | nil => simp [atoiDigits, decValue]
    | cons c r =>
      have := hr c (by simp)
      simp [atoiDigits, decValue, this]
  | cons c ds ih =>
    intro acc rest hd hr
    rw [List.cons_append, atoiDigits, if_pos (hd c (List.mem_cons_self _ _)),
      ih _ rest (fun d hdm => hd d (List.mem_cons_of_mem _ hdm)) hr, decValue_cons,
      List.length_cons]
    ring

theorem suffix_not_digit (c : Char)
    (h : c = 'i' ∨ c = 'I' ∨ c = 'l' ∨ c = 'L' ∨ c = 'f' ∨ c = 'F') :
    ¬ ('0' ≤ c ∧ c ≤ '9') := by
  rcases h with h | h | h | h | h | h <;> subst h <;> decide

/-- The library function `atoi` on an optional sign, digits and suffix letters. -/
theorem atoi_spec (sgn ds sfx : List Char) (hs : sgn = [] ∨ sgn = ['+'] ∨ sgn = ['-'])
    (hd : ∀ c ∈ ds, '0' ≤ c ∧ c ≤ '9')
    (hx : ∀ c ∈ sfx, c = 'i' ∨ c = 'I' ∨ c = 'l' ∨ c = 'L' ∨ c = 'f' ∨ c = 'F') :
    atoi (sgn ++ ds ++ sfx)
      = if sgn = ['-'] then -(decValue ds : Int) else (decValue ds : Int) := by
  have hr : ∀ c ∈ sfx.head?, ¬ ('0' ≤ c ∧ c ≤ '9') := by
    intro c hc
    exact suffix_not_digit c (hx c (List.mem_of_mem_head? hc))
  have key := atoiDigits_spec ds 0 sfx hd hr
  rw [Nat.zero_mul, Nat.zero_add] at key
  rcases hs with h | h | h
  · subst h
    rw [if_neg (by decide), List.nil_append]
    cases hds : ds ++ sfx with
    | nil =>
      have : ds = [] := (List.append_eq_nil.mp hds).1
      rw [this]; rfl
    | cons c r =>
      have hc : ¬ (c = ' ' ∨ c = '\t' ∨ c = '\n' ∨ c = '\x0b' ∨ c = '\x0c' ∨ c = '\r') ∧
          c ≠ '-' ∧ c ≠ '+' := by
        cases ds with
        | nil =>
          rw [List.nil_append] at hds
          have := hx c (by rw [hds]; exact List.mem_cons_self _ _)
          rcases this with h | h | h | h | h | h <;> subst h <;> decide
        | cons d ds2 =>
          rw [List.cons_append] at hds
          have hcd : d = c := (List.cons.inj hds).1
          have := digit_toNat d (hd d (List.mem_cons_self _ _))
          rw [hcd] at this
          refine ⟨?_, ?_, ?_⟩
          · intro h
            rcases h with h | h | h | h | h | h <;> subst h <;> revert this <;> decide
          · intro h; subst h; revert this; decide
          · intro h; subst h; revert this; decide
      rw [atoi, if_neg hc.1, if_neg hc.2.1, if_neg hc.2.2, ← hds, key]
  · subst h
    rw [if_neg (by decide)]
    show (atoiDigits (ds ++ sfx) 0 : Int) = _
    rw [key]
  · subst h
    rw [if_pos rfl]
    show -(atoiDigits (ds ++ sfx) 0 : Int) = _
    rw [key]

theorem decValue_pos (ds : List Char) (hd : ∀ c ∈ ds, '0' ≤ c ∧ c ≤ '9')
    (hnz : ∃ c ∈ ds, c ≠ '0') : 0 < decValue ds := by
  induction ds with
  | nil => obtain ⟨c, hc, _⟩ := hnz; cases hc
  | cons d ds ih =>
    rw [decValue_cons]
    by_cases h0 : d = '0'
    · obtain ⟨c, hc, hne⟩ := hnz
      rcases List.mem_cons.mp hc with h | h
      · exact absurd (h.trans h0) hne
      · have := ih (fun x hx => hd x (List.mem_cons_of_mem _ hx)) ⟨c, h, hne⟩
        omega
    · have hn := digit_toNat d (hd d (List.mem_cons_self _ _))
      have e0 : ('0' : Char).toNat = 48 := rfl
      have hne : d.toNat ≠ 48 := by
        intro h
        apply h0
        rw [← Char.ofNat_toNat d, h]
      have h1 : 1 ≤ d.toNat - '0'.toNat := by rw [e0]; omega
      have : 0 < 10 ^ ds.length := by positivity
      have := Nat.mul_le_mul h1 (Nat.succ_le_of_lt this)
      omega

/-- The end of the loop of `decbig`: on the exponent part and the suffix the
loop stops with the written exponent added, and `mesanity` passes. -/
theorem decbig_tail (l : DecLit) (hw : l.WellFormed) (s : DecState)
    (hpos : 0 < value s.mmant) :
    ∃ str, decbigLoop (l.expText ++ l.suffix) s
      = some ({ s with exp10 := s.exp10 + l.expValue }, str) ∧
      mesanity s.mmant str = 0 := by
  obtain ⟨_, _, _, he, hx⟩ := hw
  have hz := mintz_of_pos s.mmant hpos
  unfold DecLit.expText DecLit.expValue
  cases hexp : l.expo with
  | none =>
    simp only [List.nil_append, add_zero]
    cases hsf : l.suffix with
    | nil =>
      refine ⟨[], rfl, ?_⟩
      simp [mesanity, hz, mesanityCount]
    | cons c r =>
      have hc := hx c (by rw [hsf]; exact List.mem_cons_self _ _)
      refine ⟨c :: r, ?_, ?_⟩
      · rcases hc with h | h | h | h | h | h <;> subst h <;> rfl
      · rcases hc with h | h | h | h | h | h <;> subst h <;>
          simp [mesanity, hz, mesanityCount]
  | some p =>
    obtain ⟨e, sgn, ds⟩ := p
    rw [hexp] at he
    obtain ⟨h1, h2, h3⟩ := he
    have ha := atoi_spec sgn ds l.suffix h2 h3 hx
    refine ⟨e :: (sgn ++ ds ++ l.suffix), ?_, ?_⟩
    · show decbigLoop (e :: (sgn ++ ds ++ l.suffix)) s = some ({ s with exp10 := s.exp10 +
        (if sgn = ['-'] then -(decValue ds : Int) else (decValue ds : Int)) }, _)
      rw [← ha]
      rcases h1 with h | h <;> subst h <;> rfl
    · rcases h1 with h | h <;> subst h <;> simp [mesanity, hz, mesanityCount]

theorem decInv_init :
    DecInv (DecState.mk (minit MINTDECL 0) (minit MINTDECL 10) MINTDECL MINTDECL 0 false) := by
  have h0 : Limbs16 MINTDECL := fun _ => show (0 : Nat) < 65536 by decide
  exact ⟨limbs16_minit _ h0 _, rfl, limbs16_minit _ h0 _, rfl, by rw [value_minit], h0, h0⟩

/-- C22: `decbig` is exact.  For every well-formed decimal literal
`digits[.digits][e[+-]digits][suffix]` with a nonzero digit, whose written
exponent lies in the range of `int` (where `atoi` is defined), whose digits
after the point number at most 2147483647 and whose net decimal exponent is at
least -2147483647 (so that `exp10--`, `exp10 += atoi(str)` and `exp10 = -exp10`
never leave the range of `int`), called with `mmant = 0` and `mexp = 1`,
`decbig` returns `SOFT_NORMAL` and leaves `value mmant / value mexp` equal to
the exact value of the literal, with `mexp` of value 1 when the net decimal
exponent is not negative and of value `10 ^ (-exp10)` otherwise. -/
theorem decbig_exact (l : DecLit) (hw : l.WellFormed)
    (hnz : ∃ c ∈ l.ipart ++ l.fpart, c ≠ '0')
    (_hexp : -2147483648 ≤ l.expValue ∧ l.expValue ≤ 2147483647)
    (_hfrac : l.fpart.length ≤ 2147483647)
    (_hnet : -2147483647 ≤ l.exp10) :
    ∃ mm me : MINT,
      decbig l.text (minit MINTDECL 0) (minit MINTDECL 1) = some (SOFT_NORMAL, mm, me) ∧
      (value mm : ℚ) / (value me : ℚ) = l.exactValue ∧
      (0 ≤ l.exp10 → value me = 1 ∧
        value mm = decValue (l.ipart ++ l.fpart) * 10 ^ l.exp10.toNat) ∧
      (l.exp10 < 0 → value me = 10 ^ (-l.exp10).toNat ∧
        value mm = decValue (l.ipart ++ l.fpart)) := by
  have hw2 := hw
  obtain ⟨hi, hf, hdot, -, -⟩ := hw2
  have hD : 0 < decValue (l.ipart ++ l.fpart) := decValue_pos _ (by
    intro c hc
    rcases List.mem_append.mp hc with h | h
    · exact hi c h
    · exact hf c h) hnz
  -- the digits before the point
  obtain ⟨s1, e1, I1, v1, x1, g1⟩ := decbig_digits l.ipart _ decInv_init hi
    ((if l.dot then '.' :: l.fpart else []) ++
      (l.expText ++ l.suffix))
  simp only [Bool.false_eq_true, if_false] at x1
  have v1b : value s1.mmant = decValue l.ipart := by
    rw [v1, value_minit]; simp
  -- the point and the digits after it
  obtain ⟨s2, e2, I2, v2, x2⟩ : ∃ s2 : DecState,
      decbigLoop ((if l.dot then '.' :: l.fpart else []) ++
        (l.expText ++ l.suffix)) s1
        = decbigLoop (l.expText ++ l.suffix) s2 ∧
      DecInv s2 ∧ value s2.mmant = decValue (l.ipart ++ l.fpart) ∧
      s2.exp10 = -(l.fpart.length : Int) := by
    cases hd : l.dot with
    | false =>
      have := hdot hd
      refine ⟨s1, ?_, I1, ?_, ?_⟩
      · simp
      · rw [this, List.append_nil, v1b]
      · rw [this, x1]; rfl
    | true =>
      obtain ⟨s2, e2, I2, v2, x2, -⟩ := decbig_digits l.fpart { s1 with gotdot := true } I1 hf
        (l.expText ++ l.suffix)
      refine ⟨s2, ?_, I2, ?_, ?_⟩
      · rw [← e2]; rfl
      · rw [v2, decValue_append]
        show value s1.mmant * _ + _ = _
        rw [v1b]
      · rw [x2]
        show (if true = true then s1.exp10 - _ else _) = _
        rw [if_pos rfl, x1]; ring
  -- the exponent part and the suffix
  obtain ⟨str, e3, hmes⟩ := decbig_tail l hw s2 (by rw [v2]; exact hD)
  have hloop : decbigLoop l.text
      (DecState.mk (minit MINTDECL 0) (minit MINTDECL 10) MINTDECL MINTDECL 0 false)
      = some ({ s2 with exp10 := l.exp10 }, str) := by
    unfold DecLit.text
    rw [e1, e2, e3, x2]
    unfold DecLit.exp10
    congr 2
    ring_nf
  obtain ⟨j1, j2, j3, j4, j5, j6, j7⟩ := I2
  have hme : Limbs16 (minit MINTDECL 1) :=
    limbs16_minit _ (fun _ => show (0 : Nat) < 65536 by decide) _
  have hme1 : value (minit MINTDECL 1) = 1 := by rw [value_minit]
  by_cases hneg : l.exp10 < 0
  · refine ⟨s2.mmant, (decbigScale (-l.exp10).toNat (minit MINTDECL 1) s2.ten s2.b).1,
      ?_, ?_, ?_, ?_⟩
    · unfold decbig
      rw [hloop]
      simp only [hmes, ne_eq, not_true_eq_false, if_false, if_pos hneg]
    · rw [decbigScale_value _ _ _ _ hme j3 j6 j5, hme1, v2, one_mul]
      unfold DecLit.exactValue
      obtain ⟨n, hn⟩ : ∃ n : Nat, l.exp10 = -(n : Int) := ⟨(-l.exp10).toNat, by omega⟩
      rw [hn, neg_neg, Int.toNat_ofNat, zpow_neg, zpow_natCast]
      push_cast
      rw [div_eq_mul_inv]
    · intro h; omega
    · intro _
      exact ⟨by rw [decbigScale_value _ _ _ _ hme j3 j6 j5, hme1, one_mul], v2⟩
  · refine ⟨(decbigScale l.exp10.toNat s2.mmant s2.ten s2.b).1, minit MINTDECL 1,
      ?_, ?_, ?_, ?_⟩
    · unfold decbig
      rw [hloop]
      simp only [hmes, ne_eq, not_true_eq_false, if_false, if_neg hneg]
    · rw [decbigScale_value _ _ _ _ j1 j3 j6 j5, hme1, v2]
      unfold DecLit.exactValue
      obtain ⟨n, hn⟩ : ∃ n : Nat, l.exp10 = (n : Int) := ⟨l.exp10.toNat, by omega⟩
      rw [hn, Int.toNat_ofNat, zpow_natCast]
      push_cast
      rw [div_one]
    · intro _
      exact ⟨hme1, by rw [decbigScale_value _ _ _ _ j1 j3 j6 j5, v2]⟩
    · intro h; omega

theorem decbig_exact_witness :
    ∃ mm me : MINT,
      decbig ['1', '.', '5', 'e', '-', '2', 'f'] (minit MINTDECL 0) (minit MINTDECL 1)
        = some (SOFT_NORMAL, mm, me) ∧ value me = 1000 ∧ value mm = 15 := by
  obtain ⟨mm, me, h1, -, -, h4⟩ :=
    decbig_exact ⟨['1'], true, ['5'], some ('e', ['-'], ['2']), ['f']⟩
      ⟨by decide, by decide, by decide, ⟨by decide, by decide, by decide⟩, by decide⟩
      ⟨'1', by decide, by decide⟩ ⟨by decide, by decide⟩ (by decide) (by decide)
  exact ⟨mm, me, h1, h4 (by decide)⟩

/-! ## Cells above the length -/

theorem chompLen_cells (v : Int → Nat) (n : Nat) :
    ∀ i : Nat, chompLen v n ≤ i → i < n → v i = 0 := by
  induction n with
  | zero => intro i _ h; omega
  | succ n ih =>
    intro i h1 h2
    simp only [chompLen] at h1
    by_cases h0 : v n = 0
    · rw [if_pos h0] at h1
      rcases Nat.lt_or_ge i n with h | h
      · exact ih i h1 h
      · have : i = n := by omega
        rw [this]; exact h0
    · rw [if_neg h0] at h1; omega

theorem clean_chomp (a : MINT) (h : Clean a) : Clean (chomp a) := by
  intro i hi
  by_cases h2 : i < a.len
  · exact chompLen_cells a.val a.len i hi h2
  · exact h i (by omega)

theorem clean_mshr1 (a : MINT) (h : Clean a) (s : Bool) : Clean (mshr1 a s) := by
  intro i hi
  have hi2 : a.len ≤ i := hi
  have hz := h i hi2
  rcases Nat.eq_zero_or_pos a.len with h0 | h0
  · have hz0 : a.val 0 = 0 := h 0 (by omega)
    have hz0' : a.val ((0 : Nat) : Int) = 0 := hz0
    unfold mshr1
    cases s <;>
      simp only [h0, mshrLoop, Function.update_apply, hz0, hz0', Bool.false_eq_true, if_false,
        if_true, Nat.zero_shiftRight, Nat.zero_and, Nat.or_zero, Nat.zero_sub, Nat.cast_zero,
        Nat.zero_or] <;>
      split_ifs <;> first | rfl | exact hz
  · have hne : (i : Int) ≠ ((a.len - 1 : Nat) : Int) := by omega
    have hne0 : (i : Int) ≠ 0 := by omega
    have hl : mshrLoop (a.len - 1) 0 a.val (i : Int) = a.val i := by
      rw [mshrLoop_apply, if_neg (by omega)]
    unfold mshr1
    cases s <;>
      simp only [Function.update_apply, Bool.false_eq_true, if_false, if_true, if_neg hne,
        if_neg hne0, hl, hz]

theorem clean_mshrRounds (n : Nat) : ∀ (a : MINT), Clean a → ∀ s : Bool,
    Clean (mshrRounds a s n) := by
  induction n with
  | zero => intro a h _; exact h
  | succ n ih => intro a h s; exact ih _ (clean_mshr1 a h s) s

theorem clean_mshr (a : MINT) (h : Clean a) (n : Nat) (s : Bool) : Clean (mshr a n s) :=
  clean_chomp _ (clean_mshrRounds n a h s)

/-- With no stale cell above the length every cell is a digit of the value. -/
theorem clean_cells (m : MINT) (hm : Limbs16 m) (hc : Clean m) (i : Nat) :
    m.val i = value m / 65536 ^ i % 65536 := by
  by_cases h : i < m.len
  · exact limbsVal_digit m.len (fun k _ => hm k) i h
  · rw [hc i (by omega)]
    have h1 := value_lt m hm
    have h2 : 65536 ^ m.len ≤ 65536 ^ i := Nat.pow_le_pow_right (by omega) (by omega)
    rw [Nat.div_eq_of_lt (by omega)]

theorem clean_x80_unmake (v : SF) : Clean (ieeex80_unmake v MINTDECL).2.2.2 := by
  have key : ∀ M : MINT, M = { (((minit MINTDECL v.fp0).put 1 (v.fp0 >>> 16)).put 2 v.fp1).put 3
      (v.fp1 >>> 16) with len := 4 } → Clean M := by
    intro M hM i hi
    rw [hM] at hi ⊢
    have hi4 : 4 ≤ i := hi
    show Function.update (Function.update (Function.update (Function.update MINTDECL.val 0 _)
      1 _) 2 _) 3 _ (i : Int) = 0
    rw [Function.update_noteq (by omega), Function.update_noteq (by omega),
      Function.update_noteq (by omega), Function.update_noteq (by omega)]
    rfl
  unfold ieeex80_unmake
  simp only []
  split_ifs <;> exact key _ rfl

/-! ## Serialising to a binary64 subnormal -/

/-- The rounding tail of `mknormal` on the subnormal path, nothing to round. -/
theorem mknormalRound_exact_sub (m a c : MINT) (hm : Limbs16 m) (V : Nat)
    (hV : value m = V * 1024) (hVpos : 0 < V) (ha0 : a.val 0 = 512) :
    mknormalRound m a c true = (SOFT_SUBNORMAL, mshr m 10 false) := by
  have hl := len_pos_of_value_pos m (by rw [hV]; omega)
  have h0 := val0_of_value m hm hl
  have hsav : m.val 0 &&& ((a.val 0 <<< 1) - 1) = 0 := by
    rw [ha0]
    have : m.val 0 &&& (512 <<< 1 - 1) = m.val 0 % 1024 :=
      Nat.and_pow_two_sub_one_eq_mod (m.val 0) 10
    rw [this, h0, hV]
    omega
  have p := mshr_props 10 m hm false
  have hv : value (mshr m 10 false) = V := by
    have := p.2.2.2.2
    simp only [Bool.false_eq_true, if_false] at this
    rw [this, hV]
    norm_num
  have hz : MINTZ (mshr m 10 false) = false := mintz_of_pos _ (by rw [hv]; exact hVpos)
  unfold mknormalRound
  simp only [hsav, RNDBIT, Nat.zero_and, ne_eq, not_true_eq_false, if_false, hz,
    Bool.false_eq_true, if_true]

/-- On a 64-bit mantissa `W * 2^k` and an exponent `e` of the binary64 subnormal
range, with `k = -1011 - e`, `mknormal` returns SUBNORMAL and leaves `W`. -/
theorem mknormal_sub64 (e : Int) (m : MINT) (hm : Limbs16 m) (hc : Clean m)
    (W k : Nat) (h1 : 9223372036854775808 ≤ value m) (h2 : value m < 18446744073709551616)
    (he2 : e ≤ -1023) (hk : (k : Int) = -1011 - e)
    (hM : value m = W * 2 ^ k) (hW : 0 < W) :
    (mknormal fpi_binary64 e m).1 = SOFT_SUBNORMAL ∧ Limbs16 (mknormal fpi_binary64 e m).2 ∧
    Clean (mknormal fpi_binary64 e m).2 ∧ value (mknormal fpi_binary64 e m).2 = W := by
  have htb : topbit m = (chomp m, ((63 : Nat) : Int)) :=
    Prod.ext (topbit_spec m hm (by omega)).1
      (topbit_eq m hm 63 (by norm_num; exact h1) (by norm_num; exact h2))
  obtain ⟨j, hj⟩ : ∃ j : Nat, k = j + 11 := ⟨k - 11, by omega⟩
  obtain ⟨a, ha⟩ : ∃ a : MINT, a = minit MINTDECL (1 <<< (RNDBIT - 1)) := ⟨_, rfl⟩
  have a0 : a.val 0 = 512 := by rw [ha]; decide!
  have hunf : mknormal fpi_binary64 e m
      = mknormalRound (mshr (mshr (chomp m) 1 true) j true) a MINTDECL true := by
    have c1 : ¬ (((63 : Nat) : Int) - (fpi_binary64.nbits - 1) < (RNDBIT : Int)) := by decide
    have c2 : ((63 : Nat) : Int) - (fpi_binary64.nbits - 1) > (RNDBIT : Int) := by decide
    have c3 : (((63 : Nat) : Int) - (fpi_binary64.nbits - 1) - (RNDBIT : Int)).toNat = 1 := by
      decide
    have c4 : e < fpi_binary64.minexp := by show e < -1022; omega
    have c5 : (-(e - fpi_binary64.minexp)).toNat = j := by
      show (-(e - (-1022))).toNat = j
      omega
    unfold mknormal
    simp only [htb, c1, c2, c3, c4, c5, if_true, if_false]
    rw [ha]
  have hcm : Limbs16 (chomp m) := fun i => hm i
  have p1 := mshr_props 1 (chomp m) hcm true
  have p2 := mshr_props j (mshr (chomp m) 1 true) p1.1 true
  have e2k : (2 : Nat) ^ k = 2 ^ 1 * (2 ^ j * 1024) := by
    rw [hj, show j + 11 = 1 + (j + 10) by omega, pow_add, pow_add]; norm_num
  have v1 : value (mshr (chomp m) 1 true) = W * (2 ^ j * 1024) := by
    rw [p1.2.2.2.2, value_chomp, hM, e2k]
    simp only [if_true]
    rw [show W * (2 ^ 1 * (2 ^ j * 1024)) = 2 ^ 1 * (W * (2 ^ j * 1024)) by ring,
      Nat.mul_div_cancel_left _ (by positivity), Nat.mul_mod_right, if_pos rfl, Nat.or_zero]
  have v2 : value (mshr (mshr (chomp m) 1 true) j true) = W * 1024 := by
    rw [p2.2.2.2.2, v1]
    simp only [if_true]
    rw [show W * (2 ^ j * 1024) = 2 ^ j * (W * 1024) by ring,
      Nat.mul_div_cancel_left _ (by positivity), Nat.mul_mod_right, if_pos rfl, Nat.or_zero]
  rw [hunf, mknormalRound_exact_sub _ a MINTDECL p2.1 W v2 hW a0]
  have p3 := mshr_props 10 (mshr (mshr (chomp m) 1 true) j true) p2.1 false
  refine ⟨rfl, p3.1, ?_, ?_⟩
  · exact clean_mshr _ (clean_mshr _ (clean_mshr _ (clean_chomp m hc) _ _) _ _) _ _
  · show value (mshr _ 10 false) = W
    rw [p3.2.2.2.2, v2]
    simp only [Bool.false_eq_true, if_false]
    norm_num

theorem bits64_sub (W : Nat) (h2 : W < 4503599627370496) :
    W / 65536 % 65536 * 65536 + W % 65536 = W % 4294967296 ∧
    W / 281474976710656 % 65536 * 65536 + W / 4294967296 % 65536 = W / 4294967296 := by
  constructor <;> omega

/-- binary64 `make` on a mantissa that `mknormal` turns into a subnormal `W`. -/
theorem ieee64_pack_sub (sfp : SF) (s : Nat) (e : Int) (m : MINT) (W : Nat) (hs : s ≤ 1)
    (hc : (mknormal fpi_binary64 e m).1 = SOFT_SUBNORMAL)
    (hL : Limbs16 (mknormal fpi_binary64 e m).2) (hC : Clean (mknormal fpi_binary64 e m).2)
    (hv : value (mknormal fpi_binary64 e m).2 = W) (h2 : W < 4503599627370496) :
    (ieee64_make sfp SOFT_NORMAL s e m).1
      = { sfp with fp0 := W % 4294967296, fp1 := s * 2147483648 + W / 4294967296 } := by
  have l0 := clean_cells _ hL hC 0
  have l1 := clean_cells _ hL hC 1
  have l2 := clean_cells _ hL hC 2
  have l3 := clean_cells _ hL hC 3
  rw [hv] at l0 l1 l2 l3
  norm_num at l0 l1 l2 l3
  obtain ⟨r1, r2⟩ := bits64_sub W h2
  have hun : (ieee64_make sfp SOFT_NORMAL s e m).1
      = { sfp with
          fp0 := (((mknormal fpi_binary64 e m).2.val 1 <<< 16) % 4294967296) |||
            (mknormal fpi_binary64 e m).2.val 0,
          fp1 := ((s <<< 31) % 4294967296) |||
              ((((mknormal fpi_binary64 e m).2.val 3 <<< 16) % 4294967296) |||
                (mknormal fpi_binary64 e m).2.val 2) } := by
    unfold ieee64_make
    simp only [if_true, hc]
    rfl
  have e4 := or_disjoint s (W / 4294967296) 31 (by norm_num; omega)
  norm_num at e4
  rw [hun, l0, l1, l2, l3,
    pack_lo _ _ (Nat.mod_lt _ (by omega)) (Nat.mod_lt _ (by omega)),
    pack_lo _ _ (Nat.mod_lt _ (by omega)) (Nat.mod_lt _ (by omega)), r1, r2,
    shl_sign31 s hs, e4]

/-- `soft_toush` to DOUBLE on a normal long double that is a normal binary64
number: exponent in range and low 11 mantissa bits zero. -/
theorem toush_double_normal (sf v : SF) (h0 : v.fp0 < 4294967296) (h1 : v.fp1 < 4294967296)
    (h2 : v.fp2 < 65536) (hI : 2147483648 ≤ v.fp1) (he1 : 15361 ≤ v.fp2 % 32768)
    (he2 : v.fp2 % 32768 ≤ 17406) (hlow : v.fp0 % 2048 = 0) :
    soft_toush sf v TWORD.DOUBLE
      = ({ sf with
           fp0 := (v.fp0 + v.fp1 * 4294967296) / 2048 % 4294967296,
           fp1 := v.fp2 / 32768 * 2147483648 + (v.fp2 % 32768 - 15361) * 1048576
             + (v.fp0 + v.fp1 * 4294967296) / 2048 / 4294967296 }, 64) := by
  obtain ⟨f1, f2, f3, f4, f5⟩ := ieeex80_unmake_fields v MINTDECL h0 h1 h2 limbs16_MINTDECL
  have f6 := ieeex80_unmake_sign0 v MINTDECL
  have hcl := ieeex80_classify_normal v (by omega) (by omega)
  rw [hcl, if_neg (by decide)] at f1
  obtain ⟨g1, -⟩ := make64_of_mant64 sf (v.fp2 / 32768) (((v.fp2 % 32768 : Nat) : Int) - 16383)
    (ieeex80_unmake v MINTDECL).2.2.2 (v.fp0 + v.fp1 * 4294967296) (by omega) (by omega)
    (by omega) f4 f6 f5 (by omega) (by omega) (by omega)
  have hexp : ((((v.fp2 % 32768 : Nat) : Int) - 16383 + 1022).toNat) = v.fp2 % 32768 - 15361 := by
    omega
  rw [hexp] at g1
  unfold soft_toush fpis_make
  simp only []
  rw [f1, f2, f3, g1]
  rfl

/-- `soft_toush` to DOUBLE on a normal long double that is a binary64 subnormal:
the mantissa is `W` shifted left by `15372 - E` for the exponent field `E`. -/
theorem toush_double_sub (sf v : SF) (h0 : v.fp0 < 4294967296) (h1 : v.fp1 < 4294967296)
    (h2 : v.fp2 < 65536) (hI : 2147483648 ≤ v.fp1) (he1 : 15309 ≤ v.fp2 % 32768)
    (he2 : v.fp2 % 32768 ≤ 15360) (W : Nat)
    (hM : v.fp0 + v.fp1 * 4294967296 = W * 2 ^ (15372 - v.fp2 % 32768)) :
    soft_toush sf v TWORD.DOUBLE
      = ({ sf with fp0 := W % 4294967296,
                   fp1 := v.fp2 / 32768 * 2147483648 + W / 4294967296 }, 64) := by
  obtain ⟨f1, f2, f3, f4, f5⟩ := ieeex80_unmake_fields v MINTDECL h0 h1 h2 limbs16_MINTDECL
  have f7 := clean_x80_unmake v
  have hcl := ieeex80_classify_normal v (by omega) (by omega)
  rw [hcl, if_neg (by decide)] at f1
  have hWpos : 0 < W := by
    rcases Nat.eq_zero_or_pos W with h | h
    · rw [h, Nat.zero_mul] at hM; omega
    · exact h
  have hWlt : W < 4503599627370496 := by
    have hp : 2 ^ 12 ≤ 2 ^ (15372 - v.fp2 % 32768) := Nat.pow_le_pow_right (by omega) (by omega)
    have := Nat.mul_le_mul_left W hp
    norm_num at this
    omega
  obtain ⟨r1, r2, r3, r4⟩ := mknormal_sub64 (((v.fp2 % 32768 : Nat) : Int) - 16383)
    (ieeex80_unmake v MINTDECL).2.2.2 f4 f7 W (15372 - v.fp2 % 32768)
    (by rw [f5]; omega) (by rw [f5]; omega) (by omega) (by omega) (by rw [f5]; exact hM) hWpos
  have g1 := ieee64_pack_sub sf (v.fp2 / 32768) _ _ W (by omega) r1 r2 r3 r4 hWlt
  unfold soft_toush fpis_make
  simp only []
  rw [f1, f2, f3, g1]
  rfl

/-! ## Real values of the two encodings -/

theorem mul_pow_bracket (M a E : Nat) (h1 : 2 ^ a ≤ M) (h2 : M < 2 ^ (a + 1)) :
    2 ^ (a + E) ≤ M * 2 ^ E ∧ M * 2 ^ E < 2 ^ (a + E + 1) := by
  constructor
  · rw [pow_add]; exact Nat.mul_le_mul_right _ h1
  · rw [show a + E + 1 = a + 1 + E by omega, pow_add]
    exact Nat.mul_lt_mul_of_pos_right h2 (by positivity)

theorem exp_lt_of_bracket (V a b : Nat) (h1 : 2 ^ a ≤ V) (h2 : V < 2 ^ b) : a < b :=
  (Nat.pow_lt_pow_iff_right (by norm_num)).mp (Nat.lt_of_le_of_lt h1 h2)

/-- Equal real values of a long double and a binary64 encoding: the signs agree
and so do the magnitudes, scaled to integers. -/
theorem value_eq_scaled (s sb M Wb Ee eb : Nat) (hs : s ≤ 1) (hsb : sb ≤ 1) (hW : 0 < Wb)
    (h : (-1 : ℚ) ^ s * ((M : Nat) : ℚ) * (2 : ℚ) ^ ((Ee : Int) - 16446)
      = (-1 : ℚ) ^ sb * ((Wb : Nat) : ℚ) * (2 : ℚ) ^ ((eb : Int) - 1075)) :
    s = sb ∧ M * 2 ^ Ee = Wb * 2 ^ (eb + 15371) := by
  have hP : (2 : ℚ) ^ (16446 : Int) ≠ 0 := zpow_ne_zero _ two_ne_zero
  have e1 : ((eb : Int) - 1075) = ((eb + 15371 : Nat) : Int) - 16446 := by push_cast; ring
  rw [e1, zpow_sub₀ two_ne_zero, zpow_sub₀ two_ne_zero, zpow_natCast, zpow_natCast] at h
  generalize (2 : ℚ) ^ (16446 : Int) = P at h hP
  field_simp at h
  have hz : (-1 : Int) ^ s * ((M * 2 ^ Ee : Nat) : Int)
      = (-1 : Int) ^ sb * ((Wb * 2 ^ (eb + 15371) : Nat) : Int) := by
    have : (((-1 : Int) ^ s * ((M * 2 ^ Ee : Nat) : Int) : Int) : ℚ)
        = (((-1 : Int) ^ sb * ((Wb * 2 ^ (eb + 15371) : Nat) : Int) : Int) : ℚ) := by
      push_cast
      linarith
    exact_mod_cast this
  have hY : 0 < Wb * 2 ^ (eb + 15371) := Nat.mul_pos hW (by positivity)
  generalize M * 2 ^ Ee = X at hz ⊢
  generalize Wb * 2 ^ (eb + 15371) = Y at hz hY ⊢
  interval_cases s <;> interval_cases sb <;> simp at hz <;> omega

/-- Serialising exactly representable values: a long double `v` whose real value
equals that of the binary64 encoding `hi:lo` of a normal or subnormal number is
serialised by `soft_toush` to the words `hi:lo`, on 64 bits. -/
theorem toush_double_value (sf v : SF) (hi lo : Nat) (h0 : v.fp0 < 4294967296)
    (h1 : v.fp1 < 4294967296) (h2 : v.fp2 < 65536)
    (hI : v.fp2 % 32768 ≠ 0 → 2147483648 ≤ v.fp1)
    (hhi : hi < 4294967296) (hlo : lo < 4294967296) (hEb : hi / 1048576 % 2048 ≠ 2047)
    (hnz : hi % 2147483648 ≠ 0 ∨ lo ≠ 0) (hval : x80Value v = binary64Value hi lo) :
    soft_toush sf v TWORD.DOUBLE = ({ sf with fp0 := lo, fp1 := hi }, 64) := by
  obtain ⟨Wb, hWb⟩ : ∃ Wb : Nat, Wb = (if hi / 1048576 % 2048 = 0 then 0 else 4503599627370496)
      + hi % 1048576 * 4294967296 + lo := ⟨_, rfl⟩
  have hWpos : 0 < Wb := by
    rw [hWb]; split_ifs <;> omega
  unfold x80Value binary64Value at hval
  rw [← hWb] at hval
  obtain ⟨hs, hN⟩ := value_eq_scaled _ _ _ _ _ _ (by omega) (by omega) hWpos hval
  have hM : v.fp0 + v.fp1 * 4294967296 < 2 ^ (63 + 1) := by norm_num; omega
  by_cases hE0 : v.fp2 % 32768 = 0
  · -- too small for any binary64 number
    exfalso
    rw [hE0] at hN
    have a1 : 2 ^ 65 ≤ 2 ^ (max (hi / 1048576 % 2048) 1 + 15371) :=
      Nat.pow_le_pow_right (by omega) (by omega)
    have a2 := Nat.le_mul_of_pos_left (2 ^ (max (hi / 1048576 % 2048) 1 + 15371)) hWpos
    have p65 : (2 : Nat) ^ 65 = 36893488147419103232 := by norm_num
    have a3 : (2 : Nat) ^ (max 0 1) = 2 := by decide
    have hM2 : v.fp0 + v.fp1 * 4294967296 < 18446744073709551616 := by omega
    rw [p65] at a1
    rw [a3] at hN
    clear hval hM
    generalize 2 ^ (max (hi / 1048576 % 2048) 1 + 15371) = A at hN a1 a2
    generalize v.fp0 + v.fp1 * 4294967296 = M at hN hM2
    generalize Wb * A = Y at hN a2
    omega
  · have hI2 := hI hE0
    have hEe : max (v.fp2 % 32768) 1 = v.fp2 % 32768 := by omega
    rw [hEe] at hN
    have hM1 : 2 ^ 63 ≤ v.fp0 + v.fp1 * 4294967296 := by norm_num; omega
    obtain ⟨b1, b2⟩ := mul_pow_bracket _ 63 (v.fp2 % 32768) hM1 hM
    by_cases hEb0 : hi / 1048576 % 2048 = 0
    · -- subnormal
      have heb : max (hi / 1048576 % 2048) 1 = 1 := by omega
      rw [heb] at hN
      rw [if_pos hEb0] at hWb
      have hW52 : Wb < 2 ^ 52 := by norm_num; omega
      have c1 : Wb * 2 ^ (1 + 15371) < 2 ^ (52 + (1 + 15371)) := by
        rw [pow_add 2 52]; exact Nat.mul_lt_mul_of_pos_right hW52 (by positivity)
      have c2 : 2 ^ (1 + 15371) ≤ Wb * 2 ^ (1 + 15371) := Nat.le_mul_of_pos_left _ hWpos
      have d1 := exp_lt_of_bracket _ _ _ b1 (by rw [hN]; exact c1)
      have d2 := exp_lt_of_bracket _ _ _ c2 (by rw [← hN]; exact b2)
      have hsplit : (2 : Nat) ^ (1 + 15371)
          = 2 ^ (15372 - v.fp2 % 32768) * 2 ^ (v.fp2 % 32768) := by
        rw [← pow_add]; congr 1; omega
      rw [hsplit, ← Nat.mul_assoc] at hN
      have hMW := Nat.eq_of_mul_eq_mul_right (by positivity) hN
      rw [toush_double_sub sf v h0 h1 h2 hI2 (by omega) (by omega) Wb hMW]
      have f0 : Wb % 4294967296 = lo := by omega
      have f1 : v.fp2 / 32768 * 2147483648 + Wb / 4294967296 = hi := by omega
      rw [f0, f1]
    · -- normal
      have heb : max (hi / 1048576 % 2048) 1 = hi / 1048576 % 2048 := by omega
      rw [heb] at hN
      rw [if_neg hEb0] at hWb
      have hW1 : 2 ^ 52 ≤ Wb := by norm_num; omega
      have hW2 : Wb < 2 ^ (52 + 1) := by norm_num; omega
      obtain ⟨c1, c2⟩ := mul_pow_bracket _ 52 (hi / 1048576 % 2048 + 15371) hW1 hW2
      rw [← hN] at c1 c2
      have hEq := pow_bracket_unique _ _ _ b1 b2 c1 c2
      have hsplit : (2 : Nat) ^ (hi / 1048576 % 2048 + 15371) = 2048 * 2 ^ (v.fp2 % 32768) := by
        rw [show hi / 1048576 % 2048 + 15371 = 11 + v.fp2 % 32768 by omega, pow_add]
        norm_num
      rw [hsplit, ← Nat.mul_assoc] at hN
      have hMW := Nat.eq_of_mul_eq_mul_right (by positivity) hN
      rw [toush_double_normal sf v h0 h1 h2 hI2 (by omega) (by omega) (by omega)]
      have f0 : (v.fp0 + v.fp1 * 4294967296) / 2048 % 4294967296 = lo := by omega
      have f1 : v.fp2 / 32768 * 2147483648 + (v.fp2 % 32768 - 15361) * 1048576
          + (v.fp0 + v.fp1 * 4294967296) / 2048 / 4294967296 = hi := by omega
      rw [f0, f1]

/-! ## Scaling and rounding of a literal -/

theorem canon_zero_len (a : MINT) (ca : Canon a) (h : value a = 0) : a.len = 0 := by
  by_contra hne
  have h1 := canon_value_ge a ca (by omega)
  have h2 : 0 < 65536 ^ (a.len - 1) := by positivity
  omega

/-- On the magnitude zero `topbit` returns a negative bit number. -/
theorem topbit_zero (a : MINT) (h : value a = 0) : (topbit a).2 < 0 := by
  have hl : (chomp a).len = 0 :=
    canon_zero_len _ (canon_chomp a) (by rw [value_chomp]; exact h)
  obtain ⟨x, hx⟩ : ∃ x : Nat, x = (chomp a).val (((chomp a).len : Int) - 1) % 65536 := ⟨_, rfl⟩
  have hx1 : x < 65536 := by rw [hx]; exact Nat.mod_lt _ (by omega)
  have hv : x >>> 1 < 2 ^ 16 := by
    rw [Nat.shiftRight_eq_div_pow]; norm_num; omega
  obtain ⟨c, hc, -, hge⟩ := topbitLoop_spec 16 (x >>> 1) ((((chomp a).len : Int) - 1) * 16) hv
  have hc15 : c ≤ 15 := by
    rcases hge with h0 | h1
    · omega
    · by_contra hcon
      have : 2 ^ 15 ≤ 2 ^ (c - 1) := Nat.pow_le_pow_right (by omega) (by omega)
      rw [Nat.shiftRight_eq_div_pow] at h1
      norm_num at this
      omega
  show topbitLoop 16 (((chomp a).val (((chomp a).len : Int) - 1) % 65536) >>> 1)
    ((((chomp a).len : Int) - 1) * 16) < 0
  rw [← hx, hc, hl]
  omega

theorem topbit_lt_iff (a : MINT) (ha : Limbs16 a) (n : Nat) :
    (topbit a).2 < (n : Int) ↔ value a < 2 ^ n := by
  rcases Nat.eq_zero_or_pos (value a) with h0 | hpos
  · have := topbit_zero a h0
    have : 0 < 2 ^ n := by positivity
    constructor
    · intro _; omega
    · intro _; omega
  · obtain ⟨-, t, ht, h1, h2⟩ := topbit_spec a ha hpos
    rw [ht]
    constructor
    · intro h
      have : 2 ^ (t + 1) ≤ 2 ^ n := Nat.pow_le_pow_right (by omega) (by omega)
      omega
    · intro h
      have := (Nat.pow_lt_pow_iff_right (by norm_num : 1 < 2)).mp (Nat.lt_of_le_of_lt h1 h)
      omega

theorem topbit_eq_iff (a : MINT) (ha : Limbs16 a) (n : Nat) :
    (topbit a).2 = (n : Int) ↔ 2 ^ n ≤ value a ∧ value a < 2 ^ (n + 1) := by
  have h1 := topbit_lt_iff a ha n
  have h2 := topbit_lt_iff a ha (n + 1)
  constructor
  · intro h
    have a1 : ¬ (topbit a).2 < (n : Int) := by omega
    have a2 : (topbit a).2 < ((n + 1 : Nat) : Int) := by omega
    rw [h1] at a1
    rw [h2] at a2
    omega
  · intro ⟨b1, b2⟩
    have a1 : ¬ (topbit a).2 < (n : Int) := by rw [h1]; omega
    have a2 : (topbit a).2 < ((n + 1 : Nat) : Int) := by rw [h2]; exact b2
    omega

theorem mdivStep_q_sign (n d : MINT) (s : DivState) (i : Nat) :
    (mdivStep n d s i).q.sign = s.q.sign := by
  unfold mdivStep
  simp only []
  split_ifs <;> rfl

theorem mdivLoop_q_sign (n d : MINT) (k : Nat) : ∀ s : DivState,
    (mdivLoop n d k s).q.sign = s.q.sign := by
  induction k with
  | zero => intro s; rfl
  | succ k ih =>
    intro s
    simp only [mdivLoop]
    rw [ih, mdivStep_q_sign]

/-- What `mdiv` leaves in its four arguments when the divisor is positive. -/
theorem mdiv_full (n d q r : MINT) (hn : Limbs16 n) (hd : Limbs16 d) (hq : Limbs16 q)
    (hr : Limbs16 r) (hds : d.sign = 0) (hpos : 0 < value d) :
    (mdiv n d q r).1 = chomp n ∧ (mdiv n d q r).2.1 = chomp d ∧
    Limbs16 (mdiv n d q r).2.2.1 ∧ Limbs16 (mdiv n d q r).2.2.2 ∧
    Canon (mdiv n d q r).2.2.1 ∧ (mdiv n d q r).2.2.1.sign = 0 ∧
    value (mdiv n d q r).2.2.1 = value n / value d ∧
    value (mdiv n d q r).2.2.2 = value n % value d := by
  obtain ⟨s1, s2, s3, -, s5⟩ := mdiv_spec n d q r hn hd hq hr hds
  obtain ⟨e1, e2⟩ := s5 hpos
  refine ⟨rfl, rfl, s1, s2, s3, ?_, ?_, ?_⟩
  · show (chomp (mdivLoop _ _ _ _).q).sign = 0
    rw [chomp_sign, mdivLoop_q_sign]
    rfl
  · rw [e1, Nat.mul_comm, Nat.mul_add_div hpos, Nat.div_eq_of_lt e2, Nat.add_zero]
  · rw [e1, Nat.mul_comm, Nat.mul_add_mod, Nat.mod_eq_of_lt e2]

theorem limbsDiffer_false_iff (rv dv : Int → Nat) (n : Nat) :
    limbsDiffer rv dv n = false ↔ ∀ i : Nat, i < n → rv i % 65536 = dv i % 65536 := by
  induction n with
  | zero => simp [limbsDiffer]
  | succ n ih =>
    simp only [limbsDiffer, Bool.or_eq_false_iff, ih, decide_eq_false_iff_not, ne_eq,
      not_not]
    constructor
    · intro ⟨h1, h2⟩ i hi
      rcases Nat.lt_or_ge i n with h | h
      · exact h1 i h
      · have : i = n := by omega
        rw [this]; exact h2
    · intro h
      exact ⟨fun i hi => h i (by omega), h n (by omega)⟩

theorem limbsVal_split (v : Int → Nat) (n k : Nat) :
    ∃ H : Nat, limbsVal v (n + k) = limbsVal v n + H * 65536 ^ n := by
  induction k with
  | zero => exact ⟨0, by simp⟩
  | succ k ih =>
    obtain ⟨H, hH⟩ := ih
    refine ⟨H + v ((n + k : Nat) : Int) * 65536 ^ k, ?_⟩
    rw [show n + (k + 1) = (n + k) + 1 by omega]
    simp only [limbsVal]
    rw [hH, pow_add]
    ring

theorem geq_zero_or_one (l r : MINT) (hl : Limbs16 l) (hr : Limbs16 r) :
    geq l r = 0 ∨ geq l r = 1 := by
  unfold geq
  split_ifs
  · exact Or.inr rfl
  · exact Or.inl rfl
  · exact (geqLoop_iff l.val r.val l.len (fun i _ => hl i) (fun i _ => hr i)).2

/-- The `memcmp` of `mround` tells a tie from a larger remainder. -/
theorem limbsDiffer_tie (r d : MINT) (hr : Limbs16 r) (hd : Limbs16 d) (cr : Canon r)
    (cd : Canon d) (h1 : value d ≤ value r) (h2 : value r < 2 * value d) :
    limbsDiffer r.val d.val d.len = false ↔ value r = value d := by
  rw [limbsDiffer_false_iff]
  constructor
  · intro h
    have hcell : ∀ i : Nat, i < d.len → r.val i = d.val i := by
      intro i hi
      have := h i hi
      rw [Nat.mod_eq_of_lt (hr i), Nat.mod_eq_of_lt (hd i)] at this
      exact this
    have hlen : d.len ≤ r.len := by
      by_contra hcon
      have a1 := canon_value_ge d cd (by omega)
      have a2 := value_lt r hr
      have a3 : 65536 ^ r.len ≤ 65536 ^ (d.len - 1) :=
        Nat.pow_le_pow_right (by omega) (by omega)
      omega
    obtain ⟨H, hH⟩ := limbsVal_split r.val d.len (r.len - d.len)
    rw [show d.len + (r.len - d.len) = r.len by omega,
      limbsVal_congr d.len hcell] at hH
    have a4 := value_lt d hd
    unfold value at h1 h2 a4 ⊢
    rcases Nat.eq_zero_or_pos H with h0 | hp
    · rw [hH, h0]; simp
    · have : 1 * 65536 ^ d.len ≤ H * 65536 ^ d.len := Nat.mul_le_mul_right _ hp
      omega
  · intro h i hi
    have hlen := canon_len_eq r d hr hd cr cd h
    unfold value at h
    rw [hlen] at h
    rw [limbs_eq_of_limbsVal_eq d.len (fun k _ => hr k) (fun k _ => hd k) h i hi]

/-- The routine `mround` rounds the quotient to nearest, ties to even. -/
theorem mround_spec (d q r : MINT) (hd : Limbs16 d) (hq : Limbs16 q) (hr : Limbs16 r)
    (hqs : q.sign = 0) (hql : 0 < q.len) (hlt : value r < value d) :
    Limbs16 (mround d q r).2.1 ∧ (mround d q r).2.1.sign = 0 ∧
    value (mround d q r).2.1 =
      if 2 * value r > value d ∨ (2 * value r = value d ∧ value q % 2 = 1) then value q + 1
      else value q := by
  have p1 := mshl_props 1 r hr
  have hr1 : Limbs16 (chomp (mshl r 1)) := fun i => p1.1 i
  have hd1 : Limbs16 (chomp d) := fun i => hd i
  have vr1 : value (chomp (mshl r 1)) = 2 * value r := by
    rw [value_chomp, p1.2.1]; ring
  have vd1 : value (chomp d) = value d := value_chomp d
  have hg := geq_iff (chomp (mshl r 1)) (chomp d) hr1 hd1 (canon_chomp _) (canon_chomp _)
  rw [vr1, vd1] at hg
  have h01 := geq_zero_or_one (chomp (mshl r 1)) (chomp d) hr1 hd1
  have hodd : (q.val 0 &&& 1 ≠ 0) ↔ value q % 2 = 1 := by
    rw [Nat.and_one_is_mod, val0_of_value q hq hql]
    omega
  have hun : (mround d q r).2.1 =
      if geq (chomp (mshl r 1)) (chomp d) ≠ 0 then
        if limbsDiffer (chomp (mshl r 1)).val (chomp d).val (chomp d).len = true ∨
            q.val 0 &&& 1 ≠ 0 then
          mcopy (madd (minit MINTDECL 1) q MINTDECL).2.2 (madd (minit MINTDECL 1) q MINTDECL).2.1
        else q
      else q := by
    unfold mround
    simp only []
    split_ifs <;> rfl
  have hinc : Limbs16 (mcopy (madd (minit MINTDECL 1) q MINTDECL).2.2
        (madd (minit MINTDECL 1) q MINTDECL).2.1) ∧
      (mcopy (madd (minit MINTDECL 1) q MINTDECL).2.2
        (madd (minit MINTDECL 1) q MINTDECL).2.1).sign = 0 ∧
      value (mcopy (madd (minit MINTDECL 1) q MINTDECL).2.2
        (madd (minit MINTDECL 1) q MINTDECL).2.1) = value q + 1 := by
    have ha := madd_spec (minit MINTDECL 1) q MINTDECL
      (limbs16_minit _ limbs16_MINTDECL _) hq limbs16_MINTDECL
    have his : (minit MINTDECL 1).sign = 0 := rfl
    have hsum := ha.2.2.2.2.2.2.2.2.2.1
    have hsg := ha.2.2.2.2.2.2.2.2.2.2.1
    rw [his, hqs] at hsum hsg
    simp only [if_true, one_mul] at hsum hsg
    have hs0 := hsg (by omega)
    rw [hs0] at hsum
    simp only [if_true, one_mul] at hsum
    have hv1 : value (minit MINTDECL 1) = 1 := by rw [value_minit]
    rw [hv1] at hsum
    have hc := mcopy_props _ _ ha.2.2.1 ha.2.1
    refine ⟨hc.1, by rw [hc.2.2.1]; exact hs0, ?_⟩
    rw [hc.2.2.2.1]
    omega
  rw [hun]
  by_cases hge : value d ≤ 2 * value r
  · have hg1 : geq (chomp (mshl r 1)) (chomp d) = 1 := hg.2 hge
    rw [if_pos (by rw [hg1]; decide)]
    have htie := limbsDiffer_tie (chomp (mshl r 1)) (chomp d) hr1 hd1 (canon_chomp _)
      (canon_chomp _) (by rw [vr1, vd1]; exact hge) (by rw [vr1, vd1]; omega)
    rw [vr1, vd1] at htie
    by_cases ht : 2 * value r = value d
    · have hf := htie.2 ht
      by_cases ho : value q % 2 = 1
      · rw [if_pos (Or.inr (hodd.2 ho)), if_pos (Or.inr ⟨ht, ho⟩)]
        exact hinc
      · rw [if_neg, if_neg]
        · exact ⟨hq, hqs, rfl⟩
        · intro h; rcases h with h | h
          · omega
          · exact ho h.2
        · intro h; rcases h with h | h
          · rw [hf] at h; exact Bool.false_ne_true h
          · exact ho (hodd.1 h)
    · have hne : limbsDiffer (chomp (mshl r 1)).val (chomp d).val (chomp d).len = true := by
        cases hb : limbsDiffer (chomp (mshl r 1)).val (chomp d).val (chomp d).len with
        | true => rfl
        | false => exact absurd (htie.1 hb) ht
      rw [if_pos (Or.inl hne), if_pos (Or.inl (by omega))]
      exact hinc
  · have hg0 : geq (chomp (mshl r 1)) (chomp d) = 0 := by
      rcases h01 with h | h
      · exact h
      · exact absurd (hg.1 h) hge
    rw [if_neg (by rw [hg0]; decide), if_neg]
    · exact ⟨hq, hqs, rfl⟩
    · intro h; rcases h with h | h <;> omega

/-- The normalising loop of `str2num` with the x80 descriptor: it doubles the
numerator and divides again until the quotient has 64 bits. -/
theorem str2numLoop_spec (k : Nat) : ∀ (fuel : Nat) (s : NumState), k ≤ fuel →
    Limbs16 s.mm → Limbs16 s.me → Limbs16 s.m → Limbs16 s.d → s.me.sign = 0 →
    0 < value s.me → value s.m = value s.mm / value s.me →
    value s.d = value s.mm % value s.me → s.m.sign = 0 →
    2 ^ 63 ≤ value s.mm * 2 ^ k / value s.me →
    (∀ j : Nat, j < k → value s.mm * 2 ^ j / value s.me < 2 ^ 63) →
    ∃ s2 : NumState, str2numLoop fpi_binaryx80 fuel s = some s2 ∧
      Limbs16 s2.me ∧ Limbs16 s2.m ∧ Limbs16 s2.d ∧ s2.m.sign = 0 ∧
      value s2.me = value s.me ∧ value s2.m = value s.mm * 2 ^ k / value s.me ∧
      value s2.d = value s.mm * 2 ^ k % value s.me ∧ s2.scale = s.scale + k := by
  have e63 : fpi_binaryx80.nbits - 1 = ((63 : Nat) : Int) := by decide
  induction k with
  | zero =>
    intro fuel s _ hmm hme hm hd hsg hpos hq hr hms hk _
    rw [pow_zero, Nat.mul_one] at hk
    have hnot : ¬ (topbit s.m).2 < fpi_binaryx80.nbits - 1 := by
      rw [e63, topbit_lt_iff s.m hm 63, hq]
      omega
    refine ⟨{ s with m := (topbit s.m).1 }, ?_, hme, fun i => hm i, hd, hms, rfl, ?_, ?_, ?_⟩
    · unfold str2numLoop
      simp only [if_neg hnot]
    · show value (chomp s.m) = _
      rw [value_chomp, hq, pow_zero, Nat.mul_one]
    · rw [hr, pow_zero, Nat.mul_one]
    · simp
  | succ k ih =>
    intro fuel s hf hmm hme hm hd hsg hpos hq hr hms hk hj
    have hlt : (topbit s.m).2 < fpi_binaryx80.nbits - 1 := by
      rw [e63, topbit_lt_iff s.m hm 63, hq]
      have := hj 0 (by omega)
      rw [pow_zero, Nat.mul_one] at this
      exact this
    obtain ⟨f, hfe⟩ : ∃ f, fuel = f + 1 := ⟨fuel - 1, by omega⟩
    have p1 := mshl_props 1 s.mm hmm
    have hd1 := mdiv_full (mshl s.mm 1) s.me (topbit s.m).1 s.d p1.1 hme (fun i => hm i) hd
      hsg hpos
    obtain ⟨d1, d2, d3, d4, -, d6, d7, d8⟩ := hd1
    have v1 : value (mshl s.mm 1) = value s.mm * 2 := by rw [p1.2.1]; ring
    have hstep : str2numLoop fpi_binaryx80 fuel s
        = str2numLoop fpi_binaryx80 f
            { mm := (mdiv (mshl s.mm 1) s.me (topbit s.m).1 s.d).1,
              me := (mdiv (mshl s.mm 1) s.me (topbit s.m).1 s.d).2.1,
              m := (mdiv (mshl s.mm 1) s.me (topbit s.m).1 s.d).2.2.1,
              d := (mdiv (mshl s.mm 1) s.me (topbit s.m).1 s.d).2.2.2,
              scale := s.scale + 1 } := by
      rw [hfe]
      conv => lhs; unfold str2numLoop
      simp only [if_pos hlt]
    have e2 : ∀ j : Nat, value (chomp (mshl s.mm 1)) * 2 ^ j = value s.mm * 2 ^ (j + 1) := by
      intro j
      rw [value_chomp, v1, pow_succ]; ring
    obtain ⟨s1, hs1⟩ : ∃ s1 : NumState, s1 = NumState.mk
        (mdiv (mshl s.mm 1) s.me (topbit s.m).1 s.d).1
        (mdiv (mshl s.mm 1) s.me (topbit s.m).1 s.d).2.1
        (mdiv (mshl s.mm 1) s.me (topbit s.m).1 s.d).2.2.1
        (mdiv (mshl s.mm 1) s.me (topbit s.m).1 s.d).2.2.2 (s.scale + 1) := ⟨_, rfl⟩
    have f1 : s1.mm = chomp (mshl s.mm 1) := by rw [hs1]; exact d1
    have f2 : s1.me = chomp s.me := by rw [hs1]; exact d2
    have f3 : Limbs16 s1.m := by rw [hs1]; exact d3
    have f4 : Limbs16 s1.d := by rw [hs1]; exact d4
    have f5 : s1.m.sign = 0 := by rw [hs1]; exact d6
    have f6 : value s1.m = value (mshl s.mm 1) / value s.me := by rw [hs1]; exact d7
    have f7 : value s1.d = value (mshl s.mm 1) % value s.me := by rw [hs1]; exact d8
    have f8 : s1.scale = s.scale + 1 := by rw [hs1]
    have hstep2 : str2numLoop fpi_binaryx80 fuel s = str2numLoop fpi_binaryx80 f s1 := by
      rw [hstep, hs1]
    obtain ⟨s2, r1, r2, r3, r4, r5, r6, r7, r8, r9⟩ := ih f s1 (by omega)
      (by rw [f1]; exact fun i => p1.1 i) (by rw [f2]; exact fun i => hme i) f3 f4
      (by rw [f2, chomp_sign]; exact hsg) (by rw [f2, value_chomp]; exact hpos)
      (by rw [f6, f1, f2, value_chomp, value_chomp])
      (by rw [f7, f1, f2, value_chomp, value_chomp]) f5
      (by rw [f1, f2, e2, value_chomp]; exact hk)
      (by intro j hjk
          rw [f1, f2, e2, value_chomp]; exact hj (j + 1) (by omega))
    refine ⟨s2, by rw [hstep2, r1], r2, r3, r4, r5, ?_, ?_, ?_, ?_⟩
    · rw [r6, f2, value_chomp]
    · rw [r7, f1, f2, e2, value_chomp]
    · rw [r8, f1, f2, e2, value_chomp]
    · rw [r9, f8]; push_cast; ring

/-! ## The first branch of step 3 of `str2num`, with the x80 descriptor -/

theorem str2numSub_x80 (t u : Nat) (h : (t : Int) - u < 64) :
    (str2numSub fpi_binaryx80 t u).1
      = ((if (t : Int) - u ≤ -16382 then 16444 else 63 + u - t : Nat) : Int) ∧
    (str2numSub fpi_binaryx80 t u).2 = decide ((t : Int) - u ≤ -16382) := by
  have e : str2numSub fpi_binaryx80 t u
      = (if decide ((64 : Int) - (64 - ((t : Int) - u) - 1) - 1 ≤ -(16383 - 1)) = true then
          (64 : Int) - ((t : Int) - u) - 1
            - (-(64 - (64 - ((t : Int) - u) - 1) - 1) - (16383 - 2))
        else 64 - ((t : Int) - u) - 1,
        decide ((64 : Int) - (64 - ((t : Int) - u) - 1) - 1 ≤ -(16383 - 1))) := rfl
  rw [e]
  by_cases hs : (t : Int) - u ≤ -16382
  · have hd : decide ((64 : Int) - (64 - ((t : Int) - u) - 1) - 1 ≤ -(16383 - 1)) = true :=
      decide_eq_true (by omega)
    rw [hd, if_pos rfl, if_pos hs, decide_eq_true hs]
    refine ⟨?_, rfl⟩
    show (64 : Int) - ((t : Int) - u) - 1
      - (-(64 - (64 - ((t : Int) - u) - 1) - 1) - (16383 - 2)) = ((16444 : Nat) : Int)
    omega
  · have hd : decide ((64 : Int) - (64 - ((t : Int) - u) - 1) - 1 ≤ -(16383 - 1)) = false :=
      decide_eq_false (by omega)
    rw [hd, if_neg (by decide), if_neg hs, decide_eq_false hs]
    refine ⟨?_, rfl⟩
    show (64 : Int) - ((t : Int) - u) - 1 = ((63 + u - t : Nat) : Int)
    omega

theorem str2numBelow_eq (fuel : Nat) (m mm me d : MINT) (fpi : FPI) (t u : Int)
    (s2 : NumState)
    (h : str2numLoop fpi fuel (NumState.mk
        (mdiv (mshl mm (str2numSub fpi t u).1.toNat) me m d).1
        (mdiv (mshl mm (str2numSub fpi t u).1.toNat) me m d).2.1
        (mdiv (mshl mm (str2numSub fpi t u).1.toNat) me m d).2.2.1
        (mdiv (mshl mm (str2numSub fpi t u).1.toNat) me m d).2.2.2
        (str2numSub fpi t u).1) = some s2) :
    str2numBelow fuel m mm me d fpi t u
      = some (str2numRound fpi (str2numSub fpi t u).2 s2) := by
  unfold str2numBelow
  simp only []
  rw [h]

/-- Rounding and exponent at the end of the first branch. -/
theorem str2numRound_x80 (issub : Bool) (s : NumState) (hme : Limbs16 s.me)
    (hm : Limbs16 s.m) (hd : Limbs16 s.d) (hms : s.m.sign = 0)
    (h1 : 2 ^ 63 ≤ value s.m) (h2 : value s.m < 2 ^ 64) (hr : value s.d < value s.me)
    (Q : Nat)
    (hQ : Q = if 2 * value s.d > value s.me ∨ (2 * value s.d = value s.me ∧ value s.m % 2 = 1)
      then value s.m + 1 else value s.m) :
    ∃ m2 : MINT, str2numRound fpi_binaryx80 issub s
        = (SOFT_NORMAL,
            (if issub = true ∧ Q = 2 ^ 64 then -16383
             else if Q = 2 ^ 64 then 64 - s.scale else 63 - s.scale), m2) ∧
      Limbs16 m2 ∧ value m2 = if Q = 2 ^ 64 then 2 ^ 63 else Q := by
  have hql := len_pos_of_value_pos s.m (Nat.lt_of_lt_of_le (by positivity) h1)
  obtain ⟨r1, -, r3⟩ := mround_spec s.me s.m s.d hme hm hd hms hql hr
  rw [← hQ] at r3
  have hQ1 : 2 ^ 63 ≤ Q := by rw [hQ]; split_ifs <;> omega
  have hQ2 : Q ≤ 2 ^ 64 := by rw [hQ]; split_ifs <;> omega
  have p64 : (2 : Nat) ^ 64 = 18446744073709551616 := by norm_num
  have p65 : (2 : Nat) ^ (64 + 1) = 36893488147419103232 := by norm_num
  have p63 : (2 : Nat) ^ 63 = 9223372036854775808 := by norm_num
  have t64 := topbit_eq_iff (mround s.me s.m s.d).2.1 r1 64
  have t63 := topbit_eq_iff (mround s.me s.m s.d).2.1 r1 63
  rw [r3] at t64 t63
  have e64 : fpi_binaryx80.nbits = ((64 : Nat) : Int) := rfl
  have e63 : fpi_binaryx80.nbits - 1 = ((63 : Nat) : Int) := rfl
  have eb : -fpi_binaryx80.bias = -16383 := rfl
  have ea : fpi_binaryx80.expadj = 1 := rfl
  have n1 : ¬ (fpi_binaryx80.nbits = fpi_binaryx80.nbits - 1) := by decide
  have n2 : ¬ (fpi_binaryx80.nbits - 1 = fpi_binaryx80.nbits) := by decide
  by_cases hc : Q = 2 ^ 64
  · have a64 : (topbit (mround s.me s.m s.d).2.1).2 = fpi_binaryx80.nbits := by
      rw [e64, t64, hc, p64, p65]; omega
    have a63 : ¬ (topbit (mround s.me s.m s.d).2.1).2 = fpi_binaryx80.nbits - 1 := by
      rw [e63, t63, hc, p64, p63]; omega
    have pm := mshr_props 1 (topbit (mround s.me s.m s.d).2.1).1 (fun i => r1 i) false
    refine ⟨mshr (topbit (mround s.me s.m s.d).2.1).1 1 false, ?_, pm.1, ?_⟩
    · unfold str2numRound
      simp only [a64, n1, and_false, if_false, if_true]
      cases issub
      · simp only [Bool.false_eq_true, false_and, if_false, if_pos hc, e64, ea]
        congr 2
        push_cast
        ring
      · simp only [true_and, if_true, if_pos hc, eb]
    · rw [if_pos hc, pm.2.2.2.2]
      simp only [Bool.false_eq_true, if_false]
      show value (chomp _) / 2 ^ 1 = _
      rw [value_chomp, r3, hc]
      norm_num
  · have a64 : ¬ (topbit (mround s.me s.m s.d).2.1).2 = fpi_binaryx80.nbits := by
      rw [e64, t64, p64, p65]; rw [p64] at hc hQ2; omega
    have a63 : (topbit (mround s.me s.m s.d).2.1).2 = fpi_binaryx80.nbits - 1 := by
      rw [e63, t63, p63]; rw [p63] at hQ1; rw [p64] at hc hQ2
      norm_num
      omega
    refine ⟨(topbit (mround s.me s.m s.d).2.1).1, ?_, fun i => r1 i, ?_⟩
    · unfold str2numRound
      simp only [a63, n2, and_true, if_false, if_true]
      cases issub
      · simp only [Bool.false_eq_true, false_and, if_false, if_neg hc, e64, ea]
        congr 2
        push_cast
        ring
      · simp only [if_true, Bool.false_eq_true, if_false, hc, and_false, e64, ea]
        congr 2
        push_cast
        ring
    · rw [if_neg hc]
      show value (chomp _) = _
      rw [value_chomp, r3]

theorem quot_lt_of (Vn Vd a b : Nat) (h1 : Vn < 2 ^ a) (h2 : 2 ^ b ≤ Vd) (hab : a ≤ b + 63) :
    Vn / Vd < 2 ^ 63 := by
  have hpos : 0 < Vd := Nat.lt_of_lt_of_le (by positivity) h2
  rw [Nat.div_lt_iff_lt_mul hpos]
  have e1 : 2 ^ a ≤ 2 ^ (b + 63) := Nat.pow_le_pow_right (by omega) hab
  have e2 : 2 ^ (b + 63) = 2 ^ 63 * 2 ^ b := by rw [pow_add]; ring
  have e3 : 2 ^ 63 * 2 ^ b ≤ 2 ^ 63 * Vd := Nat.mul_le_mul_left _ h2
  omega

theorem quot_ge_of (Vn Vd a b : Nat) (h1 : 2 ^ a ≤ Vn) (h2 : Vd < 2 ^ b) (hpos : 0 < Vd)
    (hab : b + 64 ≤ a) : 2 ^ 64 ≤ Vn / Vd := by
  rw [Nat.le_div_iff_mul_le hpos]
  have e1 : 2 ^ (b + 64) ≤ 2 ^ a := Nat.pow_le_pow_right (by omega) hab
  have e2 : 2 ^ (b + 64) = 2 ^ 64 * 2 ^ b := by rw [pow_add]; ring
  have e3 : 2 ^ 64 * Vd ≤ 2 ^ 64 * 2 ^ b := Nat.mul_le_mul_left _ (Nat.le_of_lt h2)
  omega

theorem quot_below (Vn Vd S j : Nat) (hpos : 0 < Vd) (hS2 : Vn * 2 ^ S / Vd < 2 ^ 64)
    (hj : j < S) : Vn * 2 ^ j / Vd < 2 ^ 63 := by
  by_contra hcon
  have h1 : 2 ^ 63 ≤ Vn * 2 ^ j / Vd := by omega
  rw [Nat.le_div_iff_mul_le hpos] at h1
  have e1 : Vn * 2 ^ S = Vn * 2 ^ j * 2 ^ (S - j) := by
    rw [Nat.mul_assoc, ← pow_add]; congr 2; omega
  have e2 : 2 ^ 1 ≤ 2 ^ (S - j) := Nat.pow_le_pow_right (by omega) (by omega)
  have e3 : 2 ^ 64 ≤ Vn * 2 ^ S / Vd := by
    rw [Nat.le_div_iff_mul_le hpos, e1]
    calc 2 ^ 64 * Vd = 2 ^ 63 * Vd * 2 ^ 1 := by ring
      _ ≤ Vn * 2 ^ j * 2 ^ 1 := Nat.mul_le_mul_right _ h1
      _ ≤ Vn * 2 ^ j * 2 ^ (S - j) := Nat.mul_le_mul_left _ e2
  omega

/-- The first branch of step 3 of `str2num` with the x80 descriptor, on a
numerator and a denominator with top bits `t` and `u`: with `S` the scale at
which the quotient has 64 bits, `m` is left with the quotient rounded to
nearest-even, halved on a carry to `2^64`; the exponent is that of the rounded
quotient, except that `-bias` is stored when the check for the subnormal range
has set `sub` and the rounding carries. -/
theorem str2numBelow_x80 (fuel : Nat) (m mm me d : MINT) (hm : Limbs16 m) (hmm : Limbs16 mm)
    (hme : Limbs16 me) (hd : Limbs16 d) (hsg : me.sign = 0) (t u S : Nat)
    (ht1 : 2 ^ t ≤ value mm) (ht2 : value mm < 2 ^ (t + 1))
    (hu1 : 2 ^ u ≤ value me) (hu2 : value me < 2 ^ (u + 1)) (hlt : (t : Int) - u < 64)
    (hS1 : 2 ^ 63 ≤ value mm * 2 ^ S / value me) (hS2 : value mm * 2 ^ S / value me < 2 ^ 64)
    (hf1 : 1 ≤ fuel) (hf2 : S ≤ fuel + 16444) :
    ∃ m2 : MINT, str2numBelow fuel m mm me d fpi_binaryx80 t u
        = some (SOFT_NORMAL,
            (if (t : Int) - u ≤ -16382 ∧ rneDiv (value mm * 2 ^ S) (value me) = 2 ^ 64
              then -16383
             else if rneDiv (value mm * 2 ^ S) (value me) = 2 ^ 64 then 64 - (S : Int)
             else 63 - (S : Int)), m2) ∧
      Limbs16 m2 ∧
      value m2 = if rneDiv (value mm * 2 ^ S) (value me) = 2 ^ 64 then 2 ^ 63
        else rneDiv (value mm * 2 ^ S) (value me) := by
  have hpos : 0 < value me := Nat.lt_of_lt_of_le (by positivity) hu1
  obtain ⟨hsc1, hsc2⟩ := str2numSub_x80 t u hlt
  obtain ⟨s0, hs0⟩ : ∃ s0 : Nat, s0 = if (t : Int) - u ≤ -16382 then 16444 else 63 + u - t :=
    ⟨_, rfl⟩
  rw [← hs0] at hsc1
  have hsn : (str2numSub fpi_binaryx80 t u).1.toNat = s0 := by rw [hsc1]; exact Int.toNat_ofNat _
  -- the scale `S` lies at or one above `63 + u - t`
  have A2 : 63 + u - t ≤ S := by
    by_contra hcon
    have b1 : value mm * 2 ^ S < 2 ^ (t + 1 + S) := by
      rw [pow_add]; exact Nat.mul_lt_mul_of_pos_right ht2 (by positivity)
    have := quot_lt_of _ _ _ _ b1 hu1 (by omega)
    omega
  have A3 : S ≤ 64 + u - t := by
    by_contra hcon
    have b1 : 2 ^ (t + S) ≤ value mm * 2 ^ S := by
      rw [pow_add]; exact Nat.mul_le_mul_right _ ht1
    have := quot_ge_of _ _ _ _ b1 hu2 hpos (by omega)
    omega
  have hs0S : s0 ≤ S := by rw [hs0]; split_ifs <;> omega
  have hk : S - s0 ≤ fuel := by rw [hs0]; split_ifs <;> omega
  -- the first division
  have p1 := mshl_props s0 mm hmm
  obtain ⟨d1, d2, d3, d4, -, d6, d7, d8⟩ :=
    mdiv_full (mshl mm s0) me m d p1.1 hme hm hd hsg hpos
  have e2 : ∀ j : Nat, value (chomp (mshl mm s0)) * 2 ^ j = value mm * 2 ^ (s0 + j) := by
    intro j
    rw [value_chomp, p1.2.1, pow_add]; ring
  have eS : s0 + (S - s0) = S := by omega
  obtain ⟨s1, hs1⟩ : ∃ s1 : NumState, s1 = NumState.mk
      (mdiv (mshl mm s0) me m d).1 (mdiv (mshl mm s0) me m d).2.1
      (mdiv (mshl mm s0) me m d).2.2.1 (mdiv (mshl mm s0) me m d).2.2.2
      (str2numSub fpi_binaryx80 t u).1 := ⟨_, rfl⟩
  have f1 : s1.mm = chomp (mshl mm s0) := by rw [hs1]; exact d1
  have f2 : s1.me = chomp me := by rw [hs1]; exact d2
  have f3 : Limbs16 s1.m := by rw [hs1]; exact d3
  have f4 : Limbs16 s1.d := by rw [hs1]; exact d4
  have f5 : s1.m.sign = 0 := by rw [hs1]; exact d6
  have f6 : value s1.m = value (mshl mm s0) / value me := by rw [hs1]; exact d7
  have f7 : value s1.d = value (mshl mm s0) % value me := by rw [hs1]; exact d8
  have f8 : s1.scale = (s0 : Int) := by rw [hs1]; exact hsc1
  obtain ⟨s2, r1, r2, r3, r4, r5, r6, r7, r8, r9⟩ := str2numLoop_spec (S - s0) fuel s1 hk
    (by rw [f1]; exact fun i => p1.1 i) (by rw [f2]; exact fun i => hme i) f3 f4
    (by rw [f2, chomp_sign]; exact hsg) (by rw [f2, value_chomp]; exact hpos)
    (by rw [f6, f1, f2, value_chomp, value_chomp])
    (by rw [f7, f1, f2, value_chomp, value_chomp]) f5
    (by rw [f1, f2, e2, value_chomp, eS]; exact hS1)
    (by intro j hj
        rw [f1, f2, e2, value_chomp]
        exact quot_below _ _ S _ hpos hS2 (by omega))
  rw [f2, value_chomp] at r6
  rw [f1, f2, e2, value_chomp, eS] at r7 r8
  have r9b : s2.scale = (S : Int) := by rw [r9, f8]; omega
  have hloop : str2numLoop fpi_binaryx80 fuel (NumState.mk
      (mdiv (mshl mm (str2numSub fpi_binaryx80 t u).1.toNat) me m d).1
      (mdiv (mshl mm (str2numSub fpi_binaryx80 t u).1.toNat) me m d).2.1
      (mdiv (mshl mm (str2numSub fpi_binaryx80 t u).1.toNat) me m d).2.2.1
      (mdiv (mshl mm (str2numSub fpi_binaryx80 t u).1.toNat) me m d).2.2.2
      (str2numSub fpi_binaryx80 t u).1) = some s2 := by
    rw [hsn, ← hs1]; exact r1
  have hB := str2numBelow_eq fuel m mm me d fpi_binaryx80 t u s2 hloop
  obtain ⟨m2, g1, g2, g3⟩ := str2numRound_x80 (str2numSub fpi_binaryx80 t u).2 s2 r2 r3 r4 r5
    (by rw [r7]; exact hS1) (by rw [r7]; exact hS2)
    (by rw [r8, r6]; exact Nat.mod_lt _ hpos)
    (rneDiv (value mm * 2 ^ S) (value me))
    (by unfold rneDiv; rw [r6, r7, r8])
  refine ⟨m2, ?_, g2, g3⟩
  rw [hB, g1, hsc2, r9b]
  simp only [decide_eq_true_eq]

/-! ## Reading a hexadecimal literal -/

theorem hexDigit_lt (c : Char) (d : Nat) (h : hexDigit c = some d) : d < 16 := by
  unfold hexDigit at h
  have ea : ('a' : Char).toNat = 97 := rfl
  have eA : ('A' : Char).toNat = 65 := rfl
  have e9 : ('9' : Char).toNat = 57 := rfl
  have e0 : ('0' : Char).toNat = 48 := rfl
  have ef : ('f' : Char).toNat = 102 := rfl
  have eF : ('F' : Char).toNat = 70 := rfl
  split_ifs at h with h1 h2 h3
  · have a : ('a' : Char).toNat ≤ c.toNat := h1.1
    have b : c.toNat ≤ ('f' : Char).toNat := h1.2
    have := Option.some.inj h
    omega
  · have a : ('A' : Char).toNat ≤ c.toNat := h2.1
    have b : c.toNat ≤ ('F' : Char).toNat := h2.2
    have := Option.some.inj h
    omega
  · have a : ('0' : Char).toNat ≤ c.toNat := h3.1
    have b : c.toNat ≤ ('9' : Char).toNat := h3.2
    have := Option.some.inj h
    omega

/-- One hexadecimal digit: shift by four bits and or the digit in. -/
theorem hex_step (m : MINT) (hm : Limbs16 m) (hl : 0 < m.len) (d : Nat) (hd : d < 16) :
    Limbs16 ((mshl m 4).put 0 ((mshl m 4).val 0 ||| d)) ∧
    0 < ((mshl m 4).put 0 ((mshl m 4).val 0 ||| d)).len ∧
    ((mshl m 4).put 0 ((mshl m 4).val 0 ||| d)).sign = m.sign ∧
    value ((mshl m 4).put 0 ((mshl m 4).val 0 ||| d)) = value m * 16 + d := by
  obtain ⟨p1, p2, p3, p4, -⟩ := mshl_props 4 m hm
  have hl2 : 0 < (mshl m 4).len := by omega
  have h0 := val0_of_value (mshl m 4) p1 hl2
  rw [p2] at h0
  have h16 : (mshl m 4).val 0 % 16 = 0 := by rw [h0]; norm_num
  have hlt : (mshl m 4).val 0 < 65536 := p1 0
  have hor : (mshl m 4).val 0 ||| d = (mshl m 4).val 0 + d := by
    have e1 : (mshl m 4).val 0 = (mshl m 4).val 0 / 16 * 2 ^ 4 := by norm_num; omega
    have e2 := or_disjoint ((mshl m 4).val 0 / 16) d 4 (by norm_num; exact hd)
    rw [← e1] at e2
    exact e2
  have hsum : (mshl m 4).val 0 + d < 65536 := by omega
  refine ⟨?_, hl2, p3, ?_⟩
  · exact limbs16_update _ p1 0 _ (Nat.mod_lt _ (by omega))
  · obtain ⟨n, hn⟩ : ∃ n, (mshl m 4).len = n + 1 := ⟨(mshl m 4).len - 1, by omega⟩
    have hu := limbsVal_update_zero (mshl m 4).val (((mshl m 4).val 0 ||| d) % 65536) n
    show limbsVal (Function.update (mshl m 4).val 0 (((mshl m 4).val 0 ||| d) % 65536))
      (mshl m 4).len = _
    have hv : limbsVal (mshl m 4).val (n + 1) = value m * 2 ^ 4 := by
      rw [← hn]; exact p2
    rw [hn, hor, Nat.mod_eq_of_lt hsum]
    rw [hor, Nat.mod_eq_of_lt hsum, hv] at hu
    norm_num at hu ⊢
    omega

theorem hexFold (ds : List Char) : ∀ acc : Nat,
    ds.foldl (fun acc c => acc * 16 + (hexDigit c).getD 0) acc
      = acc * 16 ^ ds.length + hexValue ds := by
  induction ds with
  | nil => intro acc; simp [hexValue]
  | cons c ds ih =>
    intro acc
    unfold hexValue
    rw [List.foldl_cons, List.foldl_cons, ih, ih (0 * 16 + _), List.length_cons]
    ring

theorem hexValue_cons (c : Char) (ds : List Char) :
    hexValue (c :: ds) = (hexDigit c).getD 0 * 16 ^ ds.length + hexValue ds := by
  unfold hexValue
  rw [List.foldl_cons, hexFold]
  simp [hexValue]

/-- A run of hexadecimal digits in the loop of `hexbig`. -/
theorem hexbig_digits (ds : List Char) : ∀ (mmant mexp : MINT) (exp2 : Int) (gotdot : Bool)
    (rest : List Char), Limbs16 mmant → 0 < mmant.len →
    (∀ c ∈ ds, (hexDigit c).isSome) →
    ∃ mm2 : MINT, hexbigLoop (ds ++ rest) mmant mexp exp2 gotdot
        = hexbigLoop rest mm2 mexp (if gotdot then exp2 - 4 * ds.length else exp2) gotdot ∧
      Limbs16 mm2 ∧ 0 < mm2.len ∧ mm2.sign = mmant.sign ∧
      value mm2 = value mmant * 16 ^ ds.length + hexValue ds := by
  induction ds with
  | nil =>
    intro mmant mexp exp2 gotdot rest hm hl _
    refine ⟨mmant, ?_, hm, hl, rfl, ?_⟩
    · simp
    · simp [hexValue]
  | cons c ds ih =>
    intro mmant mexp exp2 gotdot rest hm hl hd
    have hc := hd c (List.mem_cons_self _ _)
    obtain ⟨d, hcd⟩ := Option.isSome_iff_exists.mp hc
    have hd16 := hexDigit_lt c d hcd
    obtain ⟨q1, q2, q3, q4⟩ := hex_step mmant hm hl d hd16
    obtain ⟨mm2, e2, r1, r2, r3, r4⟩ := ih ((mshl mmant 4).put 0 ((mshl mmant 4).val 0 ||| d))
      mexp (if gotdot then exp2 - 4 else exp2) gotdot rest q1 q2
      (fun x hx => hd x (List.mem_cons_of_mem _ hx))
    refine ⟨mm2, ?_, r1, r2, by rw [r3, q3], ?_⟩
    · rw [List.cons_append, hexbigLoop]
      simp only [hcd]
      rw [e2]
      congr 1
      rw [List.length_cons]
      split_ifs <;> push_cast <;> ring
    · rw [r4, q4, hexValue_cons, hcd, List.length_cons]
      simp only [Option.getD_some]
      ring

theorem hexbig_dot (rest : List Char) (mmant mexp : MINT) (exp2 : Int) (gotdot : Bool) :
    hexbigLoop ('.' :: rest) mmant mexp exp2 gotdot = hexbigLoop rest mmant mexp exp2 true :=
  rfl

theorem hexbig_p (rest : List Char) (mmant mexp : MINT) (exp2 : Int) (gotdot : Bool) :
    hexbigLoop ('p' :: rest) mmant mexp exp2 gotdot
      = if mesanity mmant rest ≠ 0 then some (mesanity mmant rest, mmant, mexp)
        else if exp2 + atoi rest < 0 then
          some (SOFT_NORMAL, mmant, mshl mexp (-(exp2 + atoi rest)).toNat)
        else some (SOFT_NORMAL, mshl mmant (exp2 + atoi rest).toNat, mexp) := rfl

/-! ## Step 3 of `str2num` and `strtosf` -/

theorem rneDiv_exact (q b : Nat) (hb : 0 < b) : rneDiv (q * b) b = q := by
  unfold rneDiv
  rw [Nat.mul_mod_left, Nat.mul_div_cancel _ hb, if_neg]
  omega

/-- x80 `make` on a 64-bit mantissa with an exponent in the normal range. -/
theorem make80_of_mant64 (sfp : SF) (s : Nat) (e : Int) (m : MINT) (M : Nat) (hs : s ≤ 1)
    (he1 : -16382 ≤ e) (he2 : e ≤ 16383) (hm : Limbs16 m)
    (hv : value m = M) (h1 : 9223372036854775808 ≤ M) (h2 : M < 18446744073709551616) :
    (ieeex80_make sfp SOFT_NORMAL s e m).1
      = ⟨M % 4294967296, M / 4294967296, s * 32768 + (e + 16383).toNat⟩ := by
  have p63 : (2 : Nat) ^ 63 = 9223372036854775808 := by norm_num
  have p64 : (2 : Nat) ^ (63 + 1) = 18446744073709551616 := by norm_num
  have hv2 : value { m with sign := 0 } = M := hv
  have hm2 : Limbs16 { m with sign := 0 } := hm
  obtain ⟨r1, r2, r3, r4, r5, r6⟩ := mknormal_shift fpi_binaryx80 e { m with sign := 0 } hm2
    rfl 63 63 rfl (by rw [hv2, p63]; exact h1) (by rw [hv2, p64]; exact h2)
    (fun _ => by rw [Nat.sub_self, pow_zero]; exact Nat.mod_one _) he1 he2 M
    (by rw [if_pos (Nat.le_refl _), hv2]; simp)
  rw [p63] at r5
  rw [p64] at r6
  exact ieeex80_pack_gen sfp s e m M hs he1 he2 r1 r2 r3 r4 r5 r6

/-- Step 3 of `str2num` with the x80 descriptor when `t - u < 64`. -/
theorem str2numScale_below (fuel : Nat) (m mm me d : MINT) (hm : Limbs16 m)
    (hmm : Limbs16 mm) (hme : Limbs16 me) (hd : Limbs16 d) (hsg : me.sign = 0) (t u S : Nat)
    (ht1 : 2 ^ t ≤ value mm) (ht2 : value mm < 2 ^ (t + 1))
    (hu1 : 2 ^ u ≤ value me) (hu2 : value me < 2 ^ (u + 1)) (hlt : (t : Int) - u < 64)
    (hS1 : 2 ^ 63 ≤ value mm * 2 ^ S / value me) (hS2 : value mm * 2 ^ S / value me < 2 ^ 64)
    (hf1 : 1 ≤ fuel) (hf2 : S ≤ fuel + 16444) :
    ∃ m2 : MINT, str2numScale fuel m mm me d fpi_binaryx80
        = some (SOFT_NORMAL,
            (if (t : Int) - u ≤ -16382 ∧ rneDiv (value mm * 2 ^ S) (value me) = 2 ^ 64
              then -16383
             else if rneDiv (value mm * 2 ^ S) (value me) = 2 ^ 64 then 64 - (S : Int)
             else 63 - (S : Int)), m2) ∧
      Limbs16 m2 ∧
      value m2 = if rneDiv (value mm * 2 ^ S) (value me) = 2 ^ 64 then 2 ^ 63
        else rneDiv (value mm * 2 ^ S) (value me) := by
  have htm : topbit mm = (chomp mm, (t : Int)) :=
    Prod.ext (topbit_spec mm hmm (Nat.lt_of_lt_of_le (by positivity) ht1)).1
      (topbit_eq mm hmm t ht1 ht2)
  have htu : topbit me = (chomp me, (u : Int)) :=
    Prod.ext (topbit_spec me hme (Nat.lt_of_lt_of_le (by positivity) hu1)).1
      (topbit_eq me hme u hu1 hu2)
  have hun : str2numScale fuel m mm me d fpi_binaryx80
      = str2numBelow fuel m (chomp mm) (chomp me) d fpi_binaryx80 t u := by
    unfold str2numScale
    simp only [htm, htu]
    rw [if_pos (show (t : Int) - u < fpi_binaryx80.nbits from hlt)]
  rw [hun]
  have h := str2numBelow_x80 fuel m (chomp mm) (chomp me) d hm (fun i => hmm i)
    (fun i => hme i) hd (by rw [chomp_sign]; exact hsg) t u S
    (by rw [value_chomp]; exact ht1) (by rw [value_chomp]; exact ht2)
    (by rw [value_chomp]; exact hu1) (by rw [value_chomp]; exact hu2) hlt
    (by rw [value_chomp, value_chomp]; exact hS1)
    (by rw [value_chomp, value_chomp]; exact hS2) hf1 hf2
  rw [value_chomp, value_chomp] at h
  exact h

/-- The second branch of step 3 of `str2num` with the x80 descriptor, when the
first quotient already has 64 bits: `m` is left with the quotient rounded to
nearest-even, halved on a carry, and the exponent follows. -/
theorem str2numAbove_x80 (m mm me d : MINT) (hm : Limbs16 m) (hmm : Limbs16 mm)
    (hme : Limbs16 me) (hd : Limbs16 d) (hsg : me.sign = 0) (t u k : Nat)
    (hpos : 0 < value me) (hk : (k : Int) = (t : Int) - u - 63)
    (hq1 : 2 ^ 63 ≤ value mm / (value me * 2 ^ k))
    (hq2 : value mm / (value me * 2 ^ k) < 2 ^ 64) :
    ∃ m2 : MINT, str2numAbove m mm me d fpi_binaryx80 t u
        = (if (if rneDiv (value mm) (value me * 2 ^ k) = 2 ^ 64 then 64 + (k : Int)
                else 63 + (k : Int)) > 16383 then SOFT_INFINITE else SOFT_NORMAL,
            (if rneDiv (value mm) (value me * 2 ^ k) = 2 ^ 64 then 64 + (k : Int)
              else 63 + (k : Int)), m2) ∧
      Limbs16 m2 ∧
      value m2 = if rneDiv (value mm) (value me * 2 ^ k) = 2 ^ 64 then 2 ^ 63
        else rneDiv (value mm) (value me * 2 ^ k) := by
  have hsc : (t : Int) - u - fpi_binaryx80.nbits + 1 = (k : Int) := by
    show (t : Int) - u - 64 + 1 = (k : Int)
    omega
  have p1 := mshl_props k me hme
  have hpos2 : 0 < value (mshl me k) := by
    rw [p1.2.1]; exact Nat.mul_pos hpos (by positivity)
  obtain ⟨d1, d2, d3, d4, -, d6, d7, d8⟩ :=
    mdiv_full mm (mshl me k) m d hmm p1.1 hm hd (by rw [p1.2.2.1]; exact hsg) hpos2
  rw [p1.2.1] at d7 d8
  have e63 : fpi_binaryx80.nbits - 1 = ((63 : Nat) : Int) := rfl
  have e64 : fpi_binaryx80.nbits = ((64 : Nat) : Int) := rfl
  have hshort : decide ((topbit (mdiv mm (mshl me k) m d).2.2.1).2 < fpi_binaryx80.nbits - 1)
      = false := by
    apply decide_eq_false
    rw [e63, topbit_lt_iff _ d3 63, d7]
    omega
  have hq : Limbs16 (topbit (mdiv mm (mshl me k) m d).2.2.1).1 := fun i => d3 i
  have hqv : value (topbit (mdiv mm (mshl me k) m d).2.2.1).1 = value mm / (value me * 2 ^ k) := by
    show value (chomp _) = _
    rw [value_chomp, d7]
  have hql := len_pos_of_value_pos _
    (show 0 < value (topbit (mdiv mm (mshl me k) m d).2.2.1).1 by
      rw [hqv]; exact Nat.lt_of_lt_of_le (by positivity) hq1)
  have hme2 : Limbs16 (mdiv mm (mshl me k) m d).2.1 := by rw [d2]; exact fun i => p1.1 i
  have hmev : value (mdiv mm (mshl me k) m d).2.1 = value me * 2 ^ k := by
    rw [d2, value_chomp, p1.2.1]
  obtain ⟨r1, -, r3⟩ := mround_spec (mdiv mm (mshl me k) m d).2.1
    (topbit (mdiv mm (mshl me k) m d).2.2.1).1 (mdiv mm (mshl me k) m d).2.2.2 hme2 hq d4
    (by show (chomp _).sign = 0; rw [chomp_sign]; exact d6) hql
    (by rw [d8, hmev]; exact Nat.mod_lt _ (by rw [← p1.2.1]; exact hpos2))
  rw [hqv, d8, hmev] at r3
  obtain ⟨Q, hQ⟩ : ∃ Q : Nat, Q = rneDiv (value mm) (value me * 2 ^ k) := ⟨_, rfl⟩
  have hQd : Q = if 2 * (value mm % (value me * 2 ^ k)) > value me * 2 ^ k ∨
      (2 * (value mm % (value me * 2 ^ k)) = value me * 2 ^ k ∧
        value mm / (value me * 2 ^ k) % 2 = 1) then value mm / (value me * 2 ^ k) + 1
      else value mm / (value me * 2 ^ k) := by rw [hQ]; rfl
  rw [← hQd] at r3
  rw [← hQ]
  have hQ1 : 2 ^ 63 ≤ Q := by rw [hQd]; split_ifs <;> omega
  have hQ2 : Q ≤ 2 ^ 64 := by rw [hQd]; split_ifs <;> omega
  have p64 : (2 : Nat) ^ 64 = 18446744073709551616 := by norm_num
  have p65 : (2 : Nat) ^ (64 + 1) = 36893488147419103232 := by norm_num
  have t64 := topbit_eq_iff _ r1 64
  rw [r3] at t64
  have emax : fpi_binaryx80.maxexp = 16383 := rfl
  have eadj : fpi_binaryx80.expadj = 1 := rfl
  by_cases hc : Q = 2 ^ 64
  · have a64 : (topbit (mround (mdiv mm (mshl me k) m d).2.1
        (topbit (mdiv mm (mshl me k) m d).2.2.1).1 (mdiv mm (mshl me k) m d).2.2.2).2.1).2
        = fpi_binaryx80.nbits := by
      rw [e64, t64, hc, p64, p65]; omega
    have pm := mshr_props 1 (topbit (mround (mdiv mm (mshl me k) m d).2.1
        (topbit (mdiv mm (mshl me k) m d).2.2.1).1 (mdiv mm (mshl me k) m d).2.2.2).2.1).1
        (fun i => r1 i) false
    refine ⟨_, ?_, pm.1, ?_⟩
    · unfold str2numAbove
      simp only [hsc, Int.toNat_ofNat]
      simp only [hshort, Bool.false_eq_true, if_false]
      simp only [a64, if_true]
      simp only [emax, eadj, e64]
      have e1 : ((64 : Nat) : Int) + ((k : Int) + 1) - 1 = 64 + (k : Int) := by push_cast; ring
      rw [e1]
      split_ifs <;> rfl
    · rw [if_pos hc, pm.2.2.2.2]
      simp only [Bool.false_eq_true, if_false]
      show value (chomp _) / 2 ^ 1 = _
      rw [value_chomp, r3, hc]
      norm_num
  · have a64 : ¬ (topbit (mround (mdiv mm (mshl me k) m d).2.1
        (topbit (mdiv mm (mshl me k) m d).2.2.1).1 (mdiv mm (mshl me k) m d).2.2.2).2.1).2
        = fpi_binaryx80.nbits := by
      rw [e64, t64, p64, p65]; rw [p64] at hc hQ2; omega
    refine ⟨(topbit (mround (mdiv mm (mshl me k) m d).2.1
        (topbit (mdiv mm (mshl me k) m d).2.2.1).1 (mdiv mm (mshl me k) m d).2.2.2).2.1).1,
      ?_, fun i => r1 i, ?_⟩
    · unfold str2numAbove
      simp only [hsc, Int.toNat_ofNat]
      simp only [hshort, Bool.false_eq_true, if_false]
      simp only [a64, if_false]
      simp only [emax, eadj, e64]
      have e1 : ((64 : Nat) : Int) + (k : Int) - 1 = 63 + (k : Int) := by push_cast; ring
      rw [e1]
      split_ifs <;> rfl
    · rw [if_neg hc]
      show value (chomp _) = _
      rw [value_chomp, r3]

/-! ## Hexadecimal literals through `str2num` -/

/-- Step 3 of `str2num` with the x80 descriptor when `t - u ≥ 64` and the first
quotient has 64 bits. -/
theorem str2numScale_above (fuel : Nat) (m mm me d : MINT) (hm : Limbs16 m)
    (hmm : Limbs16 mm) (hme : Limbs16 me) (hd : Limbs16 d) (hsg : me.sign = 0) (t u k : Nat)
    (ht1 : 2 ^ t ≤ value mm) (ht2 : value mm < 2 ^ (t + 1))
    (hu1 : 2 ^ u ≤ value me) (hu2 : value me < 2 ^ (u + 1))
    (hk : (k : Int) = (t : Int) - u - 63) (hk1 : 1 ≤ k)
    (hq1 : 2 ^ 63 ≤ value mm / (value me * 2 ^ k))
    (hq2 : value mm / (value me * 2 ^ k) < 2 ^ 64) :
    ∃ m2 : MINT, str2numScale fuel m mm me d fpi_binaryx80
        = some (if (if rneDiv (value mm) (value me * 2 ^ k) = 2 ^ 64 then 64 + (k : Int)
                else 63 + (k : Int)) > 16383 then SOFT_INFINITE else SOFT_NORMAL,
            (if rneDiv (value mm) (value me * 2 ^ k) = 2 ^ 64 then 64 + (k : Int)
              else 63 + (k : Int)), m2) ∧
      Limbs16 m2 ∧
      value m2 = if rneDiv (value mm) (value me * 2 ^ k) = 2 ^ 64 then 2 ^ 63
        else rneDiv (value mm) (value me * 2 ^ k) := by
  have htm : topbit mm = (chomp mm, (t : Int)) :=
    Prod.ext (topbit_spec mm hmm (Nat.lt_of_lt_of_le (by positivity) ht1)).1
      (topbit_eq mm hmm t ht1 ht2)
  have htu : topbit me = (chomp me, (u : Int)) :=
    Prod.ext (topbit_spec me hme (Nat.lt_of_lt_of_le (by positivity) hu1)).1
      (topbit_eq me hme u hu1 hu2)
  have hun : str2numScale fuel m mm me d fpi_binaryx80
      = some (str2numAbove m (chomp mm) (chomp me) d fpi_binaryx80 t u) := by
    unfold str2numScale
    simp only [htm, htu]
    rw [if_neg (show ¬ ((t : Int) - u < fpi_binaryx80.nbits) by
      show ¬ ((t : Int) - u < 64); omega)]
  rw [hun]
  obtain ⟨m2, h1, h2, h3⟩ := str2numAbove_x80 m (chomp mm) (chomp me) d hm (fun i => hmm i)
    (fun i => hme i) hd (by rw [chomp_sign]; exact hsg) t u k
    (by rw [value_chomp]; exact Nat.lt_of_lt_of_le (by positivity) hu1) hk
    (by rw [value_chomp, value_chomp]; exact hq1)
    (by rw [value_chomp, value_chomp]; exact hq2)
  rw [value_chomp, value_chomp] at h1 h3
  exact ⟨m2, by rw [h1], h2, h3⟩

/-- `str2num` on a hexadecimal literal that `hexbig` reads as a nonzero
fraction `mm / me`. -/
theorem str2num_hex_eq (fuel : Nat) (rest : List Char) (exp : Int) (m mm me : MINT)
    (fpi : FPI)
    (h : hexbig rest (minit MINTDECL 0) (minit MINTDECL 1) = some (SOFT_NORMAL, mm, me))
    (hz : MINTZ mm = false) :
    str2num fuel ('0' :: 'x' :: rest) exp m fpi = str2numScale fuel m mm me MINTDECL fpi := by
  unfold str2num
  simp only [List.head?_cons, List.tail_cons, true_or, and_self, decide_True, if_true,
    List.drop_succ_cons, List.drop_zero, h]
  simp [hz]

/-- The reader `hexbig` on digits, a point, digits, and the letter `p` with an
exponent that passes the gate of `mesanity`. -/
theorem hexbig_frac (ds1 ds2 tail : List Char) (h1 : ∀ c ∈ ds1, (hexDigit c).isSome)
    (h2 : ∀ c ∈ ds2, (hexDigit c).isSome)
    (hnz : 0 < hexValue ds1 * 16 ^ ds2.length + hexValue ds2)
    (hmes : ∀ mm : MINT, MINTZ mm = false → mesanity mm tail = 0) :
    ∃ mm2 : MINT, Limbs16 mm2 ∧ mm2.sign = 0 ∧
      value mm2 = hexValue ds1 * 16 ^ ds2.length + hexValue ds2 ∧
      hexbig (ds1 ++ '.' :: (ds2 ++ 'p' :: tail)) (minit MINTDECL 0) (minit MINTDECL 1)
        = if -(4 * (ds2.length : Int)) + atoi tail < 0 then
            some (SOFT_NORMAL, mm2,
              mshl (minit MINTDECL 1) (-(-(4 * (ds2.length : Int)) + atoi tail)).toNat)
          else some (SOFT_NORMAL, mshl mm2 (-(4 * (ds2.length : Int)) + atoi tail).toNat,
              minit MINTDECL 1) := by
  have hm0 : Limbs16 (minit MINTDECL 0) := limbs16_minit _ limbs16_MINTDECL _
  obtain ⟨ma, ea, a1, a2, a3, a4⟩ := hexbig_digits ds1 (minit MINTDECL 0) (minit MINTDECL 1) 0
    false ('.' :: (ds2 ++ 'p' :: tail)) hm0 (by show 0 < 1; omega) h1
  obtain ⟨mb, eb, b1, b2, b3, b4⟩ := hexbig_digits ds2 ma (minit MINTDECL 1) 0 true
    ('p' :: tail) a1 a2 h2
  have hv : value mb = hexValue ds1 * 16 ^ ds2.length + hexValue ds2 := by
    rw [b4, a4, value_minit]; simp
  have hz := mintz_of_pos mb (by rw [hv]; exact hnz)
  refine ⟨mb, b1, by rw [b3, a3]; rfl, hv, ?_⟩
  unfold hexbig
  rw [ea]
  simp only [Bool.false_eq_true, if_false]
  rw [hexbig_dot, eb, hexbig_p, hmes mb hz]
  simp only [ne_eq, not_true_eq_false, if_false, if_true]
  have e : (0 : Int) - 4 * (ds2.length : Int) + atoi tail
      = -(4 * (ds2.length : Int)) + atoi tail := by ring
  rw [e]

/-- The reader `hexbig` on digits and the letter `p` with an exponent that
passes the gate of `mesanity`. -/
theorem hexbig_int (ds1 tail : List Char) (h1 : ∀ c ∈ ds1, (hexDigit c).isSome)
    (hnz : 0 < hexValue ds1)
    (hmes : ∀ mm : MINT, MINTZ mm = false → mesanity mm tail = 0) :
    ∃ mm2 : MINT, Limbs16 mm2 ∧ mm2.sign = 0 ∧ value mm2 = hexValue ds1 ∧
      hexbig (ds1 ++ 'p' :: tail) (minit MINTDECL 0) (minit MINTDECL 1)
        = if atoi tail < 0 then
            some (SOFT_NORMAL, mm2, mshl (minit MINTDECL 1) (-(atoi tail)).toNat)
          else some (SOFT_NORMAL, mshl mm2 (atoi tail).toNat, minit MINTDECL 1) := by
  have hm0 : Limbs16 (minit MINTDECL 0) := limbs16_minit _ limbs16_MINTDECL _
  obtain ⟨ma, ea, a1, a2, a3, a4⟩ := hexbig_digits ds1 (minit MINTDECL 0) (minit MINTDECL 1) 0
    false ('p' :: tail) hm0 (by show 0 < 1; omega) h1
  have hv : value ma = hexValue ds1 := by
    rw [a4, value_minit]; simp
  have hz := mintz_of_pos ma (by rw [hv]; exact hnz)
  refine ⟨ma, a1, by rw [a3]; rfl, hv, ?_⟩
  unfold hexbig
  rw [ea]
  simp only [Bool.false_eq_true, if_false]
  rw [hexbig_p, hmes ma hz]
  simp only [ne_eq, not_true_eq_false, if_false, if_true, zero_add]

/-! ## Literals at the ends of the binary64 range -/

/-- `strtosf` on a literal that `str2num` reads as a normal long double. -/
theorem strtosf_of_str2num (fuel : Nat) (sfp : SF) (str : List Char) (tw : TWORD) (e : Int)
    (m2 : MINT) (M : Nat)
    (h : str2num fuel str 0 MINTDECL fpi_binaryx80 = some (SOFT_NORMAL, e, m2))
    (hm2 : Limbs16 m2) (hv : value m2 = M) (h1 : 9223372036854775808 ≤ M)
    (h2 : M < 18446744073709551616) (he1 : -16382 ≤ e) (he2 : e ≤ 16383) :
    strtosf fuel sfp str tw = some ⟨M % 4294967296, M / 4294967296, (e + 16383).toNat⟩ := by
  have hf : fpis TWORD.LDOUBLE = fpi_binaryx80 := rfl
  unfold strtosf
  rw [hf, h]
  simp only []
  rw [make80_of_mant64 sfp 0 e m2 M (by omega) he1 he2 hm2 hv h1 h2]
  simp

/-- The literal `0x1p-1074` is read as the long double 2^-1074. -/
theorem strtosf_min_subnormal (fuel : Nat) (hf : 1 ≤ fuel) (sfp : SF) (tw : TWORD) :
    strtosf fuel sfp ['0', 'x', '1', 'p', '-', '1', '0', '7', '4'] tw
      = some ⟨0, 0x80000000, 0x3BCD⟩ := by
  obtain ⟨mm, a1, a2, a3, a4⟩ := hexbig_int ['1'] ['-', '1', '0', '7', '4'] (by decide)
    (by decide) (by intro mm hz; simp [mesanity, hz, mesanityCount])
  have hat : atoi ['-', '1', '0', '7', '4'] = -1074 := by decide
  rw [hat, if_pos (by decide)] at a4
  have hmv : value mm = 1 := by rw [a3]; decide
  have e1074 : (-(-1074 : Int)).toNat = 1074 := by decide
  rw [e1074] at a4
  have pe := mshl_props 1074 (minit MINTDECL 1) (limbs16_minit _ limbs16_MINTDECL _)
  have hev : value (mshl (minit MINTDECL 1) 1074) = 2 ^ 1074 := by
    rw [pe.2.1, value_minit, show (1 : Nat) % 65536 = 1 from rfl, Nat.one_mul]
  have hsplit : (2 : Nat) ^ 1137 = 2 ^ 63 * 2 ^ 1074 := by rw [← pow_add]
  have hquot : value mm * 2 ^ 1137 / value (mshl (minit MINTDECL 1) 1074) = 2 ^ 63 := by
    rw [hmv, hev, hsplit, Nat.one_mul, Nat.mul_div_cancel _ (by positivity)]
  have hrne : rneDiv (value mm * 2 ^ 1137) (value (mshl (minit MINTDECL 1) 1074)) = 2 ^ 63 := by
    rw [hmv, hev, hsplit, Nat.one_mul]
    exact rneDiv_exact _ _ (by positivity)
  obtain ⟨m2, b1, b2, b3⟩ := str2numScale_below fuel MINTDECL mm
    (mshl (minit MINTDECL 1) 1074) MINTDECL limbs16_MINTDECL a1 pe.1 limbs16_MINTDECL
    (by rw [pe.2.2.1]; rfl) 0 1074 1137 (by rw [hmv]; norm_num) (by rw [hmv]; norm_num)
    (le_of_eq hev.symm) (lt_of_eq_of_lt hev (Nat.pow_lt_pow_succ (by decide)))
    (by omega) (by rw [hquot]) (by rw [hquot]; norm_num) hf (by omega)
  rw [hrne] at b1 b3
  rw [if_neg (by norm_num), if_neg (by norm_num)] at b1
  rw [if_neg (by norm_num)] at b3
  have hstr := str2num_hex_eq fuel ['1', 'p', '-', '1', '0', '7', '4'] 0 MINTDECL _ _
    fpi_binaryx80 a4 (mintz_of_pos mm (by omega))
  rw [b1] at hstr
  have := strtosf_of_str2num fuel sfp _ tw _ m2 (2 ^ 63) hstr b2 b3 (by norm_num)
    (by norm_num) (by norm_num) (by norm_num)
  rw [this]
  norm_num
  rfl

/-- The literal `0x1.fffffffffffffp+1023` is read as the long double
(2^53 - 1) * 2^971. -/
theorem strtosf_max_double (fuel : Nat) (sfp : SF) (tw : TWORD) :
    strtosf fuel sfp ['0', 'x', '1', '.', 'f', 'f', 'f', 'f', 'f', 'f', 'f', 'f', 'f', 'f',
        'f', 'f', 'f', 'p', '+', '1', '0', '2', '3'] tw
      = some ⟨0xFFFFF800, 0xFFFFFFFF, 0x43FE⟩ := by
  obtain ⟨mm, a1, a2, a3, a4⟩ := hexbig_frac ['1']
    ['f', 'f', 'f', 'f', 'f', 'f', 'f', 'f', 'f', 'f', 'f', 'f', 'f'] ['+', '1', '0', '2', '3']
    (by decide) (by decide) (by decide)
    (by intro mm hz; simp [mesanity, hz, mesanityCount])
  have hat : atoi ['+', '1', '0', '2', '3'] = 1023 := by decide
  have hlen : (['f', 'f', 'f', 'f', 'f', 'f', 'f', 'f', 'f', 'f', 'f', 'f', 'f'] :
      List Char).length = 13 := rfl
  rw [hat, hlen, if_neg (by decide)] at a4
  have e971 : (-(4 * ((13 : Nat) : Int)) + 1023).toNat = 971 := by decide
  rw [e971] at a4
  have hmv : value mm = 9007199254740991 := by rw [a3]; decide
  have pm := mshl_props 971 mm a1
  have hme : Limbs16 (minit MINTDECL 1) := limbs16_minit _ limbs16_MINTDECL _
  have hev : value (minit MINTDECL 1) = 1 := by rw [value_minit]
  have hnv : value (mshl mm 971) = 9007199254740991 * 2 ^ 971 := by rw [pm.2.1, hmv]
  have hb := mul_pow_bracket 9007199254740991 52 971 (by norm_num) (by norm_num)
  have hsplit : 9007199254740991 * 2 ^ 971 = 18446744073709549568 * (1 * 2 ^ 960) := by
    rw [Nat.one_mul, show (971 : Nat) = 11 + 960 by norm_num, pow_add, ← Nat.mul_assoc]
    norm_num
  have hquot : value (mshl mm 971) / (value (minit MINTDECL 1) * 2 ^ 960)
      = 18446744073709549568 := by
    rw [hnv, hev, hsplit, Nat.mul_div_cancel _ (by positivity)]
  have hrne : rneDiv (value (mshl mm 971)) (value (minit MINTDECL 1) * 2 ^ 960)
      = 18446744073709549568 := by
    rw [hnv, hev, hsplit]
    exact rneDiv_exact _ _ (by positivity)
  obtain ⟨m2, b1, b2, b3⟩ := str2numScale_above fuel MINTDECL (mshl mm 971)
    (minit MINTDECL 1) MINTDECL limbs16_MINTDECL pm.1 hme limbs16_MINTDECL rfl (52 + 971) 0 960
    (le_of_le_of_eq hb.1 hnv.symm) (lt_of_eq_of_lt hnv hb.2)
    (by rw [hev]; decide) (by rw [hev]; decide) (by omega) (by omega)
    (by rw [hquot]; norm_num) (by rw [hquot]; norm_num)
  rw [hrne] at b1 b3
  rw [if_neg (by norm_num)] at b3
  have hexp : (if (18446744073709549568 : Nat) = 2 ^ 64 then 64 + ((960 : Nat) : Int)
      else 63 + ((960 : Nat) : Int)) = 1023 := by
    rw [if_neg (by norm_num)]; norm_num
  rw [hexp, if_neg (by norm_num)] at b1
  have hstr := str2num_hex_eq fuel _ 0 MINTDECL _ _ fpi_binaryx80 a4
    (mintz_of_pos (mshl mm 971) (by rw [hnv]; positivity))
  rw [b1] at hstr
  have := strtosf_of_str2num fuel sfp _ tw _ m2 18446744073709549568 hstr b2 b3 (by norm_num)
    (by norm_num) (by norm_num) (by norm_num)
  refine Eq.trans this ?_
  norm_num
  rfl

/-- C27: serialising exactly representable values.  A long-double wire value `v`
(a zero exponent field or the integer bit set) whose real value equals that of
the binary64 encoding `hi:lo` of a normal or subnormal number is serialised by
`soft_toush(v, DOUBLE)` to the words `hi:lo` with 64 stored in `*nbits`.  The
literals `0x1p-1074`, `0x1.fffffffffffffp+1023` and `1.0` read by `strtosf`
serialise to 00000000:00000001, 7FEFFFFF:FFFFFFFF and 3FF00000:00000000, and
the quotient of 0x1p-1022 by 2.0 to the subnormal 00080000:00000000. -/
theorem serialise_exact (sf v : SF) (hi lo : Nat) (h0 : v.fp0 < 4294967296)
    (h1 : v.fp1 < 4294967296) (h2 : v.fp2 < 65536)
    (hI : v.fp2 % 32768 ≠ 0 → 2147483648 ≤ v.fp1)
    (hhi : hi < 4294967296) (hlo : lo < 4294967296) (hEb : hi / 1048576 % 2048 ≠ 2047)
    (hnz : hi % 2147483648 ≠ 0 ∨ lo ≠ 0) (hval : x80Value v = binary64Value hi lo) :
    soft_toush sf v TWORD.DOUBLE = ({ sf with fp0 := lo, fp1 := hi }, 64) ∧
    (strtosf 64 SFDECL ['0', 'x', '1', 'p', '-', '1', '0', '7', '4'] TWORD.DOUBLE).map
      (fun x => soft_toush ⟨0, 0, 0⟩ x TWORD.DOUBLE) = some (⟨0x00000001, 0x00000000, 0⟩, 64) ∧
    (strtosf 64 SFDECL ['0', 'x', '1', '.', 'f', 'f', 'f', 'f', 'f', 'f', 'f', 'f', 'f', 'f',
        'f', 'f', 'f', 'p', '+', '1', '0', '2', '3'] TWORD.DOUBLE).map
      (fun x => soft_toush ⟨0, 0, 0⟩ x TWORD.DOUBLE) = some (⟨0xFFFFFFFF, 0x7FEFFFFF, 0⟩, 64) ∧
    (strtosf 64 SFDECL ['1', '.', '0'] TWORD.DOUBLE).map
      (fun x => soft_toush ⟨0, 0, 0⟩ x TWORD.DOUBLE) = some (⟨0x00000000, 0x3FF00000, 0⟩, 64) ∧
    soft_toush ⟨0, 0, 0⟩
      (soft_div ⟨0, 0x80000000, 0x3C01⟩ ⟨0, 0x80000000, 0x4000⟩ TWORD.DOUBLE) TWORD.DOUBLE
      = (⟨0x00000000, 0x00080000, 0⟩, 64) := by
  refine ⟨toush_double_value sf v hi lo h0 h1 h2 hI hhi hlo hEb hnz hval, ?_, ?_, ?_, ?_⟩
  · rw [strtosf_min_subnormal 64 (by decide) SFDECL TWORD.DOUBLE]
    decide!
  · rw [strtosf_max_double 64 SFDECL TWORD.DOUBLE]
    decide!
  · decide!
  · decide!

theorem serialise_exact_witness :
    soft_toush ⟨0, 0, 0⟩ ⟨0, 0x80000000, 0x3BCD⟩ TWORD.DOUBLE = (⟨1, 0, 0⟩, 64) :=
  (serialise_exact ⟨0, 0, 0⟩ ⟨0, 0x80000000, 0x3BCD⟩ 0 1 (by decide) (by decide) (by decide)
    (by decide) (by decide) (by decide) (by decide) (by decide)
    (by
      unfold x80Value binary64Value
      norm_num)).1

/-! ## A literal below the normal range whose rounding carries -/

theorem hexValue_append (xs ys : List Char) :
    hexValue (xs ++ ys) = hexValue xs * 16 ^ ys.length + hexValue ys := by
  unfold hexValue
  rw [List.foldl_append, hexFold]
  rfl

theorem hexValue_zeros (n : Nat) : hexValue (List.replicate n '0') = 0 := by
  induction n with
  | zero => rfl
  | succ n ih =>
    have h0 : (hexDigit '0').getD 0 = 0 := by decide
    rw [List.replicate_succ, hexValue_cons, ih, h0, Nat.zero_mul]

theorem div_half (q B : Nat) (hB : 0 < B) :
    (2 * q + 1) * B / (2 * B) = q ∧ (2 * q + 1) * B % (2 * B) = B := by
  have e : (2 * q + 1) * B = B + 2 * B * q := by ring
  rw [e]
  constructor
  · rw [Nat.add_mul_div_left _ _ (by omega), Nat.div_eq_of_lt (by omega), Nat.zero_add]
  · rw [Nat.add_mul_mod_self_left, Nat.mod_eq_of_lt (by omega)]

/-- A tie below an odd quotient rounds up. -/
theorem rneDiv_tie_odd (q B : Nat) (hB : 0 < B) (hq : q % 2 = 1) :
    rneDiv ((2 * q + 1) * B) (2 * B) = q + 1 := by
  obtain ⟨h1, h2⟩ := div_half q B hB
  unfold rneDiv
  rw [h1, h2, if_pos (Or.inr ⟨rfl, hq⟩)]

/-- C24: the literal 0x0.0…01ffffffffffffffffp-9999, with 1600 zeros after the
point, has the value (2^65 - 1) / 2^16467, which `hexbig` reads exactly.  Scaled
by 2^16466 it lies half-way between 2^64 - 1 and 2^64 and rounds to 2^64, so the
value rounded to 64 significant bits is 2^63 * 2^(-16402 - 63).  `str2num` with
the x80 descriptor returns SOFT_NORMAL with the mantissa 2^63 and the exponent
-16383: the check for the subnormal range has set `sub`, the carry leaves the
top bit at `nbits`, so `sub` stays set and `-bias` is stored. -/
theorem str2num_subnormal_carry :
    ∃ mm me m2 : MINT,
      hexbig (['0'] ++ '.' :: ((List.replicate 1600 '0' ++
          ['1', 'f', 'f', 'f', 'f', 'f', 'f', 'f', 'f', 'f', 'f', 'f', 'f', 'f', 'f', 'f', 'f'])
          ++ 'p' :: ['-', '9', '9', '9', '9'])) (minit MINTDECL 0) (minit MINTDECL 1)
        = some (SOFT_NORMAL, mm, me) ∧
      value mm = 2 ^ 65 - 1 ∧ value me = 2 ^ 16467 ∧
      rneDiv ((2 ^ 65 - 1) * 2 ^ 16466) (2 ^ 16467) = 2 ^ 64 ∧
      str2num 64 ('0' :: 'x' :: (['0'] ++ '.' :: ((List.replicate 1600 '0' ++
          ['1', 'f', 'f', 'f', 'f', 'f', 'f', 'f', 'f', 'f', 'f', 'f', 'f', 'f', 'f', 'f', 'f'])
          ++ 'p' :: ['-', '9', '9', '9', '9']))) 0 MINTDECL fpi_binaryx80
        = some (SOFT_NORMAL, -16383, m2) ∧
      value m2 = 2 ^ 63 := by
  have hds : ∀ c ∈ List.replicate 1600 '0' ++
      ['1', 'f', 'f', 'f', 'f', 'f', 'f', 'f', 'f', 'f', 'f', 'f', 'f', 'f', 'f', 'f', 'f'],
      (hexDigit c).isSome := by
    intro c hc
    rcases List.mem_append.mp hc with h | h
    · rw [List.eq_of_mem_replicate h]; decide
    · exact (by decide : ∀ c ∈ ['1', 'f', 'f', 'f', 'f', 'f', 'f', 'f', 'f', 'f', 'f', 'f', 'f',
        'f', 'f', 'f', 'f'], (hexDigit c).isSome) c h
  have hval : hexValue (List.replicate 1600 '0' ++
      ['1', 'f', 'f', 'f', 'f', 'f', 'f', 'f', 'f', 'f', 'f', 'f', 'f', 'f', 'f', 'f', 'f'])
      = 36893488147419103231 := by
    rw [hexValue_append, hexValue_zeros, Nat.zero_mul, Nat.zero_add]
    decide
  have hlen : (List.replicate 1600 '0' ++
      ['1', 'f', 'f', 'f', 'f', 'f', 'f', 'f', 'f', 'f', 'f', 'f', 'f', 'f', 'f', 'f', 'f']).length
      = 1617 := by
    rw [List.length_append, List.length_replicate]; rfl
  have h0 : hexValue ['0'] = 0 := by decide
  obtain ⟨mm, a1, a2, a3, a4⟩ := hexbig_frac ['0'] _ ['-', '9', '9', '9', '9'] (by decide) hds
    (by rw [h0, hval, Nat.zero_mul, Nat.zero_add]; decide)
    (by intro mm hz; simp [mesanity, hz, mesanityCount])
  have hat : atoi ['-', '9', '9', '9', '9'] = -9999 := by decide
  rw [hat, hlen, if_pos (by decide)] at a4
  have e1 : (-(-(4 * ((1617 : Nat) : Int)) + -9999)).toNat = 16467 := by decide
  rw [e1] at a4
  rw [h0, hval, Nat.zero_mul, Nat.zero_add] at a3
  have pe := mshl_props 16467 (minit MINTDECL 1) (limbs16_minit _ limbs16_MINTDECL _)
  obtain ⟨B, hB⟩ : ∃ B : Nat, B = 2 ^ 16466 := ⟨_, rfl⟩
  have hBpos : 0 < B := by rw [hB]; positivity
  have hp : (2 : Nat) ^ 16467 = 2 * B := by rw [hB, pow_succ]; ring
  have hev : value (mshl (minit MINTDECL 1) 16467) = 2 * B := by
    rw [pe.2.1, value_minit, show (1 : Nat) % 65536 = 1 from rfl, Nat.one_mul, hp]
  have hnum : (36893488147419103231 : Nat) = 2 * 18446744073709551615 + 1 := by norm_num
  obtain ⟨q1, -⟩ := div_half 18446744073709551615 B hBpos
  have hrne := rneDiv_tie_odd 18446744073709551615 B hBpos (by norm_num)
  rw [← hnum] at q1 hrne
  have p64 : (2 : Nat) ^ 64 = 18446744073709551615 + 1 := by norm_num
  have p63 : (2 : Nat) ^ 63 = 9223372036854775808 := by norm_num
  have p65 : (2 : Nat) ^ 65 - 1 = 36893488147419103231 := by norm_num
  obtain ⟨m2, b1, -, b3⟩ := str2numScale_below 64 MINTDECL mm
    (mshl (minit MINTDECL 1) 16467) MINTDECL limbs16_MINTDECL a1 pe.1 limbs16_MINTDECL
    (by rw [pe.2.2.1]; rfl) 64 16467 16466 (by rw [a3]; norm_num) (by rw [a3]; norm_num)
    (by rw [hev, hp]) (by rw [hev, pow_succ, hp]; omega)
    (by omega) (by rw [a3, hev, ← hB, q1, p63]; omega)
    (by rw [a3, hev, ← hB, q1, p64]; omega) (by omega) (by omega)
  rw [a3, hev, ← hB, hrne, ← p64] at b1 b3
  rw [if_pos ⟨by omega, rfl⟩] at b1
  rw [if_pos rfl] at b3
  have hstr := str2num_hex_eq 64 _ 0 MINTDECL _ _ fpi_binaryx80 a4
    (mintz_of_pos mm (by rw [a3]; omega))
  rw [b1] at hstr
  refine ⟨mm, mshl (minit MINTDECL 1) 16467, m2, a4, ?_, ?_, ?_, hstr, b3⟩
  · rw [a3, p65]
  · rw [hev, hp]
  · rw [p65, ← hB, hp, hrne, p64]

/-! ## Casting a subnormal -/

/-- C31: the long double 2^-1074 (fp = 0, 80000000, 3BCD) has the real value of
the binary64 subnormal 00000000:00000001, yet `soft_fp2fp` to DOUBLE leaves
(1 + 2^-52) * 2^-1023 (fp = 800, 80000000, 3C00), a different value; a second
cast leaves 1.5 * 2^-1023 and a third 1.75 * 2^-1023, so casting twice does not
give the words of casting once.  To FLOAT the long double 2^-149 becomes 2^-127,
and to LDOUBLE the smallest subnormal 2^-16445 becomes 2^-16383; casting these
results again leaves them unchanged. -/
theorem soft_fp2fp_subnormal :
    x80Value ⟨0, 0x80000000, 0x3BCD⟩ = binary64Value 0 1 ∧
    soft_fp2fp ⟨0, 0x80000000, 0x3BCD⟩ TWORD.DOUBLE = ⟨0x800, 0x80000000, 0x3C00⟩ ∧
    x80Value ⟨0x800, 0x80000000, 0x3C00⟩ ≠ x80Value ⟨0, 0x80000000, 0x3BCD⟩ ∧
    soft_fp2fp (soft_fp2fp ⟨0, 0x80000000, 0x3BCD⟩ TWORD.DOUBLE) TWORD.DOUBLE
      = ⟨0, 0xC0000000, 0x3C00⟩ ∧
    soft_fp2fp (soft_fp2fp ⟨0, 0x80000000, 0x3BCD⟩ TWORD.DOUBLE) TWORD.DOUBLE
      ≠ soft_fp2fp ⟨0, 0x80000000, 0x3BCD⟩ TWORD.DOUBLE ∧
    soft_fp2fp ⟨0, 0xC0000000, 0x3C00⟩ TWORD.DOUBLE = ⟨0, 0xE0000000, 0x3C00⟩ ∧
    soft_fp2fp ⟨0, 0x80000000, 0x3F6A⟩ TWORD.FLOAT = ⟨0, 0x80000000, 0x3F80⟩ ∧
    soft_fp2fp ⟨0, 0x80000000, 0x3F80⟩ TWORD.FLOAT = ⟨0, 0x80000000, 0x3F80⟩ ∧
    soft_fp2fp ⟨1, 0, 0⟩ TWORD.LDOUBLE = ⟨0, 0x40000000, 0⟩ ∧
    soft_fp2fp ⟨0, 0x40000000, 0⟩ TWORD.LDOUBLE = ⟨0, 0x40000000, 0⟩ := by
  refine ⟨?_, by decide!, ?_, by decide!, by decide!, by decide!, by decide!, by decide!,
    by decide!, by decide!⟩
  · unfold x80Value binary64Value
    norm_num
  · unfold x80Value
    norm_num

end Softfloat
